import Mathlib

/-!
PG2HDA: the cube-lattice construction engine.

A shallow embedding of `list.c`, `vector.c`, `cube.c`, `hda.c` and the parts of
`pgraph.c` that `hda.c` calls (default input mode, `inp != OPTION_old`).

Conventions of the embedding.

* A `cube *` is an index into the cell array `Store.cubes`; `NULL` is `none`.
  A cell that was released by `DeleteCube` is `none` in the array, and an
  address is never handed out twice.
* A `list *` (circular doubly linked list with a head pointer) is the `List` of
  its data fields read from the head along `next`; `NULL` is `[]`.
  `InsertElement` links the new node before the head, i.e. at the end.
* A `vector *` is the `List` of its coordinates.
* Every function that dereferences a pointer or indexes an array returns an
  `Option`; `none` stands for behaviour the C standard leaves undefined
  (null dereference, read or write outside an array, use of an uninitialised
  variable) and for `exit(EXIT_FAILURE)`.
-/

set_option autoImplicit false

namespace PG2HDA

/-! ## list.c -/

/-- `InsertElement(p, l)`: the new node is linked between `l->prev` and `l`, the
head stays where it was (or becomes the new node when `l` is `NULL`). -/
def InsertElement {α : Type} (p : α) (l : List α) : List α := l ++ [p]

/-- `NumberOfElements(l)`. -/
def NumberOfElements {α : Type} (l : List α) : Nat := l.length

/-- `IsElement(object, l, cmp)`: `cmp(node->data, object) == 0` for some node, or
pointer equality when `cmp` is `NULL`. -/
def IsElement {α : Type} [DecidableEq α] (object : α) (l : List α)
    (cmp : Option (α → α → Int)) : Bool :=
  match cmp with
  | some c => l.any (fun x => decide (c x object = 0))
  | none => l.any (fun x => decide (x = object))

/-- `Intersection(l1, l2, cmp)`. -/
def Intersection {α : Type} [DecidableEq α] (l1 l2 : List α)
    (cmp : Option (α → α → Int)) : List α :=
  l1.filter (fun a => IsElement a l2 cmp)

/-- `MergeLists(&list1, list2, cmp)`: returns the new value of `*list1`. Every
element of `list2` is compared with the current content of `*list1`, which
already holds the elements appended before. -/
def MergeLists {α : Type} [DecidableEq α] (list1 list2 : List α)
    (cmp : Option (α → α → Int)) : List α :=
  list2.foldl
    (fun acc b =>
      let isold : Bool :=
        match cmp with
        | some c => acc.any (fun a => decide (c b a = 0))
        | none => acc.any (fun a => decide (b = a))
      if isold then acc else InsertElement b acc)
    list1

/-- `ConcatLists(&list1, list2)`: returns the new value of `*list1`. -/
def ConcatLists {α : Type} (list1 list2 : List α) : List α :=
  list2.foldl (fun acc b => InsertElement b acc) list1

/-- `Product(list1, list2, type)`: both branches of the `switch` copy the
coordinates of `vec1` followed by those of `vec2`. -/
def Product {α : Type} (list1 list2 : List (List α)) : List (List α) :=
  list1.foldl
    (fun acc vec1 => list2.foldl (fun acc2 vec2 => InsertElement (vec1 ++ vec2) acc2) acc)
    []

/-- `AsVectorList(l)`. -/
def AsVectorList {α : Type} (l : List α) : List (List α) :=
  l.foldl (fun acc x => InsertElement [x] acc) []

/-! ## vector.c -/

/-- `VecCmp(vec1, vec2, PTR, cmp)` on vectors of pointers. -/
def VecCmp {α : Type} [DecidableEq α] (vec1 vec2 : Option (List α))
    (cmp : Option (α → α → Int)) : Int :=
  match vec1, vec2 with
  | none, none => 0
  | some v1, some v2 =>
    if v1.length = v2.length then
      match cmp with
      | some c => if (v1.zip v2).all (fun p => decide (c p.1 p.2 = 0)) then 0 else 1
      | none => if (v1.zip v2).all (fun p => decide (p.1 = p.2)) then 0 else 1
    else 1
  | _, _ => 1

/-- `Veccmp(vec1, vec2)`, i.e. `VecCmp(vec1, vec2, INT, NULL)` on existing
integer vectors. -/
def Veccmp (vec1 vec2 : List Int) : Int :=
  if vec1.length = vec2.length then
    if (vec1.zip vec2).all (fun p => decide (p.1 = p.2)) then 0 else 1
  else 1

/-! ## cube.h, cube.c: data -/

/-- `struct label`. -/
structure label where
  str : String
  num : Int
deriving DecidableEq, Repr

/-- `struct cube`. `d0`, `d1` are the arrays `d[0]`, `d[1]`; `s0`, `s1` the arrays
`s[0]`, `s[1]` of coface lists; `ini`, `fin` the two flag bits. The fields `cl`
and `furtherdata` are not read by the construction and are left out. -/
structure cube where
  degree : Nat
  ini : Bool
  fin : Bool
  d0 : List (Option Nat)
  d1 : List (Option Nat)
  s0 : List (List Nat)
  s1 : List (List Nat)
  edges : List (Option Nat)
  lab : Option (List label)
deriving DecidableEq, Repr

/-- The cells that hold cubes, and the array `cubelist[]` of the per-degree
collections. -/
structure Store where
  cubes : List (Option cube)
  cubelist : List (List Nat)
deriving DecidableEq, Repr

/-- `Labcmp(l1, l2)`. -/
def Labcmp (l1 l2 : Option label) : Int :=
  match l1, l2 with
  | some a, some b => if a.str ≠ b.str ∨ a.num ≠ b.num then 1 else 0
  | _, _ => -1

/-- `Labcmp` as it is passed to `VecCmp` for the entries of a label vector. -/
def labcmp (a b : label) : Int := Labcmp (some a) (some b)

/-- `NewCube(d)`: the cell that `NewCube` fills. `NewVector` does not initialise
the coordinates of `edges`; they are `none` until they are written. -/
def NewCube (d : Nat) (self : Nat) : cube :=
  { degree := d, ini := false, fin := false,
    d0 := List.replicate d none, d1 := List.replicate d none,
    s0 := List.replicate (d + 1) [], s1 := List.replicate (d + 1) [],
    edges := if d = 1 then [some self] else List.replicate d none,
    lab := none }

/-- Dereference a cube pointer. -/
def Store.get (st : Store) (p : Option Nat) : Option cube :=
  match p with
  | none => none
  | some i => (st.cubes[i]?).join

/-- Read `c->d[k][i]`. -/
def cube.d (c : cube) (k i : Nat) : Option (Option Nat) :=
  match k with
  | 0 => c.d0[i]?
  | 1 => c.d1[i]?
  | _ => none

/-- Read `c->s[k][i]`. -/
def cube.s (c : cube) (k i : Nat) : Option (List Nat) :=
  match k with
  | 0 => c.s0[i]?
  | 1 => c.s1[i]?
  | _ => none

/-- Read `p->d[k][i]` through the pointer `p`. -/
def Store.bd (st : Store) (p : Option Nat) (k i : Nat) : Option (Option Nat) :=
  match st.get p with
  | none => none
  | some c => c.d k i

/-- Read `p->s[k][i]` through the pointer `p`. -/
def Store.cof (st : Store) (p : Option Nat) (k i : Nat) : Option (List Nat) :=
  match st.get p with
  | none => none
  | some c => c.s k i

/-- Read `((label **) p->lab->coord)[0]->num`. -/
def Store.pid (st : Store) (p : Option Nat) : Option Int :=
  match st.get p with
  | none => none
  | some c =>
    match c.lab with
    | none => none
    | some lv =>
      match lv with
      | [] => none
      | l :: _ => some l.num

/-- Read `p->lab` through the pointer `p` (the vector pointer itself may be
`NULL`). -/
def Store.lab (st : Store) (p : Option Nat) : Option (Option (List label)) :=
  match st.get p with
  | none => none
  | some c => some c.lab

/-- Write `v` at index `i` of an array; `none` when `i` is outside. -/
def setAt {α : Type} (l : List α) (i : Nat) (v : α) : Option (List α) :=
  if i < l.length then some (l.set i v) else none

/-- `f->s[k][i] = InsertElement(x, f->s[k][i])`. -/
def Store.addCoface (st : Store) (f : Option Nat) (k i : Nat) (x : Nat) : Option Store :=
  match f with
  | none => none
  | some fi =>
    match st.get f with
    | none => none
    | some c =>
      match k with
      | 0 =>
        match c.s0[i]? with
        | none => none
        | some l =>
          some { st with cubes := st.cubes.set fi (some { c with s0 := c.s0.set i (InsertElement x l) }) }
      | 1 =>
        match c.s1[i]? with
        | none => none
        | some l =>
          some { st with cubes := st.cubes.set fi (some { c with s1 := c.s1.set i (InsertElement x l) }) }
      | _ => none

/-- `cubelist[d] = InsertElement(x, cubelist[d])`. -/
def Store.addToList (st : Store) (d : Nat) (x : Nat) : Option Store :=
  match st.cubelist[d]? with
  | none => none
  | some l => some { st with cubelist := st.cubelist.set d (InsertElement x l) }

/-- A loop that computes one value per element of `l`, in order, and fails when
one of the computations fails. -/
def mapOpt {α β : Type} (f : α → Option β) : List α → Option (List β)
  | [] => some []
  | a :: l =>
    match f a with
    | none => none
    | some b =>
      match mapOpt f l with
      | none => none
      | some r => some (b :: r)

/-- A loop whose body may fail: the body is run on the elements of `l` in order,
threading the state. -/
def loopM {α σ : Type} (f : σ → α → Option σ) : σ → List α → Option σ
  | s, [] => some s
  | s, a :: l =>
    match f s a with
    | none => none
    | some s' => loopM f s' l

/-- The coface registrations of a cube `x` whose boundary arrays are `d0`, `d1`:
`d[k][i]->s[k][i] = InsertElement(x, d[k][i]->s[k][i])` for every `k`, `i`.
The source interleaves these `2 * degree` statements with the assignments of
`d[k][i]`; they write `2 * degree` different list heads (the index pair
`(k, i)` occurs once), so their order does not matter. -/
def Store.register (st : Store) (x : Nat) (d0 d1 : List (Option Nat)) : Option Store :=
  match loopM (fun s (p : Nat × Option Nat) => s.addCoface p.2 0 p.1 x) st d0.enum with
  | none => none
  | some s1 => loopM (fun s (p : Nat × Option Nat) => s.addCoface p.2 1 p.1 x) s1 d1.enum

/-- Links a finished cube into the complex: the cube is registered as a coface of
its faces, its cell is stored at the next free address `x`, and `x` is appended to
`cubelist[degree]`. (The faces of a cube under construction are cubes that were
there before it; it is not yet a member of any list.) -/
def Store.link (st : Store) (c : cube) : Option Store :=
  let x := st.cubes.length
  match st.register x c.d0 c.d1 with
  | none => none
  | some s1 => ({ s1 with cubes := s1.cubes ++ [some c] } : Store).addToList c.degree x

/-! ## cube.c: vertices and edges of a cube -/

/-- Reads `v[i]` for every index of `idx`, in order. -/
def readAll {α : Type} (v : List α) (idx : List Nat) : Option (List α) :=
  mapOpt (fun i => v[i]?) idx

/-- `Edges(pc)` with the depth of the recursion bounded by `fuel`. -/
def EdgesAux (st : Store) : Nat → Option Nat → Option (List (Option Nat))
  | 0, _ => none
  | fuel + 1, pc =>
    match st.get pc with
    | none => none
    | some c =>
      if c.degree = 1 then some [pc]
      else if c.degree = 2 then
        match c.d 0 1, c.d 0 0 with
        | some a, some b => some [a, b]
        | _, _ => none
      else if c.degree > 2 then
        match c.d 0 (c.degree - 1), c.d 0 (c.degree - 3) with
        | some pe, some pf =>
          match EdgesAux st fuel pe, EdgesAux st fuel pf with
          | some e, some f =>
            match readAll e (List.range (c.degree - 1)), f[c.degree - 2]? with
            | some front, some last => some (front ++ [last])
            | _, _ => none
          | _, _ => none
        | _, _ => none
      else some []

/-- `Edges(pc)`, see `Vertices` for the bound on the depth. -/
def Edges (st : Store) (pc : Option Nat) : Option (List (Option Nat)) :=
  EdgesAux st (st.cubes.length + 1) pc

/-! ## cube.c: squares -/

/-- The statements of `FillSquares` that create one square with the given four
faces: `NewCube(2)`, the four boundary assignments with their coface
registrations, the two `edges` coordinates, and the insertion in `cubelist[2]`. -/
def newSquare (st : Store) (d00 d01 d10 d11 : Nat) : Option Store :=
  st.link
    { NewCube 2 st.cubes.length with
      d0 := [some d00, some d01], d1 := [some d10, some d11],
      edges := [some d01, some d00] }

/-- The innermost loop of the first half of `FillSquares` (squares with `edge` as
a `d[0]`-boundary), over `pc3` in `pc->d[1][0]->s[0][0]`. -/
def fwdInner (edge pc pc2 : Nat) (pcnum edgenum : Int) (a : Store × Nat) (pc3 : Nat) :
    Option (Store × Nat) :=
  match a.1.bd (some pc2) 1 0, a.1.bd (some pc3) 1 0 with
  | some t2, some t3 =>
    if t2 = t3 then
      match a.1.lab (some edge), a.1.lab (some pc3) with
      | some le, some l3 =>
        if VecCmp le l3 (some labcmp) = 0 then
          match (if pcnum < edgenum then newSquare a.1 edge pc pc3 pc2
                 else newSquare a.1 pc edge pc2 pc3) with
          | none => none
          | some s => some (s, a.2 + 1)
        else some a
      | _, _ => none
    else some a
  | _, _ => none

/-- The middle loop of the first half of `FillSquares`, over `pc2` in
`edge->d[1][0]->s[0][0]`. -/
def fwdMiddle (edge pc : Nat) (pcnum edgenum : Int) (a : Store × Nat) (pc2 : Nat) :
    Option (Store × Nat) :=
  match a.1.bd (some pc) 1 0 with
  | none => none
  | some w =>
    match a.1.cof w 0 0 with
    | none => none
    | some l3 =>
      if l3 = [] then some a
      else
        match a.1.lab (some pc2), a.1.lab (some pc) with
        | some lab2, some labpc =>
          if VecCmp lab2 labpc (some labcmp) = 0 then
            loopM (fwdInner edge pc pc2 pcnum edgenum) a l3
          else some a
        | _, _ => none

/-- The outer loop of the first half of `FillSquares`, over `pc` in
`edge->d[0][0]->s[0][0]`. -/
def fwdOuter (edge : Nat) (edgelbl : List label) (a : Store × Nat) (pc : Nat) :
    Option (Store × Nat) :=
  match a.1.lab (some pc) with
  | some (some labpc) =>
    match a.1.bd (some edge) 1 0 with
    | none => none
    | some v =>
      match a.1.cof v 0 0 with
      | none => none
      | some l2 =>
        if l2 = [] then some a
        else
          match labpc.head?, edgelbl.head? with
          | some l, some le =>
            if l.num ≠ le.num then loopM (fwdMiddle edge pc l.num le.num) a l2
            else some a
          | _, _ => none
  | _ => none

/-- The innermost loop of the second half of `FillSquares` (squares with `edge` as
a `d[1]`-boundary), over `pc3` in `pc->d[0][0]->s[1][0]`. -/
def bwdInner (edge pc pc2 : Nat) (pcnum edgenum : Int) (a : Store × Nat) (pc3 : Nat) :
    Option (Store × Nat) :=
  if pc3 ≠ edge then
    match a.1.bd (some pc2) 0 0, a.1.bd (some pc3) 0 0 with
    | some t2, some t3 =>
      if t2 = t3 then
        match a.1.lab (some edge), a.1.lab (some pc3) with
        | some le, some l3 =>
          if VecCmp le l3 (some labcmp) = 0 then
            match (if pcnum < edgenum then newSquare a.1 pc3 pc2 edge pc
                   else newSquare a.1 pc2 pc3 pc edge) with
            | none => none
            | some s => some (s, a.2 + 1)
          else some a
        | _, _ => none
      else some a
    | _, _ => none
  else some a

/-- The middle loop of the second half of `FillSquares`, over `pc2` in
`edge->d[0][0]->s[1][0]`. -/
def bwdMiddle (edge pc : Nat) (pcnum edgenum : Int) (a : Store × Nat) (pc2 : Nat) :
    Option (Store × Nat) :=
  match a.1.bd (some pc) 0 0 with
  | none => none
  | some w =>
    match a.1.cof w 1 0 with
    | none => none
    | some l3 =>
      if l3 = [] then some a
      else
        match a.1.lab (some pc2), a.1.lab (some pc) with
        | some lab2, some labpc =>
          if VecCmp lab2 labpc (some labcmp) = 0 then
            loopM (bwdInner edge pc pc2 pcnum edgenum) a l3
          else some a
        | _, _ => none

/-- The outer loop of the second half of `FillSquares`, over `pc` in
`edge->d[1][0]->s[1][0]`. -/
def bwdOuter (edge : Nat) (edgelbl : List label) (a : Store × Nat) (pc : Nat) :
    Option (Store × Nat) :=
  match a.1.lab (some pc) with
  | some (some labpc) =>
    match a.1.bd (some edge) 0 0 with
    | none => none
    | some u =>
      match a.1.cof u 1 0 with
      | none => none
      | some l2 =>
        if l2 = [] then some a
        else
          match labpc.head?, edgelbl.head? with
          | some l, some le =>
            if l.num ≠ le.num then loopM (bwdMiddle edge pc l.num le.num) a l2
            else some a
          | _, _ => none
  | _ => none

/-- `FillSquares(edge, cubelist)`: returns the store and `squarecount`. Each
`do ... while` loop runs over a coface list of a vertex; the body only appends to
coface lists of the four edges of a new square, so the list is the one found at
the entry of the loop. -/
def FillSquares (st : Store) (edge : Nat) : Option (Store × Nat) :=
  match st.lab (some edge) with
  | some (some edgelbl) =>
    match st.bd (some edge) 0 0 with
    | none => none
    | some u =>
      match st.cof u 0 0 with
      | none => none
      | some l1 =>
        match loopM (fwdOuter edge edgelbl) (st, 0) l1 with
        | none => none
        | some a =>
          match a.1.bd (some edge) 1 0 with
          | none => none
          | some v =>
            match a.1.cof v 1 0 with
            | none => none
            | some l1b => loopM (bwdOuter edge edgelbl) a l1b
  | _ => none

/-! ## cube.c: cubes of degree at least 3 -/

/-- Read `((label **) ((cube **) faces[f]->edges->coord)[j]->lab->coord)[0]->num`. -/
def edgePid (st : Store) (faces : List Nat) (f j : Nat) : Option Int :=
  match faces[f]? with
  | none => none
  | some p =>
    match st.get (some p) with
    | none => none
    | some c =>
      match c.edges[j]? with
      | none => none
      | some e => st.pid e

/-- Read `faces[f]->d[k][i]`. -/
def faceBd (st : Store) (faces : List Nat) (f k i : Nat) : Option (Option Nat) :=
  match faces[f]? with
  | none => none
  | some p => st.bd (some p) k i

/-- Read `faces[f]->s[k][i]`. -/
def faceCof (st : Store) (faces : List Nat) (f k i : Nat) : Option (List Nat) :=
  match faces[f]? with
  | none => none
  | some p => st.cof (some p) k i

/-- The loop `for (i = 0; i < degree - 1; i++) if (pid of edge i of faces[f] ==
edgepid) { edgeindex = i; break; }` over the indices of `idx`: `some i` when
the loop assigns `edgeindex`, `none` when it leaves it as it was. -/
def findPid (st : Store) (faces : List Nat) (f : Nat) (edgepid : Int) :
    List Nat → Option (Option Nat)
  | [] => some none
  | i :: rest =>
    match edgePid st faces f i with
    | none => none
    | some p => if p = edgepid then some (some i) else findPid st faces f edgepid rest

/-- The vector `hat` of `Config` and `ExtendConfig`: `hat[j] = pid[j]` for
`j < i` and `hat[j] = pid[j + 1]` for `i <= j < n`. -/
def hatVec (pid : List Int) (i n : Nat) : Option (List Int) :=
  mapOpt (fun j => if j < i then pid[j]? else pid[j + 1]?) (List.range n)

/-- The vector `vec` of `Config` and `ExtendConfig`: the process ids of the first
`n` edges of `faces[f]`. -/
def pidVec (st : Store) (faces : List Nat) (f n : Nat) : Option (List Int) :=
  mapOpt (fun j => edgePid st faces f j) (List.range n)

/-- One pass of the loop `for (d = 2; d < degree - 1 && config; d++)` of
`ExtendConfig`; the filling of `dlist` is a loop over `veclist`. -/
def extendStep (st : Store) (edgeindex degree : Nat) (pid : List Int)
    (veclist : List (List Nat)) (faces : List Nat) (config : List (List Nat)) (d : Nat) :
    Option (List (List Nat)) :=
  if config = [] then some config
  else
    match loopM (fun (dlist : List (List Nat)) (v : List Nat) =>
        match v[0]? with
        | none => none
        | some v0 =>
          match pidVec st faces v0 (degree - 1),
                hatVec pid (if d < edgeindex then d else d + 1) (degree - 1) with
          | some vec, some hat =>
            if Veccmp hat vec = 0 then some (InsertElement v dlist) else some dlist
          | _, _ => none) [] veclist with
    | none => none
    | some dlist => some (Product config dlist)

/-- `ExtendConfig(v2d, edgeindex, degree, pid, veclist, faces)`. -/
def ExtendConfig (st : Store) (v2d : List Nat) (edgeindex degree : Nat) (pid : List Int)
    (veclist : List (List Nat)) (faces : List Nat) : Option (List (List Nat)) :=
  match v2d[0]?, v2d[1]? with
  | some a, some b =>
    loopM (extendStep st edgeindex degree pid veclist faces) [[a, b]]
      (List.range' 2 (degree - 1 - 2))
  | _, _ => none

/-- The body of the loop of `Config` over the pairs `v` of `product`. The loop
state is the variable `edgeindex`, which keeps its value from one pass to the
next (`none` while it is uninitialised), and the list `config`. The array `pid`
is written completely in every pass that reads it. -/
def configStep (st : Store) (edge : Nat) (degree : Nat) (veclist : List (List Nat))
    (faces : List Nat) (a : Option Nat × List (List Nat)) (v : List Nat) :
    Option (Option Nat × List (List Nat)) :=
  match v[0]?, v[1]?, st.pid (some edge) with
  | some vc0, some vc1, some edgepid =>
    match findPid st faces vc0 edgepid (List.range (degree - 1)) with
    | none => none
    | some found =>
      match (match found with | some i => some i | none => a.1) with
      | none => none
      | some ei =>
        match (if ei = 0 then (edgePid st faces vc1 0).map (fun q => decide (q = edgepid))
               else some false) with
        | none => none
        | some first =>
          if first then
            match edgePid st faces vc1 1, edgePid st faces vc0 1 with
            | some p11, some p01 =>
              if p11 = p01 then some (some ei, a.2)
              else
                match mapOpt (fun i => edgePid st faces vc0 (i - 1)) (List.range' 2 (degree - 2)) with
                | none => none
                | some tl => configCheck st ei degree veclist faces v vc0 vc1 (edgepid :: p11 :: tl) a.2
            | _, _ => none
          else
            match edgePid st faces vc1 0, edgePid st faces vc0 0 with
            | some p10, some p00 =>
              if p10 ≥ p00 then some (some ei, a.2)
              else
                match mapOpt (fun i => edgePid st faces vc0 (i - 1)) (List.range' 1 (degree - 1)) with
                | none => none
                | some tl => configCheck st (ei + 1) degree veclist faces v vc0 vc1 (p10 :: tl) a.2
            | _, _ => none
  | _, _, _ => none
where
  /-- The loop `for (d = 0; d <= 1 && maybe; d++)` of `Config` and the call of
  `ExtendConfig` that follows it. -/
  configCheck (st : Store) (ei degree : Nat) (veclist : List (List Nat)) (faces : List Nat)
      (v : List Nat) (vc0 vc1 : Nat) (pid : List Int) (config : List (List Nat)) :
      Option (Option Nat × List (List Nat)) :=
    match pidVec st faces vc0 (degree - 1), hatVec pid (if 0 < ei then 0 else 1) (degree - 1) with
    | some vec0, some hat0 =>
      if Veccmp hat0 vec0 ≠ 0 then some (some ei, config)
      else
        match pidVec st faces vc1 (degree - 1),
              hatVec pid (if 1 < ei then 1 else 2) (degree - 1) with
        | some vec1, some hat1 =>
          if Veccmp hat1 vec1 ≠ 0 then some (some ei, config)
          else
            match ExtendConfig st v ei degree pid veclist faces with
            | none => none
            | some helpconfig => some (some ei, ConcatLists config helpconfig)
        | _, _ => none
    | _, _ => none

/-- `Config(edge, degree, veclist, faces)`. -/
def Config (st : Store) (edge : Nat) (degree : Nat) (veclist : List (List Nat))
    (faces : List Nat) : Option (List (List Nat)) :=
  match loopM (configStep st edge degree veclist faces) (none, []) (Product veclist veclist) with
  | none => none
  | some a => some a.2

/-- One pass of a loop of `CompleteUpperindices`: the two tests
`faces[vc[0]]->d[j][i0] == faces[vc[i]]->d[upperindex[0]][i1]` for `j = 0, 1`
fill `vlist`, then `veclist = Product(veclist, vlist)`. -/
def upperStep (st : Store) (faces : List Nat) (vc : List Nat) (up0 : Nat)
    (i0 : Nat → Nat) (i1 : Nat) (veclist : List (List Nat)) (i : Nat) :
    Option (List (List Nat)) :=
  if veclist = [] then some veclist
  else
    match vc[0]?, vc[i]? with
    | some vc0, some vci =>
      match faceBd st faces vc0 0 (i0 i), faceBd st faces vci up0 i1,
            faceBd st faces vc0 1 (i0 i) with
      | some a0, some b, some a1 =>
        some (Product veclist ((if a0 = b then [[0]] else []) ++ (if a1 = b then [[1]] else [])))
      | _, _, _ => none
    | _, _ => none

/-- `CompleteUpperindices(edgeindex, faces, v, upperindex)`; `degree` is
`v->dim + 1`. -/
def CompleteUpperindices (st : Store) (edgeindex : Nat) (faces : List Nat) (v : List Nat)
    (up0 up1 : Nat) : Option (List (List Nat)) :=
  let degree := v.length + 1
  if edgeindex = 0 then
    loopM (upperStep st faces v up0 (fun i => i) 1) [[up0, up1]] (List.range' 2 (degree - 1 - 2))
  else if edgeindex = 1 then
    loopM (upperStep st faces v up0 (fun i => i) 0) [[up0, up1]] (List.range' 2 (degree - 1 - 2))
  else
    match loopM (upperStep st faces v up0 (fun i => i - 1) 0) [[up0, up1]]
        (List.range' 2 (edgeindex - 2)) with
    | none => none
    | some veclist =>
      loopM (upperStep st faces v up0 (fun i => i) 0) veclist
        (List.range' edgeindex (degree - 1 - edgeindex))

/-- One of the four `if` statements of a branch of `Upperindices`: if
`faces[vc[0]]->d[u1][i0] == faces[vc[1]]->d[u0][i1]` then the completions of
`upperindex = {u0, u1}` are appended. -/
def upperSeed (st : Store) (edgeindex : Nat) (faces : List Nat) (v : List Nat)
    (i0 i1 : Nat) (upperindices : List (List Nat)) (u : Nat × Nat) :
    Option (List (List Nat)) :=
  match v[0]?, v[1]? with
  | some vc0, some vc1 =>
    match faceBd st faces vc0 u.2 i0, faceBd st faces vc1 u.1 i1 with
    | some a, some b =>
      if a = b then
        match CompleteUpperindices st edgeindex faces v u.1 u.2 with
        | none => none
        | some veclist => some (ConcatLists upperindices veclist)
      else some upperindices
    | _, _ => none
  | _, _ => none

/-- `Upperindices(edgeindex, faces, v)`. In each branch the four tests come in
the order `upperindex = {0,0}, {1,0}, {0,1}, {1,1}`. -/
def Upperindices (st : Store) (edgeindex : Nat) (faces : List Nat) (v : List Nat) :
    Option (List (List Nat)) :=
  let seeds : List (Nat × Nat) := [(0, 0), (1, 0), (0, 1), (1, 1)]
  if edgeindex = 0 then loopM (upperSeed st edgeindex faces v 1 1) [] seeds
  else if edgeindex = 1 then loopM (upperSeed st edgeindex faces v 1 0) [] seeds
  else loopM (upperSeed st edgeindex faces v 0 0) [] seeds

/-- The index quadruples `(i, j, k, l)` in the order in which the four nested
loops of `BdIdsOK` visit them. -/
def bdQuads (degree : Nat) : List (Nat × Nat × Nat × Nat) :=
  (List.range (degree - 1)).flatMap (fun i =>
    (List.range' (i + 1) (degree - (i + 1))).flatMap (fun j =>
      [(i, j, 0, 0), (i, j, 0, 1), (i, j, 1, 0), (i, j, 1, 1)]))

/-- The test of `BdIdsOK` at one index quadruple, on the boundary arrays of the
cube: `some true` when `pc->d[k][i]->d[l][j-1] != pc->d[l][j]->d[k][i]`. -/
def bdDiffer (st : Store) (d0 d1 : List (Option Nat)) (q : Nat × Nat × Nat × Nat) :
    Option Bool :=
  let row (k : Nat) : List (Option Nat) := if k = 0 then d0 else d1
  match (row q.2.2.1)[q.1]?, (row q.2.2.2)[q.2.1]? with
  | some f, some g =>
    match st.bd f q.2.2.2 (q.2.1 - 1), st.bd g q.2.2.1 q.1 with
    | some a, some b => some (decide (a ≠ b))
    | _, _ => none
  | _, _ => none

/-- The loops of `BdIdsOK` over a list of index quadruples; they stop at the
first difference. -/
def bdLoop (st : Store) (d0 d1 : List (Option Nat)) :
    List (Nat × Nat × Nat × Nat) → Option Bool
  | [] => some true
  | q :: rest =>
    match bdDiffer st d0 d1 q with
    | none => none
    | some true => some false
    | some false => bdLoop st d0 d1 rest

/-- `BdIdsOK(pc)` for a cube of degree at least 1 that is given by its degree and
its boundary arrays. -/
def BdIdsOK (st : Store) (degree : Nat) (d0 d1 : List (Option Nat)) : Option Bool :=
  bdLoop st d0 d1 (bdQuads degree)

/-- The value `1 - u` of an upper index `u`, which is 0 or 1. -/
def opp (u : Nat) : Option Nat :=
  match u with
  | 0 => some 1
  | 1 => some 0
  | _ => none

/-- The loops `for (j = ...; j < ... && toplist[i]; j++) toplist[i] =
Intersection(faces[vc[j]]->d[i][e]->s[upperindex[j]][j], toplist[i], NULL)` of
`FillHDCubes` over the indices `j` of a list. -/
def topStep (st : Store) (faces : List Nat) (vc upperindex : List Nat) (i e : Nat)
    (toplist : List Nat) (j : Nat) : Option (List Nat) :=
  if toplist = [] then some toplist
  else
    match vc[j]?, upperindex[j]? with
    | some vcj, some uj =>
      match faceBd st faces vcj i e with
      | none => none
      | some g =>
        match st.cof g uj j with
        | none => none
        | some l => some (Intersection l toplist none)
    | _, _ => none

/-- The computation of `toplist[i]` in `FillHDCubes`; `toplist[i]` is `NULL`
before `MergeLists`. -/
def topList (st : Store) (faces : List Nat) (vc upperindex : List Nat)
    (edgeindex degree i : Nat) : Option (List Nat) :=
  match vc[0]?, upperindex[0]? with
  | some vc0, some u0 =>
    match faceBd st faces vc0 i (if edgeindex > 0 then edgeindex - 1 else 0) with
    | none => none
    | some g =>
      match st.cof g u0 0 with
      | none => none
      | some l =>
        if edgeindex > 0 then
          match loopM (topStep st faces vc upperindex i (edgeindex - 1))
              (MergeLists [] l none) (List.range' 1 (edgeindex - 1)) with
          | none => none
          | some t =>
            loopM (topStep st faces vc upperindex i edgeindex) t
              (List.range' edgeindex (degree - 1 - edgeindex))
        else
          loopM (topStep st faces vc upperindex i 0) (MergeLists [] l none)
            (List.range' 1 (degree - 1 - 1))
  | _, _ => none

/-- `Intersection(top[0]->d[1 - upperindex[j]][j]->s[0][e],
top[1]->d[1 - upperindex[j]][j]->s[1][e], NULL)`. -/
def oppList (st : Store) (upperindex : List Nat) (top0 top1 : Nat) (e j : Nat) :
    Option (List Nat) :=
  match upperindex[j]? with
  | none => none
  | some uj =>
    match opp uj with
    | none => none
    | some k =>
      match st.bd (some top0) k j, st.bd (some top1) k j with
      | some g0, some g1 =>
        match st.cof g0 0 e, st.cof g1 1 e with
        | some l0, some l1 => some (Intersection l0 l1 none)
        | _, _ => none
      | _, _ => none

/-- One pass of a loop `for (j = ...; j < ... && cubeveclist; j++)` of
`FillHDCubes` that multiplies `cubeveclist` with the next list of opposite
faces. -/
def oppStep (st : Store) (upperindex : List Nat) (top0 top1 : Nat) (e : Nat)
    (cubeveclist : List (List Nat)) (j : Nat) : Option (List (List Nat)) :=
  if cubeveclist = [] then some cubeveclist
  else
    match oppList st upperindex top0 top1 e j with
    | none => none
    | some slist => some (Product cubeveclist (AsVectorList slist))

/-- The list `cubeveclist` of `FillHDCubes`: all vectors of possible opposite
faces of the faces of the current configuration. -/
def cubeVecList (st : Store) (upperindex : List Nat) (top0 top1 : Nat)
    (edgeindex degree : Nat) : Option (List (List Nat)) :=
  match oppList st upperindex top0 top1 (if edgeindex > 0 then edgeindex - 1 else 0) 0 with
  | none => none
  | some slist =>
    if edgeindex > 0 then
      match loopM (oppStep st upperindex top0 top1 (edgeindex - 1)) (AsVectorList slist)
          (List.range' 1 (edgeindex - 1)) with
      | none => none
      | some cvl =>
        loopM (oppStep st upperindex top0 top1 edgeindex) cvl
          (List.range' edgeindex (degree - 1 - edgeindex))
    else
      loopM (oppStep st upperindex top0 top1 0) (AsVectorList slist)
        (List.range' 1 (degree - 1 - 1))

/-- The intermediate result of the two assembly loops of `FillHDCubes`: the
boundary arrays of `cub` and the list `others`. -/
structure Assembly where
  d0 : List (Option Nat)
  d1 : List (Option Nat)
  others : List Nat
deriving DecidableEq, Repr

/-- Write `cub->d[k][i] = f`. -/
def Assembly.setD (a : Assembly) (k i : Nat) (f : Nat) : Option Assembly :=
  match k with
  | 0 => (setAt a.d0 i (some f)).map (fun l => { a with d0 := l })
  | 1 => (setAt a.d1 i (some f)).map (fun l => { a with d1 := l })
  | _ => none

/-- One pass of an assembly loop of `FillHDCubes` for the configuration index `i`,
writing the axis `ax` (`i` below `edgeindex`, `i + 1` from `edgeindex` on). -/
def assembleStep (st : Store) (faces : List Nat) (vc upperindex cubevecc : List Nat)
    (shift : Nat) (a : Assembly) (i : Nat) : Option Assembly :=
  let ax := i + shift
  match vc[i]?, upperindex[i]?, cubevecc[i]? with
  | some vci, some ui, some ci =>
    match faces[vci]?, opp ui with
    | some f, some oi =>
      match a.setD ui ax f with
      | none => none
      | some a1 =>
        match st.cof (some f) ui ax with
        | none => none
        | some l1 =>
          match ({ a1 with others := Intersection a1.others l1 none } : Assembly).setD oi ax ci with
          | none => none
          | some a2 =>
            match st.cof (some ci) oi ax with
            | none => none
            | some l2 => some { a2 with others := Intersection a2.others l2 none }
    | _, _ => none
  | _, _, _ => none

/-- The statements of `FillHDCubes` from `cub = NewCube(degree)` to the end of the
second assembly loop. -/
def assemble (st : Store) (faces : List Nat) (vc upperindex cubevecc : List Nat)
    (edgeindex degree : Nat) (top0 top1 : Nat) : Option Assembly :=
  match (Assembly.mk (List.replicate degree none) (List.replicate degree none) []).setD
      0 edgeindex top0 with
  | none => none
  | some a0 =>
    match a0.setD 1 edgeindex top1 with
    | none => none
    | some a1 =>
      match st.cof (some top0) 0 edgeindex, st.cof (some top1) 1 edgeindex with
      | some l0, some l1 =>
        match loopM (assembleStep st faces vc upperindex cubevecc 0)
            { a1 with others := Intersection l0 l1 none } (List.range edgeindex) with
        | none => none
        | some a2 =>
          loopM (assembleStep st faces vc upperindex cubevecc 1) a2
            (List.range' edgeindex (degree - 1 - edgeindex))
      | _, _ => none

/-- The vector `cub->edges` that `FillHDCubes` writes for an accepted cube. -/
def cachedEdges (st : Store) (degree : Nat) (d0 : List (Option Nat)) :
    Option (List (Option Nat)) :=
  match d0[degree - 1]?, d0[degree - 3]? with
  | some pa, some pb =>
    match st.get pa, st.get pb with
    | some ca, some cb =>
      match readAll ca.edges (List.range (degree - 1)), cb.edges[degree - 2]? with
      | some front, some last => some (front ++ [last])
      | _, _ => none
    | _, _ => none
  | _, _ => none

/-- The body of the loop of `FillHDCubes` over `cubeveclist`: a cube is assembled
and, if `BdIdsOK(cub) && others == NULL`, linked into the complex; otherwise it
is deleted. The loop state is the store and `newcount`. -/
def tryCube (faces : List Nat) (vc upperindex : List Nat) (edgeindex degree : Nat)
    (top0 top1 : Nat) (a : Store × Nat) (cubevecc : List Nat) : Option (Store × Nat) :=
  match assemble a.1 faces vc upperindex cubevecc edgeindex degree top0 top1 with
  | none => none
  | some asm =>
    match BdIdsOK a.1 degree asm.d0 asm.d1 with
    | none => none
    | some ok =>
      if ok ∧ asm.others = [] then
        match cachedEdges a.1 degree asm.d0 with
        | none => none
        | some edges =>
          match a.1.link { NewCube degree a.1.cubes.length with
                            d0 := asm.d0, d1 := asm.d1, edges := edges } with
          | none => none
          | some s => some (s, a.2 + 1)
      else some a

/-- The body of the loop over `tlist[1]` for a fixed `top[0]`. -/
def topPair (faces : List Nat) (vc upperindex : List Nat) (edgeindex degree : Nat)
    (top0 : Nat) (a : Store × Nat) (top1 : Nat) : Option (Store × Nat) :=
  match cubeVecList a.1 upperindex top0 top1 edgeindex degree with
  | none => none
  | some cubeveclist =>
    loopM (tryCube faces vc upperindex edgeindex degree top0 top1) a cubeveclist

/-- The body of the loop of `FillHDCubes` over `ulist` for the vector `upvec` of
upper indices. -/
def upperPass (faces : List Nat) (vc : List Nat) (edgeindex degree : Nat)
    (upperindex : List Nat) (a : Store × Nat) : Option (Store × Nat) :=
  match topList a.1 faces vc upperindex edgeindex degree 0 with
  | none => none
  | some toplist0 =>
    if toplist0 = [] then some a
    else
      match topList a.1 faces vc upperindex edgeindex degree 1 with
      | none => none
      | some toplist1 =>
        loopM (fun a0 top0 =>
            loopM (topPair faces vc upperindex edgeindex degree top0) a0 toplist1)
          a toplist0

/-- The body of the loop of `FillHDCubes` over the configurations `v` of
`config`. The loop state is the store, `newcount`, and the variable `edgeindex`,
which keeps its value from one pass to the next (`none` while uninitialised).
In every pass of the inner loop over `ulist` the source takes `upvec` from the
head `upperindices` of the list, not from `ulist`. -/
def configPass (faces : List Nat) (edgepid : Int) (degree : Nat)
    (a : (Store × Nat) × Option Nat) (v : List Nat) : Option ((Store × Nat) × Option Nat) :=
  match v[0]?, v[1]? with
  | some vc0, some vc1 =>
    match findPid a.1.1 faces vc0 edgepid (List.range (degree - 1)) with
    | none => none
    | some found =>
      match (match found with | some i => some i | none => a.2) with
      | none => none
      | some ei0 =>
        match (if ei0 > 0 then some true
               else (edgePid a.1.1 faces vc1 0).map (fun q => decide (q ≠ edgepid))) with
        | none => none
        | some inc =>
          let edgeindex := if inc then ei0 + 1 else ei0
          match Upperindices a.1.1 edgeindex faces v with
          | none => none
          | some upperindices =>
            match upperindices with
            | [] => some (a.1, some edgeindex)
            | upvec :: _ =>
              match loopM (fun a0 (_ : List Nat) =>
                  upperPass faces v edgeindex degree upvec a0) a.1 upperindices with
              | none => none
              | some a1 => some (a1, some edgeindex)
  | _, _ => none

/-- `FillHDCubes(edge, cubelist, degree, facecount)`: returns the store and
`newcount`. The array `faces` is read backwards from `cubelist[degree - 1]->prev`
along `prev`, around the circular list. -/
def FillHDCubes (st : Store) (edge : Nat) (degree facecount : Nat) : Option (Store × Nat) :=
  match st.pid (some edge) with
  | none => none
  | some edgepid =>
    if degree > 2 then
      match st.cubelist[degree - 1]? with
      | none => none
      | some [] => none
      | some cl =>
        match mapOpt (fun i => cl.reverse[i % cl.length]?) (List.range facecount) with
        | none => none
        | some faces =>
          match Config st edge degree ((List.range facecount).map (fun i => [i])) faces with
          | none => none
          | some config =>
            match loopM (configPass faces edgepid degree) ((st, 0), none) config with
            | none => none
            | some a => some a.1
    else some (st, 0)

/-- The loop `while (facecount != 0) facecount = FillHDCubes(edge, cubelist,
++dim + 1, facecount)` of `FillCubes`; `fuel` bounds the number of times the
loop condition is tested. -/
def FillCubesLoop (edge : Nat) : Nat → Store → Nat → Int → Option (Store × Int)
  | 0, _, _, _ => none
  | fuel + 1, st, facecount, dim =>
    if facecount = 0 then some (st, dim)
    else
      match FillHDCubes st edge (dim + 1 + 1).toNat facecount with
      | none => none
      | some r => FillCubesLoop edge fuel r.1 r.2 (dim + 1)

/-- `FillCubes(edge, cubelist)`: returns the store and `dim`. A pass of the loop
that returns a non-zero count has written `cubelist[degree]`, which is inside
the array only if `degree` is below its length; so the loop condition is tested
at most as many times as the array has entries. -/
def FillCubes (st : Store) (edge : Nat) : Option (Store × Int) :=
  match FillSquares st edge with
  | none => none
  | some r =>
    FillCubesLoop edge (st.cubelist.length + 1) r.1 r.2 (if r.2 > 0 then 1 else -1)

/-! ## pgraph.h, pgraph.c (default input mode) -/

/-- `struct intvar`; `addr` is the address of the variable, by which `Evaluate`
and `Effect` recognise it. -/
structure intvar where
  addr : Nat
  initialval : Int
  id : String
deriving DecidableEq, Repr

/-- `struct ast`: the `NULL` tree, a node of type `VAR`, of type `NUM`, and a
node of another type with its operator and its two subtrees. -/
inductive ast where
  | null : ast
  | var : Nat → ast
  | num : Int → ast
  | exp : Nat → ast → ast → ast
deriving DecidableEq, Repr

/-- `struct assignment`. -/
structure assignment where
  var : Nat
  exp : ast
deriving DecidableEq, Repr

/-- `struct action`, the fields of the default input mode. -/
structure action where
  id : String
  assignments : List assignment
deriving DecidableEq, Repr

/-- `struct condition`, the field of the default input mode. -/
structure condition where
  exp : ast
deriving DecidableEq, Repr

/-- `struct transition`; locations are addresses in the table of locations. -/
structure transition where
  loc0 : Option Nat
  loc1 : Option Nat
  cond : Option condition
  act : Option action
deriving DecidableEq, Repr

/-- `struct location`. -/
structure location where
  index : Int
  outtranslist : List transition
deriving DecidableEq, Repr

/-- `struct programgraph`, the fields that `hda.c` reads in the default input
mode. -/
structure programgraph where
  loc_0 : Option Nat
  loc_1 : Option Nat
  cond_1 : Option condition
deriving DecidableEq, Repr

/-- The operator codes of `pgraph.h`. -/
def PLUS : Nat := 1
def MINUS : Nat := 2
def TIMES : Nat := 3
def DIV : Nat := 4
def MOD : Nat := 5
def EQ : Nat := 6
def NEQ : Nat := 7
def L : Nat := 8
def LEQ : Nat := 9
def G : Nat := 10
def GEQ : Nat := 11
def OR : Nat := 12
def AND : Nat := 13

/-- The condition that `NewCondition()` creates: `0 == 0`. -/
def NewCondition : condition := { exp := ast.exp EQ (ast.num 0) (ast.num 0) }

/-- A value of type `int`; arithmetic that leaves the range is undefined. -/
def asInt (x : Int) : Option Int :=
  if -2147483648 ≤ x ∧ x ≤ 2147483647 then some x else none

/-- The position of the variable with address `v` in `varlist`. -/
def varIndex (varlist : List intvar) (v : Nat) : Option Nat :=
  match varlist.findIdx? (fun x => decide (x.addr = v)) with
  | none => none
  | some i => some i

/-- `Evaluate(exp, varlist, vals)`; `||` and `&&` evaluate their right operand
only when the left one does not decide. -/
def Evaluate (varlist : List intvar) (vals : List Int) : ast → Option Int
  | ast.null => none
  | ast.var v =>
    match varIndex varlist v with
    | none => none
    | some i => vals[i]?
  | ast.num n => some n
  | ast.exp op l r =>
    let bin (f : Int → Int → Option Int) : Option Int :=
      match Evaluate varlist vals l, Evaluate varlist vals r with
      | some a, some b => f a b
      | _, _ => none
    let tst (f : Int → Int → Bool) : Option Int := bin (fun a b => some (if f a b then 1 else 0))
    if op = PLUS then bin (fun a b => asInt (a + b))
    else if op = MINUS then
      match l with
      | ast.null => (Evaluate varlist vals r).bind (fun b => asInt (-b))
      | _ => bin (fun a b => asInt (a - b))
    else if op = TIMES then bin (fun a b => asInt (a * b))
    else if op = DIV then bin (fun a b => if b = 0 then none else asInt (Int.tdiv a b))
    else if op = MOD then
      bin (fun a b => if b = 0 then none else (asInt (Int.tdiv a b)).map (fun _ => Int.tmod a b))
    else if op = EQ then tst (fun a b => decide (a = b))
    else if op = NEQ then tst (fun a b => decide (a ≠ b))
    else if op = L then tst (fun a b => decide (a < b))
    else if op = LEQ then tst (fun a b => decide (a ≤ b))
    else if op = G then tst (fun a b => decide (a > b))
    else if op = GEQ then tst (fun a b => decide (a ≥ b))
    else if op = OR then
      match Evaluate varlist vals l with
      | none => none
      | some a =>
        if a ≠ 0 then some 1
        else (Evaluate varlist vals r).map (fun b => if b ≠ 0 then 1 else 0)
    else if op = AND then
      match Evaluate varlist vals l with
      | none => none
      | some a =>
        if a = 0 then some 0
        else (Evaluate varlist vals r).map (fun b => if b ≠ 0 then 1 else 0)
    else (Evaluate varlist vals r).map (fun b => if b = 0 then 1 else 0)

/-- `CheckCondition(vec, cond, varlist)`. -/
def CheckCondition (vec : List Int) (cond : Option condition) (varlist : List intvar) :
    Option Int :=
  match cond with
  | none => none
  | some c => Evaluate varlist vec c.exp

/-- `Effect(act, invec, outvec, varlist)`: returns the content of `outvec`. The
assignments are carried out one after the other on `outvec`. -/
def Effect (act : Option action) (invec : List Int) (varlist : List intvar) :
    Option (List Int) :=
  match act with
  | none => none
  | some a =>
    loopM (fun (outvec : List Int) (ass : assignment) =>
        match varIndex varlist ass.var, Evaluate varlist outvec ass.exp with
        | some i, some x => setAt outvec i x
        | _, _ => none)
      invec a.assignments

/-! ## hda.h, hda.c -/

/-- `struct state`. -/
structure state where
  locvec : List (Option Nat)
  valvec : List Int
  cube : Nat
deriving DecidableEq, Repr

/-- A system of program graphs as `main` hands it to `MakeHDA`: the vector
`pgvec`, the list `varlist`, and the table of the locations that the pointers
of `pgvec`, of the transitions and of the states refer to. -/
structure System where
  pgvec : List programgraph
  locs : List location
  varlist : List intvar
deriving DecidableEq, Repr

/-- Dereference a location pointer. -/
def System.loc (sys : System) (p : Option Nat) : Option location :=
  match p with
  | none => none
  | some i => sys.locs[i]?

/-- The text that the `sprintf`/`strcat` sequences of `InitialStates` and
`NextState` build: `(l_0,...,l_{n-1},v_0,...,v_{m-1})`. Reading
`valvar[varcount - 1]` needs at least one variable. -/
def stateLabel (sys : System) (locvec : List (Option Nat)) (valvec : List Int) :
    Option String :=
  match mapOpt (fun p => (sys.loc p).map (fun l => toString l.index ++ ",")) locvec,
        valvec.getLast? with
  | some ls, some last =>
    some ("(" ++ String.join ls
      ++ String.join (valvec.dropLast.map (fun v => toString v ++ ","))
      ++ toString last ++ ")")
  | _, _ => none

/-- Stores a new cell at the next free address. -/
def Store.alloc (st : Store) (c : cube) : Store × Nat :=
  ({ st with cubes := st.cubes ++ [some c] }, st.cubes.length)

/-- `DeleteCube(pc)`: the cell is released. -/
def DeleteCube (st : Store) (pc : Nat) : Store :=
  { st with cubes := st.cubes.set pc none }

/-- `InitialStates(pgvec, varlist)` in the default input mode: one state, whose
cube (created by `NewState`) carries the label and the flag `ini`. -/
def InitialStates (st : Store) (sys : System) : Option (Store × List state) :=
  if sys.varlist = [] then none
  else
    let locvec := sys.pgvec.map (fun pg => pg.loc_0)
    let valvec := sys.varlist.map (fun v => v.initialval)
    match stateLabel sys locvec valvec with
    | none => none
    | some s =>
      let r := st.alloc { NewCube 0 st.cubes.length with lab := some [⟨s, -1⟩], ini := true }
      some (r.1, [{ locvec := locvec, valvec := valvec, cube := r.2 }])

/-- `IsFinal(st, pgvec, varlist)`. -/
def IsFinal (sys : System) (sta : state) : Option Int :=
  match loopM (fun (isfinal : Int) (p : Nat × programgraph) =>
      if isfinal = 0 then some isfinal
      else
        match sta.locvec[p.1]? with
        | none => none
        | some l => some (if l ≠ p.2.loc_1 then 0 else isfinal))
      1 sys.pgvec.enum with
  | none => none
  | some isfinal =>
    loopM (fun (isfinal : Int) (pg : programgraph) =>
        if isfinal = 0 then some isfinal
        else CheckCondition sta.valvec pg.cond_1 sys.varlist)
      isfinal sys.pgvec

/-- `CubesOfStates(statelist, cubelist)`. -/
def CubesOfStates (st : Store) (statelist : List state) : Option Store :=
  loopM (fun s (sta : state) => s.addToList 0 sta.cube) st statelist

/-- `NextState(sta, trans, pid, varlist)`: the outer `none` is undefined
behaviour, `some none` the result `NULL` of a transition whose guard does not
evaluate to 1. -/
def NextState (st : Store) (sys : System) (sta : state) (trans : transition) (pid : Nat) :
    Option (Option (Store × state)) :=
  match CheckCondition sta.valvec trans.cond sys.varlist with
  | none => none
  | some g =>
    if g = 1 then
      match setAt sta.locvec pid trans.loc1, Effect trans.act sta.valvec sys.varlist with
      | some locvec, some valvec =>
        match stateLabel sys locvec valvec with
        | none => none
        | some s =>
          let r := st.alloc { NewCube 0 st.cubes.length with lab := some [⟨s, -1⟩] }
          some (some (r.1, { locvec := locvec, valvec := valvec, cube := r.2 }))
      | _, _ => none
    else some none

/-- The loop state of `HandleState` and `MakeHDA`: the store, the list of
states `*statelist`, and `dim`. -/
structure Explore where
  store : Store
  statelist : List state
  dim : Int
deriving DecidableEq, Repr

/-- The first cube of `cubelist[0]` whose label vector equals `lab`, as the loop
`check whether state is new` of `HandleState` finds it. -/
def findState (st : Store) (lab : Option (List label)) : List Nat → Option (Option Nat)
  | [] => some none
  | cpc :: rest =>
    match st.lab (some cpc) with
    | none => none
    | some l => if VecCmp l lab (some labcmp) = 0 then some (some cpc) else findState st lab rest

/-- The body of the inner loop of `HandleState` for the transition `trans` of
process `i`. -/
def handleTransition (sys : System) (sta : state) (i : Nat) (a : Explore) (trans : transition) :
    Option Explore :=
  match NextState a.store sys sta trans i with
  | none => none
  | some none => some a
  | some (some (s1, st)) =>
    match s1.cubelist[0]?, s1.lab (some st.cube) with
    | some cl0, some stlab =>
      match findState s1 stlab cl0 with
      | none => none
      | some found =>
        let s2 : Store := match found with
          | none => s1
          | some _ => DeleteCube s1 st.cube
        let target : Nat := match found with
          | none => st.cube
          | some cpc => cpc
        match trans.act with
        | none => none
        | some act =>
          let pc := s2.cubes.length
          match s2.link { NewCube 1 pc with
                          d0 := [some sta.cube], d1 := [some target],
                          edges := [some pc], lab := some [⟨act.id, (i : Int)⟩] } with
          | none => none
          | some s3 =>
            let dim1 : Int := if 1 > a.dim then 1 else a.dim
            match found with
            | none =>
              match s3.addToList 0 st.cube with
              | none => none
              | some s4 =>
                some { store := s4, statelist := InsertElement st a.statelist, dim := dim1 }
            | some _ =>
              match FillCubes s3 pc with
              | none => none
              | some r =>
                some { store := r.1, statelist := a.statelist,
                       dim := if r.2 > dim1 then r.2 else dim1 }
    | _, _ => none

/-- `HandleState(sta, statelist, cubelist, varlist)`; the returned `dim` starts
at -1. -/
def HandleState (sys : System) (sta : state) (st : Store) (statelist : List state) :
    Option Explore :=
  loopM (fun (a : Explore) (p : Nat × Option Nat) =>
      match sys.loc p.2 with
      | none => none
      | some l => loopM (handleTransition sys sta p.1) a l.outtranslist)
    { store := st, statelist := statelist, dim := -1 } sta.locvec.enum

/-- Sets `sta->cube->flags.fin = 1`. -/
def setFin (st : Store) (p : Nat) : Option Store :=
  match st.get (some p) with
  | none => none
  | some c => some { st with cubes := st.cubes.set p (some { c with fin := true }) }

/-- The loop `while (queue)` of `MakeHDA`; `fuel` bounds the number of states
that are taken from the queue. -/
def MakeHDALoop (sys : System) : Nat → Store → List state → Int → Option (Store × Int)
  | _, st, [], dim => some (st, dim)
  | 0, _, _ :: _, _ => none
  | fuel + 1, st, sta :: queue, dim =>
    match IsFinal sys sta with
    | none => none
    | some isfinal =>
      match (if isfinal ≠ 0 then setFin st sta.cube else some st) with
      | none => none
      | some s1 =>
        match HandleState sys sta s1 (sta :: queue) with
        | none => none
        | some a =>
          MakeHDALoop sys fuel a.store a.statelist.tail (if a.dim > dim then a.dim else dim)

/-- `MakeHDA(pgvec, cubelist, varlist)` on the store that holds the array
`cubelist`: returns the store and the dimension. The result is `none` also when
`fuel` states were handled and the queue is not yet empty. -/
def MakeHDA (fuel : Nat) (sys : System) (st : Store) : Option (Store × Int) :=
  match InitialStates st sys with
  | none => none
  | some r =>
    match CubesOfStates r.1 r.2 with
    | none => none
    | some s1 => MakeHDALoop sys fuel s1 r.2 0

/-- The store with which `main` calls `MakeHDA`: no cell, and an array of
`n + 1` empty lists for `n` program graphs. -/
def initialStore (sys : System) : Store :=
  { cubes := [], cubelist := List.replicate (sys.pgvec.length + 1) [] }

/-- The Euler characteristic that `PrintSystemHDA` prints: the sum of
`pow(-1, i) * rk[i]` for `i = 0, ..., dim`, with `rk[i]` the number of elements of
`cubes[i]`. -/
def euler (st : Store) (dim : Nat) : Option Int :=
  loopM (fun (e : Int) (i : Nat) =>
      match st.cubelist[i]? with
      | none => none
      | some l => some (e + (-1) ^ i * (NumberOfElements l : Int)))
    0 (List.range (dim + 1))

/-! ## Fixtures: systems of independent processes -/

/-- The two locations of a process with the single transition from location 0 to
location 1, whose guard is the condition of `NewCondition()` (always true) and
whose action `name` has no assignment. `k` is the index of the process; its
locations have the addresses `2 * k` and `2 * k + 1`. -/
def singleAction (k : Nat) (name : String) : List location :=
  [ { index := 0,
      outtranslist := [ { loc0 := some (2 * k), loc1 := some (2 * k + 1),
                          cond := some NewCondition,
                          act := some { id := name, assignments := [] } } ] },
    { index := 1, outtranslist := [] } ]

/-- The system of the processes `singleAction k name` for the given names, over
one variable `x` that no guard reads and no action writes (`MakeHDA` needs at
least one variable to build a state label). -/
def independent (names : List String) : System :=
  { pgvec := names.enum.map (fun p =>
      { loc_0 := some (2 * p.1), loc_1 := some (2 * p.1 + 1), cond_1 := some NewCondition }),
    locs := (names.enum.map (fun p => singleAction p.1 p.2)).flatten,
    varlist := [ { addr := 0, initialval := 0, id := "x" } ] }

/-- Two processes: process 0 does `a`, process 1 does `b`. -/
def twoProcesses : System := independent ["a", "b"]

/-- Three processes doing `a`, `b`, `c`. -/
def threeProcesses : System := independent ["a", "b", "c"]

/-- A cube of degree `d` at `p` all of whose faces are defined, recursively, each
of degree one less. -/
def wellFormed (st : Store) : Nat → Option Nat → Bool
  | 0, p =>
    match st.get p with
    | some c => decide (c.degree = 0)
    | none => false
  | d + 1, p =>
    match st.get p with
    | some c =>
      decide (c.degree = d + 1) &&
        (List.range (d + 1)).all (fun i =>
          match c.d 0 i, c.d 1 i with
          | some f0, some f1 => wellFormed st d f0 && wellFormed st d f1
          | _, _ => false)
    | none => false

/-- The degrees of the cells whose addresses are in the per-degree collections. -/
def degreesOf (st : Store) : List (List (Option Nat)) :=
  st.cubelist.map (fun l => l.map (fun x => (st.get (some x)).map (fun c => c.degree)))

/-- The boundary arrays `d[0]`, `d[1]` of the cube at address `x`. -/
def facesOf (st : Store) (x : Nat) : Option (List (Option Nat) × List (Option Nat)) :=
  (st.get (some x)).map (fun c => (c.d0, c.d1))

/-- What a run of `MakeHDA` is compared with: the returned dimension, the
per-degree collections, the degrees of their members, and the faces of the cube
at a given address. -/
structure Report where
  dim : Int
  cubelist : List (List Nat)
  degrees : List (List (Option Nat))
  faces : Option (List (Option Nat) × List (Option Nat))
deriving DecidableEq, Repr

/-- The report of a run, with the faces of the cube at address `x`. -/
def report (x : Nat) (r : Option (Store × Int)) : Option Report :=
  r.map (fun r => ⟨r.2, r.1.cubelist, degreesOf r.1, facesOf r.1 x⟩)

/-- The cell at `p` is a cube of degree 0. -/
def IsVertex (st : Store) (p : Option Nat) : Prop :=
  ∃ c, st.get p = some c ∧ c.degree = 0

/-- The addresses of the cells that hold a cube of degree at most `d`. -/
def lowCells (st : Store) (d : Nat) : Finset Nat :=
  (Finset.range st.cubes.length).filter
    (fun x => (st.get (some x)).any (fun c => decide (c.degree ≤ d)) = true)

/-- A store with one square: the vertices 0, 1, 2, 3, the edges `a` (4, from 0
to 1), `b` (5, from 0 to 2), `b` (6, from 1 to 3), `a` (7, from 2 to 3), and the
square 8 with the front faces 5, 4 and the back faces 6, 7. -/
def unitSquare : Store :=
  { cubes :=
      [ some { NewCube 0 0 with s0 := [[4, 5]], lab := some [⟨"(0,0,0)", -1⟩], ini := true },
        some { NewCube 0 1 with s0 := [[6]], s1 := [[4]], lab := some [⟨"(1,0,0)", -1⟩] },
        some { NewCube 0 2 with s0 := [[7]], s1 := [[5]], lab := some [⟨"(0,1,0)", -1⟩] },
        some { NewCube 0 3 with s1 := [[6, 7]], lab := some [⟨"(1,1,0)", -1⟩] },
        some { NewCube 1 4 with d0 := [some 0], d1 := [some 1], s0 := [[], [8]],
                                lab := some [⟨"a", 0⟩] },
        some { NewCube 1 5 with d0 := [some 0], d1 := [some 2], s0 := [[8], []],
                                lab := some [⟨"b", 1⟩] },
        some { NewCube 1 6 with d0 := [some 1], d1 := [some 3], s1 := [[8], []],
                                lab := some [⟨"b", 1⟩] },
        some { NewCube 1 7 with d0 := [some 2], d1 := [some 3], s1 := [[], [8]],
                                lab := some [⟨"a", 0⟩] },
        some { NewCube 2 8 with d0 := [some 5, some 4], d1 := [some 6, some 7],
                                edges := [some 4, some 5] } ],
    cubelist := [[0, 1, 2, 3], [4, 5, 6, 7], [8]] }

/-! ## Relations between stores, and the invariant of the construction -/

/-- Two cells agree in everything but their coface lists. -/
def Frame (c c' : cube) : Prop :=
  c'.degree = c.degree ∧ c'.ini = c.ini ∧ c'.fin = c.fin ∧ c'.d0 = c.d0 ∧ c'.d1 = c.d1 ∧
    c'.edges = c.edges ∧ c'.lab = c.lab

/-- Two cells agree in degree, boundary arrays, edges and label. -/
def Core (c c' : cube) : Prop :=
  c'.degree = c.degree ∧ c'.d0 = c.d0 ∧ c'.d1 = c.d1 ∧ c'.edges = c.edges ∧ c'.lab = c.lab

/-- The store `st'` extends `st`: every cube of `st` is still there, unchanged
but for its coface lists, which have grown at the end. -/
def Ext (st st' : Store) : Prop :=
  st.cubes.length ≤ st'.cubes.length ∧
  ∀ y cy, st.get (some y) = some cy →
    ∃ cy', st'.get (some y) = some cy' ∧ Core cy cy' ∧
      ∀ k i l, cy.s k i = some l → ∃ l', cy'.s k i = some (l ++ l')

/-- The state of the store while the cofaces of the cube `x` along the row `row`
of index `k` are being registered: `m` entries of the row are done. -/
def RowDone (st : Store) (x k : Nat) (row : List (Option Nat)) (m : Nat) (s : Store) : Prop :=
  s.cubelist = st.cubelist ∧ s.cubes.length = st.cubes.length ∧
  (∀ y, st.get (some y) = none → s.get (some y) = none) ∧
  (∀ y cy, st.get (some y) = some cy →
    ∃ cy', s.get (some y) = some cy' ∧ Frame cy cy' ∧
      ∀ k' i', cy'.s k' i' = (cy.s k' i').map (fun l =>
        if k' = k ∧ i' < m ∧ row[i']? = some (some y) then l ++ [x] else l)) ∧
  (∀ i, i < m → ∃ f cf l, row[i]? = some (some f) ∧ st.get (some f) = some cf ∧
    cf.s k i = some l)

/-- The description of the store `st'` that `link` returns for the cube `c`. -/
structure Linked (st : Store) (c : cube) (st' : Store) : Prop where
  len : st'.cubes.length = st.cubes.length + 1
  new : st'.get (some st.cubes.length) = some c
  dead : ∀ y, y ≠ st.cubes.length → st.get (some y) = none → st'.get (some y) = none
  old : ∀ y cy, st.get (some y) = some cy →
    ∃ cy', st'.get (some y) = some cy' ∧ Frame cy cy' ∧
      ∀ k i, cy'.s k i = (cy.s k i).map (fun l =>
        if c.d k i = some (some y) then l ++ [st.cubes.length] else l)
  faces : ∀ k i f, c.d k i = some f →
    ∃ fi cf l, f = some fi ∧ st.get (some fi) = some cf ∧ cf.s k i = some l
  list : ∃ l, st.cubelist[c.degree]? = some l ∧
    st'.cubelist = st.cubelist.set c.degree (l ++ [st.cubes.length])

/-- A relation between two states `(store, count)` of a loop of `FillSquares` or
`FillHDCubes` that holds when nothing happened, that composes, and that holds
for every single insertion by `link` of a cube of degree `deg` whose label
vector is `NULL`. -/
structure StepRel (deg : Nat) (R : Store × Nat → Store × Nat → Prop) : Prop where
  refl : ∀ a, R a a
  trans : ∀ a b c, R a b → R b c → R a c
  link : ∀ (a : Store × Nat) (c : cube) (s : Store), c.degree = deg → c.lab = none →
    a.1.link c = some s → R a (s, a.2 + 1)

/-- From the state `a = (store, count)` to the state `b`, cubes were appended to
`cubelist[d]` and to no other collection, and the count grew by their number. -/
def Grows (d : Nat) (a b : Store × Nat) : Prop :=
  a.2 ≤ b.2 ∧ b.1.cubelist.length = a.1.cubelist.length ∧
  (∀ e, e ≠ d → b.1.cubelist[e]? = a.1.cubelist[e]?) ∧
  (∃ new, new.length = b.2 - a.2 ∧ b.1.cubelist[d]? = (a.1.cubelist[d]?).map (fun l => l ++ new)) ∧
  (b.2 = a.2 → b.1 = a.1) ∧ (a.2 < b.2 → d < a.1.cubelist.length)

/-- The number of cubes of degree `d` that `st'` has more than `st`. -/
def addedCubes (st st' : Store) (d : Nat) : Nat :=
  (st'.cubelist.getD d []).length - (st.cubelist.getD d []).length

/-- The store `unitSquare` before its last edge 7 is completed: the four
vertices and the four edges, no square. -/
def squareReady : Store :=
  { cubes :=
      [ some { NewCube 0 0 with s0 := [[4, 5]], lab := some [⟨"(0,0,0)", -1⟩], ini := true },
        some { NewCube 0 1 with s0 := [[6]], s1 := [[4]], lab := some [⟨"(1,0,0)", -1⟩] },
        some { NewCube 0 2 with s0 := [[7]], s1 := [[5]], lab := some [⟨"(0,1,0)", -1⟩] },
        some { NewCube 0 3 with s1 := [[6, 7]], lab := some [⟨"(1,1,0)", -1⟩] },
        some { NewCube 1 4 with d0 := [some 0], d1 := [some 1], lab := some [⟨"a", 0⟩] },
        some { NewCube 1 5 with d0 := [some 0], d1 := [some 2], lab := some [⟨"b", 1⟩] },
        some { NewCube 1 6 with d0 := [some 1], d1 := [some 3], lab := some [⟨"b", 1⟩] },
        some { NewCube 1 7 with d0 := [some 2], d1 := [some 3], lab := some [⟨"a", 0⟩] } ],
    cubelist := [[0, 1, 2, 3], [4, 5, 6, 7], []] }

/-- A store with the vertices 0, 1 and the single edge `a` (2, from 0 to 1). -/
def singleEdge : Store :=
  { cubes :=
      [ some { NewCube 0 0 with s0 := [[2]], lab := some [⟨"(0,0)", -1⟩], ini := true },
        some { NewCube 0 1 with s1 := [[2]], lab := some [⟨"(1,0)", -1⟩] },
        some { NewCube 1 2 with d0 := [some 0], d1 := [some 1], lab := some [⟨"a", 0⟩] } ],
    cubelist := [[0, 1], [2]] }

/-- The cubical identity of a cube with the cell `c`: for `i < j` and all `k`,
`l`, the faces `c.d[l][j].d[k][i]` and `c.d[k][i].d[l][j-1]` are defined and
equal. -/
def CubicalIdentity (st : Store) (c : cube) : Prop :=
  ∀ i j k l, i < j → j < c.degree → k < 2 → l < 2 →
    ∃ f g y, c.d l j = some (some f) ∧ c.d k i = some (some g) ∧
      st.bd (some f) k i = some (some y) ∧ st.bd (some g) l (j - 1) = some (some y)

/-- The invariant of the construction, on the cubes that are stored. -/
structure Inv (st : Store) : Prop where
  shape : ∀ x c, st.get (some x) = some c →
    c.d0.length = c.degree ∧ c.d1.length = c.degree ∧ c.s0.length = c.degree + 1 ∧
    c.s1.length = c.degree + 1 ∧ c.edges.length = c.degree
  faces : ∀ x c k i, st.get (some x) = some c → k < 2 → i < c.degree →
    ∃ f cf, c.d k i = some (some f) ∧ st.get (some f) = some cf ∧ cf.degree + 1 = c.degree
  cofSound : ∀ f cf k i l y, st.get (some f) = some cf → cf.s k i = some l → y ∈ l →
    ∃ cy, st.get (some y) = some cy ∧ cy.d k i = some (some f)
  cofNodup : ∀ f cf k i l, st.get (some f) = some cf → cf.s k i = some l → l.Nodup
  cofComplete : ∀ y cy k i f, st.get (some y) = some cy → cy.d k i = some (some f) →
    ∃ cf l, st.get (some f) = some cf ∧ cf.s k i = some l ∧ y ∈ l
  listed : ∀ d l x, st.cubelist[d]? = some l → x ∈ l →
    ∃ c, st.get (some x) = some c ∧ c.degree = d
  listedAll : ∀ x c, st.get (some x) = some c → 1 ≤ c.degree →
    ∃ l, st.cubelist[c.degree]? = some l ∧ x ∈ l
  ident : ∀ x c, st.get (some x) = some c → CubicalIdentity st c
  unique : ∀ x y cx cy, st.get (some x) = some cx → st.get (some y) = some cy →
    2 ≤ cx.degree → cx.d0 = cy.d0 → cx.d1 = cy.d1 → x = y
  edges1 : ∀ x c, st.get (some x) = some c → c.degree = 1 → c.edges = [some x]
  edgesOK : ∀ x c i, st.get (some x) = some c → i < c.degree →
    ∃ e ce p, c.edges[i]? = some (some e) ∧ st.get (some e) = some ce ∧ ce.degree = 1 ∧
      st.pid (some e) = some p
  edgesFace : ∀ x c j, st.get (some x) = some c → 2 ≤ c.degree → j < c.degree →
    ∃ f cf, c.d 0 j = some (some f) ∧ st.get (some f) = some cf ∧
      cf.edges = c.edges.eraseIdx j
  pids : ∀ (x : Nat) (c : cube) (i j : Nat) (e1 e2 : Option Nat), st.get (some x) = some c → i < j →
    c.edges[i]? = some e1 → c.edges[j]? = some e2 → st.pid e1 ≠ st.pid e2

/-- What a finished cube `c` has to satisfy in the store `st` so that linking it
keeps the invariant. -/
structure Cand (st : Store) (c : cube) : Prop where
  pos : 1 ≤ c.degree
  shape : c.d0.length = c.degree ∧ c.d1.length = c.degree ∧
    c.s0 = List.replicate (c.degree + 1) [] ∧ c.s1 = List.replicate (c.degree + 1) [] ∧
    c.edges.length = c.degree
  faces : ∀ k i, k < 2 → i < c.degree →
    ∃ f cf, c.d k i = some (some f) ∧ st.get (some f) = some cf ∧ cf.degree + 1 = c.degree
  ident : CubicalIdentity st c
  unique : 2 ≤ c.degree → ∀ y cy, st.get (some y) = some cy → ¬ (cy.d0 = c.d0 ∧ cy.d1 = c.d1)
  edges1 : c.degree = 1 → c.edges = [some st.cubes.length] ∧ ∃ l ls, c.lab = some (l :: ls)
  edgesOK : 2 ≤ c.degree → ∀ i, i < c.degree →
    ∃ e ce p, c.edges[i]? = some (some e) ∧ st.get (some e) = some ce ∧ ce.degree = 1 ∧
      st.pid (some e) = some p
  edgesFace : 2 ≤ c.degree → ∀ j, j < c.degree →
    ∃ f cf, c.d 0 j = some (some f) ∧ st.get (some f) = some cf ∧
      cf.edges = c.edges.eraseIdx j
  pids : ∀ (i j : Nat) (e1 e2 : Option Nat), i < j → c.edges[i]? = some e1 → c.edges[j]? = some e2 →
    st.pid e1 ≠ st.pid e2

/-- Read `cub->d[k][i]` of a cube under assembly. -/
def Assembly.d (a : Assembly) (k i : Nat) : Option (Option Nat) :=
  match k with
  | 0 => a.d0[i]?
  | 1 => a.d1[i]?
  | _ => none

/-- Every stored cube that has the faces of the cube under assembly on the axes
in `W` is a member of `others`. -/
def AsmInv (st : Store) (W : Nat → Prop) (a : Assembly) : Prop :=
  ∀ y cy, st.get (some y) = some cy →
    (∀ x, W x → cy.d 0 x = a.d 0 x ∧ cy.d 1 x = a.d 1 x) → y ∈ a.others

/-- The cube `e` of the store `s` is an edge from the vertex `x` to the vertex
`z` whose label carries the process id `p`. -/
def Arrow (s : Store) (e x z : Nat) (p : Int) : Prop :=
  ∃ c, s.get (some e) = some c ∧ c.degree = 1 ∧ c.d 0 0 = some (some x) ∧
    c.d 1 0 = some (some z) ∧ s.pid (some e) = some p

/-- The cube `c` has the cube `e` among its faces. -/
def HasFace (c : cube) (e : Nat) : Prop :=
  ∃ k i, c.d k i = some (some e)

/-- The boundary of a square that the first half of `FillSquares` creates for
`edge` from the edges `pc`, `pc2`, `pc3`. -/
def FwdShape (edge pc pc2 pc3 : Nat) (c : cube) : Prop :=
  (c.d0 = [some edge, some pc] ∧ c.d1 = [some pc3, some pc2]) ∨
  (c.d0 = [some pc, some edge] ∧ c.d1 = [some pc2, some pc3])

/-- The boundary of a square that the second half of `FillSquares` creates for
`edge` from the edges `pc`, `pc2`, `pc3`. -/
def BwdShape (edge pc pc2 pc3 : Nat) (c : cube) : Prop :=
  (c.d0 = [some pc3, some pc2] ∧ c.d1 = [some edge, some pc]) ∨
  (c.d0 = [some pc2, some pc3] ∧ c.d1 = [some pc, some edge])

/-- Every stored cube with the face `edge` is a square that `FillSquares` has
created for `edge`: in its first half from a triple in `S`, or in its second half
from a triple in `T`. -/
def SqTrack (edge : Nat) (S T : Nat → Nat → Nat → Prop) (st : Store) : Prop :=
  ∀ y cy, st.get (some y) = some cy → HasFace cy edge →
    (∃ pc pc2 pc3, S pc pc2 pc3 ∧ FwdShape edge pc pc2 pc3 cy) ∨
    (∃ pc pc2 pc3, T pc pc2 pc3 ∧ BwdShape edge pc pc2 pc3 cy)

/-- The invariant of the loops of `FillSquares`, relative to the store `base` at
the entry of a loop. -/
def SqInv (base : Store) (edge : Nat) (S T : Nat → Nat → Nat → Prop) (a : Store × Nat) : Prop :=
  Inv a.1 ∧ Ext base a.1 ∧ SqTrack edge S T a.1

/-- The cell of a vertex that is not yet a face of any cube. -/
def FreshVertex (c : cube) : Prop :=
  c.degree = 0 ∧ c.d0 = [] ∧ c.d1 = [] ∧ c.s0 = [[]] ∧ c.s1 = [[]] ∧ c.edges = []

/-- The cubes of the states of a list are stored vertices. -/
def QInv (st : Store) (q : List state) : Prop :=
  ∀ s, s ∈ q → IsVertex st (some s.cube)

/-- One process with two transitions from location 0 to location 1, labelled `a`
and `b`, both always enabled and without assignments (over the variable `x`). -/
def parallelEdges : System :=
  { pgvec := [ { loc_0 := some 0, loc_1 := some 1, cond_1 := some NewCondition } ],
    locs :=
      [ { index := 0,
          outtranslist :=
            [ { loc0 := some 0, loc1 := some 1, cond := some NewCondition,
                act := some { id := "a", assignments := [] } },
              { loc0 := some 0, loc1 := some 1, cond := some NewCondition,
                act := some { id := "b", assignments := [] } } ] },
        { index := 1, outtranslist := [] } ],
    varlist := [ { addr := 0, initialval := 0, id := "x" } ] }

/-- The cell that `NextState` (through `NewState`) fills for a state with the
label text `lbl`, stored at the address `self`. -/
def vertexCell (self : Nat) (lbl : String) : cube :=
  { NewCube 0 self with lab := some [⟨lbl, -1⟩] }

/-- The cell that `HandleState` fills for the edge of a transition of process `i`
with the action `name`, from the vertex `src` to the vertex `tgt`, stored at the
address `pc`. -/
def edgeCell (pc src tgt : Nat) (name : String) (i : Nat) : cube :=
  { NewCube 1 pc with
    d0 := [some src], d1 := [some tgt], edges := [some pc], lab := some [⟨name, (i : Int)⟩] }

/-- From `st` to `st'` every cube is kept with its degree, flags, boundary
arrays, edges and label; each of its coface lists and each per-degree collection
of `st'` begins with its value in `st`. -/
def Grown (st st' : Store) : Prop :=
  (∀ y cy, st.get (some y) = some cy →
    ∃ cy', st'.get (some y) = some cy' ∧ Frame cy cy' ∧
      ∀ k i l, cy.s k i = some l → ∃ l', cy'.s k i = some (l ++ l')) ∧
  (∀ (d : Nat) (l : List Nat), st.cubelist[d]? = some l →
    ∃ l', st'.cubelist[d]? = some (l ++ l'))

/-- The cubes of degree 0 and 1 of `st'` are cubes of `st`. -/
def KeepsLow (st st' : Store) : Prop :=
  ∀ x c, st'.get (some x) = some c → c.degree < 2 → ∃ c0, st.get (some x) = some c0

/-- Every stored cube of degree 0 is a member of `cubelist[0]`. -/
def VListed (st : Store) : Prop :=
  ∀ x c, st.get (some x) = some c → c.degree = 0 → ∃ l, st.cubelist[0]? = some l ∧ x ∈ l

/-- The coface lists of the store agree with the boundary arrays: the list
`f.s[k][i]` exists for every axis `i <= degree f`, no cube occurs twice in it, and
its members are the cubes of the collection of degree `degree f + 1` that have `f`
as their face `d[k][i]`. -/
def CofaceOK (st : Store) : Prop :=
  ∀ f cf, st.get (some f) = some cf → ∀ k i, k < 2 → i ≤ cf.degree →
    ∃ l, cf.s k i = some l ∧ l.Nodup ∧
      ∀ x, x ∈ l ↔ ∃ cx cl, st.get (some x) = some cx ∧ cx.degree = cf.degree + 1 ∧
        st.cubelist[cf.degree + 1]? = some cl ∧ x ∈ cl ∧ cx.d k i = some (some f)

/-- What `handleTransition` does for a transition `trans` of process `i` whose
guard evaluates to 1 in the state `sta`: from `a` to `a'` the edge
`a.store.cubes.length + 1` from `sta.cube` to the vertex `tgt` of the successor
state is created; `tgt` is either a new vertex, which is appended to
`cubelist[0]` and whose state is appended to the queue, or a vertex of
`cubelist[0]` with the label of the successor state, and then `FillCubes` is
called for the edge. -/
structure Fired (sys : System) (sta : state) (i : Nat) (trans : transition) (a a' : Explore)
    (locvec : List (Option Nat)) (valvec : List Int) (lbl : String) (act : action)
    (cl0 l1 : List Nat) (tgt : Nat) (ce : cube) : Prop where
  guard : CheckCondition sta.valvec trans.cond sys.varlist = some 1
  loc : setAt sta.locvec i trans.loc1 = some locvec
  eff : Effect trans.act sta.valvec sys.varlist = some valvec
  hlabel : stateLabel sys locvec valvec = some lbl
  hact : trans.act = some act
  hcl0 : a.store.cubelist[0]? = some cl0
  hl1 : a.store.cubelist[1]? = some l1
  grown : Grown a.store a'.store
  l1new : a'.store.cubelist[1]? = some (l1 ++ [a.store.cubes.length + 1])
  edge : a'.store.get (some (a.store.cubes.length + 1)) = some ce
  edgeFrame : Frame (edgeCell (a.store.cubes.length + 1) sta.cube tgt act.id i) ce
  fresh : a.store.get (some (a.store.cubes.length + 1)) = none
  tgtLab : a'.store.lab (some tgt) = some (some [⟨lbl, -1⟩])
  low : ∀ x c, a'.store.get (some x) = some c → c.degree < 2 →
    x = a.store.cubes.length + 1 ∨ x = tgt ∨ ∃ c0, a.store.get (some x) = some c0
  cases :
    (tgt = a.store.cubes.length ∧
      (∀ x, x ∈ cl0 → a.store.lab (some x) ≠ some (some [⟨lbl, -1⟩])) ∧
      a'.store.cubelist[0]? = some (cl0 ++ [tgt]) ∧
      a'.statelist = a.statelist ++ [{ locvec := locvec, valvec := valvec, cube := tgt }] ∧
      a'.dim = (if 1 > a.dim then 1 else a.dim) ∧
      (∀ d, 2 ≤ d → a'.store.cubelist[d]? = a.store.cubelist[d]?) ∧
      ∃ cv, a'.store.get (some tgt) = some cv ∧ cv.degree = 0) ∨
    (tgt ∈ cl0 ∧ a.store.lab (some tgt) = some (some [⟨lbl, -1⟩]) ∧
      a'.store.cubelist[0]? = some cl0 ∧ a'.statelist = a.statelist ∧
      ∃ s3 r, FillCubes s3 (a.store.cubes.length + 1) = some r ∧ a'.store = r.1 ∧
        a'.dim = (if r.2 > (if 1 > a.dim then 1 else a.dim) then r.2
                  else (if 1 > a.dim then 1 else a.dim)) ∧
        s3.cubelist[1]? = some (l1 ++ [a.store.cubes.length + 1]) ∧
        ∀ d, d ≠ 1 → s3.cubelist[d]? = a.store.cubelist[d]?)

/-- The value `dim` is the largest degree whose collection is not empty. -/
def DimOK (st : Store) (dim : Int) : Prop :=
  ∃ D : Nat, dim = (D : Int) ∧ (∃ l, st.cubelist[D]? = some l ∧ l ≠ []) ∧
    ∀ (d : Nat) (l : List Nat), D < d → st.cubelist[d]? = some l → l = []

/-! ## The state space: reachable states, edges of transitions, runs -/

/-- The global state in which `MakeHDA` starts: every process in its initial
location, every variable at its initial value. -/
def initialState (sys : System) : List (Option Nat) × List Int :=
  (sys.pgvec.map (fun pg => pg.loc_0), sys.varlist.map (fun v => v.initialval))

/-- In the global state `g` the guard of the transition `t` evaluates to 1, and
taking `t` in process `i` leads to the global state `g'` (as `NextState`
computes it). -/
def StepT (sys : System) (g : List (Option Nat) × List Int) (i : Nat) (t : transition)
    (g' : List (Option Nat) × List Int) : Prop :=
  CheckCondition g.2 t.cond sys.varlist = some 1 ∧ setAt g.1 i t.loc1 = some g'.1 ∧
    Effect t.act g.2 sys.varlist = some g'.2

/-- The transition `t` is in the list of outgoing transitions of the location of
process `i` in the global state `g`, it is enabled there, and it leads to
`g'`. -/
def Step (sys : System) (g : List (Option Nat) × List Int) (i : Nat) (t : transition)
    (g' : List (Option Nat) × List Int) : Prop :=
  ∃ p l, g.1[i]? = some p ∧ sys.loc p = some l ∧ t ∈ l.outtranslist ∧ StepT sys g i t g'

/-- The global states that are reachable from the initial state by a finite
sequence of enabled transitions. -/
inductive Reachable (sys : System) : List (Option Nat) × List Int → Prop
  | init : Reachable sys (initialState sys)
  | step (g g' : List (Option Nat) × List Int) (i : Nat) (t : transition) :
      Reachable sys g → Step sys g i t g' → Reachable sys g'

/-- The global state of a state record. -/
def state.glob (s : state) : List (Option Nat) × List Int := (s.locvec, s.valvec)

/-- The global state `g` has the label of one of the state records of `all`. -/
def Covered (sys : System) (all : List state) (g : List (Option Nat) × List Int) : Prop :=
  ∃ s lbl, s ∈ all ∧ stateLabel sys g.1 g.2 = some lbl ∧
    stateLabel sys s.locvec s.valvec = some lbl

/-- The invariant of the exploration: `done` are the states that were taken
from the queue, `queue` the states that wait. Their cubes are, in this order, the
members of `cubelist[0]`; every state is reachable and its cube carries its
label; different states have cubes with different labels; every successor of a
state of `done` has the label of a state of `done` or `queue`. -/
structure BInv (sys : System) (st : Store) (done queue : List state) : Prop where
  cl0 : st.cubelist[0]? = some ((done ++ queue).map (fun s => s.cube))
  nodup : ((done ++ queue).map (fun s => s.cube)).Nodup
  recs : ∀ s, s ∈ done ++ queue → Reachable sys s.glob ∧
    ∃ lbl, stateLabel sys s.locvec s.valvec = some lbl ∧
      st.lab (some s.cube) = some (some [⟨lbl, -1⟩])
  distinct : ∀ s s', s ∈ done ++ queue → s' ∈ done ++ queue →
    st.lab (some s.cube) = st.lab (some s'.cube) → s.cube = s'.cube
  closed : ∀ s, s ∈ done → ∀ i t g', Step sys s.glob i t g' → Covered sys (done ++ queue) g'
  init : ∃ s, s ∈ done ++ queue ∧ s.glob = initialState sys
/-- The members of `cubelist[1]` (none if the array has no such entry). -/
def edgesList (st : Store) : List Nat := (st.cubelist[1]?).getD []

/-- The pairs (process, transition) that the loops of `HandleState` meet for the
processes `pre` of the state `sta` and whose guard evaluates to 1 at `sta`, in
the order of the loops. -/
def enabledAt (sys : System) (sta : state) (pre : List (Nat × Option Nat)) :
    List (Nat × transition) :=
  pre.flatMap (fun ip =>
    match sys.loc ip.2 with
    | none => []
    | some l =>
      (l.outtranslist.filter
        (fun t => decide (CheckCondition sta.valvec t.cond sys.varlist = some 1))).map
        (fun t => (ip.1, t)))

/-- The enabled transitions of the state `sta`: for every process `i`, the
transitions in the list of the location of `i` whose guard evaluates to 1. -/
def enabled (sys : System) (sta : state) : List (Nat × transition) :=
  enabledAt sys sta sta.locvec.enum

/-- The cell `e` is the edge of the transition `it.2` of process `it.1` at the
state `sta`: a cube of degree 1 from the cube of `sta` to a member of
`cubelist[0]` that carries the label of the successor, with the label (action
id, process). -/
def EdgeOf (sys : System) (st : Store) (sta : state) (e : Nat) (it : Nat × transition) : Prop :=
  ∃ ce tgt act locvec valvec lbl cl0,
    st.get (some e) = some ce ∧ ce.degree = 1 ∧ ce.d0 = [some sta.cube] ∧ ce.d1 = [some tgt] ∧
    it.2.act = some act ∧ ce.lab = some [⟨act.id, (it.1 : Int)⟩] ∧
    CheckCondition sta.valvec it.2.cond sys.varlist = some 1 ∧
    setAt sta.locvec it.1 it.2.loc1 = some locvec ∧
    Effect it.2.act sta.valvec sys.varlist = some valvec ∧
    stateLabel sys locvec valvec = some lbl ∧
    st.cubelist[0]? = some cl0 ∧ tgt ∈ cl0 ∧ st.lab (some tgt) = some (some [⟨lbl, -1⟩])

/-- Every cell of `st` is in `st'` with the same degree, boundary, edges and
label, and the per-degree collections have grown at the end. -/
def Kept (st st' : Store) : Prop :=
  (∀ y cy, st.get (some y) = some cy → ∃ cy', st'.get (some y) = some cy' ∧ Core cy cy') ∧
  (∀ (d : Nat) (l : List Nat), st.cubelist[d]? = some l → ∃ l', st'.cubelist[d]? = some (l ++ l'))

/-- The edges account for the transitions: `cubelist[1]` is, in this order, one
block of edges for every state of `done`, and the edges of a block are, one by
one, the edges of the enabled transitions of the state. -/
def EInv (sys : System) (st : Store) (done : List state) : Prop :=
  ∃ ess : List (List Nat), edgesList st = ess.flatten ∧ ess.flatten.Nodup ∧
    (∀ e, e ∈ ess.flatten → ∃ c, st.get (some e) = some c) ∧
    List.Forall₂ (fun es sta => List.Forall₂ (EdgeOf sys st sta) es (enabled sys sta)) ess done

/-- How a run of a loop with a bound ends: it returns, it meets undefined
behaviour (a null pointer, a missing variable, `exit`), or the bound is reached
before the loop is left. -/
inductive Outcome (α : Type) where
  | returned (a : α) : Outcome α
  | undefined : Outcome α
  | unfinished : Outcome α

/-- The loop `while (queue)` of `MakeHDA` as `MakeHDALoop`, with the three ways
in which the run can end told apart and with the list `tr` of the states that were
taken from the queue, in this order. -/
def MakeHDALoopRun (sys : System) :
    Nat → Store → List state → Int → List state → Outcome (Store × Int × List state)
  | _, st, [], dim, tr => Outcome.returned (st, dim, tr)
  | 0, _, _ :: _, _, _ => Outcome.unfinished
  | fuel + 1, st, sta :: queue, dim, tr =>
    match IsFinal sys sta with
    | none => Outcome.undefined
    | some isfinal =>
      match (if isfinal ≠ 0 then setFin st sta.cube else some st) with
      | none => Outcome.undefined
      | some s1 =>
        match HandleState sys sta s1 (sta :: queue) with
        | none => Outcome.undefined
        | some a =>
          MakeHDALoopRun sys fuel a.store a.statelist.tail (if a.dim > dim then a.dim else dim)
            (tr ++ [sta])

/-- `MakeHDA` as a run: the store, the dimension, and the states that were taken
from the queue. -/
def MakeHDARun (fuel : Nat) (sys : System) (st : Store) : Outcome (Store × Int × List state) :=
  match InitialStates st sys with
  | none => Outcome.undefined
  | some r =>
    match CubesOfStates r.1 r.2 with
    | none => Outcome.undefined
    | some s1 => MakeHDALoopRun sys fuel s1 r.2 0 []

/-- While `HandleState` handles the state `sta`, started on the store `st`: the
store `b` has grown from `st`, the cells appended to `cubelist[1]` are new,
different from each other and, one by one, the edges of the pairs `items`, and
every cube of degree 1 of `b` is one of them or a cell of `st`. -/
def EdgesFor (sys : System) (sta : state) (st b : Store) (items : List (Nat × transition)) :
    Prop :=
  Grown st b ∧ ∃ new, edgesList b = edgesList st ++ new ∧ new.Nodup ∧
    (∀ e, e ∈ new → st.get (some e) = none ∧ ∃ c, b.get (some e) = some c) ∧
    List.Forall₂ (EdgeOf sys b sta) new items ∧
    ∀ x c, b.get (some x) = some c → c.degree = 1 → x ∈ new ∨ ∃ c0, st.get (some x) = some c0

/-! ## Notions for the statements about lists, labels and the upper index loop -/

/-- The test of `MergeLists` whether the element `b` of `list2` is equal to the
element `a` of `*list1`: `cmp(b, a) == 0`, or `b == a` when `cmp` is `NULL`. -/
def mergeEq {α : Type} (cmp : Option (α → α → Int)) (b a : α) : Prop :=
  match cmp with
  | some c => c b a = 0
  | none => b = a

/-- The label vectors in the store: a cube of degree 0 or 1 has a label vector
with one entry, a cube of degree at least 2 has none (`lab` is `NULL`). -/
def LabOK (st : Store) : Prop :=
  ∀ x c, st.get (some x) = some c →
    (c.degree < 2 → ∃ l, c.lab = some [l]) ∧ (2 ≤ c.degree → c.lab = none)

/-- Three processes over the variable `x`, initially 0: process 0 has the
transition `b` from its location 0 to its location 1 (always enabled, no
assignment); the processes 1 and 2 have one location each with a loop, `a` resp.
`c`, with the guard `x < 2` and the assignment `x := x + 1`. The locations have
the addresses 0, 1 (process 0), 2 (process 1) and 3 (process 2). -/
def sharedCounter : System :=
  { pgvec :=
      [ { loc_0 := some 0, loc_1 := some 1, cond_1 := some NewCondition },
        { loc_0 := some 2, loc_1 := some 2, cond_1 := some NewCondition },
        { loc_0 := some 3, loc_1 := some 3, cond_1 := some NewCondition } ],
    locs :=
      [ { index := 0,
          outtranslist :=
            [ { loc0 := some 0, loc1 := some 1, cond := some NewCondition,
                act := some { id := "b", assignments := [] } } ] },
        { index := 1, outtranslist := [] },
        { index := 0,
          outtranslist :=
            [ { loc0 := some 2, loc1 := some 2,
                cond := some { exp := ast.exp L (ast.var 0) (ast.num 2) },
                act := some { id := "a",
                              assignments :=
                                [ { var := 0, exp := ast.exp PLUS (ast.var 0) (ast.num 1) } ] } } ] },
        { index := 0,
          outtranslist :=
            [ { loc0 := some 3, loc1 := some 3,
                cond := some { exp := ast.exp L (ast.var 0) (ast.num 2) },
                act := some { id := "c",
                              assignments :=
                                [ { var := 0, exp := ast.exp PLUS (ast.var 0) (ast.num 1) } ] } } ] } ],
    varlist := [ { addr := 0, initialval := 0, id := "x" } ] }

/-- What is read off the store that `MakeHDA` returns for `sharedCounter`: the
dimension, the per-degree collections, the boundary arrays of the squares 27 and
28, the configurations that `Config` finds for the faces 28, 27 of the edge 26,
the list that `Upperindices` returns for the configuration `[0, 1]`, whether a
call of `FillHDCubes` for this edge returns the store as it is with the count 0,
and the counts after a pass of the loop over the upper index vectors with the
first and with the second vector of that list. -/
structure SlipReport where
  dim : Int
  cubelist : List (List Nat)
  faces27 : Option (List (Option Nat) × List (Option Nat))
  faces28 : Option (List (Option Nat) × List (Option Nat))
  config : Option (List (List Nat))
  upperindices : Option (List (List Nat))
  nothingAdded : Bool
  firstVector : Option Nat
  secondVector : Option Nat
deriving DecidableEq, Repr

/-- The report of a run of `MakeHDA` on `sharedCounter`. -/
def slipReport (r : Option (Store × Int)) : Option SlipReport :=
  r.map (fun r =>
    { dim := r.2,
      cubelist := r.1.cubelist,
      faces27 := facesOf r.1 27,
      faces28 := facesOf r.1 28,
      config := Config r.1 26 3 [[0], [1]] [28, 27],
      upperindices := Upperindices r.1 0 [28, 27] [0, 1],
      nothingAdded := decide (FillHDCubes r.1 26 3 2 = some (r.1, 0)),
      firstVector := (upperPass [28, 27] [0, 1] 0 3 [0, 0] (r.1, 0)).map (fun a => a.2),
      secondVector := (upperPass [28, 27] [0, 1] 0 3 [1, 1] (r.1, 0)).map (fun a => a.2) })

/-- Between the store `base` at the entry of `FillSquares` and the store `s`
during its loops: each cube of `base` is in `s` with its degree, flags, boundary
arrays, edges and label, its rows of coface lists have kept their lengths, and
the coface lists of the cubes of degree 0 are unchanged; the array `cubelist[]`
has kept its length. -/
def SqKeep (base s : Store) : Prop :=
  base.cubelist.length = s.cubelist.length ∧
  ∀ y cy, base.get (some y) = some cy →
    ∃ cy', s.get (some y) = some cy' ∧ Frame cy cy' ∧
      cy'.s0.length = cy.s0.length ∧ cy'.s1.length = cy.s1.length ∧
      (cy.degree = 0 → cy'.s0 = cy.s0 ∧ cy'.s1 = cy.s1)

/-- The cells of `st` are in `s` with rows of coface lists of the same lengths,
and the collections are those of `st`. -/
def sameRows (st s : Store) : Prop :=
  s.cubelist = st.cubelist ∧
  ∀ y cy, st.get (some y) = some cy →
    ∃ cy', s.get (some y) = some cy' ∧ cy'.s0.length = cy.s0.length ∧
      cy'.s1.length = cy.s1.length


/-- What `FillSquares` needs of a cell of degree 0 or 1: a vertex has one coface
list per row, whose members are stored cubes of degree 1; an edge has two coface
lists per row, a label vector with an entry 0, and two ends that are stored cubes
of degree 0. -/
def cellReady (st : Store) (c : cube) : Bool :=
  if c.degree = 0 then
    decide (c.s0.length = 1) && decide (c.s1.length = 1) &&
      (c.s0.flatten ++ c.s1.flatten).all
        (fun y => (st.get (some y)).any (fun cy => decide (cy.degree = 1)))
  else if c.degree = 1 then
    decide (c.s0.length = 2) && decide (c.s1.length = 2) &&
      (match c.lab with
       | some (_ :: _) => true
       | _ => false) &&
      (match c.d 0 0, c.d 1 0 with
       | some (some u), some (some v) =>
         (st.get (some u)).any (fun cu => decide (cu.degree = 0)) &&
           (st.get (some v)).any (fun cv => decide (cv.degree = 0))
       | _, _ => false)
  else true

/-- Every stored cube of degree 0 or 1 is as `FillSquares` needs it. -/
def lowReady (st : Store) : Bool :=
  st.cubes.all (fun oc =>
    match oc with
    | none => true
    | some c => cellReady st c)

/-- The cube `x` of `st` is an edge with the label entry `l` from the vertex `u`
to the vertex `v`, with two coface lists per row. -/
structure EdgeAt (st : Store) (x : Nat) (l : label) (u v : Nat) : Prop where
  cell : ∃ c ls, st.get (some x) = some c ∧ c.degree = 1 ∧ c.lab = some (l :: ls) ∧
    c.s0.length = 2 ∧ c.s1.length = 2 ∧ c.d 0 0 = some (some u) ∧ c.d 1 0 = some (some v)
  src : ∃ cu, st.get (some u) = some cu ∧ cu.degree = 0
  tgt : ∃ cv, st.get (some v) = some cv ∧ cv.degree = 0

/-- The front vertex `e->d[0][0]` of an edge. -/
def frontVertex (st : Store) (e : Nat) : Option Nat := (st.bd (some e) 0 0).join

/-- The back vertex `e->d[1][0]` of an edge. -/
def backVertex (st : Store) (e : Nat) : Option Nat := (st.bd (some e) 1 0).join

/-- The out-edges of a vertex: the members of its coface list `s[0][0]`, in the
order of the list. -/
def outEdges (st : Store) (v : Option Nat) : List Nat := (st.cof v 0 0).getD []

/-- The in-edges of a vertex: the members of its coface list `s[1][0]`, in the
order of the list. -/
def inEdges (st : Store) (v : Option Nat) : List Nat := (st.cof v 1 0).getD []

/-- The forward matches `(f, g, h)` for the edges `e`, `f`, `g`: `h` is an
out-edge of the back vertex of `f` with the label of `e` and the back vertex of
`g`. -/
def fwdMatches3 (st : Store) (e f g : Nat) : List (Nat × Nat × Nat) :=
  (outEdges st (backVertex st f)).flatMap (fun h =>
    if st.lab (some h) = st.lab (some e) ∧ backVertex st h = backVertex st g then [(f, g, h)]
    else [])

/-- The forward matches `(f, g, h)` for the edges `e`, `f`: `g` is an out-edge of
the back vertex of `e` with the label of `f`. -/
def fwdMatches2 (st : Store) (e f : Nat) : List (Nat × Nat × Nat) :=
  (outEdges st (backVertex st e)).flatMap (fun g =>
    if st.lab (some g) = st.lab (some f) then fwdMatches3 st e f g else [])

/-- The forward matches of the edge `e` in the words of the specification: the
triples `(f, g, h)` with `f` in the out-edges of the front vertex of `e` and
`pid(f) != pid(e)`, `g` in the out-edges of the back vertex of `e` with
`label(g) = label(f)`, `h` in the out-edges of the back vertex of `f` with
`label(h) = label(e)` and the back vertex of `g`. -/
def fwdMatches (st : Store) (e : Nat) : List (Nat × Nat × Nat) :=
  (outEdges st (frontVertex st e)).flatMap (fun f =>
    if st.pid (some f) ≠ st.pid (some e) then fwdMatches2 st e f else [])

/-- The backward matches `(f, g, h)` for the edges `e`, `f`, `g`: `h` is an
in-edge of the front vertex of `f`, different from `e`, with the label of `e` and
the front vertex of `g`. -/
def bwdMatches3 (st : Store) (e f g : Nat) : List (Nat × Nat × Nat) :=
  (inEdges st (frontVertex st f)).flatMap (fun h =>
    if h ≠ e ∧ st.lab (some h) = st.lab (some e) ∧ frontVertex st h = frontVertex st g then
      [(f, g, h)]
    else [])

/-- The backward matches `(f, g, h)` for the edges `e`, `f`: `g` is an in-edge of
the front vertex of `e` with the label of `f`. -/
def bwdMatches2 (st : Store) (e f : Nat) : List (Nat × Nat × Nat) :=
  (inEdges st (frontVertex st e)).flatMap (fun g =>
    if st.lab (some g) = st.lab (some f) then bwdMatches3 st e f g else [])

/-- The backward matches of the edge `e` in the words of the specification: the
mirror triples over in-edges, with the extra condition `h != e`. -/
def bwdMatches (st : Store) (e : Nat) : List (Nat × Nat × Nat) :=
  (inEdges st (backVertex st e)).flatMap (fun f =>
    if st.pid (some f) ≠ st.pid (some e) then bwdMatches2 st e f else [])

/-- The process id of the edge `x` is less than that of the edge `y`. -/
def pidLt (st : Store) (x y : Nat) : Bool :=
  match st.pid (some x), st.pid (some y) with
  | some p, some q => decide (p < q)
  | _, _ => false

/-- The faces `(d[0][0], d[0][1], d[1][0], d[1][1])` that the first half of
`FillSquares` gives the square of the match `(f, g, h)` of the edge `e`. -/
def fwdQuad (st : Store) (e : Nat) (m : Nat × Nat × Nat) : Nat × Nat × Nat × Nat :=
  if pidLt st m.1 e then (e, m.1, m.2.2, m.2.1) else (m.1, e, m.2.1, m.2.2)

/-- The faces `(d[0][0], d[0][1], d[1][0], d[1][1])` that the second half of
`FillSquares` gives the square of the match `(f, g, h)` of the edge `e`. -/
def bwdQuad (st : Store) (e : Nat) (m : Nat × Nat × Nat) : Nat × Nat × Nat × Nat :=
  if pidLt st m.1 e then (m.2.2, m.2.1, e, m.1) else (m.2.1, m.2.2, m.1, e)

/-- The statements of `FillSquares` for one match: the square with the faces `q`
is created and `squarecount` is incremented. -/
def addSquare (a : Store × Nat) (q : Nat × Nat × Nat × Nat) : Option (Store × Nat) :=
  (newSquare a.1 q.1 q.2.1 q.2.2.1 q.2.2.2).map (fun s => (s, a.2 + 1))

/-- The faces of the squares of all matches of the edge `e`, the forward matches
first. -/
def matchQuads (st : Store) (e : Nat) : List (Nat × Nat × Nat × Nat) :=
  (fwdMatches st e).map (fwdQuad st e) ++ (bwdMatches st e).map (bwdQuad st e)

/-- The four faces `q` are edges of the store `st`. -/
def QuadOK (st : Store) (q : Nat × Nat × Nat × Nat) : Prop :=
  ∀ x, x = q.1 ∨ x = q.2.1 ∨ x = q.2.2.1 ∨ x = q.2.2.2 → ∃ l u v, EdgeAt st x l u v

/-! ## Notions for the statements about the candidates of `FillHDCubes` -/

/-- The coface lists agree with the boundary arrays: every member of a list
`f.s[k][i]` is a stored cube of degree `degree f + 1` whose face `d[k][i]` is `f`,
and every stored cube whose face `d[k][i]` is `f` is a member of `f.s[k][i]`. -/
def CofAgree (st : Store) : Prop :=
  (∀ f cf k i l y, st.get (some f) = some cf → cf.s k i = some l → y ∈ l →
    ∃ cy, st.get (some y) = some cy ∧ cy.degree = cf.degree + 1 ∧
      cy.d k i = some (some f)) ∧
  (∀ y cy k i f cf l, st.get (some y) = some cy → cy.d k i = some (some f) →
    st.get (some f) = some cf → cf.s k i = some l → y ∈ l)

/-- The members of `others` are exactly the stored cubes that have the faces of
the cube under assembly on the axes in `W`. -/
def AsmExact (st : Store) (W : Nat → Prop) (a : Assembly) : Prop :=
  ∀ y, y ∈ a.others ↔
    ∃ cy, st.get (some y) = some cy ∧ ∀ x, W x → cy.d 0 x = a.d 0 x ∧ cy.d 1 x = a.d 1 x

/-- The stored cube `y` has the degree `deg` and the boundary of the cube under
assembly: `y.d[k][i] = cub.d[k][i]` for `k` in `{0, 1}` and every axis `i`. -/
def SameBoundary (st : Store) (deg : Nat) (a : Assembly) (y : Nat) : Prop :=
  ∃ cy, st.get (some y) = some cy ∧ cy.degree = deg ∧
    ∀ k i, k < 2 → i < deg → cy.d k i = a.d k i

/-- The candidate with the boundary arrays of `asm` was inserted between the
states `a` and `a'` of the loop: it is the new cell of `a'`, and the count has
grown by one. -/
def Inserted (deg : Nat) (asm : Assembly) (a a' : Store × Nat) : Prop :=
  a'.1.cubes.length = a.1.cubes.length + 1 ∧ a'.2 = a.2 + 1 ∧
  ∃ c, a'.1.get (some a.1.cubes.length) = some c ∧ c.degree = deg ∧
    c.d0 = asm.d0 ∧ c.d1 = asm.d1

/-- The candidate that `FillHDCubes` would assemble a second time in the complex
of `threeProcesses`: the boundary of the cube 31. -/
def dupAsm : Assembly :=
  { d0 := [some 21, some 18, some 13], d1 := [some 26, some 29, some 30], others := [31] }

/-- What a run of `MakeHDA` on `threeProcesses` reports about the assembly of the
cube with the top faces 21, 26 for the faces 30, 29 in the returned complex. -/
structure DupReport where
  dim : Int
  cubelist : List (List Nat)
  asm : Option Assembly
  ok : Option Bool
  kept : Bool
deriving DecidableEq, Repr

/-- The report of a run of `MakeHDA` on `threeProcesses`. -/
def dupReport (r : Option (Store × Int)) : Option DupReport :=
  r.map (fun r =>
    { dim := r.2,
      cubelist := r.1.cubelist,
      asm := assemble r.1 [30, 29] [1, 0] [1, 1] [18, 13] 0 3 21 26,
      ok := BdIdsOK r.1 3 dupAsm.d0 dupAsm.d1,
      kept := decide (tryCube [30, 29] [1, 0] [1, 1] 0 3 21 26 (r.1, 0) [18, 13]
        = some (r.1, 0)) })

/-- What a run of `MakeHDA` on `sharedCounter` reports about the candidate with
the top faces 19, 24 for the faces 28, 27 and the upper indices `[1, 1]`, in the
returned complex: the assembly, the test, and the store after `tryCube`. -/
structure AcceptReport where
  dim : Int
  cubes : Nat
  asm : Option Assembly
  ok : Option Bool
  count : Option Nat
  cells : Option Nat
deriving DecidableEq, Repr

/-- The report of a run of `MakeHDA` on `sharedCounter`. -/
def acceptReport (r : Option (Store × Int)) : Option AcceptReport :=
  r.map (fun r =>
    { dim := r.2,
      cubes := r.1.cubes.length,
      asm := assemble r.1 [28, 27] [0, 1] [1, 1] [14, 13] 0 3 19 24,
      ok := (assemble r.1 [28, 27] [0, 1] [1, 1] [14, 13] 0 3 19 24).bind
        (fun asm => BdIdsOK r.1 3 asm.d0 asm.d1),
      count := (tryCube [28, 27] [0, 1] [1, 1] 0 3 19 24 (r.1, 0) [14, 13]).map (fun a => a.2),
      cells := (tryCube [28, 27] [0, 1] [1, 1] 0 3 19 24 (r.1, 0) [14, 13]).map
        (fun a => a.1.cubes.length) })

/-! ## Notions for the statement about the reuse of states in `HandleState` -/

/-- The store `s3` arises from `s2` by the insertion of exactly one cube, the
edge `e` of degree 1 at the address `pc`, with the front vertex `src` and the
back vertex `tgt`: the edge is appended to the collection of degree 1, to the
list `s[0][0]` of `src` and to the list `s[1][0]` of `tgt`; no other collection,
no other coface list and no other cube changes. -/
def EdgeAdded (s2 s3 : Store) (pc src tgt : Nat) (e : cube) : Prop :=
  pc = s2.cubes.length ∧ s3.cubes.length = s2.cubes.length + 1 ∧
  s3.get (some pc) = some e ∧ e.degree = 1 ∧ e.d0 = [some src] ∧ e.d1 = [some tgt] ∧
  (∃ l1, s2.cubelist[1]? = some l1 ∧ s3.cubelist[1]? = some (l1 ++ [pc])) ∧
  (∀ d, d ≠ 1 → s3.cubelist[d]? = s2.cubelist[d]?) ∧
  (∃ cs l, s2.get (some src) = some cs ∧ cs.s 0 0 = some l) ∧
  (∃ ct l, s2.get (some tgt) = some ct ∧ ct.s 1 0 = some l) ∧
  (∀ y cy, s2.get (some y) = some cy →
    ∃ cy', s3.get (some y) = some cy' ∧ Frame cy cy' ∧
      ∀ k j, cy'.s k j = (cy.s k j).map (fun l =>
        if (k = 0 ∧ j = 0 ∧ y = src) ∨ (k = 1 ∧ j = 0 ∧ y = tgt) then l ++ [pc] else l)) ∧
  (∀ y, y ≠ pc → s2.get (some y) = none → s3.get (some y) = none)

/-- The cells and the queue of `twoProcesses` before the last transition is
handled: the vertices 0, 1, 3, 5 and the edges 2, 4, 6; the state of the vertex
3 is the first of the queue. -/
def reuseReady : Explore :=
  { store :=
      { cubes := [
          some { degree := 0, ini := true, fin := false, d0 := [], d1 := [],
                 s0 := [[2, 4]], s1 := [[]], edges := [],
                 lab := some [⟨"(0,0,0)", -1⟩] },
          some { degree := 0, ini := false, fin := false, d0 := [], d1 := [],
                 s0 := [[6]], s1 := [[2]], edges := [],
                 lab := some [⟨"(1,0,0)", -1⟩] },
          some { degree := 1, ini := false, fin := false, d0 := [some 0], d1 := [some 1],
                 s0 := [[], []], s1 := [[], []], edges := [some 2],
                 lab := some [⟨"a", 0⟩] },
          some { degree := 0, ini := false, fin := false, d0 := [], d1 := [],
                 s0 := [[]], s1 := [[4]], edges := [],
                 lab := some [⟨"(0,1,0)", -1⟩] },
          some { degree := 1, ini := false, fin := false, d0 := [some 0], d1 := [some 3],
                 s0 := [[], []], s1 := [[], []], edges := [some 4],
                 lab := some [⟨"b", 1⟩] },
          some { degree := 0, ini := false, fin := false, d0 := [], d1 := [],
                 s0 := [[]], s1 := [[6]], edges := [],
                 lab := some [⟨"(1,1,0)", -1⟩] },
          some { degree := 1, ini := false, fin := false, d0 := [some 1], d1 := [some 5],
                 s0 := [[], []], s1 := [[], []], edges := [some 6],
                 lab := some [⟨"b", 1⟩] }],
        cubelist := [[0, 1, 3, 5], [2, 4, 6], []] },
    statelist := [{ locvec := [some 0, some 3], valvec := [0], cube := 3 },
                  { locvec := [some 1, some 3], valvec := [0], cube := 5 }],
    dim := 1 }

/-- The state of the vertex 3 of `twoProcesses`. -/
def reuseState : state := { locvec := [some 0, some 3], valvec := [0], cube := 3 }

/-- The transition `a` of the first process of `twoProcesses`. -/
def reuseTrans : transition :=
  { loc0 := some 0, loc1 := some 1,
    cond := some { exp := ast.exp 6 (ast.num 0) (ast.num 0) },
    act := some { id := "a", assignments := [] } }

/-! ## Notions for the statement about the array `faces` of `FillHDCubes` -/

/-- The array `faces` that `FillHDCubes` reads from the collection `cl`, which
is `cubelist[degree - 1]`: `facecount` elements, from the last one backwards. -/
def facesArray (cl : List Nat) (facecount : Nat) : Option (List Nat) :=
  mapOpt (fun i => cl.reverse[i % cl.length]?) (List.range facecount)

/-- The part of `FillHDCubes` that follows the filling of the array `faces`. -/
def FillHDCubesWith (st : Store) (edge degree facecount : Nat) (faces : List Nat) :
    Option (Store × Nat) :=
  match st.pid (some edge) with
  | none => none
  | some edgepid =>
    match Config st edge degree ((List.range facecount).map (fun i => [i])) faces with
    | none => none
    | some config =>
      match loopM (configPass faces edgepid degree) ((st, 0), none) config with
      | none => none
      | some a => some a.1

/-- The property of a call of `FillHDCubes` in the store `cur` that follows a
step from the store `prev`: `facecount` is the number of cubes that the step
appended to `cubelist[degree - 1]`, and the array `faces` consists of these
cubes, the most recent one first. -/
def FacesOK (edge : Nat) (call : Store × Store × Nat × Nat) : Prop :=
  3 ≤ call.2.2.1 ∧
  ∃ old new, call.1.cubelist[call.2.2.1 - 1]? = some old ∧
    call.2.1.cubelist[call.2.2.1 - 1]? = some (old ++ new) ∧
    new.length = call.2.2.2 ∧
    facesArray (old ++ new) call.2.2.2 = some new.reverse ∧
    (∀ i, i < call.2.2.2 →
      new.reverse[i]? = (old ++ new)[(old ++ new).length - 1 - i]?) ∧
    FillHDCubes call.2.1 edge call.2.2.1 call.2.2.2
      = FillHDCubesWith call.2.1 edge call.2.2.1 call.2.2.2 new.reverse

/-! ## Notions for the statement about the bound of the degrees -/

/-- The array `cubelist` has `n + 1` collections, and the label of every stored
cube of degree 1 carries a process id `p` with `0 ≤ p < n`. -/
def Bounded (n : Nat) (st : Store) : Prop :=
  st.cubelist.length = n + 1 ∧
  ∀ x c, st.get (some x) = some c → c.degree = 1 →
    ∃ p : Nat, st.pid (some x) = some (p : Int) ∧ p < n

/-! ## Notions for the statement about the flags -/

/-- The value of a decimal digit. -/
def digitVal (c : Char) : Nat := c.toNat - 48

/-- The number that a sequence of decimal digits denotes. -/
def decVal (cs : List Char) : Nat := cs.foldl (fun a c => 10 * a + digitVal c) 0

/-- The decimal digits. -/
def decDigits : List Char := ['0', '1', '2', '3', '4', '5', '6', '7', '8', '9']

/-- The characters of the decimal numeral of an integer, as `%d` prints it. -/
def intChars (z : Int) : List Char :=
  match z with
  | Int.ofNat m => Nat.toDigits 10 m
  | Int.negSucc m => '-' :: Nat.toDigits 10 (m + 1)

/-- The location indices of a vector of location pointers. -/
def locIndices (sys : System) (locvec : List (Option Nat)) : Option (List Int) :=
  mapOpt (fun p => (sys.loc p).map (fun l => l.index)) locvec

/-! ## The calls of `FillHDCubes` in one invocation of `FillCubes` -/

/-- The loop of `FillCubes` as `FillCubesLoop`, which returns in addition the
list of the calls `FillHDCubes(edge, cubelist, degree, facecount)` it has made:
each call is recorded with the store `prev` before the preceding step of the
invocation, the store `st` in which the call is made, and the arguments `degree`
and `facecount`. -/
def FillCubesLoopTraced (edge : Nat) :
    Nat → Store → Store → Nat → Int → Option (Store × Int × List (Store × Store × Nat × Nat))
  | 0, _, _, _, _ => none
  | fuel + 1, prev, st, facecount, dim =>
    if facecount = 0 then some (st, dim, [])
    else
      match FillHDCubes st edge (dim + 1 + 1).toNat facecount with
      | none => none
      | some r =>
        match FillCubesLoopTraced edge fuel st r.1 r.2 (dim + 1) with
        | none => none
        | some x => some (x.1, x.2.1, (prev, st, (dim + 1 + 1).toNat, facecount) :: x.2.2)

/-- `FillCubes(edge, cubelist)` with the list of the calls of `FillHDCubes` it
has made; the store before the first call's preceding step, `FillSquares`, is the
store of the invocation. -/
def FillCubesTraced (st : Store) (edge : Nat) :
    Option (Store × Int × List (Store × Store × Nat × Nat)) :=
  match FillSquares st edge with
  | none => none
  | some r =>
    FillCubesLoopTraced edge (st.cubelist.length + 1) st r.1 r.2 (if r.2 > 0 then 1 else -1)

/-- The store of the run of `MakeHDA` for `threeProcesses` at the moment when
the last edge 28 has been created and `FillCubes` is called for it: the vertices,
the twelve edges and the squares 13, 18, 21, 26; five cells are released. -/
def threeReady : Store :=
  { cubes := [
          some { degree := 0, ini := true, fin := false, d0 := [], d1 := [],
                 s0 := [[2, 4, 6]], s1 := [[]], edges := [],
                 lab := some [⟨"(0,0,0,0)", -1⟩] },
          some { degree := 0, ini := false, fin := false, d0 := [], d1 := [],
                 s0 := [[8, 10]], s1 := [[2]], edges := [],
                 lab := some [⟨"(1,0,0,0)", -1⟩] },
          some { degree := 1, ini := false, fin := false, d0 := [some 0], d1 := [some 1],
                 s0 := [[], [13, 18]], s1 := [[], []], edges := [some 2],
                 lab := some [⟨"a", 0⟩] },
          some { degree := 0, ini := false, fin := false, d0 := [], d1 := [],
                 s0 := [[12, 15]], s1 := [[4]], edges := [],
                 lab := some [⟨"(0,1,0,0)", -1⟩] },
          some { degree := 1, ini := false, fin := false, d0 := [some 0], d1 := [some 3],
                 s0 := [[13], [21]], s1 := [[], []], edges := [some 4],
                 lab := some [⟨"b", 1⟩] },
          some { degree := 0, ini := false, fin := false, d0 := [], d1 := [],
                 s0 := [[17, 20]], s1 := [[6]], edges := [],
                 lab := some [⟨"(0,0,1,0)", -1⟩] },
          some { degree := 1, ini := false, fin := false, d0 := [some 0], d1 := [some 5],
                 s0 := [[18, 21], []], s1 := [[], []], edges := [some 6],
                 lab := some [⟨"c", 2⟩] },
          some { degree := 0, ini := false, fin := false, d0 := [], d1 := [],
                 s0 := [[23]], s1 := [[8, 12]], edges := [],
                 lab := some [⟨"(1,1,0,0)", -1⟩] },
          some { degree := 1, ini := false, fin := false, d0 := [some 1], d1 := [some 7],
                 s0 := [[], [26]], s1 := [[13], []], edges := [some 8],
                 lab := some [⟨"b", 1⟩] },
          some { degree := 0, ini := false, fin := false, d0 := [], d1 := [],
                 s0 := [[25]], s1 := [[10, 17]], edges := [],
                 lab := some [⟨"(1,0,1,0)", -1⟩] },
          some { degree := 1, ini := false, fin := false, d0 := [some 1], d1 := [some 9],
                 s0 := [[26], []], s1 := [[18], []], edges := [some 10],
                 lab := some [⟨"c", 2⟩] },
          none,
          some { degree := 1, ini := false, fin := false, d0 := [some 3], d1 := [some 7],
                 s0 := [[], []], s1 := [[], [13]], edges := [some 12],
                 lab := some [⟨"a", 0⟩] },
          some { degree := 2, ini := false, fin := false, d0 := [some 4, some 2], d1 := [some 8, some 12],
                 s0 := [[], [], []], s1 := [[], [], []], edges := [some 2, some 4],
                 lab := none },
          some { degree := 0, ini := false, fin := false, d0 := [], d1 := [],
                 s0 := [[28]], s1 := [[15, 20]], edges := [],
                 lab := some [⟨"(0,1,1,0)", -1⟩] },
          some { degree := 1, ini := false, fin := false, d0 := [some 3], d1 := [some 14],
                 s0 := [[], []], s1 := [[21], []], edges := [some 15],
                 lab := some [⟨"c", 2⟩] },
          none,
          some { degree := 1, ini := false, fin := false, d0 := [some 5], d1 := [some 9],
                 s0 := [[], []], s1 := [[], [18]], edges := [some 17],
                 lab := some [⟨"a", 0⟩] },
          some { degree := 2, ini := false, fin := false, d0 := [some 6, some 2], d1 := [some 10, some 17],
                 s0 := [[], [], []], s1 := [[], [], []], edges := [some 2, some 6],
                 lab := none },
          none,
          some { degree := 1, ini := false, fin := false, d0 := [some 5], d1 := [some 14],
                 s0 := [[], []], s1 := [[], [21]], edges := [some 20],
                 lab := some [⟨"b", 1⟩] },
          some { degree := 2, ini := false, fin := false, d0 := [some 6, some 4], d1 := [some 15, some 20],
                 s0 := [[], [], []], s1 := [[], [], []], edges := [some 4, some 6],
                 lab := none },
          some { degree := 0, ini := false, fin := false, d0 := [], d1 := [],
                 s0 := [[]], s1 := [[23, 25, 28]], edges := [],
                 lab := some [⟨"(1,1,1,0)", -1⟩] },
          some { degree := 1, ini := false, fin := false, d0 := [some 7], d1 := [some 22],
                 s0 := [[], []], s1 := [[26], []], edges := [some 23],
                 lab := some [⟨"c", 2⟩] },
          none,
          some { degree := 1, ini := false, fin := false, d0 := [some 9], d1 := [some 22],
                 s0 := [[], []], s1 := [[], [26]], edges := [some 25],
                 lab := some [⟨"b", 1⟩] },
          some { degree := 2, ini := false, fin := false, d0 := [some 10, some 8], d1 := [some 23, some 25],
                 s0 := [[], [], []], s1 := [[], [], []], edges := [some 8, some 10],
                 lab := none },
          none,
          some { degree := 1, ini := false, fin := false, d0 := [some 14], d1 := [some 22],
                 s0 := [[], []], s1 := [[], []], edges := [some 28],
                 lab := some [⟨"a", 0⟩] }],
    cubelist := [[0, 1, 3, 5, 7, 9, 14, 22],
      [2, 4, 6, 8, 10, 12, 15, 17, 20, 23, 25, 28], [13, 18, 21, 26], []] }

/-! ## Fixtures: the complex of `twoProcesses`, and the same with one more edge -/

/-- The complex that `MakeHDA` builds for `twoProcesses`: the vertices 0, 1, 3,
5, the edges 2, 4, 6, 8 and the square 9; the cell 7 is released. -/
def twoResult : Store :=
  { cubes := [
          some { degree := 0, ini := true, fin := false, d0 := [], d1 := [],
                 s0 := [[2, 4]], s1 := [[]], edges := [],
                 lab := some [⟨"(0,0,0)", -1⟩] },
          some { degree := 0, ini := false, fin := false, d0 := [], d1 := [],
                 s0 := [[6]], s1 := [[2]], edges := [],
                 lab := some [⟨"(1,0,0)", -1⟩] },
          some { degree := 1, ini := false, fin := false, d0 := [some 0], d1 := [some 1],
                 s0 := [[], [9]], s1 := [[], []], edges := [some 2],
                 lab := some [⟨"a", 0⟩] },
          some { degree := 0, ini := false, fin := false, d0 := [], d1 := [],
                 s0 := [[8]], s1 := [[4]], edges := [],
                 lab := some [⟨"(0,1,0)", -1⟩] },
          some { degree := 1, ini := false, fin := false, d0 := [some 0], d1 := [some 3],
                 s0 := [[9], []], s1 := [[], []], edges := [some 4],
                 lab := some [⟨"b", 1⟩] },
          some { degree := 0, ini := false, fin := true, d0 := [], d1 := [],
                 s0 := [[]], s1 := [[6, 8]], edges := [],
                 lab := some [⟨"(1,1,0)", -1⟩] },
          some { degree := 1, ini := false, fin := false, d0 := [some 1], d1 := [some 5],
                 s0 := [[], []], s1 := [[9], []], edges := [some 6],
                 lab := some [⟨"b", 1⟩] },
          none,
          some { degree := 1, ini := false, fin := false, d0 := [some 3], d1 := [some 5],
                 s0 := [[], []], s1 := [[], [9]], edges := [some 8],
                 lab := some [⟨"a", 0⟩] },
          some { degree := 2, ini := false, fin := false,
                 d0 := [some 4, some 2], d1 := [some 6, some 8],
                 s0 := [[], [], []], s1 := [[], [], []], edges := [some 2, some 4],
                 lab := none }],
    cubelist := [[0, 1, 3, 5], [2, 4, 6, 8], [9]] }

/-- The store `twoResult` to which one more edge of the action `a` of the first
process, the cube 10 from the vertex 3 to the vertex 5, has been linked as
`HandleState` links the edge of a transition; the edge is not yet completed. -/
def twoLinked : Store :=
  { cubes := [
          some { degree := 0, ini := true, fin := false, d0 := [], d1 := [],
                 s0 := [[2, 4]], s1 := [[]], edges := [],
                 lab := some [⟨"(0,0,0)", -1⟩] },
          some { degree := 0, ini := false, fin := false, d0 := [], d1 := [],
                 s0 := [[6]], s1 := [[2]], edges := [],
                 lab := some [⟨"(1,0,0)", -1⟩] },
          some { degree := 1, ini := false, fin := false, d0 := [some 0], d1 := [some 1],
                 s0 := [[], [9]], s1 := [[], []], edges := [some 2],
                 lab := some [⟨"a", 0⟩] },
          some { degree := 0, ini := false, fin := false, d0 := [], d1 := [],
                 s0 := [[8, 10]], s1 := [[4]], edges := [],
                 lab := some [⟨"(0,1,0)", -1⟩] },
          some { degree := 1, ini := false, fin := false, d0 := [some 0], d1 := [some 3],
                 s0 := [[9], []], s1 := [[], []], edges := [some 4],
                 lab := some [⟨"b", 1⟩] },
          some { degree := 0, ini := false, fin := true, d0 := [], d1 := [],
                 s0 := [[]], s1 := [[6, 8, 10]], edges := [],
                 lab := some [⟨"(1,1,0)", -1⟩] },
          some { degree := 1, ini := false, fin := false, d0 := [some 1], d1 := [some 5],
                 s0 := [[], []], s1 := [[9], []], edges := [some 6],
                 lab := some [⟨"b", 1⟩] },
          none,
          some { degree := 1, ini := false, fin := false, d0 := [some 3], d1 := [some 5],
                 s0 := [[], []], s1 := [[], [9]], edges := [some 8],
                 lab := some [⟨"a", 0⟩] },
          some { degree := 2, ini := false, fin := false,
                 d0 := [some 4, some 2], d1 := [some 6, some 8],
                 s0 := [[], [], []], s1 := [[], [], []], edges := [some 2, some 4],
                 lab := none },
          some { degree := 1, ini := false, fin := false, d0 := [some 3], d1 := [some 5],
                 s0 := [[], []], s1 := [[], []], edges := [some 10],
                 lab := some [⟨"a", 0⟩] }],
    cubelist := [[0, 1, 3, 5], [2, 4, 6, 8, 10], [9]] }

/-! ## Fixture: a process with two locations of the same index -/

theorem MakeHDALoop_mono (sys : System) (k : Nat) :
    ∀ (fuel : Nat) (st : Store) (q : List state) (dim : Int) (r : Store × Int),
      MakeHDALoop sys fuel st q dim = some r → MakeHDALoop sys (fuel + k) st q dim = some r := by
  intro fuel
  induction fuel with
  | zero =>
    intro st q dim r h
    cases q with
    | nil => simpa [MakeHDALoop] using h
    | cons a q => simp [MakeHDALoop] at h
  | succ n ih =>
    intro st q dim r h
    cases q with
    | nil => simpa [MakeHDALoop] using h
    | cons a q =>
      have e : n + 1 + k = (n + k) + 1 := by omega
      rw [e]
      simp only [MakeHDALoop] at h ⊢
      cases h1 : IsFinal sys a with
      | none => simp [h1] at h
      | some isfinal =>
        simp only [h1] at h ⊢
        cases h2 : (if isfinal ≠ 0 then setFin st a.cube else some st) with
        | none => simp [h2] at h
        | some s1 =>
          simp only [h2] at h ⊢
          cases h3 : HandleState sys a s1 (a :: q) with
          | none => simp [h3] at h
          | some e1 =>
            simp only [h3] at h ⊢
            exact ih _ _ _ _ h

theorem MakeHDA_mono (sys : System) (st : Store) (fuel k : Nat) (r : Store × Int)
    (h : MakeHDA fuel sys st = some r) : MakeHDA (fuel + k) sys st = some r := by
  unfold MakeHDA at h ⊢
  cases h1 : InitialStates st sys with
  | none => simp [h1] at h
  | some a =>
    simp only [h1] at h ⊢
    cases h2 : CubesOfStates a.1 a.2 with
    | none => simp [h2] at h
    | some s1 =>
      simp only [h2] at h ⊢
      exact MakeHDALoop_mono sys k _ _ _ _ _ h

theorem report_mono (sys : System) (x fuel k : Nat) (rep : Report)
    (h : report x (MakeHDA fuel sys (initialStore sys)) = some rep) :
    ∃ st : Store, MakeHDA (fuel + k) sys (initialStore sys) = some (st, rep.dim) ∧
      st.cubelist = rep.cubelist ∧ degreesOf st = rep.degrees ∧ facesOf st x = rep.faces := by
  cases hr : MakeHDA fuel sys (initialStore sys) with
  | none => rw [hr] at h; simp [report] at h
  | some r =>
    rw [hr] at h
    simp only [report, Option.map_some', Option.some.injEq] at h
    subst h
    exact ⟨r.1, MakeHDA_mono _ _ _ _ _ hr, rfl, rfl, rfl⟩

theorem twoProcesses_run :
    report 9 (MakeHDA 4 twoProcesses (initialStore twoProcesses)) =
      some ⟨2, [[0, 1, 3, 5], [2, 4, 6, 8], [9]],
        [[some 0, some 0, some 0, some 0], [some 1, some 1, some 1, some 1], [some 2]],
        some ([some 4, some 2], [some 6, some 8])⟩ := by decide!

theorem threeProcesses_run :
    report 31 (MakeHDA 8 threeProcesses (initialStore threeProcesses)) =
      some ⟨3, [[0, 1, 3, 5, 7, 9, 14, 22], [2, 4, 6, 8, 10, 12, 15, 17, 20, 23, 25, 28],
          [13, 18, 21, 26, 29, 30], [31]],
        [[some 0, some 0, some 0, some 0, some 0, some 0, some 0, some 0],
          [some 1, some 1, some 1, some 1, some 1, some 1, some 1, some 1, some 1, some 1,
            some 1, some 1],
          [some 2, some 2, some 2, some 2, some 2, some 2], [some 3]],
        some ([some 21, some 18, some 13], [some 26, some 29, some 30])⟩ := by decide!

/-- The Euler characteristic depends on the per-degree collections only. -/
theorem euler_congr (st st' : Store) (dim : Nat) (h : st.cubelist = st'.cubelist) :
    euler st dim = euler st' dim := by
  unfold euler
  rw [h]

/-- C5: for the two processes `a` (process 0) and `b` (process 1), each with one
always-enabled transition from location 0 to location 1, `MakeHDA` builds 4 cubes
of degree 0, 4 cubes of degree 1 and one cube of degree 2, whose four faces are
the four cubes of degree 1, and returns the dimension 2. -/
theorem twoProcesses_square (fuel : Nat) (h : 4 ≤ fuel) :
    ∃ st : Store, MakeHDA fuel twoProcesses (initialStore twoProcesses) = some (st, 2) ∧
      st.cubelist = [[0, 1, 3, 5], [2, 4, 6, 8], [9]] ∧
      degreesOf st = [[some 0, some 0, some 0, some 0], [some 1, some 1, some 1, some 1],
        [some 2]] ∧
      facesOf st 9 = some ([some 4, some 2], [some 6, some 8]) := by
  obtain ⟨k, rfl⟩ : ∃ k, fuel = 4 + k := ⟨fuel - 4, by omega⟩
  exact report_mono _ _ _ k _ twoProcesses_run

theorem twoProcesses_square_witness :
    ∃ st : Store, MakeHDA 4 twoProcesses (initialStore twoProcesses) = some (st, 2) ∧
      st.cubelist = [[0, 1, 3, 5], [2, 4, 6, 8], [9]] ∧
      degreesOf st = [[some 0, some 0, some 0, some 0], [some 1, some 1, some 1, some 1],
        [some 2]] ∧
      facesOf st 9 = some ([some 4, some 2], [some 6, some 8]) :=
  twoProcesses_square 4 (by decide)

/-- C6: for the three independent processes `a`, `b`, `c`, each with one
always-enabled transition, `MakeHDA` builds 8 cubes of degree 0, 12 of degree 1,
6 of degree 2 and exactly one cube of degree 3 (its six faces are the six cubes
of degree 2), and returns the dimension 3. -/
theorem threeProcesses_cube (fuel : Nat) (h : 8 ≤ fuel) :
    ∃ st : Store, MakeHDA fuel threeProcesses (initialStore threeProcesses) = some (st, 3) ∧
      st.cubelist = [[0, 1, 3, 5, 7, 9, 14, 22], [2, 4, 6, 8, 10, 12, 15, 17, 20, 23, 25, 28],
        [13, 18, 21, 26, 29, 30], [31]] ∧
      degreesOf st = [[some 0, some 0, some 0, some 0, some 0, some 0, some 0, some 0],
        [some 1, some 1, some 1, some 1, some 1, some 1, some 1, some 1, some 1, some 1,
          some 1, some 1],
        [some 2, some 2, some 2, some 2, some 2, some 2], [some 3]] ∧
      facesOf st 31 = some ([some 21, some 18, some 13], [some 26, some 29, some 30]) := by
  obtain ⟨k, rfl⟩ : ∃ k, fuel = 8 + k := ⟨fuel - 8, by omega⟩
  exact report_mono _ _ _ k _ threeProcesses_run

theorem threeProcesses_cube_witness :
    ∃ st : Store, MakeHDA 8 threeProcesses (initialStore threeProcesses) = some (st, 3) ∧
      st.cubelist = [[0, 1, 3, 5, 7, 9, 14, 22], [2, 4, 6, 8, 10, 12, 15, 17, 20, 23, 25, 28],
        [13, 18, 21, 26, 29, 30], [31]] ∧
      degreesOf st = [[some 0, some 0, some 0, some 0, some 0, some 0, some 0, some 0],
        [some 1, some 1, some 1, some 1, some 1, some 1, some 1, some 1, some 1, some 1,
          some 1, some 1],
        [some 2, some 2, some 2, some 2, some 2, some 2], [some 3]] ∧
      facesOf st 31 = some ([some 21, some 18, some 13], [some 26, some 29, some 30]) :=
  threeProcesses_cube 8 (by decide)

/-- C7, as stated, fails: the complex of the three independent processes has the
Euler characteristic 1, not 0. -/
theorem threeProcesses_euler_ne_zero :
    ∃ (st : Store) (dim : Int),
      MakeHDA 8 threeProcesses (initialStore threeProcesses) = some (st, dim) ∧
      euler st dim.toNat ≠ some 0 := by
  obtain ⟨st, h1, h2, -, -⟩ := report_mono _ _ _ 0 _ threeProcesses_run
  refine ⟨st, 3, h1, ?_⟩
  have e : euler st 3 = some 1 := by
    rw [euler_congr st ⟨[], st.cubelist⟩ 3 rfl, h2]
    decide
  show euler st 3 ≠ some 0
  rw [e]
  decide

/-- C7, amended: for the complex that `MakeHDA` builds for the three independent
processes, the alternating sum of the numbers of cubes per degree, as
`PrintSystemHDA` computes it, is 8 - 12 + 6 - 1 = 1. -/
theorem threeProcesses_euler (fuel : Nat) (h : 8 ≤ fuel) :
    ∃ st : Store, MakeHDA fuel threeProcesses (initialStore threeProcesses) = some (st, 3) ∧
      euler st 3 = some 1 := by
  obtain ⟨k, rfl⟩ : ∃ k, fuel = 8 + k := ⟨fuel - 8, by omega⟩
  obtain ⟨st, h1, h2, -, -⟩ := report_mono _ _ _ k _ threeProcesses_run
  refine ⟨st, h1, ?_⟩
  rw [euler_congr st ⟨[], st.cubelist⟩ 3 rfl, h2]
  decide

theorem threeProcesses_euler_witness :
    ∃ st : Store, MakeHDA 8 threeProcesses (initialStore threeProcesses) = some (st, 3) ∧
      euler st 3 = some 1 :=
  threeProcesses_euler 8 (by decide)

/-! ### Loops -/

theorem mapOpt_length {α β : Type} (f : α → Option β) :
    ∀ (l : List α) (r : List β), mapOpt f l = some r → r.length = l.length := by
  intro l
  induction l with
  | nil => intro r h; simp [mapOpt] at h; subst h; rfl
  | cons a l ih =>
    intro r h
    simp only [mapOpt] at h
    cases hfa : f a with
    | none => simp [hfa] at h
    | some b =>
      simp only [hfa] at h
      cases hl : mapOpt f l with
      | none => simp [hl] at h
      | some r' =>
        simp only [hl, Option.some.injEq] at h
        subst h
        simp [ih r' hl]

theorem mapOpt_mem {α β : Type} (f : α → Option β) :
    ∀ (l : List α) (r : List β), mapOpt f l = some r →
      ∀ b, b ∈ r → ∃ a, a ∈ l ∧ f a = some b := by
  intro l
  induction l with
  | nil => intro r h b hb; simp [mapOpt] at h; subst h; simp at hb
  | cons a l ih =>
    intro r h b hb
    simp only [mapOpt] at h
    cases hfa : f a with
    | none => simp [hfa] at h
    | some b0 =>
      simp only [hfa] at h
      cases hl : mapOpt f l with
      | none => simp [hl] at h
      | some r' =>
        simp only [hl, Option.some.injEq] at h
        subst h
        rcases List.mem_cons.1 hb with rfl | hb'
        · exact ⟨a, List.mem_cons_self _ _, hfa⟩
        · obtain ⟨a', ha', hf'⟩ := ih r' hl b hb'
          exact ⟨a', List.mem_cons_of_mem _ ha', hf'⟩

theorem mapOpt_isSome {α β : Type} (f : α → Option β) :
    ∀ (l : List α), (∀ a, a ∈ l → ∃ b, f a = some b) → ∃ r, mapOpt f l = some r := by
  intro l
  induction l with
  | nil => intro _; exact ⟨[], rfl⟩
  | cons a l ih =>
    intro h
    obtain ⟨b, hb⟩ := h a (List.mem_cons_self _ _)
    obtain ⟨r, hr⟩ := ih (fun a' ha' => h a' (List.mem_cons_of_mem _ ha'))
    exact ⟨b :: r, by simp [mapOpt, hb, hr]⟩

/-! ### Vertices -/

theorem wellFormed_degree (st : Store) (d : Nat) (p : Option Nat)
    (h : wellFormed st d p = true) : ∃ c, st.get p = some c ∧ c.degree = d := by
  cases d with
  | zero =>
    simp only [wellFormed] at h
    cases hc : st.get p with
    | none => simp [hc] at h
    | some c => simp only [hc, decide_eq_true_eq] at h; exact ⟨c, rfl, h⟩
  | succ d =>
    simp only [wellFormed] at h
    cases hc : st.get p with
    | none => simp [hc] at h
    | some c =>
      simp only [hc, Bool.and_eq_true, decide_eq_true_eq] at h
      exact ⟨c, rfl, h.1⟩

theorem wellFormed_face (st : Store) (d : Nat) (p : Option Nat) (c : cube)
    (h : wellFormed st (d + 1) p = true) (hc : st.get p = some c) (i : Nat) (hi : i < d + 1) :
    ∃ f0 f1, c.d 0 i = some f0 ∧ c.d 1 i = some f1 ∧
      wellFormed st d f0 = true ∧ wellFormed st d f1 = true := by
  simp only [wellFormed, hc, Bool.and_eq_true, decide_eq_true_eq, List.all_eq_true,
    List.mem_range] at h
  have h2 := h.2 i hi
  cases h0 : c.d 0 i with
  | none => simp [h0] at h2
  | some f0 =>
    cases h1 : c.d 1 i with
    | none => simp [h0, h1] at h2
    | some f1 =>
      simp only [h0, h1, Bool.and_eq_true] at h2
      exact ⟨f0, f1, rfl, rfl, h2.1, h2.2⟩

theorem get_lt (st : Store) (x : Nat) (c : cube) (h : st.get (some x) = some c) :
    x < st.cubes.length := by
  simp only [Store.get] at h
  by_contra hx
  rw [List.getElem?_eq_none (by omega)] at h
  simp at h

theorem lowCells_card (st : Store) :
    ∀ (d : Nat) (p : Option Nat), wellFormed st d p = true → d + 1 ≤ (lowCells st d).card := by
  intro d
  induction d with
  | zero =>
    intro p h
    obtain ⟨c, hc, hd⟩ := wellFormed_degree st 0 p h
    cases p with
    | none => simp [Store.get] at hc
    | some x =>
      have hx : x ∈ lowCells st 0 := by
        simp [lowCells, get_lt st x c hc, hc, hd]
      exact Finset.card_pos.2 ⟨x, hx⟩
  | succ d ih =>
    intro p h
    obtain ⟨c, hc, hd⟩ := wellFormed_degree st (d + 1) p h
    obtain ⟨f0, f1, e0, e1, w0, w1⟩ := wellFormed_face st d p c h hc 0 (by omega)
    have h1 := ih f0 w0
    cases p with
    | none => simp [Store.get] at hc
    | some x =>
      have hx : x ∈ lowCells st (d + 1) := by
        simp [lowCells, get_lt st x c hc, hc, hd]
      have hnx : x ∉ lowCells st d := by
        simp [lowCells, hc, hd]
      have hsub : insert x (lowCells st d) ⊆ lowCells st (d + 1) := by
        intro y hy
        rcases Finset.mem_insert.1 hy with rfl | hy'
        · exact hx
        · simp only [lowCells, Finset.mem_filter, Finset.mem_range] at hy' ⊢
          refine ⟨hy'.1, ?_⟩
          cases hg : st.get (some y) with
          | none => simp [hg] at hy'
          | some cy =>
            have := hy'.2
            simp only [hg, Option.any_some, decide_eq_true_eq] at this ⊢
            omega
      have h2 := Finset.card_le_card hsub
      rw [Finset.card_insert_of_not_mem hnx] at h2
      omega

theorem wellFormed_lt_length (st : Store) (d : Nat) (p : Option Nat)
    (h : wellFormed st d p = true) : d < st.cubes.length := by
  have h1 := lowCells_card st d p h
  have h2 : (lowCells st d).card ≤ (Finset.range st.cubes.length).card :=
    Finset.card_le_card (Finset.filter_subset _ _)
  rw [Finset.card_range] at h2
  omega

theorem loopM_inv {α σ : Type} (f : σ → α → Option σ) (P : σ → Prop) :
    ∀ (l : List α), (∀ s a s', a ∈ l → P s → f s a = some s' → P s') →
      ∀ s s', P s → loopM f s l = some s' → P s' := by
  intro l
  induction l with
  | nil => intro _ s s' hP h; simp only [loopM, Option.some.injEq] at h; exact h ▸ hP
  | cons a l ih =>
    intro hstep s s' hP h
    simp only [loopM] at h
    cases hfa : f s a with
    | none => simp [hfa] at h
    | some s1 =>
      simp only [hfa] at h
      exact ih (fun s a' s' ha' => hstep s a' s' (List.mem_cons_of_mem _ ha')) s1 s'
        (hstep s a s1 (List.mem_cons_self _ _) hP hfa) h

/-- A loop invariant that may depend on the part of the list already handled. -/
theorem loopM_inv_pre {α σ : Type} (f : σ → α → Option σ) (P : List α → σ → Prop) :
    ∀ (post pre : List α),
      (∀ p a q s s', pre ++ post = p ++ a :: q → P p s → f s a = some s' → P (p ++ [a]) s') →
      ∀ s s', P pre s → loopM f s post = some s' → P (pre ++ post) s' := by
  intro post
  induction post with
  | nil =>
    intro pre _ s s' hP h
    simp only [loopM, Option.some.injEq] at h
    simpa [← h] using hP
  | cons a l ih =>
    intro pre hstep s s' hP h
    simp only [loopM] at h
    cases hfa : f s a with
    | none => simp [hfa] at h
    | some s1 =>
      simp only [hfa] at h
      have h1 : P (pre ++ [a]) s1 := hstep pre a l s s1 rfl hP hfa
      have h2 := ih (pre ++ [a]) (by simpa using hstep) s1 s' h1 h
      simpa using h2

/-! ### Reading and writing the store -/

theorem Frame.frame_refl (c : cube) : Frame c c := ⟨rfl, rfl, rfl, rfl, rfl, rfl, rfl⟩

theorem Frame.frame_trans {a b c : cube} (h1 : Frame a b) (h2 : Frame b c) : Frame a c := by
  obtain ⟨a1, a2, a3, a4, a5, a6, a7⟩ := h1
  obtain ⟨b1, b2, b3, b4, b5, b6, b7⟩ := h2
  exact ⟨b1.trans a1, b2.trans a2, b3.trans a3, b4.trans a4, b5.trans a5, b6.trans a6,
    b7.trans a7⟩

theorem Frame.frame_d {c c' : cube} (h : Frame c c') (k i : Nat) : c'.d k i = c.d k i := by
  obtain ⟨-, -, -, h0, h1, -, -⟩ := h
  unfold cube.d
  rw [h0, h1]

theorem Core.core_refl (c : cube) : Core c c := ⟨rfl, rfl, rfl, rfl, rfl⟩

theorem Core.core_trans {a b c : cube} (h1 : Core a b) (h2 : Core b c) : Core a c := by
  obtain ⟨a1, a2, a3, a4, a5⟩ := h1
  obtain ⟨b1, b2, b3, b4, b5⟩ := h2
  exact ⟨b1.trans a1, b2.trans a2, b3.trans a3, b4.trans a4, b5.trans a5⟩

theorem Frame.core {c c' : cube} (h : Frame c c') : Core c c' := by
  obtain ⟨a1, -, -, a4, a5, a6, a7⟩ := h
  exact ⟨a1, a4, a5, a6, a7⟩

theorem Core.core_d {c c' : cube} (h : Core c c') (k i : Nat) : c'.d k i = c.d k i := by
  obtain ⟨-, h0, h1, -, -⟩ := h
  unfold cube.d
  rw [h0, h1]

theorem Ext.ext_refl (st : Store) : Ext st st :=
  ⟨Nat.le_refl _, fun _ cy h => ⟨cy, h, Core.core_refl cy, fun _ _ l hl => ⟨[], by simpa using hl⟩⟩⟩

theorem Ext.ext_trans {a b c : Store} (h1 : Ext a b) (h2 : Ext b c) : Ext a c := by
  refine ⟨Nat.le_trans h1.1 h2.1, ?_⟩
  intro y cy hy
  obtain ⟨cy1, g1, f1, s1⟩ := h1.2 y cy hy
  obtain ⟨cy2, g2, f2, s2⟩ := h2.2 y cy1 g1
  refine ⟨cy2, g2, Core.core_trans f1 f2, ?_⟩
  intro k i l hl
  obtain ⟨l1, e1⟩ := s1 k i l hl
  obtain ⟨l2, e2⟩ := s2 k i _ e1
  exact ⟨l1 ++ l2, by simpa using e2⟩

theorem get_set_ne (st : Store) (f y : Nat) (v : Option cube) (cl : List (List Nat))
    (h : y ≠ f) :
    (Store.mk (st.cubes.set f v) cl).get (some y) = st.get (some y) := by
  simp only [Store.get]
  rw [List.getElem?_set_ne (Ne.symm h)]

theorem get_set_eq (st : Store) (f : Nat) (c : cube) (cl : List (List Nat))
    (h : f < st.cubes.length) :
    (Store.mk (st.cubes.set f (some c)) cl).get (some f) = some c := by
  simp only [Store.get]
  rw [List.getElem?_set_self h]
  rfl

theorem addCoface_spec (st st' : Store) (f : Option Nat) (k i x : Nat)
    (h : st.addCoface f k i x = some st') :
    ∃ fi cf l cf', f = some fi ∧ st.get (some fi) = some cf ∧ cf.s k i = some l ∧
      st'.cubelist = st.cubelist ∧ st'.cubes.length = st.cubes.length ∧
      (∀ y, y ≠ fi → st'.get (some y) = st.get (some y)) ∧
      st'.get (some fi) = some cf' ∧ Frame cf cf' ∧
      (∀ k' i', cf'.s k' i' = if k' = k ∧ i' = i then some (l ++ [x]) else cf.s k' i') := by
  cases f with
  | none => simp [Store.addCoface] at h
  | some fi =>
    simp only [Store.addCoface] at h
    cases hc : st.get (some fi) with
    | none => simp [hc] at h
    | some cf =>
      simp only [hc] at h
      have hlt := get_lt st fi cf hc
      match k, h with
      | 0, h =>
        cases hl : cf.s0[i]? with
        | none => simp [hl] at h
        | some l =>
          simp only [hl, Option.some.injEq] at h
          subst h
          refine ⟨fi, cf, l, _, rfl, hc, by simpa [cube.s] using hl, rfl, by simp,
            fun y hy => get_set_ne st fi y _ _ hy, get_set_eq st fi _ _ hlt,
            ⟨rfl, rfl, rfl, rfl, rfl, rfl, rfl⟩, ?_⟩
          intro k' i'
          have hi : i < cf.s0.length := by
            by_contra hx
            rw [List.getElem?_eq_none (by omega)] at hl
            simp at hl
          match k' with
          | 0 =>
            by_cases e : i' = i
            · subst e; simp [cube.s, InsertElement, List.getElem?_set_self hi]
            · simp [cube.s, e, List.getElem?_set_ne (Ne.symm e)]
          | 1 => simp [cube.s]
          | (n + 2) => simp [cube.s]
      | 1, h =>
        cases hl : cf.s1[i]? with
        | none => simp [hl] at h
        | some l =>
          simp only [hl, Option.some.injEq] at h
          subst h
          refine ⟨fi, cf, l, _, rfl, hc, by simpa [cube.s] using hl, rfl, by simp,
            fun y hy => get_set_ne st fi y _ _ hy, get_set_eq st fi _ _ hlt,
            ⟨rfl, rfl, rfl, rfl, rfl, rfl, rfl⟩, ?_⟩
          intro k' i'
          have hi : i < cf.s1.length := by
            by_contra hx
            rw [List.getElem?_eq_none (by omega)] at hl
            simp at hl
          match k' with
          | 0 => simp [cube.s]
          | 1 =>
            by_cases e : i' = i
            · subst e; simp [cube.s, InsertElement, List.getElem?_set_self hi]
            · simp [cube.s, e, List.getElem?_set_ne (Ne.symm e)]
          | (n + 2) => simp [cube.s]
      | (n + 2), h => simp at h

theorem enum_split {α : Type} (row : List α) (p q : List (Nat × α)) (a : Nat × α)
    (h : row.enum = p ++ a :: q) : a.1 = p.length ∧ row[p.length]? = some a.2 := by
  have h1 : (row.enum)[p.length]? = some a := by
    rw [h, List.getElem?_append_right (Nat.le_refl _)]
    simp
  rw [List.getElem?_enum] at h1
  cases hr : row[p.length]? with
  | none => simp [hr] at h1
  | some b =>
    simp only [hr, Option.map_some', Option.some.injEq] at h1
    subst h1
    exact ⟨rfl, rfl⟩

theorem RowDone_zero (st : Store) (x k : Nat) (row : List (Option Nat)) :
    RowDone st x k row 0 st := by
  refine ⟨rfl, rfl, fun _ h => h, ?_, fun i hi => absurd hi (Nat.not_lt_zero _)⟩
  intro y cy hy
  refine ⟨cy, hy, Frame.frame_refl cy, ?_⟩
  intro k' i'
  cases cy.s k' i' <;> simp

theorem RowDone_step (st : Store) (x k : Nat) (row : List (Option Nat)) (m : Nat) (s s' : Store)
    (a : Option Nat) (ha : row[m]? = some a) (hQ : RowDone st x k row m s)
    (h : s.addCoface a k m x = some s') : RowDone st x k row (m + 1) s' := by
  obtain ⟨q1, q2, q3, q4, q5⟩ := hQ
  obtain ⟨fi, cf, l, cf', rfl, g1, g2, g3, g4, g5, g6, g7, g8⟩ := addCoface_spec s s' a k m x h
  have hlive : ∃ c0, st.get (some fi) = some c0 := by
    cases hst : st.get (some fi) with
    | none => rw [q3 fi hst] at g1; simp at g1
    | some c0 => exact ⟨c0, rfl⟩
  obtain ⟨c0, hc0⟩ := hlive
  obtain ⟨c1, e1, e2, e3⟩ := q4 fi c0 hc0
  have ec : c1 = cf := by rw [e1] at g1; exact Option.some.inj g1
  subst ec
  refine ⟨g3.trans q1, g4.trans q2, ?_, ?_, ?_⟩
  · intro y hy
    by_cases e : y = fi
    · subst e; rw [hc0] at hy; simp at hy
    · rw [g5 y e]; exact q3 y hy
  · intro y cy hy
    by_cases e : y = fi
    · subst e
      have : cy = c0 := by rw [hc0] at hy; exact (Option.some.inj hy).symm
      subst this
      refine ⟨cf', g6, e2.frame_trans g7, ?_⟩
      intro k' i'
      rw [g8 k' i']
      by_cases c : k' = k ∧ i' = m
      · obtain ⟨rfl, rfl⟩ := c
        have e3' := e3 k' i'
        rw [g2] at e3'
        cases hs : cy.s k' i' with
        | none => simp [hs] at e3'
        | some l0 =>
          simp only [hs, Option.map_some', Option.some.injEq, Nat.lt_irrefl, false_and,
            and_false, if_false] at e3'
          subst e3'
          simp [ha]
      · rw [if_neg c, e3 k' i']
        have : (k' = k ∧ i' < m + 1 ∧ row[i']? = some (some y)) ↔
            (k' = k ∧ i' < m ∧ row[i']? = some (some y)) := by
          constructor
          · rintro ⟨a1, a2, a3⟩
            refine ⟨a1, ?_, a3⟩
            have : i' ≠ m := fun e' => c ⟨a1, e'⟩
            omega
          · rintro ⟨a1, a2, a3⟩
            exact ⟨a1, by omega, a3⟩
        simp only [this]
    · obtain ⟨cy', b1, b2, b3⟩ := q4 y cy hy
      refine ⟨cy', by rw [g5 y e]; exact b1, b2, ?_⟩
      intro k' i'
      rw [b3 k' i']
      have : (k' = k ∧ i' < m + 1 ∧ row[i']? = some (some y)) ↔
          (k' = k ∧ i' < m ∧ row[i']? = some (some y)) := by
        constructor
        · rintro ⟨a1, a2, a3⟩
          refine ⟨a1, ?_, a3⟩
          have : i' ≠ m := by
            intro e'
            subst e'
            rw [ha] at a3
            exact e (Option.some.inj (Option.some.inj a3)).symm
          omega
        · rintro ⟨a1, a2, a3⟩
          exact ⟨a1, by omega, a3⟩
      simp only [this]
  · intro i hi
    by_cases e : i = m
    · subst e
      have e3' := e3 k i
      rw [g2] at e3'
      cases hs : c0.s k i with
      | none => simp [hs] at e3'
      | some l0 => exact ⟨fi, c0, l0, ha, hc0, hs⟩
    · exact q5 i (by omega)

theorem RowDone_loop (st : Store) (x k : Nat) (row : List (Option Nat)) (s' : Store)
    (h : loopM (fun s (p : Nat × Option Nat) => s.addCoface p.2 k p.1 x) st row.enum = some s') :
    RowDone st x k row row.length s' := by
  have := loopM_inv_pre (fun s (p : Nat × Option Nat) => s.addCoface p.2 k p.1 x)
    (fun pre s => RowDone st x k row pre.length s) row.enum []
    (by
      intro p a q s s1 hsplit hP hf
      obtain ⟨e1, e2⟩ := enum_split row p q a (by simpa using hsplit)
      have := RowDone_step st x k row p.length s s1 a.2 e2 hP (by rw [← e1]; exact hf)
      simpa using this)
    st s' (RowDone_zero st x k row) h
  simpa using this

theorem getElem?_some_lt {α : Type} (l : List α) (i : Nat) (a : α) (h : l[i]? = some a) :
    i < l.length := by
  by_contra hx
  rw [List.getElem?_eq_none (by omega)] at h
  simp at h

theorem get_append_old (cubes : List (Option cube)) (cl cl' : List (List Nat)) (c : cube)
    (y : Nat) (h : y < cubes.length) :
    (Store.mk (cubes ++ [some c]) cl).get (some y) = (Store.mk cubes cl').get (some y) := by
  simp only [Store.get]
  rw [List.getElem?_append_left h]

theorem link_spec (st st' : Store) (c : cube) (h : st.link c = some st') : Linked st c st' := by
  simp only [Store.link, Store.register] at h
  cases h1 : loopM (fun s (p : Nat × Option Nat) => s.addCoface p.2 0 p.1 st.cubes.length) st
      c.d0.enum with
  | none => simp [h1] at h
  | some s1 =>
    simp only [h1] at h
    cases h2 : loopM (fun s (p : Nat × Option Nat) => s.addCoface p.2 1 p.1 st.cubes.length) s1
        c.d1.enum with
    | none => simp [h2] at h
    | some s2 =>
      simp only [h2, Store.addToList] at h
      obtain ⟨a1, a2, a3, a4, a5⟩ := RowDone_loop st st.cubes.length 0 c.d0 s1 h1
      obtain ⟨b1, b2, b3, b4, b5⟩ := RowDone_loop s1 st.cubes.length 1 c.d1 s2 h2
      cases hl : s2.cubelist[c.degree]? with
      | none => simp [hl] at h
      | some l =>
        simp only [hl, Option.some.injEq] at h
        subst h
        have hlen2 : s2.cubes.length = st.cubes.length := b2.trans a2
        have hold : ∀ y, y < st.cubes.length → ∀ cl,
            (Store.mk (s2.cubes ++ [some c]) cl).get (some y) = s2.get (some y) := by
          intro y hy cl
          exact get_append_old s2.cubes cl s2.cubelist c y (by omega)
        refine ⟨by simp [hlen2], ?_, ?_, ?_, ?_, ?_⟩
        · simp only [Store.get]
          rw [List.getElem?_append_right (by omega)]
          simp [hlen2]
        · intro y hy hd
          by_cases hlt : y < st.cubes.length
          · rw [hold y hlt]
            exact b3 y (a3 y hd)
          · simp only [Store.get]
            rw [List.getElem?_eq_none (by simp; omega)]
            rfl
        · intro y cy hy
          have hlt := get_lt st y cy hy
          obtain ⟨cy1, e1, e2, e3⟩ := a4 y cy hy
          obtain ⟨cy2, f1, f2, f3⟩ := b4 y cy1 e1
          refine ⟨cy2, by rw [hold y hlt]; exact f1, e2.frame_trans f2, ?_⟩
          intro k i
          rw [f3 k i, e3 k i]
          cases hs : cy.s k i with
          | none => simp
          | some l0 =>
            simp only [Option.map_some', Option.some.injEq]
            match k with
            | 0 =>
              simp only [cube.d, true_and, Nat.zero_ne_one, false_and, if_false]
              by_cases e : c.d0[i]? = some (some y)
              · simp [e, getElem?_some_lt _ _ _ e]
              · simp [e]
            | 1 =>
              simp only [cube.d, true_and, Nat.one_ne_zero, false_and, if_false]
              by_cases e : c.d1[i]? = some (some y)
              · simp [e, getElem?_some_lt _ _ _ e]
              · simp [e]
            | (n + 2) => simp [cube.d]
        · intro k i f hf
          match k with
          | 0 =>
            simp only [cube.d] at hf
            obtain ⟨fi, cf, l0, g1, g2, g3⟩ := a5 i (getElem?_some_lt _ _ _ hf)
            rw [hf] at g1
            exact ⟨fi, cf, l0, Option.some.inj g1, g2, g3⟩
          | 1 =>
            simp only [cube.d] at hf
            obtain ⟨fi, cf, l0, g1, g2, g3⟩ := b5 i (getElem?_some_lt _ _ _ hf)
            rw [hf] at g1
            have hlive : ∃ c0, st.get (some fi) = some c0 := by
              cases hst : st.get (some fi) with
              | none => rw [a3 fi hst] at g2; simp at g2
              | some c0 => exact ⟨c0, rfl⟩
            obtain ⟨c0, hc0⟩ := hlive
            obtain ⟨c1, e1, e2, e3⟩ := a4 fi c0 hc0
            have : c1 = cf := by rw [e1] at g2; exact Option.some.inj g2
            subst this
            have e3' := e3 1 i
            rw [g3] at e3'
            cases hs : c0.s 1 i with
            | none => simp [hs] at e3'
            | some l1 => exact ⟨fi, c0, l1, Option.some.inj g1, hc0, hs⟩
          | (n + 2) => simp [cube.d] at hf
        · refine ⟨l, ?_, ?_⟩
          · rw [← a1, ← b1]; exact hl
          · simp [InsertElement, b1, a1]

/-! ### Steps of the construction -/

theorem loopM_rel {α σ : Type} (f : σ → α → Option σ) (R : σ → σ → Prop)
    (hrefl : ∀ s, R s s) (htrans : ∀ a b c, R a b → R b c → R a c) (l : List α)
    (hstep : ∀ s a s', a ∈ l → f s a = some s' → R s s') (s s' : σ)
    (h : loopM f s l = some s') : R s s' :=
  loopM_inv f (fun t => R s t) l
    (fun t a t' ha hP hf => htrans _ _ _ hP (hstep t a t' ha hf)) s s' (hrefl s) h

theorem newSquare_rel {R : Store × Nat → Store × Nat → Prop} (hR : StepRel 2 R)
    (a : Store × Nat) (d00 d01 d10 d11 : Nat) (s : Store)
    (h : newSquare a.1 d00 d01 d10 d11 = some s) : R a (s, a.2 + 1) :=
  hR.link a _ s rfl rfl h

theorem fwdInner_rel {R : Store × Nat → Store × Nat → Prop} (hR : StepRel 2 R)
    (edge pc pc2 : Nat) (pcnum edgenum : Int) (a a' : Store × Nat) (pc3 : Nat)
    (h : fwdInner edge pc pc2 pcnum edgenum a pc3 = some a') : R a a' := by
  unfold fwdInner at h
  split at h
  · split at h
    · split at h
      · split at h
        · split at h
          · simp at h
          · rename_i s hs
            simp only [Option.some.injEq] at h
            subst h
            split at hs
            · exact newSquare_rel hR a _ _ _ _ s hs
            · exact newSquare_rel hR a _ _ _ _ s hs
        · simp only [Option.some.injEq] at h; subst h; exact hR.refl a
      · simp at h
    · simp only [Option.some.injEq] at h; subst h; exact hR.refl a
  · simp at h

theorem fwdMiddle_rel {R : Store × Nat → Store × Nat → Prop} (hR : StepRel 2 R)
    (edge pc : Nat) (pcnum edgenum : Int) (a a' : Store × Nat) (pc2 : Nat)
    (h : fwdMiddle edge pc pcnum edgenum a pc2 = some a') : R a a' := by
  unfold fwdMiddle at h
  split at h
  · simp at h
  · split at h
    · simp at h
    · split at h
      · simp only [Option.some.injEq] at h; subst h; exact hR.refl a
      · split at h
        · split at h
          · exact loopM_rel _ R hR.refl hR.trans _
              (fun s x s' _ hf => fwdInner_rel hR edge pc pc2 pcnum edgenum s s' x hf) a a' h
          · simp only [Option.some.injEq] at h; subst h; exact hR.refl a
        · simp at h

theorem fwdOuter_rel {R : Store × Nat → Store × Nat → Prop} (hR : StepRel 2 R)
    (edge : Nat) (edgelbl : List label) (a a' : Store × Nat) (pc : Nat)
    (h : fwdOuter edge edgelbl a pc = some a') : R a a' := by
  unfold fwdOuter at h
  split at h
  · split at h
    · simp at h
    · split at h
      · simp at h
      · split at h
        · simp only [Option.some.injEq] at h; subst h; exact hR.refl a
        · split at h
          · split at h
            · exact loopM_rel _ R hR.refl hR.trans _
                (fun s x s' _ hf => fwdMiddle_rel hR edge pc _ _ s s' x hf) a a' h
            · simp only [Option.some.injEq] at h; subst h; exact hR.refl a
          · simp at h
  · simp at h

theorem bwdInner_rel {R : Store × Nat → Store × Nat → Prop} (hR : StepRel 2 R)
    (edge pc pc2 : Nat) (pcnum edgenum : Int) (a a' : Store × Nat) (pc3 : Nat)
    (h : bwdInner edge pc pc2 pcnum edgenum a pc3 = some a') : R a a' := by
  unfold bwdInner at h
  split at h
  · split at h
    · split at h
      · split at h
        · split at h
          · split at h
            · simp at h
            · rename_i s hs
              simp only [Option.some.injEq] at h
              subst h
              split at hs
              · exact newSquare_rel hR a _ _ _ _ s hs
              · exact newSquare_rel hR a _ _ _ _ s hs
          · simp only [Option.some.injEq] at h; subst h; exact hR.refl a
        · simp at h
      · simp only [Option.some.injEq] at h; subst h; exact hR.refl a
    · simp at h
  · simp only [Option.some.injEq] at h; subst h; exact hR.refl a

theorem bwdMiddle_rel {R : Store × Nat → Store × Nat → Prop} (hR : StepRel 2 R)
    (edge pc : Nat) (pcnum edgenum : Int) (a a' : Store × Nat) (pc2 : Nat)
    (h : bwdMiddle edge pc pcnum edgenum a pc2 = some a') : R a a' := by
  unfold bwdMiddle at h
  split at h
  · simp at h
  · split at h
    · simp at h
    · split at h
      · simp only [Option.some.injEq] at h; subst h; exact hR.refl a
      · split at h
        · split at h
          · exact loopM_rel _ R hR.refl hR.trans _
              (fun s x s' _ hf => bwdInner_rel hR edge pc pc2 pcnum edgenum s s' x hf) a a' h
          · simp only [Option.some.injEq] at h; subst h; exact hR.refl a
        · simp at h

theorem bwdOuter_rel {R : Store × Nat → Store × Nat → Prop} (hR : StepRel 2 R)
    (edge : Nat) (edgelbl : List label) (a a' : Store × Nat) (pc : Nat)
    (h : bwdOuter edge edgelbl a pc = some a') : R a a' := by
  unfold bwdOuter at h
  split at h
  · split at h
    · simp at h
    · split at h
      · simp at h
      · split at h
        · simp only [Option.some.injEq] at h; subst h; exact hR.refl a
        · split at h
          · split at h
            · exact loopM_rel _ R hR.refl hR.trans _
                (fun s x s' _ hf => bwdMiddle_rel hR edge pc _ _ s s' x hf) a a' h
            · simp only [Option.some.injEq] at h; subst h; exact hR.refl a
          · simp at h
  · simp at h

theorem FillSquares_rel {R : Store × Nat → Store × Nat → Prop} (hR : StepRel 2 R)
    (st : Store) (edge : Nat) (r : Store × Nat) (h : FillSquares st edge = some r) :
    R (st, 0) r := by
  unfold FillSquares at h
  split at h
  · split at h
    · simp at h
    · split at h
      · simp at h
      · split at h
        · simp at h
        · rename_i edgelbl _ _ _ _ l1 _ a ha
          have h1 : R (st, 0) a := loopM_rel _ R hR.refl hR.trans _
            (fun s x s' _ hf => fwdOuter_rel hR edge _ s s' x hf) (st, 0) a ha
          split at h
          · simp at h
          · split at h
            · simp at h
            · exact hR.trans _ _ _ h1 (loopM_rel _ R hR.refl hR.trans _
                (fun s x s' _ hf => bwdOuter_rel hR edge _ s s' x hf) a r h)
  · simp at h

theorem tryCube_rel {deg : Nat} {R : Store × Nat → Store × Nat → Prop} (hR : StepRel deg R)
    (faces vc upperindex : List Nat) (edgeindex : Nat) (top0 top1 : Nat)
    (a a' : Store × Nat) (cubevecc : List Nat)
    (h : tryCube faces vc upperindex edgeindex deg top0 top1 a cubevecc = some a') : R a a' := by
  unfold tryCube at h
  split at h
  · simp at h
  · split at h
    · simp at h
    · split at h
      · split at h
        · simp at h
        · split at h
          · simp at h
          · rename_i s hs
            simp only [Option.some.injEq] at h
            subst h
            exact hR.link a _ s rfl rfl hs
      · simp only [Option.some.injEq] at h; subst h; exact hR.refl a

theorem topPair_rel {deg : Nat} {R : Store × Nat → Store × Nat → Prop} (hR : StepRel deg R)
    (faces vc upperindex : List Nat) (edgeindex : Nat) (top0 : Nat)
    (a a' : Store × Nat) (top1 : Nat)
    (h : topPair faces vc upperindex edgeindex deg top0 a top1 = some a') : R a a' := by
  unfold topPair at h
  split at h
  · simp at h
  · exact loopM_rel _ R hR.refl hR.trans _
      (fun s x s' _ hf => tryCube_rel hR faces vc upperindex edgeindex top0 top1 s s' x hf)
      a a' h

theorem upperPass_rel {deg : Nat} {R : Store × Nat → Store × Nat → Prop} (hR : StepRel deg R)
    (faces vc : List Nat) (edgeindex : Nat) (upperindex : List Nat) (a a' : Store × Nat)
    (h : upperPass faces vc edgeindex deg upperindex a = some a') : R a a' := by
  unfold upperPass at h
  split at h
  · simp at h
  · split at h
    · simp only [Option.some.injEq] at h; subst h; exact hR.refl a
    · split at h
      · simp at h
      · exact loopM_rel _ R hR.refl hR.trans _
          (fun s x s' _ hf => loopM_rel _ R hR.refl hR.trans _
            (fun t y t' _ hg => topPair_rel hR faces vc upperindex edgeindex x t t' y hg)
            s s' hf)
          a a' h

theorem configPass_rel {deg : Nat} {R : Store × Nat → Store × Nat → Prop} (hR : StepRel deg R)
    (faces : List Nat) (edgepid : Int) (a a' : (Store × Nat) × Option Nat) (v : List Nat)
    (h : configPass faces edgepid deg a v = some a') : R a.1 a'.1 := by
  unfold configPass at h
  split at h
  · split at h
    · simp at h
    · split at h
      · simp at h
      · split at h
        · simp at h
        · simp only at h
          split at h
          · simp at h
          · split at h
            · simp only [Option.some.injEq] at h; subst h; exact hR.refl a.1
            · split at h
              · simp at h
              · rename_i a1 ha1
                simp only [Option.some.injEq] at h
                subst h
                exact loopM_rel _ R hR.refl hR.trans _
                  (fun s x s' _ hf => upperPass_rel hR faces v _ _ s s' hf) a.1 a1 ha1
  · simp at h

theorem FillHDCubes_rel {deg : Nat} {R : Store × Nat → Store × Nat → Prop} (hR : StepRel deg R)
    (st : Store) (edge facecount : Nat) (r : Store × Nat)
    (h : FillHDCubes st edge deg facecount = some r) : R (st, 0) r := by
  unfold FillHDCubes at h
  split at h
  · simp at h
  · split at h
    · split at h
      · simp at h
      · simp at h
      · split at h
        · simp at h
        · split at h
          · simp at h
          · split at h
            · simp at h
            · rename_i a ha
              simp only [Option.some.injEq] at h
              subst h
              exact loopM_rel _ (fun x y => R x.1 y.1) (fun s => hR.refl s.1)
                (fun x y z => hR.trans x.1 y.1 z.1) _
                (fun s x s' _ hf => configPass_rel hR _ _ s s' x hf) ((st, 0), none) a ha
    · simp only [Option.some.injEq] at h; subst h; exact hR.refl _

theorem Grows_stepRel (d : Nat) : StepRel d (Grows d) := by
  refine ⟨?_, ?_, ?_⟩
  · intro a
    refine ⟨Nat.le_refl _, rfl, fun _ _ => rfl, ⟨[], by simp, ?_⟩, fun _ => rfl,
      fun h => absurd h (Nat.lt_irrefl _)⟩
    cases a.1.cubelist[d]? <;> simp
  · intro a b c ⟨a1, a2, a3, ⟨n1, a4, a5⟩, a6, a7⟩ ⟨b1, b2, b3, ⟨n2, b4, b5⟩, b6, b7⟩
    refine ⟨Nat.le_trans a1 b1, b2.trans a2, fun e he => (b3 e he).trans (a3 e he),
      ⟨n1 ++ n2, by simp; omega, ?_⟩, ?_, ?_⟩
    · rw [b5, a5]
      cases a.1.cubelist[d]? <;> simp
    · intro h
      have e1 : b.2 = a.2 := by omega
      have e2 : c.2 = b.2 := by omega
      rw [b6 e2, a6 e1]
    · intro h
      by_cases e : a.2 < b.2
      · exact a7 e
      · have e1 : b.2 = a.2 := by omega
        have := b7 (by omega)
        rw [a6 e1] at this
        exact this
  · intro a c s hd _ hl
    obtain ⟨l, h1, h2⟩ := (link_spec a.1 s c hl).list
    rw [hd] at h1 h2
    have hlt := getElem?_some_lt _ _ _ h1
    refine ⟨Nat.le_succ _, by simp [h2], ?_, ⟨[a.1.cubes.length], by simp, ?_⟩, ?_, fun _ => hlt⟩
    · intro e he
      show s.cubelist[e]? = a.1.cubelist[e]?
      rw [h2, List.getElem?_set_ne (Ne.symm he)]
    · show s.cubelist[d]? = _
      rw [h2, List.getElem?_set_self hlt, h1]
      rfl
    · intro h
      simp at h

theorem addedCubes_of_eq (st st' : Store) (d : Nat) (h : st'.cubelist[d]? = st.cubelist[d]?) :
    addedCubes st st' d = 0 ∧ st'.cubelist.getD d [] = st.cubelist.getD d [] := by
  have : st'.cubelist.getD d [] = st.cubelist.getD d [] := by
    simp [List.getD_eq_getElem?_getD, h]
  unfold addedCubes
  rw [this]
  simp

theorem addedCubes_of_append (st st' : Store) (d : Nat) (new : List Nat)
    (h : st'.cubelist[d]? = (st.cubelist[d]?).map (fun l => l ++ new))
    (hd : d < st.cubelist.length) :
    addedCubes st st' d = new.length ∧
      st'.cubelist.getD d [] = st.cubelist.getD d [] ++ new := by
  have h1 : st.cubelist[d]? = some st.cubelist[d] := List.getElem?_eq_getElem hd
  rw [h1] at h
  have e1 : st'.cubelist.getD d [] = st.cubelist[d] ++ new := by
    simp [List.getD_eq_getElem?_getD, h]
  have e2 : st.cubelist.getD d [] = st.cubelist[d] := by
    simp [List.getD_eq_getElem?_getD, h1]
  unfold addedCubes
  rw [e1, e2]
  simp

/-- What the loop of `FillCubes` has done when it returns. -/
theorem FillCubesLoop_spec (edge : Nat) :
    ∀ (fuel : Nat) (st : Store) (fc : Nat) (dim : Int) (st' : Store) (r : Int),
      FillCubesLoop edge fuel st fc dim = some (st', r) → (fc = 0 ∨ 0 ≤ dim) →
      dim ≤ r ∧ st'.cubelist.length = st.cubelist.length ∧ (fc = 0 → r = dim ∧ st' = st) ∧
      (∀ d : Nat, ((d : Int) < dim + 2 ∨ r + 1 < d) → st'.cubelist[d]? = st.cubelist[d]?) ∧
      (∀ d : Nat, dim + 2 ≤ d → (d : Int) ≤ r →
        d < st.cubelist.length ∧ ∃ new, new ≠ [] ∧
          st'.cubelist[d]? = (st.cubelist[d]?).map (fun l => l ++ new)) ∧
      (0 < fc → dim + 1 ≤ r ∧
        ∀ d : Nat, (d : Int) = r + 1 → st'.cubelist[d]? = st.cubelist[d]?) := by
  intro fuel
  induction fuel with
  | zero => intro st fc dim st' r h; simp [FillCubesLoop] at h
  | succ n ih =>
    intro st fc dim st' r h hdim
    simp only [FillCubesLoop] at h
    split at h
    · rename_i hfc
      simp only [Option.some.injEq, Prod.mk.injEq] at h
      obtain ⟨rfl, rfl⟩ := h
      exact ⟨Int.le_refl _, rfl, fun _ => ⟨rfl, rfl⟩, fun _ _ => rfl,
        fun d h1 h2 => by omega, fun h => by omega⟩
    · rename_i hfc
      have hd0 : 0 ≤ dim := by omega
      split at h
      · simp at h
      · rename_i r1 hr1
        obtain ⟨deg, hdeg⟩ : ∃ deg : Nat, (dim + 1 + 1).toNat = deg := ⟨_, rfl⟩
        have hdeg' : (deg : Int) = dim + 2 := by omega
        rw [hdeg] at hr1
        obtain ⟨g1, g2, g3, ⟨new, g4, g5⟩, g6, g7⟩ :=
          FillHDCubes_rel (Grows_stepRel deg) st edge fc r1 hr1
        simp only at g1 g2 g3 g4 g5 g6 g7
        obtain ⟨i1, i2, i3, i4, i5, i6⟩ := ih r1.1 r1.2 (dim + 1) st' r h (Or.inr (by omega))
        refine ⟨by omega, i2.trans g2, fun h0 => absurd h0 hfc, ?_, ?_, fun _ => ⟨i1, ?_⟩⟩
        · intro d hd
          rcases hd with hd | hd
          · rw [i4 d (Or.inl (by omega)), g3 d (by omega)]
          · rw [i4 d (Or.inr hd), g3 d (by omega)]
        · intro d h1 h2
          by_cases e : (d : Int) = dim + 2
          · have ed : d = deg := by omega
            subst ed
            have hr1pos : 0 < r1.2 := by
              by_contra hx
              have := (i3 (by omega)).1
              omega
            have hlt := g7 hr1pos
            refine ⟨hlt, new, ?_, ?_⟩
            · intro hn
              rw [hn] at g4
              simp at g4
              omega
            · rw [i4 d (Or.inl (by omega)), g5]
          · obtain ⟨j1, new', j2, j3⟩ := i5 d (by omega) h2
            refine ⟨by omega, new', j2, ?_⟩
            rw [j3, g3 d (by omega)]
        · intro d hd
          by_cases e : r1.2 = 0
          · obtain ⟨k1, k2⟩ := i3 e
            have ed : d = deg := by omega
            subst ed
            rw [k2, g5]
            have : new = [] := by
              apply List.eq_nil_of_length_eq_zero
              rw [g4, e]
            subst this
            cases st.cubelist[d]? <;> simp
          · obtain ⟨k1, k2⟩ := i6 (by omega)
            rw [k2 d hd, g3 d (by omega)]

/-- C4: `FillCubes(edge, cubelist)` only appends to the collections. It returns -1
(and changes nothing) if `FillSquares` adds no cube of degree 2. Otherwise it
returns a degree `D >= 2` such that at least one cube was added in every degree
from 2 to `D`, and none in any other degree, in particular none in degree
`D + 1`. -/
theorem FillCubes_returns (st st' : Store) (edge : Nat) (r : Int)
    (h : FillCubes st edge = some (st', r)) :
    (∃ s1, FillSquares st edge = some (s1, addedCubes st st' 2)) ∧
    (∀ d, ∃ new, st'.cubelist.getD d [] = st.cubelist.getD d [] ++ new ∧
      new.length = addedCubes st st' d) ∧
    (addedCubes st st' 2 = 0 → r = -1 ∧ st' = st) ∧
    (0 < addedCubes st st' 2 → ∃ D : Nat, r = (D : Int) ∧ 2 ≤ D ∧
      (∀ d, 2 ≤ d → d ≤ D → 0 < addedCubes st st' d) ∧
      (∀ d, (d < 2 ∨ D < d) → addedCubes st st' d = 0)) := by
  unfold FillCubes at h
  cases hsq : FillSquares st edge with
  | none => simp [hsq] at h
  | some r0 =>
    simp only [hsq] at h
    obtain ⟨g1, g2, g3, ⟨new, g4, g5⟩, g6, g7⟩ := FillSquares_rel (Grows_stepRel 2) st edge r0 hsq
    simp only [Nat.sub_zero] at g1 g2 g3 g4 g5 g6 g7
    by_cases hn : r0.2 = 0
    · have hs : r0.1 = st := g6 hn
      have hpos : ¬ (r0.2 > 0) := by omega
      rw [if_neg hpos] at h
      obtain ⟨i1, i2, i3, -, -, -⟩ :=
        FillCubesLoop_spec edge _ r0.1 r0.2 (-1) st' r h (Or.inl hn)
      obtain ⟨hr, hst⟩ := i3 hn
      have hst' : st' = st := hst.trans hs
      subst hst'
      have hadd : ∀ d, addedCubes st' st' d = 0 := fun d => by simp [addedCubes]
      refine ⟨⟨r0.1, ?_⟩, ?_, fun _ => ⟨hr, rfl⟩, ?_⟩
      · rw [hadd 2, ← hn]
      · intro d
        exact ⟨[], by simp, by rw [hadd d]; rfl⟩
      · intro hx
        rw [hadd 2] at hx
        exact absurd hx (Nat.lt_irrefl _)
    · have hpos : r0.2 > 0 := by omega
      rw [if_pos hpos] at h
      obtain ⟨i1, i2, i3, i4, i5, i6⟩ :=
        FillCubesLoop_spec edge _ r0.1 r0.2 1 st' r h (Or.inr (by omega))
      obtain ⟨i7, i8⟩ := i6 hpos
      have h2lt : 2 < st.cubelist.length := g7 hpos
      have e2 : st'.cubelist[2]? = (st.cubelist[2]?).map (fun l => l ++ new) := by
        rw [i4 2 (Or.inl (by omega)), g5]
      obtain ⟨a2, p2⟩ := addedCubes_of_append st st' 2 new e2 h2lt
      obtain ⟨D, hD⟩ : ∃ D : Nat, r = (D : Int) := ⟨r.toNat, by omega⟩
      subst hD
      have hlow : ∀ d, d < 2 → st'.cubelist[d]? = st.cubelist[d]? := by
        intro d hd
        rw [i4 d (Or.inl (by omega)), g3 d (by omega)]
      have hhigh : ∀ d, D < d → st'.cubelist[d]? = st.cubelist[d]? := by
        intro d hd
        by_cases e : d = D + 1
        · rw [i8 d (by omega), g3 d (by omega)]
        · rw [i4 d (Or.inr (by omega)), g3 d (by omega)]
      have hmid : ∀ d, 3 ≤ d → d ≤ D → ∃ nw, nw ≠ [] ∧ d < st.cubelist.length ∧
          st'.cubelist[d]? = (st.cubelist[d]?).map (fun l => l ++ nw) := by
        intro d h3 hd
        obtain ⟨j1, nw, j2, j3⟩ := i5 d (by omega) (by omega)
        refine ⟨nw, j2, by omega, ?_⟩
        rw [j3, g3 d (by omega)]
      refine ⟨⟨r0.1, ?_⟩, ?_, ?_, ?_⟩
      · rw [a2, g4]
      · intro d
        by_cases c1 : d < 2
        · obtain ⟨b1, b2⟩ := addedCubes_of_eq st st' d (hlow d c1)
          exact ⟨[], by rw [b2, List.append_nil], by rw [b1]; rfl⟩
        · by_cases c2 : d = 2
          · subst c2
            exact ⟨new, p2, a2.symm⟩
          · by_cases c3 : d ≤ D
            · obtain ⟨nw, -, k2, k3⟩ := hmid d (by omega) c3
              obtain ⟨b1, b2⟩ := addedCubes_of_append st st' d nw k3 k2
              exact ⟨nw, b2, b1.symm⟩
            · obtain ⟨b1, b2⟩ := addedCubes_of_eq st st' d (hhigh d (by omega))
              exact ⟨[], by rw [b2, List.append_nil], by rw [b1]; rfl⟩
      · intro h0
        rw [a2, g4] at h0
        omega
      · intro _
        refine ⟨D, rfl, by omega, ?_, ?_⟩
        · intro d h2 hd
          by_cases c2 : d = 2
          · subst c2
            rw [a2, g4]
            exact hpos
          · obtain ⟨nw, k1, k2, k3⟩ := hmid d (by omega) hd
            rw [(addedCubes_of_append st st' d nw k3 k2).1]
            exact List.length_pos.2 k1
        · intro d hd
          rcases hd with hd | hd
          · exact (addedCubes_of_eq st st' d (hlow d hd)).1
          · exact (addedCubes_of_eq st st' d (hhigh d hd)).1

theorem FillCubes_returns_witness :
    (∃ s1, FillSquares squareReady 7 = some (s1, addedCubes squareReady unitSquare 2)) ∧
    (∀ d, ∃ new, unitSquare.cubelist.getD d [] = squareReady.cubelist.getD d [] ++ new ∧
      new.length = addedCubes squareReady unitSquare d) ∧
    (addedCubes squareReady unitSquare 2 = 0 → (2 : Int) = -1 ∧ unitSquare = squareReady) ∧
    (0 < addedCubes squareReady unitSquare 2 → ∃ D : Nat, (2 : Int) = (D : Int) ∧ 2 ≤ D ∧
      (∀ d, 2 ≤ d → d ≤ D → 0 < addedCubes squareReady unitSquare d) ∧
      (∀ d, (d < 2 ∨ D < d) → addedCubes squareReady unitSquare d = 0)) :=
  FillCubes_returns squareReady unitSquare 7 2 (by decide)

/-- The bound on the loop of `FillCubes` is never reached: with more fuel the
loop returns the same. -/
theorem FillCubesLoop_fuel (edge : Nat) (k : Nat) :
    ∀ (fuel : Nat) (st : Store) (fc : Nat) (dim : Int), 1 ≤ fuel →
      (0 < fc → 0 ≤ dim ∧ dim + 1 < st.cubelist.length ∧
        (st.cubelist.length : Int) - (dim + 1) + 1 ≤ fuel) →
      FillCubesLoop edge (fuel + k) st fc dim = FillCubesLoop edge fuel st fc dim := by
  intro fuel
  induction fuel with
  | zero => intro st fc dim h1; omega
  | succ n ih =>
    intro st fc dim _ h2
    have e : n + 1 + k = (n + k) + 1 := by omega
    rw [e]
    simp only [FillCubesLoop]
    by_cases hfc : fc = 0
    · simp [hfc]
    · simp only [hfc, if_false]
      obtain ⟨d0, d1, d2⟩ := h2 (by omega)
      cases hr : FillHDCubes st edge (dim + 1 + 1).toNat fc with
      | none => rfl
      | some r1 =>
        simp only
        obtain ⟨g1, g2, -, -, -, g7⟩ :=
          FillHDCubes_rel (Grows_stepRel (dim + 1 + 1).toNat) st edge fc r1 hr
        simp only at g1 g2 g7
        apply ih
        · omega
        · intro hpos
          have := g7 hpos
          refine ⟨by omega, by omega, by omega⟩

theorem FillCubes_fuel (st : Store) (edge : Nat) (k : Nat) :
    (FillSquares st edge).bind (fun r =>
      FillCubesLoop edge (st.cubelist.length + 1 + k) r.1 r.2 (if r.2 > 0 then 1 else -1)) =
    FillCubes st edge := by
  unfold FillCubes
  cases hsq : FillSquares st edge with
  | none => rfl
  | some r0 =>
    simp only [Option.some_bind]
    obtain ⟨g1, g2, -, -, -, g7⟩ := FillSquares_rel (Grows_stepRel 2) st edge r0 hsq
    simp only at g1 g2 g7
    have := FillCubesLoop_fuel edge k (st.cubelist.length + 1) r0.1 r0.2
      (if r0.2 > 0 then 1 else -1) (by omega) (by
        intro hpos
        have := g7 hpos
        rw [if_pos hpos]
        refine ⟨by omega, by omega, by omega⟩)
    exact this

/-- C3, as stated, fails: at the last edge 7 of the unit square the first call of
`FillCubes` adds the square, and a second call at the same edge adds a second
square with the same four faces (`FillSquares` has no test for an existing
square). -/
theorem FillCubes_twice_adds :
    ∃ (s1 s2 : Store) (r1 r2 : Int),
      FillCubes squareReady 7 = some (s1, r1) ∧ FillCubes s1 7 = some (s2, r2) ∧
      addedCubes s1 s2 2 = 1 ∧ facesOf s2 9 = facesOf s2 8 := by
  have h1 : FillCubes squareReady 7 = some (unitSquare, 2) := by decide
  cases h2 : FillCubes unitSquare 7 with
  | none => exact absurd h2 (by decide)
  | some r =>
    refine ⟨unitSquare, r.1, 2, r.2, h1, h2, ?_, ?_⟩
    · have : (FillCubes unitSquare 7).map (fun r => addedCubes unitSquare r.1 2) = some 1 := by
        decide
      rw [h2] at this
      simpa using this
    · have : (FillCubes unitSquare 7).map (fun r => decide (facesOf r.1 9 = facesOf r.1 8)) =
          some true := by decide
      rw [h2] at this
      simpa using this

/-! ### The invariant under `link` -/

theorem get_length_none (st : Store) : st.get (some st.cubes.length) = none := by
  cases h : st.get (some st.cubes.length) with
  | none => rfl
  | some c => exact absurd (get_lt st _ c h) (Nat.lt_irrefl _)

theorem pid_congr (st st' : Store) (p : Option Nat) (c c' : cube)
    (h : st.get p = some c) (h' : st'.get p = some c') (hl : c'.lab = c.lab) :
    st'.pid p = st.pid p := by
  simp only [Store.pid, h, h', hl]

theorem bd_congr (st st' : Store) (p : Option Nat) (c c' : cube)
    (h : st.get p = some c) (h' : st'.get p = some c') (hc : Core c c') (k i : Nat) :
    st'.bd p k i = st.bd p k i := by
  simp only [Store.bd, h, h', hc.core_d]

theorem bd_get (st : Store) (p : Option Nat) (c : cube) (h : st.get p = some c) (k i : Nat) :
    st.bd p k i = c.d k i := by
  simp only [Store.bd, h]

theorem pid_some_live (st : Store) (p : Option Nat) (n : Int) (h : st.pid p = some n) :
    ∃ c, st.get p = some c := by
  cases hc : st.get p with
  | none => simp [Store.pid, hc] at h
  | some c => exact ⟨c, rfl⟩

theorem Ext.ext_pid {st st' : Store} (h : Ext st st') (p : Option Nat) (n : Int)
    (hp : st.pid p = some n) : st'.pid p = some n := by
  obtain ⟨c, hc⟩ := pid_some_live st p n hp
  cases p with
  | none => simp [Store.get] at hc
  | some y =>
    obtain ⟨c', hc', hcore, -⟩ := h.2 y c hc
    rw [pid_congr st st' (some y) c c' hc hc' hcore.2.2.2.2]
    exact hp

theorem Ext.bd {st st' : Store} (h : Ext st st') (y : Nat) (c : cube)
    (hc : st.get (some y) = some c) (k i : Nat) :
    st'.bd (some y) k i = st.bd (some y) k i := by
  obtain ⟨c', hc', hcore, -⟩ := h.2 y c hc
  exact bd_congr st st' (some y) c c' hc hc' hcore k i

theorem Linked.cases {st st' : Store} {c : cube} (h : Linked st c st') (y : Nat) (cy' : cube)
    (hy : st'.get (some y) = some cy') :
    (y = st.cubes.length ∧ cy' = c) ∨
    (∃ cy, st.get (some y) = some cy ∧ Frame cy cy' ∧
      ∀ k i, cy'.s k i = (cy.s k i).map (fun l =>
        if c.d k i = some (some y) then l ++ [st.cubes.length] else l)) := by
  by_cases e : y = st.cubes.length
  · subst e
    rw [h.new] at hy
    exact Or.inl ⟨rfl, (Option.some.inj hy).symm⟩
  · cases hs : st.get (some y) with
    | none => rw [h.dead y e hs] at hy; simp at hy
    | some cy =>
      obtain ⟨cy2, g1, g2, g3⟩ := h.old y cy hs
      rw [g1] at hy
      have : cy2 = cy' := Option.some.inj hy
      subst this
      exact Or.inr ⟨cy, rfl, g2, g3⟩

theorem Linked.linked_ext {st st' : Store} {c : cube} (h : Linked st c st') : Ext st st' := by
  refine ⟨by rw [h.len]; omega, ?_⟩
  intro y cy hy
  obtain ⟨cy', g1, g2, g3⟩ := h.old y cy hy
  refine ⟨cy', g1, g2.core, ?_⟩
  intro k i l hl
  rw [g3 k i, hl]
  by_cases e : c.d k i = some (some y)
  · exact ⟨[st.cubes.length], by simp [e]⟩
  · exact ⟨[], by simp [e]⟩

theorem length_eq_of_getElem?_map {α : Type} (l l' : List α) (f : Nat → α → α)
    (h : ∀ i, l'[i]? = (l[i]?).map (f i)) : l'.length = l.length := by
  apply Nat.le_antisymm
  · by_contra hx
    have h1 := h l.length
    rw [List.getElem?_eq_none (Nat.le_refl _), List.getElem?_eq_getElem (by omega)] at h1
    simp at h1
  · by_contra hx
    have h1 := h l'.length
    rw [List.getElem?_eq_none (Nat.le_refl _), List.getElem?_eq_getElem (by omega)] at h1
    simp at h1

theorem replicate_s (n : Nat) (c : cube) (k i : Nat) (l : List Nat)
    (h0 : c.s0 = List.replicate n []) (h1 : c.s1 = List.replicate n [])
    (h : c.s k i = some l) : l = [] := by
  match k with
  | 0 =>
    simp only [cube.s, h0] at h
    have := List.getElem?_mem h
    exact (List.eq_of_mem_replicate this)
  | 1 =>
    simp only [cube.s, h1] at h
    have := List.getElem?_mem h
    exact (List.eq_of_mem_replicate this)
  | (m + 2) => simp [cube.s] at h

theorem Ext.live {st st' : Store} (h : Ext st st') (y : Nat) (cy : cube)
    (hy : st.get (some y) = some cy) : ∃ cy', st'.get (some y) = some cy' ∧ Core cy cy' := by
  obtain ⟨cy', g1, g2, -⟩ := h.2 y cy hy
  exact ⟨cy', g1, g2⟩

theorem CubicalIdentity.identity_ext {st st' : Store} (h : Ext st st') (c c' : cube) (hc : Core c c')
    (hi : CubicalIdentity st c) : CubicalIdentity st' c' := by
  intro i j k l h1 h2 h3 h4
  obtain ⟨f, g, y, a1, a2, a3, a4⟩ := hi i j k l h1 (by rw [← hc.1]; exact h2) h3 h4
  refine ⟨f, g, y, by rw [hc.core_d]; exact a1, by rw [hc.core_d]; exact a2, ?_, ?_⟩
  · cases hf : st.get (some f) with
    | none => simp [Store.bd, hf] at a3
    | some cf => rw [h.bd f cf hf]; exact a3
  · cases hg : st.get (some g) with
    | none => simp [Store.bd, hg] at a4
    | some cg => rw [h.bd g cg hg]; exact a4

theorem Linked.s_old {st st' : Store} {c : cube} (_h : Linked st c st') (y : Nat)
    (cy cy' : cube)
    (hs : ∀ k i, cy'.s k i = (cy.s k i).map (fun l =>
        if c.d k i = some (some y) then l ++ [st.cubes.length] else l))
    (k i : Nat) (l' : List Nat) (hl : cy'.s k i = some l') :
    ∃ l, cy.s k i = some l ∧
      ((c.d k i = some (some y) ∧ l' = l ++ [st.cubes.length]) ∨
       (c.d k i ≠ some (some y) ∧ l' = l)) := by
  rw [hs k i] at hl
  cases hc : cy.s k i with
  | none => simp [hc] at hl
  | some l =>
    simp only [hc, Option.map_some', Option.some.injEq] at hl
    refine ⟨l, rfl, ?_⟩
    by_cases e : c.d k i = some (some y)
    · rw [if_pos e] at hl; exact Or.inl ⟨e, hl.symm⟩
    · rw [if_neg e] at hl; exact Or.inr ⟨e, hl.symm⟩

theorem cube_s_getElem (c : cube) (k i : Nat) (hk : k < 2) :
    c.s k i = (if k = 0 then c.s0 else c.s1)[i]? := by
  match k with
  | 0 => rfl
  | 1 => rfl
  | (n + 2) => omega

theorem Inv_link_shape {st st' : Store} {c : cube} (hI : Inv st) (hC : Cand st c)
    (hL : Linked st c st') (x : Nat) (c' : cube) (hx : st'.get (some x) = some c') :
    c'.d0.length = c'.degree ∧ c'.d1.length = c'.degree ∧ c'.s0.length = c'.degree + 1 ∧
    c'.s1.length = c'.degree + 1 ∧ c'.edges.length = c'.degree := by
  rcases hL.cases x c' hx with ⟨-, rfl⟩ | ⟨cy, h1, h2, h3⟩
  · obtain ⟨a1, a2, a3, a4, a5⟩ := hC.shape
    exact ⟨a1, a2, by rw [a3]; simp, by rw [a4]; simp, a5⟩
  · obtain ⟨a1, a2, a3, a4, a5⟩ := hI.shape x cy h1
    obtain ⟨b1, -, -, b4, b5, b6, -⟩ := h2
    have e0 : c'.s0.length = cy.s0.length :=
      length_eq_of_getElem?_map cy.s0 c'.s0
        (fun i l => if c.d 0 i = some (some x) then l ++ [st.cubes.length] else l)
        (fun i => by have := h3 0 i; simpa [cube.s] using this)
    have e1 : c'.s1.length = cy.s1.length :=
      length_eq_of_getElem?_map cy.s1 c'.s1
        (fun i l => if c.d 1 i = some (some x) then l ++ [st.cubes.length] else l)
        (fun i => by have := h3 1 i; simpa [cube.s] using this)
    rw [b1, b4, b5, b6, e0, e1]
    exact ⟨a1, a2, a3, a4, a5⟩

theorem Inv_link (st st' : Store) (c : cube) (hI : Inv st) (hC : Cand st c)
    (hlink : st.link c = some st') : Inv st' := by
  have hL := link_spec st st' c hlink
  have hE : Ext st st' := hL.linked_ext
  have hnone := get_length_none st
  have hnew := hL.new
  refine
    { shape := fun x c' hx => Inv_link_shape hI hC hL x c' hx
      faces := ?_, cofSound := ?_, cofNodup := ?_, cofComplete := ?_, listed := ?_,
      listedAll := ?_, ident := ?_, unique := ?_, edges1 := ?_, edgesOK := ?_,
      edgesFace := ?_, pids := ?_ }
  · -- faces
    intro x c' k i hx hk hi
    rcases hL.cases x c' hx with ⟨-, rfl⟩ | ⟨cy, h1, h2, h3⟩
    · obtain ⟨f, cf, a1, a2, a3⟩ := hC.faces k i hk hi
      obtain ⟨cf', b1, b2⟩ := hE.live f cf a2
      exact ⟨f, cf', a1, b1, by rw [b2.1]; exact a3⟩
    · obtain ⟨f, cf, a1, a2, a3⟩ := hI.faces x cy k i h1 hk (by rw [← h2.1]; exact hi)
      obtain ⟨cf', b1, b2⟩ := hE.live f cf a2
      exact ⟨f, cf', by rw [h2.frame_d]; exact a1, b1, by rw [b2.1, h2.1]; exact a3⟩
  · -- cofSound
    intro f cf' k i l' y hf hl hy
    rcases hL.cases f cf' hf with ⟨-, rfl⟩ | ⟨cf, h1, h2, h3⟩
    · have := replicate_s _ _ k i l' hC.shape.2.2.1 hC.shape.2.2.2.1 hl
      subst this
      simp at hy
    · obtain ⟨l, a1, a2⟩ := hL.s_old f cf cf' h3 k i l' hl
      have hold : y ∈ l → ∃ cy, st'.get (some y) = some cy ∧ cy.d k i = some (some f) := by
        intro hyl
        obtain ⟨cy, b1, b2⟩ := hI.cofSound f cf k i l y h1 a1 hyl
        obtain ⟨cy', c1, c2⟩ := hE.live y cy b1
        exact ⟨cy', c1, by rw [c2.core_d]; exact b2⟩
      rcases a2 with ⟨e, rfl⟩ | ⟨-, rfl⟩
      · rcases List.mem_append.1 hy with hyl | hyx
        · exact hold hyl
        · simp only [List.mem_singleton] at hyx
          subst hyx
          exact ⟨c, hnew, e⟩
      · exact hold hy
  · -- cofNodup
    intro f cf' k i l' hf hl
    rcases hL.cases f cf' hf with ⟨-, rfl⟩ | ⟨cf, h1, h2, h3⟩
    · have := replicate_s _ _ k i l' hC.shape.2.2.1 hC.shape.2.2.2.1 hl
      subst this
      exact List.nodup_nil
    · obtain ⟨l, a1, a2⟩ := hL.s_old f cf cf' h3 k i l' hl
      have hnd := hI.cofNodup f cf k i l h1 a1
      rcases a2 with ⟨e, rfl⟩ | ⟨-, rfl⟩
      · rw [List.nodup_append]
        refine ⟨hnd, List.nodup_singleton _, ?_⟩
        intro a ha hb
        simp only [List.mem_singleton] at hb
        subst hb
        obtain ⟨cy, b1, -⟩ := hI.cofSound f cf k i l _ h1 a1 ha
        rw [hnone] at b1
        simp at b1
      · exact hnd
  · -- cofComplete
    intro y cy' k i f hy hd
    rcases hL.cases y cy' hy with ⟨rfl, rfl⟩ | ⟨cy, h1, h2, h3⟩
    · obtain ⟨fi, cf, l, a1, a2, a3⟩ := hL.faces k i (some f) hd
      have : fi = f := (Option.some.inj a1).symm
      subst this
      obtain ⟨cf', b1, b2, b3⟩ := hL.old fi cf a2
      refine ⟨cf', l ++ [st.cubes.length], b1, ?_, by simp⟩
      rw [b3 k i, a3]
      simp [hd]
    · rw [h2.frame_d] at hd
      obtain ⟨cf, l, a1, a2, a3⟩ := hI.cofComplete y cy k i f h1 hd
      obtain ⟨cf', b1, b2, b3⟩ := hL.old f cf a1
      by_cases e : c.d k i = some (some f)
      · refine ⟨cf', l ++ [st.cubes.length], b1, ?_, List.mem_append_left _ a3⟩
        rw [b3 k i, a2]
        simp [e]
      · refine ⟨cf', l, b1, ?_, a3⟩
        rw [b3 k i, a2]
        simp [e]
  · -- listed
    intro d l x hl hx
    obtain ⟨l0, a1, a2⟩ := hL.list
    have hlt := getElem?_some_lt _ _ _ a1
    have hold : ∀ l1, st.cubelist[d]? = some l1 → x ∈ l1 →
        ∃ c', st'.get (some x) = some c' ∧ c'.degree = d := by
      intro l1 h1 h2
      obtain ⟨cx, b1, b2⟩ := hI.listed d l1 x h1 h2
      obtain ⟨cx', c1, c2⟩ := hE.live x cx b1
      exact ⟨cx', c1, by rw [c2.1]; exact b2⟩
    rw [a2] at hl
    by_cases e : d = c.degree
    · subst e
      rw [List.getElem?_set_self hlt] at hl
      have : l = l0 ++ [st.cubes.length] := (Option.some.inj hl).symm
      subst this
      rcases List.mem_append.1 hx with h1 | h1
      · exact hold l0 a1 h1
      · simp only [List.mem_singleton] at h1
        subst h1
        exact ⟨c, hnew, rfl⟩
    · rw [List.getElem?_set_ne (Ne.symm e)] at hl
      exact hold l hl hx
  · -- listedAll
    intro x c' hx hpos
    obtain ⟨l0, a1, a2⟩ := hL.list
    have hlt := getElem?_some_lt _ _ _ a1
    rcases hL.cases x c' hx with ⟨rfl, rfl⟩ | ⟨cy, h1, h2, h3⟩
    · refine ⟨l0 ++ [st.cubes.length], ?_, by simp⟩
      rw [a2, List.getElem?_set_self hlt]
    · obtain ⟨l, b1, b2⟩ := hI.listedAll x cy h1 (by rw [← h2.1]; exact hpos)
      rw [h2.1]
      by_cases e : cy.degree = c.degree
      · rw [e] at b1 ⊢
        rw [a1] at b1
        have : l0 = l := Option.some.inj b1
        subst this
        refine ⟨l0 ++ [st.cubes.length], ?_, List.mem_append_left _ b2⟩
        rw [a2, List.getElem?_set_self hlt]
      · refine ⟨l, ?_, b2⟩
        rw [a2, List.getElem?_set_ne (Ne.symm e)]
        exact b1
  · -- ident
    intro x c' hx
    rcases hL.cases x c' hx with ⟨-, rfl⟩ | ⟨cy, h1, h2, h3⟩
    · exact CubicalIdentity.identity_ext hE c' c' (Core.core_refl _) hC.ident
    · exact CubicalIdentity.identity_ext hE cy c' h2.core (hI.ident x cy h1)
  · -- unique
    intro x y cx' cy' hx hy hdeg h0 h1
    rcases hL.cases x cx' hx with ⟨rfl, rfl⟩ | ⟨cx, a1, a2, a3⟩
    · rcases hL.cases y cy' hy with ⟨rfl, -⟩ | ⟨cy, b1, b2, b3⟩
      · rfl
      · exfalso
        refine hC.unique hdeg y cy b1 ⟨?_, ?_⟩
        · rw [← b2.2.2.2.1]; exact h0.symm
        · rw [← b2.2.2.2.2.1]; exact h1.symm
    · rcases hL.cases y cy' hy with ⟨rfl, rfl⟩ | ⟨cy, b1, b2, b3⟩
      · exfalso
        have hl1 := (hI.shape x cx a1).1
        have hl2 := hC.shape.1
        have hd2 : 2 ≤ cy'.degree := by
          rw [← hl2, ← h0, a2.2.2.2.1, hl1, ← a2.1]
          exact hdeg
        refine hC.unique hd2 x cx a1 ⟨?_, ?_⟩
        · rw [← a2.2.2.2.1]; exact h0
        · rw [← a2.2.2.2.2.1]; exact h1
      · refine hI.unique x y cx cy a1 b1 (by rw [← a2.1]; exact hdeg) ?_ ?_
        · rw [← a2.2.2.2.1, ← b2.2.2.2.1]; exact h0
        · rw [← a2.2.2.2.2.1, ← b2.2.2.2.2.1]; exact h1
  · -- edges1
    intro x c' hx hd
    rcases hL.cases x c' hx with ⟨rfl, rfl⟩ | ⟨cy, h1, h2, h3⟩
    · exact (hC.edges1 hd).1
    · rw [h2.2.2.2.2.2.1]
      exact hI.edges1 x cy h1 (by rw [← h2.1]; exact hd)
  · -- edgesOK
    intro x c' i hx hi
    have hold : ∀ (es : List (Option Nat)) e ce p, es[i]? = some (some e) →
        st.get (some e) = some ce → ce.degree = 1 → st.pid (some e) = some p →
        ∃ e ce p, es[i]? = some (some e) ∧ st'.get (some e) = some ce ∧ ce.degree = 1 ∧
          st'.pid (some e) = some p := by
      intro es e ce p b1 b2 b3 b4
      obtain ⟨ce', c1, c2⟩ := hE.live e ce b2
      exact ⟨e, ce', p, b1, c1, by rw [c2.1]; exact b3, hE.ext_pid _ _ b4⟩
    rcases hL.cases x c' hx with ⟨rfl, rfl⟩ | ⟨cy, h1, h2, h3⟩
    · by_cases hd : c'.degree = 1
      · obtain ⟨a1, l, ls, a2⟩ := hC.edges1 hd
        have hi0 : i = 0 := by omega
        subst hi0
        refine ⟨st.cubes.length, c', l.num, by rw [a1]; rfl, hnew, hd, ?_⟩
        simp only [Store.pid, hnew, a2]
      · obtain ⟨e, ce, p, b1, b2, b3, b4⟩ := hC.edgesOK (by have := hC.pos; omega) i hi
        exact hold _ e ce p b1 b2 b3 b4
    · obtain ⟨e, ce, p, b1, b2, b3, b4⟩ := hI.edgesOK x cy i h1 (by rw [← h2.1]; exact hi)
      rw [h2.2.2.2.2.2.1]
      exact hold _ e ce p b1 b2 b3 b4
  · -- edgesFace
    intro x c' j hx hd hj
    rcases hL.cases x c' hx with ⟨rfl, rfl⟩ | ⟨cy, h1, h2, h3⟩
    · obtain ⟨f, cf, a1, a2, a3⟩ := hC.edgesFace hd j hj
      obtain ⟨cf', b1, b2⟩ := hE.live f cf a2
      exact ⟨f, cf', a1, b1, by rw [b2.2.2.2.1]; exact a3⟩
    · obtain ⟨f, cf, a1, a2, a3⟩ := hI.edgesFace x cy j h1 (by rw [← h2.1]; exact hd)
        (by rw [← h2.1]; exact hj)
      obtain ⟨cf', b1, b2⟩ := hE.live f cf a2
      exact ⟨f, cf', by rw [h2.frame_d]; exact a1, b1, by rw [b2.2.2.2.1, h2.2.2.2.2.2.1]; exact a3⟩
  · -- pids
    intro x c' i j e1 e2 hx hij h1 h2
    have hj := getElem?_some_lt _ _ _ h2
    rcases hL.cases x c' hx with ⟨rfl, rfl⟩ | ⟨cy, g1, g2, g3⟩
    · have hlen := hC.shape.2.2.2.2
      have hd : 2 ≤ c'.degree := by omega
      obtain ⟨a, ca, p, a1, a2, a3, a4⟩ := hC.edgesOK hd i (by omega)
      obtain ⟨b, cb, q, b1, b2, b3, b4⟩ := hC.edgesOK hd j (by omega)
      rw [h1] at a1
      rw [h2] at b1
      have ea : e1 = some a := Option.some.inj a1
      have eb : e2 = some b := Option.some.inj b1
      have := hC.pids i j e1 e2 hij h1 h2
      rw [ea, eb] at this ⊢
      rw [hE.ext_pid _ _ a4, hE.ext_pid _ _ b4]
      rw [a4, b4] at this
      exact this
    · rw [g2.2.2.2.2.2.1] at h1 h2 hj
      have hlen := (hI.shape x cy g1).2.2.2.2
      obtain ⟨a, ca, p, a1, a2, a3, a4⟩ := hI.edgesOK x cy i g1 (by omega)
      obtain ⟨b, cb, q, b1, b2, b3, b4⟩ := hI.edgesOK x cy j g1 (by omega)
      rw [h1] at a1
      rw [h2] at b1
      have ea : e1 = some a := Option.some.inj a1
      have eb : e2 = some b := Option.some.inj b1
      have := hI.pids x cy i j e1 e2 g1 hij h1 h2
      rw [ea, eb] at this ⊢
      rw [hE.ext_pid _ _ a4, hE.ext_pid _ _ b4]
      rw [a4, b4] at this
      exact this

/-! ### `BdIdsOK` -/

theorem bdLoop_true (st : Store) (d0 d1 : List (Option Nat)) :
    ∀ (qs : List (Nat × Nat × Nat × Nat)), bdLoop st d0 d1 qs = some true →
      ∀ q, q ∈ qs → bdDiffer st d0 d1 q = some false := by
  intro qs
  induction qs with
  | nil => intro _ q hq; simp at hq
  | cons a qs ih =>
    intro h q hq
    simp only [bdLoop] at h
    cases ha : bdDiffer st d0 d1 a with
    | none => simp [ha] at h
    | some b =>
      cases b with
      | true => simp [ha] at h
      | false =>
        simp only [ha] at h
        rcases List.mem_cons.1 hq with rfl | hq'
        · exact ha
        · exact ih h q hq'

theorem mem_bdQuads (deg i j k l : Nat) (hij : i < j) (hj : j < deg) (hk : k < 2) (hl : l < 2) :
    (i, j, k, l) ∈ bdQuads deg := by
  simp only [bdQuads, List.mem_flatMap, List.mem_range, List.mem_range']
  refine ⟨i, by omega, j, ⟨j - (i + 1), by omega, by omega⟩, ?_⟩
  have hk' : k = 0 ∨ k = 1 := by omega
  have hl' : l = 0 ∨ l = 1 := by omega
  rcases hk' with rfl | rfl <;> rcases hl' with rfl | rfl <;> simp

/-- The boundary arrays `d0`, `d1` read as `cube.d` reads them. -/
theorem row_eq_d (c : cube) (k i : Nat) (hk : k < 2) :
    (if k = 0 then c.d0 else c.d1)[i]? = c.d k i := by
  match k with
  | 0 => rfl
  | 1 => rfl
  | (n + 2) => omega

theorem BdIdsOK_true (st : Store) (c : cube) (h : BdIdsOK st c.degree c.d0 c.d1 = some true)
    (i j k l : Nat) (hij : i < j) (hj : j < c.degree) (hk : k < 2) (hl : l < 2) :
    ∃ f g a, c.d k i = some f ∧ c.d l j = some g ∧ st.bd f l (j - 1) = some a ∧
      st.bd g k i = some a := by
  have h1 := bdLoop_true st c.d0 c.d1 _ h (i, j, k, l) (mem_bdQuads c.degree i j k l hij hj hk hl)
  simp only [bdDiffer] at h1
  rw [row_eq_d c k i hk, row_eq_d c l j hl] at h1
  cases hf : c.d k i with
  | none => simp [hf] at h1
  | some f =>
    cases hg : c.d l j with
    | none => simp [hf, hg] at h1
    | some g =>
      simp only [hf, hg] at h1
      cases ha : st.bd f l (j - 1) with
      | none => simp [ha] at h1
      | some a =>
        cases hb : st.bd g k i with
        | none => simp [ha, hb] at h1
        | some b =>
          simp only [ha, hb, Option.some.injEq, decide_eq_false_iff_not, ne_eq, not_not] at h1
          subst h1
          exact ⟨f, g, a, rfl, rfl, ha, hb⟩

theorem bd_some_live (st : Store) (p : Option Nat) (k i : Nat) (a : Option Nat)
    (h : st.bd p k i = some a) : ∃ x c, p = some x ∧ st.get (some x) = some c ∧ c.d k i = some a := by
  cases p with
  | none => simp [Store.bd, Store.get] at h
  | some x =>
    cases hc : st.get (some x) with
    | none => simp [Store.bd, hc] at h
    | some c =>
      simp only [Store.bd, hc] at h
      exact ⟨x, c, rfl, hc, h⟩

theorem d_some_lt (c : cube) (k i : Nat) (a : Option Nat) (h : c.d k i = some a) :
    k < 2 ∧ i < (if k = 0 then c.d0 else c.d1).length := by
  match k with
  | 0 => exact ⟨by omega, getElem?_some_lt _ _ _ h⟩
  | 1 => exact ⟨by omega, getElem?_some_lt _ _ _ h⟩
  | (n + 2) => simp [cube.d] at h

/-- In a store that satisfies the invariant, a successful read of a face of a
stored cube yields a stored cube of degree one less. -/
theorem Inv.face_of_read {st : Store} (hI : Inv st) (x : Nat) (c : cube)
    (hc : st.get (some x) = some c) (k i : Nat) (a : Option Nat) (h : c.d k i = some a) :
    i < c.degree ∧ ∃ f cf, a = some f ∧ st.get (some f) = some cf ∧ cf.degree + 1 = c.degree := by
  obtain ⟨hk, hi⟩ := d_some_lt c k i a h
  obtain ⟨s1, s2, -, -, -⟩ := hI.shape x c hc
  have hi' : i < c.degree := by
    have hk' : k = 0 ∨ k = 1 := by omega
    rcases hk' with rfl | rfl
    · simpa [s1] using hi
    · simpa [s2] using hi
  obtain ⟨f, cf, a1, a2, a3⟩ := hI.faces x c k i hc hk hi'
  rw [h] at a1
  exact ⟨hi', f, cf, Option.some.inj a1, a2, a3⟩

/-- The test of `BdIdsOK`, on a cube whose faces are stored cubes, yields the
cubical identity, and all faces of the cube have the same degree. -/
theorem BdIdsOK_identity {st : Store} (hI : Inv st) (c : cube)
    (h : BdIdsOK st c.degree c.d0 c.d1 = some true) : CubicalIdentity st c := by
  intro i j k l hij hj hk hl
  obtain ⟨f, g, a, a1, a2, a3, a4⟩ := BdIdsOK_true st c h i j k l hij hj hk hl
  obtain ⟨xf, cf, rfl, b2, b3⟩ := bd_some_live st f l (j - 1) a a3
  obtain ⟨xg, cg, rfl, c2, c3⟩ := bd_some_live st g k i a a4
  obtain ⟨-, y, cy, rfl, -, -⟩ := hI.face_of_read xf cf b2 l (j - 1) a b3
  exact ⟨xg, xf, y, a2, a1, a4, a3⟩

theorem BdIdsOK_degrees {st : Store} (hI : Inv st) (c : cube) (hd : 2 ≤ c.degree)
    (h : BdIdsOK st c.degree c.d0 c.d1 = some true)
    (k0 i0 f0 : Nat) (cf0 : cube) (h0 : c.d k0 i0 = some (some f0))
    (hf0 : st.get (some f0) = some cf0) (hi0 : i0 < c.degree) :
    ∀ k i, k < 2 → i < c.degree →
      ∃ f cf, c.d k i = some (some f) ∧ st.get (some f) = some cf ∧ cf.degree = cf0.degree := by
  have hk0 := (d_some_lt c k0 i0 _ h0).1
  -- two faces on different axes have the same degree
  have key : ∀ i j k l, i < j → j < c.degree → k < 2 → l < 2 →
      ∃ f g cf cg, c.d k i = some (some f) ∧ c.d l j = some (some g) ∧
        st.get (some f) = some cf ∧ st.get (some g) = some cg ∧ cf.degree = cg.degree := by
    intro i j k l hij hj hk hl
    obtain ⟨f, g, a, a1, a2, a3, a4⟩ := BdIdsOK_true st c h i j k l hij hj hk hl
    obtain ⟨xf, cf, rfl, b2, b3⟩ := bd_some_live st f l (j - 1) a a3
    obtain ⟨xg, cg, rfl, c2, c3⟩ := bd_some_live st g k i a a4
    obtain ⟨-, y, cy, rfl, e1, e2⟩ := hI.face_of_read xf cf b2 l (j - 1) a b3
    obtain ⟨-, y', cy', e3, e4, e5⟩ := hI.face_of_read xg cg c2 k i (some y) c3
    have : y' = y := (Option.some.inj e3).symm
    subst this
    rw [e1] at e4
    have : cy = cy' := Option.some.inj e4
    subst this
    exact ⟨xf, xg, cf, cg, a1, a2, b2, c2, by omega⟩
  have diff : ∀ k i, k < 2 → i < c.degree → i ≠ i0 →
      ∃ f cf, c.d k i = some (some f) ∧ st.get (some f) = some cf ∧
        cf.degree = cf0.degree := by
    intro k i hk hi hne
    rcases Nat.lt_or_gt_of_ne hne with hlt | hgt
    · obtain ⟨f, g, cf, cg, a1, a2, a3, a4, a5⟩ := key i i0 k k0 hlt hi0 hk hk0
      rw [h0] at a2
      have : g = f0 := (Option.some.inj (Option.some.inj a2)).symm
      subst this
      rw [hf0] at a4
      have : cg = cf0 := (Option.some.inj a4).symm
      subst this
      exact ⟨f, cf, a1, a3, a5⟩
    · obtain ⟨f, g, cf, cg, a1, a2, a3, a4, a5⟩ := key i0 i k0 k hgt hi hk0 hk
      rw [h0] at a1
      have : f = f0 := (Option.some.inj (Option.some.inj a1)).symm
      subst this
      rw [hf0] at a3
      have : cf = cf0 := (Option.some.inj a3).symm
      subst this
      exact ⟨g, cg, a2, a4, a5.symm⟩
  intro k i hk hi
  by_cases hne : i = i0
  · subst hne
    -- go through another axis
    obtain ⟨m, hm, hmi⟩ : ∃ m, m < c.degree ∧ m ≠ i := by
      by_cases e : i = 0
      · exact ⟨1, by omega, by omega⟩
      · exact ⟨0, by omega, by omega⟩
    obtain ⟨g, cg, g1, g2, g3⟩ := diff 0 m (by omega) hm hmi
    rcases Nat.lt_or_gt_of_ne hmi with hlt | hgt
    · obtain ⟨f1, f2, c1, c2, a1, a2, a3, a4, a5⟩ := key m i 0 k hlt hi (by omega) hk
      rw [g1] at a1
      have : f1 = g := (Option.some.inj (Option.some.inj a1)).symm
      subst this
      rw [g2] at a3
      have : c1 = cg := (Option.some.inj a3).symm
      subst this
      exact ⟨f2, c2, a2, a4, by omega⟩
    · obtain ⟨f1, f2, c1, c2, a1, a2, a3, a4, a5⟩ := key i m k 0 hgt hm hk (by omega)
      rw [g1] at a2
      have : f2 = g := (Option.some.inj (Option.some.inj a2)).symm
      subst this
      rw [g2] at a4
      have : c2 = cg := (Option.some.inj a4).symm
      subst this
      exact ⟨f1, c1, a1, a3, by omega⟩
  · exact diff k i hk hi hne

/-! ### The assembly of a cube in `FillHDCubes` -/

theorem setD_spec (a a' : Assembly) (k i f : Nat) (h : a.setD k i f = some a') :
    k < 2 ∧ a'.d0.length = a.d0.length ∧ a'.d1.length = a.d1.length ∧ a'.others = a.others ∧
      a'.d k i = some (some f) ∧ ∀ k' i', (k' ≠ k ∨ i' ≠ i) → a'.d k' i' = a.d k' i' := by
  match k with
  | 0 =>
    simp only [Assembly.setD, setAt] at h
    split at h
    · rename_i hi
      simp only [Option.map_some', Option.some.injEq] at h
      subst h
      refine ⟨by omega, by simp, rfl, rfl, by simp [Assembly.d, hi], ?_⟩
      intro k' i' hne
      match k' with
      | 0 =>
        have : i ≠ i' := by rcases hne with h | h; exact absurd rfl h; exact fun e => h e.symm
        simp [Assembly.d, List.getElem?_set_ne this]
      | 1 => rfl
      | (n + 2) => rfl
    · simp at h
  | 1 =>
    simp only [Assembly.setD, setAt] at h
    split at h
    · rename_i hi
      simp only [Option.map_some', Option.some.injEq] at h
      subst h
      refine ⟨by omega, rfl, by simp, rfl, by simp [Assembly.d, hi], ?_⟩
      intro k' i' hne
      match k' with
      | 0 => rfl
      | 1 =>
        have : i ≠ i' := by rcases hne with h | h; exact absurd rfl h; exact fun e => h e.symm
        simp [Assembly.d, List.getElem?_set_ne this]
      | (n + 2) => rfl
    · simp at h
  | (n + 2) => simp [Assembly.setD] at h

theorem mem_Intersection (l1 l2 : List Nat) (y : Nat) (h1 : y ∈ l1) (h2 : y ∈ l2) :
    y ∈ Intersection l1 l2 none := by
  simp only [Intersection, IsElement, List.mem_filter, List.any_eq_true, decide_eq_true_eq]
  exact ⟨h1, y, h2, rfl⟩

theorem cof_get (st : Store) (p : Option Nat) (k i : Nat) (l : List Nat)
    (h : st.cof p k i = some l) : ∃ x c, p = some x ∧ st.get (some x) = some c ∧ c.s k i = some l := by
  cases p with
  | none => simp [Store.cof, Store.get] at h
  | some x =>
    cases hc : st.get (some x) with
    | none => simp [Store.cof, hc] at h
    | some c =>
      simp only [Store.cof, hc] at h
      exact ⟨x, c, rfl, hc, h⟩

theorem opp_cases (u o : Nat) (h : opp u = some o) : (u = 0 ∧ o = 1) ∨ (u = 1 ∧ o = 0) := by
  match u with
  | 0 => simp [opp] at h; exact Or.inl ⟨rfl, h.symm⟩
  | 1 => simp [opp] at h; exact Or.inr ⟨rfl, h.symm⟩
  | (n + 2) => simp [opp] at h

/-- A stored cube that has `f` as its face `(k, i)` is in the coface list of `f`
that the code reads. -/
theorem Inv.mem_cof {st : Store} (hI : Inv st) (y : Nat) (cy : cube) (k i f : Nat) (l : List Nat)
    (hy : st.get (some y) = some cy) (hd : cy.d k i = some (some f))
    (hl : st.cof (some f) k i = some l) : y ∈ l := by
  obtain ⟨cf, l', a1, a2, a3⟩ := hI.cofComplete y cy k i f hy hd
  obtain ⟨x, c, e1, e2, e3⟩ := cof_get st _ k i l hl
  have : x = f := (Option.some.inj e1).symm
  subst this
  rw [a1] at e2
  have : c = cf := (Option.some.inj e2).symm
  subst this
  rw [a2] at e3
  rw [← Option.some.inj e3]
  exact a3

theorem assembleStep_spec {st : Store} (hI : Inv st) (faces vc up cv : List Nat) (shift : Nat)
    (W : Nat → Prop) (a a' : Assembly) (i : Nat)
    (h : assembleStep st faces vc up cv shift a i = some a')
    (hW : ¬ W (i + shift)) (hQ : AsmInv st W a) :
    AsmInv st (fun x => W x ∨ x = i + shift) a' ∧
    a'.d0.length = a.d0.length ∧ a'.d1.length = a.d1.length ∧
    (∀ k x, x ≠ i + shift → a'.d k x = a.d k x) ∧
    (∃ vci ui f, vc[i]? = some vci ∧ up[i]? = some ui ∧ faces[vci]? = some f ∧
      a'.d ui (i + shift) = some (some f)) := by
  unfold assembleStep at h
  simp only at h
  split at h
  · rename_i vci ui ci hvc hup hcv
    split at h
    · rename_i f oi hf ho
      split at h
      · simp at h
      · rename_i a1 ha1
        split at h
        · simp at h
        · rename_i l1 hl1
          split at h
          · simp at h
          · rename_i a2 ha2
            split at h
            · simp at h
            · rename_i l2 hl2
              simp only [Option.some.injEq] at h
              subst h
              obtain ⟨-, b1, b2, b3, b4, b5⟩ := setD_spec _ _ _ _ _ ha1
              obtain ⟨-, c1, c2, c3, c4, c5⟩ := setD_spec _ _ _ _ _ ha2
              have hne : oi ≠ ui := by
                rcases opp_cases ui oi ho with ⟨e1, e2⟩ | ⟨e1, e2⟩ <;> omega
              have hu : a2.d ui (i + shift) = some (some f) := by
                rw [c5 ui (i + shift) (Or.inl (fun e => hne e.symm))]
                exact b4
              have hother : ∀ k x, x ≠ i + shift → a2.d k x = a.d k x := by
                intro k x hx
                rw [c5 k x (Or.inr hx)]
                exact b5 k x (Or.inr hx)
              refine ⟨?_, c1.trans b1, c2.trans b2, hother, ⟨vci, ui, f, hvc, hup, hf, hu⟩⟩
              intro y cy hy hag
              have hold : y ∈ a.others := by
                refine hQ y cy hy (fun x hx => ?_)
                have hx' : x ≠ i + shift := fun e => hW (e ▸ hx)
                have := hag x (Or.inl hx)
                rw [← hother 0 x hx', ← hother 1 x hx']
                exact this
              have hag' := hag (i + shift) (Or.inr rfl)
              have hdu : cy.d ui (i + shift) = some (some f) := by
                rcases opp_cases ui oi ho with ⟨e1, e2⟩ | ⟨e1, e2⟩
                · subst e1; rw [hag'.1]; exact hu
                · subst e1; rw [hag'.2]; exact hu
              have hdo : cy.d oi (i + shift) = some (some ci) := by
                rcases opp_cases ui oi ho with ⟨e1, e2⟩ | ⟨e1, e2⟩
                · subst e2; rw [hag'.2]; exact c4
                · subst e2; rw [hag'.1]; exact c4
              have m1 := hI.mem_cof y cy ui (i + shift) f l1 hy hdu hl1
              have m2 := hI.mem_cof y cy oi (i + shift) ci l2 hy hdo hl2
              show y ∈ Intersection a2.others l2 none
              rw [c3]
              show y ∈ Intersection (Intersection a1.others l1 none) l2 none
              rw [b3]
              exact mem_Intersection _ _ _ (mem_Intersection _ _ _ hold m1) m2
    · simp at h
  · simp at h

theorem AsmInv.asm_mono {st : Store} {W W' : Nat → Prop} {a : Assembly} (h : AsmInv st W a)
    (hW : ∀ x, W x → W' x) : AsmInv st W' a :=
  fun y cy hy hag => h y cy hy (fun x hx => hag x (hW x hx))

theorem assembleLoop_spec {st : Store} (hI : Inv st) (faces vc up cv : List Nat) (shift : Nat) :
    ∀ (is : List Nat) (W : Nat → Prop) (a a' : Assembly),
      loopM (assembleStep st faces vc up cv shift) a is = some a' →
      is.Nodup → (∀ i, i ∈ is → ¬ W (i + shift)) → AsmInv st W a →
      AsmInv st (fun x => W x ∨ ∃ i, i ∈ is ∧ x = i + shift) a' ∧
      a'.d0.length = a.d0.length ∧ a'.d1.length = a.d1.length ∧
      (∀ k x, (∀ i, i ∈ is → x ≠ i + shift) → a'.d k x = a.d k x) ∧
      (∀ i, i ∈ is → ∃ vci ui f, vc[i]? = some vci ∧ up[i]? = some ui ∧
        faces[vci]? = some f ∧ a'.d ui (i + shift) = some (some f)) := by
  intro is
  induction is with
  | nil =>
    intro W a a' h _ _ hQ
    simp only [loopM, Option.some.injEq] at h
    subst h
    exact ⟨hQ.asm_mono (fun x hx => Or.inl hx), rfl, rfl, fun _ _ _ => rfl,
      fun i hi => absurd hi (List.not_mem_nil i)⟩
  | cons i is ih =>
    intro W a a' h hnd hW hQ
    simp only [loopM] at h
    cases hs : assembleStep st faces vc up cv shift a i with
    | none => simp [hs] at h
    | some a1 =>
      simp only [hs] at h
      obtain ⟨hni, hnd'⟩ := List.nodup_cons.1 hnd
      obtain ⟨s1, s2, s3, s4, s5⟩ := assembleStep_spec hI faces vc up cv shift W a a1 i hs
        (hW i (List.mem_cons_self _ _)) hQ
      have hW1 : ∀ j, j ∈ is → ¬ (W (j + shift) ∨ j + shift = i + shift) := by
        intro j hj hor
        rcases hor with hor | hor
        · exact hW j (List.mem_cons_of_mem _ hj) hor
        · have : j = i := by omega
          exact hni (this ▸ hj)
      obtain ⟨t1, t2, t3, t4, t5⟩ := ih _ a1 a' h hnd' hW1 s1
      refine ⟨t1.asm_mono ?_, t2.trans s2, t3.trans s3, ?_, ?_⟩
      · intro x hx
        rcases hx with (hx | hx) | ⟨j, hj, hx⟩
        · exact Or.inl hx
        · exact Or.inr ⟨i, List.mem_cons_self _ _, hx⟩
        · exact Or.inr ⟨j, List.mem_cons_of_mem _ hj, hx⟩
      · intro k x hx
        rw [t4 k x (fun j hj => hx j (List.mem_cons_of_mem _ hj))]
        exact s4 k x (hx i (List.mem_cons_self _ _))
      · intro j hj
        rcases List.mem_cons.1 hj with rfl | hj'
        · obtain ⟨vci, ui, f, e1, e2, e3, e4⟩ := s5
          refine ⟨vci, ui, f, e1, e2, e3, ?_⟩
          rw [t4 ui (j + shift) (fun m hm e => ?_)]
          · exact e4
          · have : m = j := by omega
            exact hni (this ▸ hm)
        · exact t5 j hj'

theorem assemble_spec {st : Store} (hI : Inv st) (faces vc up cv : List Nat)
    (ei deg top0 top1 : Nat) (asm : Assembly) (hdeg : 2 ≤ deg)
    (h : assemble st faces vc up cv ei deg top0 top1 = some asm) :
    asm.d0.length = deg ∧ asm.d1.length = deg ∧
    (∀ y cy, st.get (some y) = some cy → cy.d0 = asm.d0 → cy.d1 = asm.d1 → y ∈ asm.others) ∧
    (∃ (k0 i0 v f0 : Nat), faces[v]? = some f0 ∧ asm.d k0 i0 = some (some f0)) := by
  unfold assemble at h
  split at h
  · simp at h
  · rename_i a0 ha0
    split at h
    · simp at h
    · rename_i a1 ha1
      split at h
      · rename_i l0 l1 hl0 hl1
        split at h
        · simp at h
        · rename_i a2 ha2
          obtain ⟨-, b1, b2, -, b4, b5⟩ := setD_spec _ _ _ _ _ ha0
          obtain ⟨-, c1, c2, -, c4, c5⟩ := setD_spec _ _ _ _ _ ha1
          have h0 : a1.d 0 ei = some (some top0) := by
            rw [c5 0 ei (Or.inl (by omega))]; exact b4
          have hQ0 : AsmInv st (fun x => x = ei)
              ({ a1 with others := Intersection l0 l1 none } : Assembly) := by
            intro y cy hy hag
            obtain ⟨g0, g1⟩ := hag ei rfl
            exact mem_Intersection _ _ _
              (hI.mem_cof y cy 0 ei top0 l0 hy (g0.trans h0) hl0)
              (hI.mem_cof y cy 1 ei top1 l1 hy (g1.trans c4) hl1)
          obtain ⟨s1, s2, s3, s4, s5⟩ := assembleLoop_spec hI faces vc up cv 0 _ _ _ a2 ha2
            (List.nodup_range ei) (fun i hi e => by
              have := List.mem_range.1 hi
              omega) hQ0
          obtain ⟨t1, t2, t3, t4, t5⟩ := assembleLoop_spec hI faces vc up cv 1 _ _ _ asm h
            (List.nodup_range' ei (deg - 1 - ei)) (fun i hi e => by
              have hi' := (List.mem_range'_1.1 hi).1
              rcases e with e | ⟨j, hj, e⟩
              · omega
              · have := List.mem_range.1 hj
                omega) s1
          have hlen0 : a1.d0.length = deg := by rw [c1, b1]; simp
          have hlen1 : a1.d1.length = deg := by rw [c2, b2]; simp
          refine ⟨by rw [t2]; exact s2.trans hlen0, by rw [t3]; exact s3.trans hlen1, ?_, ?_⟩
          · intro y cy hy e0 e1
            refine t1 y cy hy (fun x _ => ?_)
            simp only [cube.d, Assembly.d, e0, e1, and_self]
          · by_cases he : 0 < ei
            · obtain ⟨vci, ui, f, e1, e2, e3, e4⟩ := s5 0 (List.mem_range.2 he)
              refine ⟨ui, 0, vci, f, e3, ?_⟩
              rw [t4 ui 0 (fun i _ => by omega)]
              exact e4
            · have he0 : ei = 0 := by omega
              subst he0
              obtain ⟨vci, ui, f, e1, e2, e3, e4⟩ :=
                t5 0 (List.mem_range'_1.2 ⟨Nat.le_refl _, by omega⟩)
              exact ⟨ui, 0 + 1, vci, f, e3, e4⟩
      · simp at h

/-! ### The edges of a cube -/

theorem mapOpt_getElem? {α β : Type} (f : α → Option β) :
    ∀ (l : List α) (r : List β), mapOpt f l = some r →
      ∀ (i : Nat) (a : α), l[i]? = some a → ∃ b, f a = some b ∧ r[i]? = some b := by
  intro l
  induction l with
  | nil => intro r _ i a h; simp at h
  | cons x l ih =>
    intro r h i a hi
    simp only [mapOpt] at h
    cases hfa : f x with
    | none => simp [hfa] at h
    | some b =>
      simp only [hfa] at h
      cases hl : mapOpt f l with
      | none => simp [hl] at h
      | some r' =>
        simp only [hl, Option.some.injEq] at h
        subst h
        cases i with
        | zero =>
          simp only [List.getElem?_cons_zero, Option.some.injEq] at hi
          subst hi
          exact ⟨b, hfa, by simp⟩
        | succ m =>
          simp only [List.getElem?_cons_succ] at hi ⊢
          exact ih r' hl m a hi

theorem readAll_range {α : Type} (v r : List α) (n : Nat)
    (h : readAll v (List.range n) = some r) : n ≤ v.length ∧ r = v.take n := by
  have hlen : r.length = n := by
    have := mapOpt_length _ _ _ h
    simpa using this
  have hget : ∀ i, i < n → v[i]? = r[i]? ∧ i < v.length := by
    intro i hi
    obtain ⟨b, b1, b2⟩ := mapOpt_getElem? _ _ _ h i i (by simp [List.getElem?_range hi])
    exact ⟨b1.trans b2.symm, getElem?_some_lt _ _ _ b1⟩
  constructor
  · cases n with
    | zero => omega
    | succ m => have := (hget m (by omega)).2; omega
  · apply List.ext_getElem?
    intro i
    rw [List.getElem?_take]
    split
    · rename_i hi
      exact (hget i hi).1.symm
    · exact List.getElem?_eq_none (by omega)

/-- If the edge vectors `E j` of the `n` lower faces of a cube fit together as
the cubical identities demand, then they are the vector `E (n - 1)` followed by
the last entry of `E (n - 3)`, with the entry `j` removed. -/
theorem edges_glue {α : Type} (n : Nat) (hn : 3 ≤ n) (E : Nat → List α)
    (hlen : ∀ j, j < n → (E j).length = n - 1)
    (H : ∀ i j, i < j → j < n → (E j).eraseIdx i = (E i).eraseIdx (j - 1))
    (x : α) (hx : (E (n - 3))[n - 2]? = some x) :
    ∀ j, j < n → E j = (E (n - 1) ++ [x]).eraseIdx j := by
  have hA : ∀ i j, i < j → j < n - 1 → (E i)[n - 2]? = (E j)[n - 2]? := by
    intro i j hij hj
    have h1 := congrArg (fun l => l[n - 3]?) (H i j hij (by omega))
    simp only at h1
    rw [List.getElem?_eraseIdx_of_ge _ _ _ (by omega),
      List.getElem?_eraseIdx_of_ge _ _ _ (by omega)] at h1
    have e : n - 3 + 1 = n - 2 := by omega
    rw [e] at h1
    exact h1.symm
  have hB : ∀ j, j < n - 1 → (E j)[n - 2]? = some x := by
    intro j hj
    rcases Nat.lt_trichotomy j (n - 3) with h | h | h
    · rw [hA j (n - 3) h (by omega)]; exact hx
    · rw [h]; exact hx
    · rw [← hA (n - 3) j h hj]; exact hx
  intro j hj
  by_cases hj' : j = n - 1
  · subst hj'
    rw [List.eraseIdx_append_of_length_le (by rw [hlen (n - 1) hj])]
    simp [hlen (n - 1) hj]
  · have hjl : j < n - 1 := by omega
    rw [List.eraseIdx_append_of_lt_length (by rw [hlen (n - 1) (by omega)]; exact hjl),
      H j (n - 1) hjl (by omega)]
    apply List.ext_getElem?
    intro m
    have hl := hlen j hj
    rw [List.getElem?_append]
    have hel : ((E j).eraseIdx (n - 1 - 1)).length = n - 2 := by
      rw [List.length_eraseIdx, hl]
      have : n - 1 - 1 < n - 1 := by omega
      simp only [this, if_true]
      omega
    rw [hel]
    split
    · rename_i hm
      rw [List.getElem?_eraseIdx_of_lt _ _ _ (by omega)]
    · rename_i hm
      by_cases hm' : m = n - 2
      · subst hm'
        rw [hB j hjl]
        simp
      · rw [List.getElem?_eq_none (by omega), List.getElem?_eq_none (by simp; omega)]

theorem cachedEdges_spec (st : Store) (deg : Nat) (d0 edges : List (Option Nat))
    (h : cachedEdges st deg d0 = some edges) :
    ∃ pa pb ca cb last, d0[deg - 1]? = some pa ∧ d0[deg - 3]? = some pb ∧
      st.get pa = some ca ∧ st.get pb = some cb ∧ deg - 1 ≤ ca.edges.length ∧
      cb.edges[deg - 2]? = some last ∧ edges = ca.edges.take (deg - 1) ++ [last] := by
  unfold cachedEdges at h
  split at h
  · rename_i pa pb hpa hpb
    split at h
    · rename_i ca cb hca hcb
      split at h
      · rename_i front last hfront hlast
        simp only [Option.some.injEq] at h
        obtain ⟨r1, r2⟩ := readAll_range _ _ _ hfront
        exact ⟨pa, pb, ca, cb, last, hpa, hpb, hca, hcb, r1, hlast, by rw [← h, r2]⟩
      · simp at h
    · simp at h
  · simp at h

theorem eraseIdx_get {α : Type} (l : List α) (m i : Nat) (h : i ≠ m) :
    (l.eraseIdx m)[if i < m then i else i - 1]? = l[i]? := by
  split
  · rename_i hi
    exact List.getElem?_eraseIdx_of_lt _ _ _ hi
  · rename_i hi
    rw [List.getElem?_eraseIdx_of_ge _ _ _ (by omega)]
    have : i - 1 + 1 = i := by omega
    rw [this]

/-- The edges of the lower face `i` of a stored cube of degree at least 2. -/
theorem Inv.edges_of_bd {st : Store} (hI : Inv st) (f : Nat) (cf : cube) (i y : Nat)
    (hf : st.get (some f) = some cf) (hd : 2 ≤ cf.degree)
    (hy : st.bd (some f) 0 i = some (some y)) :
    ∃ cy, st.get (some y) = some cy ∧ cy.edges = cf.edges.eraseIdx i := by
  rw [bd_get st (some f) cf hf] at hy
  obtain ⟨hi, -⟩ := hI.face_of_read f cf hf 0 i _ hy
  obtain ⟨g, cg, a1, a2, a3⟩ := hI.edgesFace f cf i hf hd hi
  rw [hy] at a1
  have : y = g := Option.some.inj (Option.some.inj a1)
  subst this
  exact ⟨cg, a2, a3⟩

/-- The edges of a cube of degree at least 3 whose lower faces carry its edge
vector with one entry removed: they are edges with process ids, and the process
ids are pairwise distinct. -/
theorem edges_from_faces {st : Store} (hI : Inv st) (c : cube) (hdeg : 3 ≤ c.degree)
    (hlen : c.edges.length = c.degree)
    (hEF : ∀ j, j < c.degree → ∃ f cf, c.d 0 j = some (some f) ∧ st.get (some f) = some cf ∧
      cf.degree + 1 = c.degree ∧ cf.edges = c.edges.eraseIdx j) :
    (∀ i, i < c.degree → ∃ e ce p, c.edges[i]? = some (some e) ∧ st.get (some e) = some ce ∧
      ce.degree = 1 ∧ st.pid (some e) = some p) ∧
    (∀ (i j : Nat) (e1 e2 : Option Nat), i < j → c.edges[i]? = some e1 → c.edges[j]? = some e2 →
      st.pid e1 ≠ st.pid e2) := by
  constructor
  · intro i hi
    obtain ⟨m, hm, hmi⟩ : ∃ m, m < c.degree ∧ i ≠ m := by
      by_cases e : i = 0
      · exact ⟨1, by omega, by omega⟩
      · exact ⟨0, by omega, e⟩
    obtain ⟨f, cf, -, a2, a3, a4⟩ := hEF m hm
    obtain ⟨e, ce, p, b1, b2, b3, b4⟩ := hI.edgesOK f cf (if i < m then i else i - 1) a2
      (by split <;> omega)
    rw [a4, eraseIdx_get _ _ _ hmi] at b1
    exact ⟨e, ce, p, b1, b2, b3, b4⟩
  · intro i j e1 e2 hij h1 h2
    have hj : j < c.degree := hlen ▸ getElem?_some_lt _ _ _ h2
    obtain ⟨m, hm, hmi, hmj⟩ : ∃ m, m < c.degree ∧ i ≠ m ∧ j ≠ m := by
      by_cases e : i = 0
      · by_cases e' : j = 1
        · exact ⟨2, by omega, by omega, by omega⟩
        · exact ⟨1, by omega, by omega, e'⟩
      · exact ⟨0, by omega, e, by omega⟩
    obtain ⟨f, cf, -, a2, a3, a4⟩ := hEF m hm
    refine hI.pids f cf (if i < m then i else i - 1) (if j < m then j else j - 1) e1 e2 a2
      (by split <;> split <;> omega) ?_ ?_
    · rw [a4, eraseIdx_get _ _ _ hmi]; exact h1
    · rw [a4, eraseIdx_get _ _ _ hmj]; exact h2

/-- A cube of degree at least 3 that `FillHDCubes` has assembled and accepted
satisfies what `link` needs. -/
theorem hdCand {st : Store} (hI : Inv st) (deg : Nat) (hdeg : 3 ≤ deg)
    (d0 d1 edges : List (Option Nat)) (hl0 : d0.length = deg) (hl1 : d1.length = deg)
    (hok : BdIdsOK st deg d0 d1 = some true)
    (hface : ∃ k0 i0 f0 cf0, ({ NewCube deg st.cubes.length with d0 := d0, d1 := d1 } : cube).d k0 i0
        = some (some f0) ∧ st.get (some f0) = some cf0 ∧ cf0.degree + 1 = deg)
    (huniq : ∀ y cy, st.get (some y) = some cy → cy.d0 = d0 → cy.d1 = d1 → False)
    (hed : cachedEdges st deg d0 = some edges) :
    Cand st { NewCube deg st.cubes.length with d0 := d0, d1 := d1, edges := edges } := by
  generalize hc : ({ NewCube deg st.cubes.length with d0 := d0, d1 := d1, edges := edges } : cube) = c
  have cdeg : c.degree = deg := by rw [← hc]; rfl
  have cd0 : c.d0 = d0 := by rw [← hc]
  have cd1 : c.d1 = d1 := by rw [← hc]
  have ced : c.edges = edges := by rw [← hc]
  have cs0 : c.s0 = List.replicate (deg + 1) [] := by rw [← hc]; rfl
  have cs1 : c.s1 = List.replicate (deg + 1) [] := by rw [← hc]; rfl
  have hok' : BdIdsOK st c.degree c.d0 c.d1 = some true := by rw [cdeg, cd0, cd1]; exact hok
  obtain ⟨k0, i0, f0, cf0, h0, hf0, hd0⟩ := hface
  have h0' : c.d k0 i0 = some (some f0) := by
    rw [← h0]
    simp only [cube.d, cd0, cd1]
  have hi0 : i0 < c.degree := by
    have := (d_some_lt c k0 i0 _ h0').2
    rw [cd0, cd1] at this
    rw [cdeg]
    split at this
    · exact hl0 ▸ this
    · exact hl1 ▸ this
  have hF : ∀ k i, k < 2 → i < c.degree →
      ∃ f cf, c.d k i = some (some f) ∧ st.get (some f) = some cf ∧ cf.degree + 1 = c.degree := by
    intro k i hk hi
    obtain ⟨f, cf, a1, a2, a3⟩ := BdIdsOK_degrees hI c (by omega) hok' k0 i0 f0 cf0 h0' hf0 hi0 k i hk hi
    exact ⟨f, cf, a1, a2, by omega⟩
  have hid : CubicalIdentity st c := BdIdsOK_identity hI c hok'
  -- the edge vectors of the lower faces
  let E : Nat → List (Option Nat) := fun j =>
    match c.d 0 j with
    | some (some f) =>
      match st.get (some f) with
      | some cf => cf.edges
      | none => []
    | _ => []
  have hE : ∀ j f cf, c.d 0 j = some (some f) → st.get (some f) = some cf → E j = cf.edges := by
    intro j f cf h1 h2
    simp only [E, h1, h2]
  have hElen : ∀ j, j < deg → (E j).length = deg - 1 := by
    intro j hj
    obtain ⟨f, cf, a1, a2, a3⟩ := hF 0 j (by omega) (by omega)
    rw [hE j f cf a1 a2, (hI.shape f cf a2).2.2.2.2]
    omega
  have hEH : ∀ i j, i < j → j < deg → (E j).eraseIdx i = (E i).eraseIdx (j - 1) := by
    intro i j hij hj
    obtain ⟨f, g, y, a1, a2, a3, a4⟩ := hid i j 0 0 hij (by omega) (by omega) (by omega)
    obtain ⟨f', cf, b1, b2, b3⟩ := hF 0 j (by omega) (by omega)
    obtain ⟨g', cg, c1, c2, c3⟩ := hF 0 i (by omega) (by omega)
    rw [a1] at b1
    rw [a2] at c1
    have e1 : f = f' := Option.some.inj (Option.some.inj b1)
    have e2 : g = g' := Option.some.inj (Option.some.inj c1)
    subst e1 e2
    obtain ⟨cy, y1, y2⟩ := hI.edges_of_bd f cf i y b2 (by omega) a3
    obtain ⟨cy', z1, z2⟩ := hI.edges_of_bd g cg (j - 1) y c2 (by omega) a4
    rw [y1] at z1
    have : cy = cy' := Option.some.inj z1
    subst this
    rw [hE j f cf a1 b2, hE i g cg a2 c2, ← y2, ← z2]
  obtain ⟨pa, pb, ca, cb, last, p1, p2, p3, p4, p5, p6, p7⟩ := cachedEdges_spec st deg d0 edges hed
  obtain ⟨fa, cfa, q1, q2, q3⟩ := hF 0 (deg - 1) (by omega) (by omega)
  obtain ⟨fb, cfb, r1, r2, r3⟩ := hF 0 (deg - 3) (by omega) (by omega)
  have ea : pa = some fa := by
    have : c.d 0 (deg - 1) = some pa := by simp only [cube.d, cd0]; exact p1
    rw [this] at q1
    exact Option.some.inj q1
  have eb : pb = some fb := by
    have : c.d 0 (deg - 3) = some pb := by simp only [cube.d, cd0]; exact p2
    rw [this] at r1
    exact Option.some.inj r1
  subst ea eb
  rw [q2] at p3
  rw [r2] at p4
  have eca : cfa = ca := Option.some.inj p3
  have ecb : cfb = cb := Option.some.inj p4
  subst eca ecb
  have hla : cfa.edges.length = deg - 1 := by rw [(hI.shape fa cfa q2).2.2.2.2]; omega
  have hedges : c.edges = E (deg - 1) ++ [last] := by
    rw [ced, p7, hE _ fa cfa q1 q2, List.take_of_length_le (by omega)]
  have hglue := edges_glue deg hdeg E hElen hEH last (by rw [hE _ fb cfb r1 r2]; exact p6)
  have hclen : c.edges.length = c.degree := by
    rw [hedges, List.length_append, hElen (deg - 1) (by omega), cdeg]
    simp
    omega
  have hEF : ∀ j, j < c.degree → ∃ f cf, c.d 0 j = some (some f) ∧ st.get (some f) = some cf ∧
      cf.degree + 1 = c.degree ∧ cf.edges = c.edges.eraseIdx j := by
    intro j hj
    obtain ⟨f, cf, a1, a2, a3⟩ := hF 0 j (by omega) hj
    refine ⟨f, cf, a1, a2, a3, ?_⟩
    rw [← hE j f cf a1 a2, hedges]
    exact hglue j (by omega)
  obtain ⟨hOK, hpids⟩ := edges_from_faces hI c (by omega) hclen hEF
  refine ⟨by omega, ⟨by rw [cd0, cdeg]; exact hl0, by rw [cd1, cdeg]; exact hl1,
    by rw [cs0, cdeg], by rw [cs1, cdeg], hclen⟩, hF, hid, ?_, ?_, fun _ => hOK, ?_, hpids⟩
  · intro _ y cy hy ⟨e0, e1⟩
    exact huniq y cy hy (e0.trans cd0) (e1.trans cd1)
  · intro h; omega
  · intro _ j hj
    obtain ⟨f, cf, a1, a2, -, a4⟩ := hEF j hj
    exact ⟨f, cf, a1, a2, a4⟩

/-! ### `FillHDCubes` keeps the invariant -/

theorem topPair_inv (P : Store × Nat → Prop) (faces vc up : List Nat) (ei deg top0 : Nat)
    (htry : ∀ top1 a a' cv, P a → tryCube faces vc up ei deg top0 top1 a cv = some a' → P a')
    (a a' : Store × Nat) (top1 : Nat) (hP : P a)
    (h : topPair faces vc up ei deg top0 a top1 = some a') : P a' := by
  unfold topPair at h
  split at h
  · simp at h
  · exact loopM_inv _ P _ (fun s x s' _ hs hf => htry top1 s s' x hs hf) a a' hP h

theorem upperPass_inv (P : Store × Nat → Prop) (faces vc : List Nat) (ei deg : Nat)
    (up : List Nat)
    (htry : ∀ top0 top1 a a' cv, P a → tryCube faces vc up ei deg top0 top1 a cv = some a' → P a')
    (a a' : Store × Nat) (hP : P a)
    (h : upperPass faces vc ei deg up a = some a') : P a' := by
  unfold upperPass at h
  split at h
  · simp at h
  · split at h
    · simp only [Option.some.injEq] at h; subst h; exact hP
    · split at h
      · simp at h
      · exact loopM_inv _ P _
          (fun s x s' _ hs hf => loopM_inv _ P _
            (fun t y t' _ ht hg => topPair_inv P faces vc up ei deg x (htry x) t t' y ht hg)
            s s' hs hf)
          a a' hP h

theorem configPass_inv (P : Store × Nat → Prop) (faces : List Nat) (edgepid : Int) (deg : Nat)
    (htry : ∀ vc up ei top0 top1 a a' cv, P a →
      tryCube faces vc up ei deg top0 top1 a cv = some a' → P a')
    (a a' : (Store × Nat) × Option Nat) (v : List Nat) (hP : P a.1)
    (h : configPass faces edgepid deg a v = some a') : P a'.1 := by
  unfold configPass at h
  split at h
  · split at h
    · simp at h
    · split at h
      · simp at h
      · split at h
        · simp at h
        · simp only at h
          split at h
          · simp at h
          · split at h
            · simp only [Option.some.injEq] at h; subst h; exact hP
            · split at h
              · simp at h
              · rename_i a1 ha1
                simp only [Option.some.injEq] at h
                subst h
                exact loopM_inv _ P _
                  (fun s x s' _ hs hf => upperPass_inv P faces v _ deg _ (htry v _ _) s s' hs hf)
                  a.1 a1 hP ha1
  · simp at h

theorem FillHDCubes_inv (P : Store × Nat → Prop) (st : Store) (edge deg facecount : Nat)
    (htry : ∀ (faces : List Nat),
      (∀ (v f : Nat), faces[v]? = some f → ∃ l, st.cubelist[deg - 1]? = some l ∧ f ∈ l) →
      ∀ vc up ei top0 top1 a a' cv, P a →
        tryCube faces vc up ei deg top0 top1 a cv = some a' → P a')
    (h0 : P (st, 0)) (r : Store × Nat)
    (h : FillHDCubes st edge deg facecount = some r) : P r := by
  unfold FillHDCubes at h
  split at h
  · simp at h
  · split at h
    · split at h
      · simp at h
      · simp at h
      · rename_i cl hne hcl
        split at h
        · simp at h
        · rename_i faces hfaces
          split at h
          · simp at h
          · split at h
            · simp at h
            · rename_i a ha
              simp only [Option.some.injEq] at h
              subst h
              have hmem : ∀ (v f : Nat), faces[v]? = some f →
                  ∃ l, st.cubelist[deg - 1]? = some l ∧ f ∈ l := by
                intro v f hv
                obtain ⟨i, -, hi⟩ := mapOpt_mem _ _ _ hfaces f (List.getElem?_mem hv)
                exact ⟨cl, hcl, List.mem_reverse.1 (List.getElem?_mem hi)⟩
              exact loopM_inv _ (fun s => P s.1) _
                (fun s x s' _ hs hf => configPass_inv P faces _ deg (htry faces hmem) s s' x hs hf)
                ((st, 0), none) a h0 ha
    · simp only [Option.some.injEq] at h; subst h; exact h0

theorem tryCube_Inv (st0 : Store) (faces vc up : List Nat) (ei deg top0 top1 : Nat)
    (hdeg : 3 ≤ deg)
    (hfaces : ∀ (v f : Nat), faces[v]? = some f →
      ∃ cf, st0.get (some f) = some cf ∧ cf.degree + 1 = deg)
    (a a' : Store × Nat) (cv : List Nat) (hP : Inv a.1 ∧ Ext st0 a.1)
    (h : tryCube faces vc up ei deg top0 top1 a cv = some a') : Inv a'.1 ∧ Ext st0 a'.1 := by
  unfold tryCube at h
  split at h
  · simp at h
  · rename_i asm hasm
    split at h
    · simp at h
    · rename_i ok hok
      split at h
      · rename_i hacc
        split at h
        · simp at h
        · rename_i edges hed
          split at h
          · simp at h
          · rename_i s hs
            simp only [Option.some.injEq] at h
            subst h
            obtain ⟨hokt, hoth⟩ := hacc
            subst hokt
            obtain ⟨l0, l1, hun, k0, i0, v, f0, hv, hd⟩ :=
              assemble_spec hP.1 faces vc up cv ei deg top0 top1 asm (by omega) hasm
            obtain ⟨cf, g1, g2⟩ := hfaces v f0 hv
            obtain ⟨cf', g3, g4⟩ := hP.2.live f0 cf g1
            have hC := hdCand hP.1 deg hdeg asm.d0 asm.d1 edges l0 l1 hok
              ⟨k0, i0, f0, cf', by
                rw [← hd]
                match k0 with
                | 0 => rfl
                | 1 => rfl
                | (n + 2) => rfl, g3, by rw [g4.1]; exact g2⟩
              (fun y cy hy e0 e1 => by
                have := hun y cy hy e0 e1
                rw [hoth] at this
                exact absurd this (List.not_mem_nil y)) hed
            exact ⟨Inv_link _ _ _ hP.1 hC hs, hP.2.ext_trans (link_spec _ _ _ hs).linked_ext⟩
      · simp only [Option.some.injEq] at h; subst h; exact hP

/-- A call of `FillHDCubes` on a store that satisfies the invariant returns a
store that satisfies it and extends the first. -/
theorem FillHDCubes_Inv (st : Store) (edge deg facecount : Nat) (r : Store × Nat)
    (hI : Inv st) (h : FillHDCubes st edge deg facecount = some r) :
    Inv r.1 ∧ Ext st r.1 := by
  by_cases hdeg : 3 ≤ deg
  · refine FillHDCubes_inv (fun a => Inv a.1 ∧ Ext st a.1) st edge deg facecount ?_
      ⟨hI, Ext.ext_refl st⟩ r h
    intro faces hmem vc up ei top0 top1 a a' cv hP ht
    refine tryCube_Inv st faces vc up ei deg top0 top1 hdeg ?_ a a' cv hP ht
    intro v f hv
    obtain ⟨l, e1, e2⟩ := hmem v f hv
    obtain ⟨c, c1, c2⟩ := hI.listed (deg - 1) l f e1 e2
    exact ⟨c, c1, by omega⟩
  · unfold FillHDCubes at h
    split at h
    · simp at h
    · rw [if_neg (by omega)] at h
      simp only [Option.some.injEq] at h
      subst h
      exact ⟨hI, Ext.ext_refl st⟩

/-! ### Squares -/

theorem Arrow.arrow_ext {s s' : Store} (h : Ext s s') {e x z : Nat} {p : Int} (ha : Arrow s e x z p) :
    Arrow s' e x z p := by
  obtain ⟨c, a1, a2, a3, a4, a5⟩ := ha
  obtain ⟨c', b1, b2⟩ := h.live e c a1
  exact ⟨c', b1, b2.1.trans a2, (b2.core_d 0 0).trans a3, (b2.core_d 1 0).trans a4, h.ext_pid _ _ a5⟩

theorem Arrow.fun {s : Store} {e x z x' z' : Nat} {p p' : Int} (h : Arrow s e x z p)
    (h' : Arrow s e x' z' p') : x = x' ∧ z = z' ∧ p = p' := by
  obtain ⟨c, a1, a2, a3, a4, a5⟩ := h
  obtain ⟨c', b1, b2, b3, b4, b5⟩ := h'
  rw [a1] at b1
  have : c = c' := Option.some.inj b1
  subst this
  rw [a3] at b3
  rw [a4] at b4
  rw [a5] at b5
  exact ⟨Option.some.inj (Option.some.inj b3), Option.some.inj (Option.some.inj b4),
    Option.some.inj b5⟩

/-- A stored cube of degree 1 is an edge between two vertices. -/
theorem Inv.arrow {st : Store} (hI : Inv st) (e : Nat) (c : cube)
    (hc : st.get (some e) = some c) (hd : c.degree = 1) : ∃ x z p, Arrow st e x z p := by
  obtain ⟨x, cx, a1, a2, a3⟩ := hI.faces e c 0 0 hc (by omega) (by omega)
  obtain ⟨z, cz, b1, b2, b3⟩ := hI.faces e c 1 0 hc (by omega) (by omega)
  obtain ⟨e', ce, p, c1, c2, c3, c4⟩ := hI.edgesOK e c 0 hc (by omega)
  rw [hI.edges1 e c hc hd] at c1
  simp only [List.getElem?_cons_zero, Option.some.injEq] at c1
  subst c1
  exact ⟨x, z, p, c, hc, hd, a1, b1, c4⟩

/-- The members of the coface list `s[k][0]` of a vertex are edges that begin
(`k = 0`) or end (`k = 1`) in the vertex. -/
theorem Inv.arrow_of_cof {st : Store} (hI : Inv st) (x : Nat) (cx : cube) (k : Nat)
    (l : List Nat) (hx : st.get (some x) = some cx) (hd : cx.degree = 0)
    (hl : st.cof (some x) k 0 = some l) (e : Nat) (he : e ∈ l) :
    ∃ a z p, Arrow st e a z p ∧ (k = 0 → a = x) ∧ (k = 1 → z = x) := by
  obtain ⟨x', cx', e1, e2, e3⟩ := cof_get st _ k 0 l hl
  have : x' = x := (Option.some.inj e1).symm
  subst this
  obtain ⟨ce, a1, a2⟩ := hI.cofSound x' cx' k 0 l e e2 e3 he
  obtain ⟨hlt, f, cf, b1, b2, b3⟩ := hI.face_of_read e ce a1 k 0 _ a2
  have : f = x' := (Option.some.inj b1).symm
  subst this
  rw [hx] at b2
  have : cx = cf := Option.some.inj b2
  subst this
  obtain ⟨a, z, p, hA⟩ := hI.arrow e ce a1 (by omega)
  refine ⟨a, z, p, hA, ?_, ?_⟩
  · intro hk
    subst hk
    obtain ⟨c, g1, g2, g3, g4, g5⟩ := hA
    rw [a1] at g1
    have : ce = c := Option.some.inj g1
    subst this
    rw [a2] at g3
    exact (Option.some.inj (Option.some.inj g3)).symm
  · intro hk
    subst hk
    obtain ⟨c, g1, g2, g3, g4, g5⟩ := hA
    rw [a1] at g1
    have : ce = c := Option.some.inj g1
    subst this
    rw [a2] at g4
    exact (Option.some.inj (Option.some.inj g4)).symm

/-- The ends of an edge are vertices. -/
theorem Inv.arrow_ends {st : Store} (hI : Inv st) {e x z : Nat} {p : Int}
    (h : Arrow st e x z p) :
    (∃ cx, st.get (some x) = some cx ∧ cx.degree = 0) ∧
    (∃ cz, st.get (some z) = some cz ∧ cz.degree = 0) := by
  obtain ⟨c, a1, a2, a3, a4, a5⟩ := h
  obtain ⟨-, f, cf, b1, b2, b3⟩ := hI.face_of_read e c a1 0 0 _ a3
  obtain ⟨-, g, cg, c1, c2, c3⟩ := hI.face_of_read e c a1 1 0 _ a4
  have e1 : f = x := (Option.some.inj b1).symm
  have e2 : g = z := (Option.some.inj c1).symm
  subst e1 e2
  exact ⟨⟨cf, b2, by omega⟩, ⟨cg, c2, by omega⟩⟩

/-- Four edges that close to a square, with different process ids on the two
edges at the first corner, make up a cube that `link` can take, if there is no
stored cube with this boundary. -/
theorem square_cand {st : Store} (hI : Inv st) (d00 d01 d10 d11 : Nat)
    (u v w t : Nat) (p q p' q' : Int)
    (h00 : Arrow st d00 u v p) (h01 : Arrow st d01 u w q)
    (h10 : Arrow st d10 w t p') (h11 : Arrow st d11 v t q') (hpq : q ≠ p)
    (hu : ∀ y cy, st.get (some y) = some cy →
      ¬ (cy.d0 = [some d00, some d01] ∧ cy.d1 = [some d10, some d11])) :
    Cand st { NewCube 2 st.cubes.length with
      d0 := [some d00, some d01], d1 := [some d10, some d11],
      edges := [some d01, some d00] } := by
  obtain ⟨c00, a1, a2, a3, a4, a5⟩ := h00
  obtain ⟨c01, b1, b2, b3, b4, b5⟩ := h01
  obtain ⟨c10, c1, c2, c3, c4, c5⟩ := h10
  obtain ⟨c11, e1, e2, e3, e4, e5⟩ := h11
  refine ⟨by simp [NewCube], ⟨rfl, rfl, rfl, rfl, rfl⟩, ?_, ?_, fun _ y cy hy => hu y cy hy,
    fun h => by simp [NewCube] at h, ?_, ?_, ?_⟩
  · intro k i hk hi
    have hi' : i < 2 := hi
    have hk' : k = 0 ∨ k = 1 := by omega
    have hi'' : i = 0 ∨ i = 1 := by omega
    rcases hk' with rfl | rfl <;> rcases hi'' with rfl | rfl
    · exact ⟨d00, c00, rfl, a1, by rw [a2]; rfl⟩
    · exact ⟨d01, c01, rfl, b1, by rw [b2]; rfl⟩
    · exact ⟨d10, c10, rfl, c1, by rw [c2]; rfl⟩
    · exact ⟨d11, c11, rfl, e1, by rw [e2]; rfl⟩
  · intro i j k l hij hj hk hl
    have hj' : j < 2 := hj
    have hi0 : i = 0 := by omega
    have hj1 : j = 1 := by omega
    subst hi0 hj1
    have hk' : k = 0 ∨ k = 1 := by omega
    have hl' : l = 0 ∨ l = 1 := by omega
    rcases hk' with rfl | rfl <;> rcases hl' with rfl | rfl
    · exact ⟨d01, d00, u, rfl, rfl, by rw [bd_get st _ c01 b1]; exact b3,
        by rw [bd_get st _ c00 a1]; exact a3⟩
    · exact ⟨d11, d00, v, rfl, rfl, by rw [bd_get st _ c11 e1]; exact e3,
        by rw [bd_get st _ c00 a1]; exact a4⟩
    · exact ⟨d01, d10, w, rfl, rfl, by rw [bd_get st _ c01 b1]; exact b4,
        by rw [bd_get st _ c10 c1]; exact c3⟩
    · exact ⟨d11, d10, t, rfl, rfl, by rw [bd_get st _ c11 e1]; exact e4,
        by rw [bd_get st _ c10 c1]; exact c4⟩
  · intro _ i hi
    have hi' : i < 2 := hi
    have hi'' : i = 0 ∨ i = 1 := by omega
    rcases hi'' with rfl | rfl
    · exact ⟨d01, c01, q, rfl, b1, b2, b5⟩
    · exact ⟨d00, c00, p, rfl, a1, a2, a5⟩
  · intro _ j hj
    have hj' : j < 2 := hj
    have hj'' : j = 0 ∨ j = 1 := by omega
    rcases hj'' with rfl | rfl
    · exact ⟨d00, c00, rfl, a1, by rw [hI.edges1 d00 c00 a1 a2]; rfl⟩
    · exact ⟨d01, c01, rfl, b1, by rw [hI.edges1 d01 c01 b1 b2]; rfl⟩
  · intro i j x1 x2 hij h1 h2
    have hj : j < 2 := getElem?_some_lt _ _ _ h2
    have hi0 : i = 0 := by omega
    have hj1 : j = 1 := by omega
    subst hi0 hj1
    have g1 : x1 = some d01 := (Option.some.inj h1).symm
    have g2 : x2 = some d00 := (Option.some.inj h2).symm
    subst g1 g2
    rw [a5, b5]
    exact fun e => hpq (Option.some.inj e)

theorem VecCmp_num (l1 l2 : label) (ls1 ls2 : List label)
    (h : VecCmp (some (l1 :: ls1)) (some (l2 :: ls2)) (some labcmp) = 0) : l1.num = l2.num := by
  simp only [VecCmp] at h
  split at h
  · split at h
    · rename_i hall
      simp only [List.zip_cons_cons, List.all_cons, Bool.and_eq_true, decide_eq_true_eq] at hall
      have h1 := hall.1
      simp only [labcmp, Labcmp] at h1
      split at h1
      · simp at h1
      · rename_i hne
        by_contra hcon
        exact hne (Or.inr hcon)
    · simp at h
  · simp at h

theorem lab_pid (s : Store) (e : Nat) (lv : Option (List label)) (p : Int)
    (hl : s.lab (some e) = some lv) (hp : s.pid (some e) = some p) :
    ∃ l ls, lv = some (l :: ls) ∧ l.num = p := by
  cases hc : s.get (some e) with
  | none => simp [Store.pid, hc] at hp
  | some c =>
    simp only [Store.lab, hc, Option.some.injEq] at hl
    simp only [Store.pid, hc] at hp
    subst hl
    split at hp
    · simp at hp
    · rename_i lv hlv
      split at hp
      · simp at hp
      · rename_i l ls
        exact ⟨l, ls, hlv, Option.some.inj hp⟩

/-- Two edges whose label vectors `VecCmp` finds equal have the same process
id. -/
theorem VecCmp_pid (s : Store) (e1 e2 : Nat) (v1 v2 : Option (List label)) (p1 p2 : Int)
    (h1 : s.lab (some e1) = some v1) (h2 : s.lab (some e2) = some v2)
    (hp1 : s.pid (some e1) = some p1) (hp2 : s.pid (some e2) = some p2)
    (h : VecCmp v1 v2 (some labcmp) = 0) : p1 = p2 := by
  obtain ⟨l1, ls1, rfl, rfl⟩ := lab_pid s e1 v1 p1 h1 hp1
  obtain ⟨l2, ls2, rfl, rfl⟩ := lab_pid s e2 v2 p2 h2 hp2
  exact VecCmp_num l1 l2 ls1 ls2 h

theorem HasFace.face_frame {c c' : cube} (h : Frame c c') {e : Nat} (hf : HasFace c' e) :
    HasFace c e := by
  obtain ⟨k, i, hk⟩ := hf
  exact ⟨k, i, by rw [← h.frame_d k i]; exact hk⟩

theorem FwdShape.fwd_frame {c c' : cube} (h : Frame c c') {e x y z : Nat}
    (hf : FwdShape e x y z c) : FwdShape e x y z c' := by
  obtain ⟨-, -, -, h0, h1, -, -⟩ := h
  unfold FwdShape at *
  rw [h0, h1]
  exact hf

theorem BwdShape.bwd_frame {c c' : cube} (h : Frame c c') {e x y z : Nat}
    (hf : BwdShape e x y z c) : BwdShape e x y z c' := by
  obtain ⟨-, -, -, h0, h1, -, -⟩ := h
  unfold BwdShape at *
  rw [h0, h1]
  exact hf

theorem SqInv.sq_mono {base : Store} {edge : Nat} {S T S' T' : Nat → Nat → Nat → Prop}
    {a : Store × Nat} (h : SqInv base edge S T a) (hS : ∀ x y z, S x y z → S' x y z)
    (hT : ∀ x y z, T x y z → T' x y z) : SqInv base edge S' T' a := by
  refine ⟨h.1, h.2.1, ?_⟩
  intro y cy hy hf
  rcases h.2.2 y cy hy hf with ⟨x, y', z, h1, h2⟩ | ⟨x, y', z, h1, h2⟩
  · exact Or.inl ⟨x, y', z, hS _ _ _ h1, h2⟩
  · exact Or.inr ⟨x, y', z, hT _ _ _ h1, h2⟩

theorem SqInv.rebase {base base' : Store} {edge : Nat} {S T : Nat → Nat → Nat → Prop}
    {a : Store × Nat} (h : SqInv base edge S T a) (hb : Ext base' base) :
    SqInv base' edge S T a :=
  ⟨h.1, hb.ext_trans h.2.1, h.2.2⟩

/-- Linking a cube of one of the two shapes keeps the invariant of the loops of
`FillSquares`. -/
theorem SqInv.link {base : Store} {edge : Nat} {S T S' T' : Nat → Nat → Nat → Prop}
    {a : Store × Nat} (hG : SqInv base edge S T a) (c : cube) (s : Store)
    (hC : Cand a.1 c) (hl : a.1.link c = some s)
    (hS : ∀ x y z, S x y z → S' x y z) (hT : ∀ x y z, T x y z → T' x y z)
    (hc : (∃ pc pc2 pc3, S' pc pc2 pc3 ∧ FwdShape edge pc pc2 pc3 c) ∨
      (∃ pc pc2 pc3, T' pc pc2 pc3 ∧ BwdShape edge pc pc2 pc3 c)) (n : Nat) :
    SqInv base edge S' T' (s, n) := by
  have hL := link_spec _ _ _ hl
  refine ⟨Inv_link _ _ _ hG.1 hC hl, hG.2.1.ext_trans hL.linked_ext, ?_⟩
  intro y cy hy hf
  rcases hL.cases y cy hy with ⟨-, rfl⟩ | ⟨cy0, g1, g2, -⟩
  · exact hc
  · rcases hG.2.2 y cy0 g1 (hf.face_frame g2) with ⟨x, y', z, h1, h2⟩ | ⟨x, y', z, h1, h2⟩
    · exact Or.inl ⟨x, y', z, hS _ _ _ h1, h2.fwd_frame g2⟩
    · exact Or.inr ⟨x, y', z, hT _ _ _ h1, h2.bwd_frame g2⟩

theorem Arrow.bd0 {s : Store} {e x z : Nat} {p : Int} (h : Arrow s e x z p) :
    s.bd (some e) 0 0 = some (some x) := by
  obtain ⟨c, a1, -, a3, -, -⟩ := h
  rw [bd_get s _ c a1]; exact a3

theorem Arrow.bd1 {s : Store} {e x z : Nat} {p : Int} (h : Arrow s e x z p) :
    s.bd (some e) 1 0 = some (some z) := by
  obtain ⟨c, a1, -, -, a4, -⟩ := h
  rw [bd_get s _ c a1]; exact a4

theorem Arrow.arrow_pid {s : Store} {e x z : Nat} {p : Int} (h : Arrow s e x z p) :
    s.pid (some e) = some p := by
  obtain ⟨c, -, -, -, -, a5⟩ := h
  exact a5

theorem fwdInner_SqInv {base : Store} {edge : Nat} {S T : Nat → Nat → Nat → Prop}
    (pc pc2 pc3 : Nat) (pcnum edgenum : Int) (a a' : Store × Nat)
    (u v w t t' : Nat) (p q q2 p3 : Int)
    (hG : SqInv base edge S T a)
    (hE : Arrow a.1 edge u v p) (hpc : Arrow a.1 pc u w q) (hpc2 : Arrow a.1 pc2 v t q2)
    (hpc3 : Arrow a.1 pc3 w t' p3) (hpq : q ≠ p) (hT : ∀ x y z, ¬ T x y z)
    (hS : ¬ S pc pc2 pc3)
    (h : fwdInner edge pc pc2 pcnum edgenum a pc3 = some a') :
    SqInv base edge (fun x y z => S x y z ∨ (x = pc ∧ y = pc2 ∧ z = pc3)) T a' := by
  have hne : pc ≠ edge := by
    intro e
    subst e
    exact hpq (hpc.fun hE).2.2
  unfold fwdInner at h
  rw [hpc2.bd1, hpc3.bd1] at h
  simp only at h
  split at h
  · rename_i htt
    have htt' : t = t' := Option.some.inj htt
    subst htt'
    split at h
    · split at h
      · split at h
        · simp at h
        · rename_i s hs
          simp only [Option.some.injEq] at h
          subst h
          split at hs
          · unfold newSquare at hs
            refine hG.link _ s (square_cand hG.1 edge pc pc3 pc2 u v w t p q p3 q2 hE hpc hpc3 hpc2
              hpq ?_) hs (fun x y z hx => Or.inl hx) (fun _ _ _ hx => hx)
              (Or.inl ⟨pc, pc2, pc3, Or.inr ⟨rfl, rfl, rfl⟩, Or.inl ⟨rfl, rfl⟩⟩) _
            intro y cy hy ⟨e0, e1⟩
            rcases hG.2.2 y cy hy ⟨0, 0, by simp [cube.d, e0]⟩ with
              ⟨x, y', z, h1, h2⟩ | ⟨x, y', z, h1, _⟩
            · rcases h2 with ⟨f0, f1⟩ | ⟨f0, f1⟩
              · rw [e0] at f0
                rw [e1] at f1
                simp only [List.cons.injEq, Option.some.injEq, and_true, true_and] at f0 f1
                obtain ⟨g1, g2⟩ := f1
                subst f0 g1 g2
                exact hS h1
              · rw [e0] at f0
                simp only [List.cons.injEq, Option.some.injEq, and_true] at f0
                exact hne f0.2
            · exact hT _ _ _ h1
          · unfold newSquare at hs
            refine hG.link _ s (square_cand hG.1 pc edge pc2 pc3 u w v t q p q2 p3 hpc hE hpc2 hpc3
              (fun e => hpq e.symm) ?_) hs (fun x y z hx => Or.inl hx) (fun _ _ _ hx => hx)
              (Or.inl ⟨pc, pc2, pc3, Or.inr ⟨rfl, rfl, rfl⟩, Or.inr ⟨rfl, rfl⟩⟩) _
            intro y cy hy ⟨e0, e1⟩
            rcases hG.2.2 y cy hy ⟨0, 1, by simp [cube.d, e0]⟩ with
              ⟨x, y', z, h1, h2⟩ | ⟨x, y', z, h1, _⟩
            · rcases h2 with ⟨f0, f1⟩ | ⟨f0, f1⟩
              · rw [e0] at f0
                simp only [List.cons.injEq, Option.some.injEq, and_true] at f0
                exact hne f0.1
              · rw [e0] at f0
                rw [e1] at f1
                simp only [List.cons.injEq, Option.some.injEq, and_true, true_and] at f0 f1
                obtain ⟨g1, g2⟩ := f1
                subst f0 g1 g2
                exact hS h1
            · exact hT _ _ _ h1
      · simp only [Option.some.injEq] at h; subst h
        exact hG.sq_mono (fun _ _ _ hx => Or.inl hx) (fun _ _ _ hx => hx)
    · simp at h
  · simp only [Option.some.injEq] at h; subst h
    exact hG.sq_mono (fun _ _ _ hx => Or.inl hx) (fun _ _ _ hx => hx)

theorem bwdInner_SqInv {base : Store} {edge : Nat} {S T : Nat → Nat → Nat → Prop}
    (pc pc2 pc3 : Nat) (pcnum edgenum : Int) (a a' : Store × Nat)
    (u v w t t' : Nat) (p q p3 : Int)
    (hG : SqInv base edge S T a)
    (hE : Arrow a.1 edge u v p) (hpc : Arrow a.1 pc w v q) (hpc2 : Arrow a.1 pc2 t u q)
    (hpc3 : Arrow a.1 pc3 t' w p3) (hpq : q ≠ p) (hT : ¬ T pc pc2 pc3)
    (h : bwdInner edge pc pc2 pcnum edgenum a pc3 = some a') :
    SqInv base edge S (fun x y z => T x y z ∨ (x = pc ∧ y = pc2 ∧ z = pc3)) a' := by
  have hne : pc ≠ edge := by
    intro e
    subst e
    exact hpq (hpc.fun hE).2.2
  have hne2 : pc2 ≠ edge := by
    intro e
    subst e
    exact hpq (hpc2.fun hE).2.2
  unfold bwdInner at h
  split at h
  · rename_i hne3
    rw [hpc2.bd0, hpc3.bd0] at h
    simp only at h
    split at h
    · rename_i htt
      have htt' : t = t' := Option.some.inj htt
      subst htt'
      split at h
      · rename_i le l3 hle hl3
        split at h
        · rename_i hcmp
          have hp3 : p = p3 := VecCmp_pid a.1 edge pc3 le l3 p p3 hle hl3 hE.arrow_pid hpc3.arrow_pid hcmp
          subst hp3
          split at h
          · simp at h
          · rename_i s hs
            simp only [Option.some.injEq] at h
            subst h
            split at hs
            · unfold newSquare at hs
              refine hG.link _ s (square_cand hG.1 pc3 pc2 edge pc t w u v p q p q hpc3 hpc2 hE hpc
                hpq ?_) hs (fun _ _ _ hx => hx) (fun x y z hx => Or.inl hx)
                (Or.inr ⟨pc, pc2, pc3, Or.inr ⟨rfl, rfl, rfl⟩, Or.inl ⟨rfl, rfl⟩⟩) _
              intro y cy hy ⟨e0, e1⟩
              rcases hG.2.2 y cy hy ⟨1, 0, by simp [cube.d, e1]⟩ with
                ⟨x, y', z, _, h2⟩ | ⟨x, y', z, h1, h2⟩
              · rcases h2 with ⟨f0, _⟩ | ⟨f0, _⟩
                · rw [e0] at f0
                  simp only [List.cons.injEq, Option.some.injEq, and_true] at f0
                  exact hne3 f0.1
                · rw [e0] at f0
                  simp only [List.cons.injEq, Option.some.injEq, and_true] at f0
                  exact hne2 f0.2
              · rcases h2 with ⟨f0, f1⟩ | ⟨_, f1⟩
                · rw [e0] at f0
                  rw [e1] at f1
                  simp only [List.cons.injEq, Option.some.injEq, and_true, true_and] at f0 f1
                  obtain ⟨g1, g2⟩ := f0
                  subst f1 g1 g2
                  exact hT h1
                · rw [e1] at f1
                  simp only [List.cons.injEq, Option.some.injEq, and_true] at f1
                  exact hne f1.2
            · unfold newSquare at hs
              refine hG.link _ s (square_cand hG.1 pc2 pc3 pc edge t u w v q p q p hpc2 hpc3 hpc hE
                (fun e => hpq e.symm) ?_) hs (fun _ _ _ hx => hx) (fun x y z hx => Or.inl hx)
                (Or.inr ⟨pc, pc2, pc3, Or.inr ⟨rfl, rfl, rfl⟩, Or.inr ⟨rfl, rfl⟩⟩) _
              intro y cy hy ⟨e0, e1⟩
              rcases hG.2.2 y cy hy ⟨1, 1, by simp [cube.d, e1]⟩ with
                ⟨x, y', z, _, h2⟩ | ⟨x, y', z, h1, h2⟩
              · rcases h2 with ⟨f0, _⟩ | ⟨f0, _⟩
                · rw [e0] at f0
                  simp only [List.cons.injEq, Option.some.injEq, and_true] at f0
                  exact hne2 f0.1
                · rw [e0] at f0
                  simp only [List.cons.injEq, Option.some.injEq, and_true] at f0
                  exact hne3 f0.2
              · rcases h2 with ⟨_, f1⟩ | ⟨f0, f1⟩
                · rw [e1] at f1
                  simp only [List.cons.injEq, Option.some.injEq, and_true] at f1
                  exact hne f1.1
                · rw [e0] at f0
                  rw [e1] at f1
                  simp only [List.cons.injEq, Option.some.injEq, and_true, true_and] at f0 f1
                  obtain ⟨g1, g2⟩ := f0
                  subst f1 g1 g2
                  exact hT h1
        · simp only [Option.some.injEq] at h; subst h
          exact hG.sq_mono (fun _ _ _ hx => hx) (fun _ _ _ hx => Or.inl hx)
      · simp at h
    · simp only [Option.some.injEq] at h; subst h
      exact hG.sq_mono (fun _ _ _ hx => hx) (fun _ _ _ hx => Or.inl hx)
  · simp only [Option.some.injEq] at h; subst h
    exact hG.sq_mono (fun _ _ _ hx => hx) (fun _ _ _ hx => Or.inl hx)

theorem nodup_split {α : Type} (l p q : List α) (x : α) (hnd : l.Nodup) (h : l = p ++ x :: q) :
    x ∉ p ∧ x ∈ l := by
  subst h
  constructor
  · intro hx
    have := (List.nodup_append.1 hnd).2.2
    exact this hx (List.mem_cons_self _ _)
  · simp

theorem fwdInnerLoop_SqInv {base : Store} {edge : Nat} {S T : Nat → Nat → Nat → Prop}
    (pc pc2 : Nat) (pcnum edgenum : Int) (l3 : List Nat) (hnd : l3.Nodup)
    (a a' : Store × Nat) (u v w t : Nat) (p q q2 : Int)
    (hG : SqInv base edge S T a)
    (hE : Arrow a.1 edge u v p) (hpc : Arrow a.1 pc u w q) (hpc2 : Arrow a.1 pc2 v t q2)
    (hl3 : ∀ x, x ∈ l3 → ∃ t' p3, Arrow a.1 x w t' p3)
    (hpq : q ≠ p) (hT : ∀ x y z, ¬ T x y z) (hS : ∀ z, ¬ S pc pc2 z)
    (h : loopM (fwdInner edge pc pc2 pcnum edgenum) a l3 = some a') :
    SqInv base edge (fun x y z => S x y z ∨ (x = pc ∧ y = pc2)) T a' := by
  have key := loopM_inv_pre (fwdInner edge pc pc2 pcnum edgenum)
    (fun pre s => SqInv a.1 edge (fun x y z => S x y z ∨ (x = pc ∧ y = pc2 ∧ z ∈ pre)) T s)
    l3 [] ?_ a a' ⟨hG.1, Ext.ext_refl _, (hG.sq_mono (fun _ _ _ hx => Or.inl hx) (fun _ _ _ hx => hx)).2.2⟩ h
  · exact (key.rebase hG.2.1).sq_mono
      (fun x y z hx => hx.elim Or.inl (fun hx => Or.inr ⟨hx.1, hx.2.1⟩)) (fun _ _ _ hx => hx)
  · intro pre x post s s' hsplit hP hf
    obtain ⟨hx1, hx2⟩ := nodup_split l3 pre post x hnd (by simpa using hsplit)
    obtain ⟨t', p3, hx3⟩ := hl3 x hx2
    have hext := hP.2.1
    refine (fwdInner_SqInv pc pc2 x pcnum edgenum s s' u v w t t' p q q2 p3 hP (hE.arrow_ext hext)
      (hpc.arrow_ext hext) (hpc2.arrow_ext hext) (hx3.arrow_ext hext) hpq hT ?_ hf).sq_mono ?_ (fun _ _ _ hx => hx)
    · intro hx
      rcases hx with hx | ⟨-, -, hx⟩
      · exact hS x hx
      · exact hx1 hx
    · intro x' y z hx
      rcases hx with (hx | ⟨e1, e2, e3⟩) | ⟨e1, e2, e3⟩
      · exact Or.inl hx
      · exact Or.inr ⟨e1, e2, List.mem_append_left _ e3⟩
      · exact Or.inr ⟨e1, e2, by rw [e3]; simp⟩

theorem fwdMiddle_SqInv {base : Store} {edge : Nat} {S T : Nat → Nat → Nat → Prop}
    (pc pc2 : Nat) (pcnum edgenum : Int) (a a' : Store × Nat) (u v w t : Nat) (p q q2 : Int)
    (hG : SqInv base edge S T a)
    (hE : Arrow a.1 edge u v p) (hpc : Arrow a.1 pc u w q) (hpc2 : Arrow a.1 pc2 v t q2)
    (hpq : q ≠ p) (hT : ∀ x y z, ¬ T x y z) (hS : ∀ z, ¬ S pc pc2 z)
    (h : fwdMiddle edge pc pcnum edgenum a pc2 = some a') :
    SqInv base edge (fun x y z => S x y z ∨ (x = pc ∧ y = pc2)) T a' := by
  have hskip : SqInv base edge (fun x y z => S x y z ∨ (x = pc ∧ y = pc2)) T a :=
    hG.sq_mono (fun _ _ _ hx => Or.inl hx) (fun _ _ _ hx => hx)
  unfold fwdMiddle at h
  rw [hpc.bd1] at h
  simp only at h
  split at h
  · simp at h
  · rename_i l3 hl3
    split at h
    · simp only [Option.some.injEq] at h; subst h; exact hskip
    · split at h
      · split at h
        · obtain ⟨w', cw, e1, e2, e3⟩ := cof_get _ _ _ _ _ hl3
          have : w' = w := (Option.some.inj e1).symm
          subst this
          obtain ⟨-, cw', f1, f2⟩ := hG.1.arrow_ends hpc
          rw [e2] at f1
          have : cw = cw' := Option.some.inj f1
          subst this
          refine fwdInnerLoop_SqInv pc pc2 pcnum edgenum l3 (hG.1.cofNodup w' cw 0 0 l3 e2 e3)
            a a' u v w' t p q q2 hG hE hpc hpc2 ?_ hpq hT hS h
          intro x hx
          obtain ⟨a0, z, p3, g1, g2, -⟩ := hG.1.arrow_of_cof w' cw 0 l3 e2 f2 hl3 x hx
          rw [g2 rfl] at g1
          exact ⟨z, p3, g1⟩
        · simp only [Option.some.injEq] at h; subst h; exact hskip
      · simp at h

theorem fwdMiddleLoop_SqInv {base : Store} {edge : Nat} {S T : Nat → Nat → Nat → Prop}
    (pc : Nat) (pcnum edgenum : Int) (l2 : List Nat) (hnd : l2.Nodup)
    (a a' : Store × Nat) (u v w : Nat) (p q : Int)
    (hG : SqInv base edge S T a)
    (hE : Arrow a.1 edge u v p) (hpc : Arrow a.1 pc u w q)
    (hl2 : ∀ x, x ∈ l2 → ∃ t q2, Arrow a.1 x v t q2)
    (hpq : q ≠ p) (hT : ∀ x y z, ¬ T x y z) (hS : ∀ y z, ¬ S pc y z)
    (h : loopM (fwdMiddle edge pc pcnum edgenum) a l2 = some a') :
    SqInv base edge (fun x y z => S x y z ∨ x = pc) T a' := by
  have key := loopM_inv_pre (fwdMiddle edge pc pcnum edgenum)
    (fun pre s => SqInv a.1 edge (fun x y z => S x y z ∨ (x = pc ∧ y ∈ pre)) T s)
    l2 [] ?_ a a' ⟨hG.1, Ext.ext_refl _, (hG.sq_mono (fun _ _ _ hx => Or.inl hx) (fun _ _ _ hx => hx)).2.2⟩ h
  · exact (key.rebase hG.2.1).sq_mono
      (fun x y z hx => hx.elim Or.inl (fun hx => Or.inr hx.1)) (fun _ _ _ hx => hx)
  · intro pre x post s s' hsplit hP hf
    obtain ⟨hx1, hx2⟩ := nodup_split l2 pre post x hnd (by simpa using hsplit)
    obtain ⟨t, q2, hx3⟩ := hl2 x hx2
    have hext := hP.2.1
    refine (fwdMiddle_SqInv pc x pcnum edgenum s s' u v w t p q q2 hP (hE.arrow_ext hext)
      (hpc.arrow_ext hext) (hx3.arrow_ext hext) hpq hT ?_ hf).sq_mono ?_ (fun _ _ _ hx => hx)
    · intro z hx
      rcases hx with hx | ⟨-, hx⟩
      · exact hS x z hx
      · exact hx1 hx
    · intro x' y z hx
      rcases hx with (hx | ⟨e1, e2⟩) | ⟨e1, e2⟩
      · exact Or.inl hx
      · exact Or.inr ⟨e1, List.mem_append_left _ e2⟩
      · exact Or.inr ⟨e1, by rw [e2]; simp⟩

theorem fwdOuter_SqInv {base : Store} {edge : Nat} {S T : Nat → Nat → Nat → Prop}
    (edgelbl : List label) (pc : Nat) (a a' : Store × Nat) (u v w : Nat) (p q : Int)
    (hG : SqInv base edge S T a)
    (hE : Arrow a.1 edge u v p) (hpc : Arrow a.1 pc u w q)
    (hlbl : ∀ le, edgelbl.head? = some le → le.num = p)
    (hT : ∀ x y z, ¬ T x y z) (hS : ∀ y z, ¬ S pc y z)
    (h : fwdOuter edge edgelbl a pc = some a') :
    SqInv base edge (fun x y z => S x y z ∨ x = pc) T a' := by
  have hskip : SqInv base edge (fun x y z => S x y z ∨ x = pc) T a :=
    hG.sq_mono (fun _ _ _ hx => Or.inl hx) (fun _ _ _ hx => hx)
  unfold fwdOuter at h
  split at h
  · rename_i labpc hlab
    rw [hE.bd1] at h
    simp only at h
    split at h
    · simp at h
    · rename_i l2 hl2
      split at h
      · simp only [Option.some.injEq] at h; subst h; exact hskip
      · split at h
        · rename_i l le hl hle
          split at h
          · rename_i hne
            obtain ⟨v', cv, e1, e2, e3⟩ := cof_get _ _ _ _ _ hl2
            have : v' = v := (Option.some.inj e1).symm
            subst this
            obtain ⟨-, cv', f1, f2⟩ := hG.1.arrow_ends hE
            rw [e2] at f1
            have : cv = cv' := Option.some.inj f1
            subst this
            obtain ⟨l', ls, g1, g2⟩ := lab_pid a.1 pc _ q hlab hpc.arrow_pid
            have g3 : l = l' := by
              rw [Option.some.inj g1] at hl
              simpa using hl.symm
            subst g3
            refine fwdMiddleLoop_SqInv pc l.num le.num l2 (hG.1.cofNodup v' cv 0 0 l2 e2 e3)
              a a' u v' w p q hG hE hpc ?_ ?_ hT hS h
            · intro x hx
              obtain ⟨a0, z, p3, k1, k2, -⟩ := hG.1.arrow_of_cof v' cv 0 l2 e2 f2 hl2 x hx
              rw [k2 rfl] at k1
              exact ⟨z, p3, k1⟩
            · rw [← g2, ← hlbl le hle]
              exact hne
          · simp only [Option.some.injEq] at h; subst h; exact hskip
        · simp at h
  · simp at h

theorem bwdInnerLoop_SqInv {base : Store} {edge : Nat} {S T : Nat → Nat → Nat → Prop}
    (pc pc2 : Nat) (pcnum edgenum : Int) (l3 : List Nat) (hnd : l3.Nodup)
    (a a' : Store × Nat) (u v w t : Nat) (p q : Int)
    (hG : SqInv base edge S T a)
    (hE : Arrow a.1 edge u v p) (hpc : Arrow a.1 pc w v q) (hpc2 : Arrow a.1 pc2 t u q)
    (hl3 : ∀ x, x ∈ l3 → ∃ t' p3, Arrow a.1 x t' w p3)
    (hpq : q ≠ p) (hT : ∀ z, ¬ T pc pc2 z)
    (h : loopM (bwdInner edge pc pc2 pcnum edgenum) a l3 = some a') :
    SqInv base edge S (fun x y z => T x y z ∨ (x = pc ∧ y = pc2)) a' := by
  have key := loopM_inv_pre (bwdInner edge pc pc2 pcnum edgenum)
    (fun pre s => SqInv a.1 edge S (fun x y z => T x y z ∨ (x = pc ∧ y = pc2 ∧ z ∈ pre)) s)
    l3 [] ?_ a a' ⟨hG.1, Ext.ext_refl _, (hG.sq_mono (fun _ _ _ hx => hx) (fun _ _ _ hx => Or.inl hx)).2.2⟩ h
  · exact (key.rebase hG.2.1).sq_mono (fun _ _ _ hx => hx)
      (fun x y z hx => hx.elim Or.inl (fun hx => Or.inr ⟨hx.1, hx.2.1⟩))
  · intro pre x post s s' hsplit hP hf
    obtain ⟨hx1, hx2⟩ := nodup_split l3 pre post x hnd (by simpa using hsplit)
    obtain ⟨t', p3, hx3⟩ := hl3 x hx2
    have hext := hP.2.1
    refine (bwdInner_SqInv pc pc2 x pcnum edgenum s s' u v w t t' p q p3 hP (hE.arrow_ext hext)
      (hpc.arrow_ext hext) (hpc2.arrow_ext hext) (hx3.arrow_ext hext) hpq ?_ hf).sq_mono (fun _ _ _ hx => hx) ?_
    · intro hx
      rcases hx with hx | ⟨-, -, hx⟩
      · exact hT x hx
      · exact hx1 hx
    · intro x' y z hx
      rcases hx with (hx | ⟨e1, e2, e3⟩) | ⟨e1, e2, e3⟩
      · exact Or.inl hx
      · exact Or.inr ⟨e1, e2, List.mem_append_left _ e3⟩
      · exact Or.inr ⟨e1, e2, by rw [e3]; simp⟩

theorem bwdMiddle_SqInv {base : Store} {edge : Nat} {S T : Nat → Nat → Nat → Prop}
    (pc pc2 : Nat) (pcnum edgenum : Int) (a a' : Store × Nat) (u v w t : Nat) (p q q2 : Int)
    (hG : SqInv base edge S T a)
    (hE : Arrow a.1 edge u v p) (hpc : Arrow a.1 pc w v q) (hpc2 : Arrow a.1 pc2 t u q2)
    (hpq : q ≠ p) (hT : ∀ z, ¬ T pc pc2 z)
    (h : bwdMiddle edge pc pcnum edgenum a pc2 = some a') :
    SqInv base edge S (fun x y z => T x y z ∨ (x = pc ∧ y = pc2)) a' := by
  have hskip : SqInv base edge S (fun x y z => T x y z ∨ (x = pc ∧ y = pc2)) a :=
    hG.sq_mono (fun _ _ _ hx => hx) (fun _ _ _ hx => Or.inl hx)
  unfold bwdMiddle at h
  rw [hpc.bd0] at h
  simp only at h
  split at h
  · simp at h
  · rename_i l3 hl3
    split at h
    · simp only [Option.some.injEq] at h; subst h; exact hskip
    · split at h
      · rename_i lab2 labpc hlab2 hlabpc
        split at h
        · rename_i hcmp
          have hq : q2 = q := VecCmp_pid a.1 pc2 pc lab2 labpc q2 q hlab2 hlabpc hpc2.arrow_pid hpc.arrow_pid hcmp
          subst hq
          obtain ⟨w', cw, e1, e2, e3⟩ := cof_get _ _ _ _ _ hl3
          have : w' = w := (Option.some.inj e1).symm
          subst this
          obtain ⟨⟨cw', f1, f2⟩, -⟩ := hG.1.arrow_ends hpc
          rw [e2] at f1
          have : cw = cw' := Option.some.inj f1
          subst this
          refine bwdInnerLoop_SqInv pc pc2 pcnum edgenum l3 (hG.1.cofNodup w' cw 1 0 l3 e2 e3)
            a a' u v w' t p q2 hG hE hpc hpc2 ?_ hpq hT h
          intro x hx
          obtain ⟨a0, z, p3, g1, -, g2⟩ := hG.1.arrow_of_cof w' cw 1 l3 e2 f2 hl3 x hx
          rw [g2 rfl] at g1
          exact ⟨a0, p3, g1⟩
        · simp only [Option.some.injEq] at h; subst h; exact hskip
      · simp at h

theorem bwdMiddleLoop_SqInv {base : Store} {edge : Nat} {S T : Nat → Nat → Nat → Prop}
    (pc : Nat) (pcnum edgenum : Int) (l2 : List Nat) (hnd : l2.Nodup)
    (a a' : Store × Nat) (u v w : Nat) (p q : Int)
    (hG : SqInv base edge S T a)
    (hE : Arrow a.1 edge u v p) (hpc : Arrow a.1 pc w v q)
    (hl2 : ∀ x, x ∈ l2 → ∃ t q2, Arrow a.1 x t u q2)
    (hpq : q ≠ p) (hT : ∀ y z, ¬ T pc y z)
    (h : loopM (bwdMiddle edge pc pcnum edgenum) a l2 = some a') :
    SqInv base edge S (fun x y z => T x y z ∨ x = pc) a' := by
  have key := loopM_inv_pre (bwdMiddle edge pc pcnum edgenum)
    (fun pre s => SqInv a.1 edge S (fun x y z => T x y z ∨ (x = pc ∧ y ∈ pre)) s)
    l2 [] ?_ a a' ⟨hG.1, Ext.ext_refl _, (hG.sq_mono (fun _ _ _ hx => hx) (fun _ _ _ hx => Or.inl hx)).2.2⟩ h
  · exact (key.rebase hG.2.1).sq_mono (fun _ _ _ hx => hx)
      (fun x y z hx => hx.elim Or.inl (fun hx => Or.inr hx.1))
  · intro pre x post s s' hsplit hP hf
    obtain ⟨hx1, hx2⟩ := nodup_split l2 pre post x hnd (by simpa using hsplit)
    obtain ⟨t, q2, hx3⟩ := hl2 x hx2
    have hext := hP.2.1
    refine (bwdMiddle_SqInv pc x pcnum edgenum s s' u v w t p q q2 hP (hE.arrow_ext hext)
      (hpc.arrow_ext hext) (hx3.arrow_ext hext) hpq ?_ hf).sq_mono (fun _ _ _ hx => hx) ?_
    · intro z hx
      rcases hx with hx | ⟨-, hx⟩
      · exact hT x z hx
      · exact hx1 hx
    · intro x' y z hx
      rcases hx with (hx | ⟨e1, e2⟩) | ⟨e1, e2⟩
      · exact Or.inl hx
      · exact Or.inr ⟨e1, List.mem_append_left _ e2⟩
      · exact Or.inr ⟨e1, by rw [e2]; simp⟩

theorem bwdOuter_SqInv {base : Store} {edge : Nat} {S T : Nat → Nat → Nat → Prop}
    (edgelbl : List label) (pc : Nat) (a a' : Store × Nat) (u v w : Nat) (p q : Int)
    (hG : SqInv base edge S T a)
    (hE : Arrow a.1 edge u v p) (hpc : Arrow a.1 pc w v q)
    (hlbl : ∀ le, edgelbl.head? = some le → le.num = p)
    (hT : ∀ y z, ¬ T pc y z)
    (h : bwdOuter edge edgelbl a pc = some a') :
    SqInv base edge S (fun x y z => T x y z ∨ x = pc) a' := by
  have hskip : SqInv base edge S (fun x y z => T x y z ∨ x = pc) a :=
    hG.sq_mono (fun _ _ _ hx => hx) (fun _ _ _ hx => Or.inl hx)
  unfold bwdOuter at h
  split at h
  · rename_i labpc hlab
    rw [hE.bd0] at h
    simp only at h
    split at h
    · simp at h
    · rename_i l2 hl2
      split at h
      · simp only [Option.some.injEq] at h; subst h; exact hskip
      · split at h
        · rename_i l le hl hle
          split at h
          · rename_i hne
            obtain ⟨u', cu, e1, e2, e3⟩ := cof_get _ _ _ _ _ hl2
            have : u' = u := (Option.some.inj e1).symm
            subst this
            obtain ⟨⟨cu', f1, f2⟩, -⟩ := hG.1.arrow_ends hE
            rw [e2] at f1
            have : cu = cu' := Option.some.inj f1
            subst this
            obtain ⟨l', ls, g1, g2⟩ := lab_pid a.1 pc _ q hlab hpc.arrow_pid
            have g3 : l = l' := by
              rw [Option.some.inj g1] at hl
              simpa using hl.symm
            subst g3
            refine bwdMiddleLoop_SqInv pc l.num le.num l2 (hG.1.cofNodup u' cu 1 0 l2 e2 e3)
              a a' u' v w p q hG hE hpc ?_ ?_ hT h
            · intro x hx
              obtain ⟨a0, z, p3, k1, -, k2⟩ := hG.1.arrow_of_cof u' cu 1 l2 e2 f2 hl2 x hx
              rw [k2 rfl] at k1
              exact ⟨a0, p3, k1⟩
            · rw [← g2, ← hlbl le hle]
              exact hne
          · simp only [Option.some.injEq] at h; subst h; exact hskip
        · simp at h
  · simp at h

/-- A call of `FillSquares` for a stored edge that is not yet a face of any
cube keeps the invariant. -/
theorem FillSquares_Inv (st : Store) (edge : Nat) (ce : cube) (r : Store × Nat)
    (hI : Inv st) (he : st.get (some edge) = some ce) (hd : ce.degree = 1)
    (hnew : ∀ y cy, st.get (some y) = some cy → ¬ HasFace cy edge)
    (h : FillSquares st edge = some r) : Inv r.1 ∧ Ext st r.1 := by
  obtain ⟨u, v, p, hE⟩ := hI.arrow edge ce he hd
  unfold FillSquares at h
  split at h
  · rename_i edgelbl hlab
    rw [hE.bd0] at h
    simp only at h
    split at h
    · simp at h
    · rename_i l1 hl1
      split at h
      · simp at h
      · rename_i a ha
        have hlbl : ∀ le, edgelbl.head? = some le → le.num = p := by
          intro le hle
          obtain ⟨l', ls, g1, g2⟩ := lab_pid st edge _ p hlab hE.arrow_pid
          rw [Option.some.inj g1] at hle
          simp only [List.head?_cons, Option.some.injEq] at hle
          rw [← hle]; exact g2
        obtain ⟨⟨cu, f1, f2⟩, -⟩ := hI.arrow_ends hE
        have hG0 : SqInv st edge (fun x _ _ => x ∈ ([] : List Nat)) (fun _ _ _ => False) (st, 0) :=
          ⟨hI, Ext.ext_refl _, fun y cy hy hf => absurd hf (hnew y cy hy)⟩
        obtain ⟨u', cu', e1, e2, e3⟩ := cof_get _ _ _ _ _ hl1
        have hnd1 := hI.cofNodup u' cu' 0 0 l1 e2 e3
        have hA := loopM_inv_pre (fwdOuter edge edgelbl)
          (fun pre s => SqInv st edge (fun x _ _ => x ∈ pre) (fun _ _ _ => False) s)
          l1 [] ?_ (st, 0) a hG0 ha
        · have hext := hA.2.1
          rw [(hE.arrow_ext hext).bd1] at h
          simp only at h
          split at h
          · simp at h
          · rename_i l1b hl1b
            obtain ⟨v', cv, k1, k2, k3⟩ := cof_get _ _ _ _ _ hl1b
            have : v' = v := (Option.some.inj k1).symm
            subst this
            obtain ⟨-, cv', m1, m2⟩ := hA.1.arrow_ends (hE.arrow_ext hext)
            rw [k2] at m1
            have : cv = cv' := Option.some.inj m1
            subst this
            have hnd2 := hA.1.cofNodup v' cv 1 0 l1b k2 k3
            have hG1 : SqInv a.1 edge (fun x _ _ => x ∈ ([] ++ l1)) (fun _ y _ => y ∈ ([] : List Nat)) a :=
              ⟨hA.1, Ext.ext_refl _, (hA.sq_mono (fun _ _ _ hx => hx) (fun _ _ _ hx => hx.elim)).2.2⟩
            have hB := loopM_inv_pre (bwdOuter edge edgelbl)
              (fun pre s => SqInv a.1 edge (fun x _ _ => x ∈ ([] ++ l1)) (fun x _ _ => x ∈ pre) s)
              l1b [] ?_ a r ⟨hG1.1, hG1.2.1, (hG1.sq_mono (fun _ _ _ hx => hx)
                (fun _ _ _ hx => absurd hx (List.not_mem_nil _))).2.2⟩ h
            · exact ⟨hB.1, hext.ext_trans hB.2.1⟩
            · intro pre x post s s' hsplit hP hf
              obtain ⟨hx1, hx2⟩ := nodup_split l1b pre post x hnd2 (by simpa using hsplit)
              obtain ⟨a0, z, q, n1, -, n2⟩ := hA.1.arrow_of_cof v' cv 1 l1b k2 m2 hl1b x hx2
              rw [n2 rfl] at n1
              have hext2 := hP.2.1
              refine (bwdOuter_SqInv edgelbl x s s' u v' a0 p q hP ((hE.arrow_ext hext).arrow_ext hext2)
                (n1.arrow_ext hext2) hlbl (fun _ _ hx => hx1 hx) hf).sq_mono (fun _ _ _ hx => hx) ?_
              intro x' _ _ hx
              rcases hx with hx | hx
              · exact List.mem_append_left _ hx
              · rw [hx]; simp
        · intro pre x post s s' hsplit hP hf
          obtain ⟨hx1, hx2⟩ := nodup_split l1 pre post x hnd1 (by simpa using hsplit)
          have : u' = u := (Option.some.inj e1).symm
          subst this
          rw [e2] at f1
          have : cu' = cu := Option.some.inj f1
          subst this
          obtain ⟨a0, z, q, n1, n2, -⟩ := hI.arrow_of_cof u' cu' 0 l1 e2 f2 hl1 x hx2
          rw [n2 rfl] at n1
          have hext2 := hP.2.1
          refine (fwdOuter_SqInv edgelbl x s s' u' v z p q hP (hE.arrow_ext hext2)
            (n1.arrow_ext hext2) hlbl (fun _ _ _ hx => hx) (fun _ _ hx => hx1 hx) hf).sq_mono ?_
            (fun _ _ _ hx => hx)
          intro x' _ _ hx
          rcases hx with hx | hx
          · exact List.mem_append_left _ hx
          · rw [hx]; simp
  · simp at h

/-! ### The invariant under the steps of `hda.c` -/

theorem s_congr (c c' : cube) (h0 : c'.s0 = c.s0) (h1 : c'.s1 = c.s1) (k i : Nat) :
    c'.s k i = c.s k i := by
  unfold cube.s
  rw [h0, h1]

theorem FreshVertex.fresh_s {c : cube} (h : FreshVertex c) (k i : Nat) (l : List Nat)
    (hl : c.s k i = some l) : l = [] := by
  obtain ⟨-, -, -, h0, h1, -⟩ := h
  match k, i with
  | 0, 0 => simp [cube.s, h0] at hl; exact hl
  | 0, (n + 1) => simp [cube.s, h0] at hl
  | 1, 0 => simp [cube.s, h1] at hl; exact hl
  | 1, (n + 1) => simp [cube.s, h1] at hl
  | (m + 2), _ => simp [cube.s] at hl

theorem FreshVertex.fresh_d {c : cube} (h : FreshVertex c) (k i : Nat) : c.d k i = none := by
  obtain ⟨-, h0, h1, -, -, -⟩ := h
  match k with
  | 0 => simp [cube.d, h0]
  | 1 => simp [cube.d, h1]
  | (m + 2) => rfl

/-- The invariant passes to a store that keeps all cubes with their coface
lists, and has no other cells than fresh vertices. -/
theorem Inv_transport {st st' : Store} (hI : Inv st) (hE : Ext st st')
    (hs : ∀ y c c', st.get (some y) = some c → st'.get (some y) = some c' →
      c'.s0 = c.s0 ∧ c'.s1 = c.s1)
    (hb : ∀ y c', st'.get (some y) = some c' →
      (∃ c, st.get (some y) = some c) ∨ FreshVertex c')
    (hl : ∀ d l x, st'.cubelist[d]? = some l → x ∈ l →
      ∃ c, st'.get (some x) = some c ∧ c.degree = d)
    (hla : ∀ x c, st'.get (some x) = some c → 1 ≤ c.degree →
      ∃ l, st'.cubelist[c.degree]? = some l ∧ x ∈ l) : Inv st' := by
  have fwd : ∀ y c, st.get (some y) = some c →
      ∃ c', st'.get (some y) = some c' ∧ Core c c' ∧ ∀ k i, c'.s k i = c.s k i := by
    intro y c hy
    obtain ⟨c', g1, g2⟩ := hE.live y c hy
    obtain ⟨s0, s1⟩ := hs y c c' hy g1
    exact ⟨c', g1, g2, s_congr c c' s0 s1⟩
  have back : ∀ y c', st'.get (some y) = some c' →
      (∃ c, st.get (some y) = some c ∧ Core c c' ∧ ∀ k i, c'.s k i = c.s k i) ∨
        FreshVertex c' := by
    intro y c' hy
    rcases hb y c' hy with ⟨c, hc⟩ | hf
    · obtain ⟨c'', g1, g2, g3⟩ := fwd y c hc
      rw [hy] at g1
      have : c' = c'' := Option.some.inj g1
      subst this
      exact Or.inl ⟨c, hc, g2, g3⟩
    · exact Or.inr hf
  refine ⟨?_, ?_, ?_, ?_, ?_, hl, hla, ?_, ?_, ?_, ?_, ?_, ?_⟩
  · intro x c' hx
    rcases back x c' hx with ⟨c, hc, ⟨c1, c2, c3, c4, c5⟩, hsame⟩ | ⟨f1, f2, f3, f4, f5, f6⟩
    · obtain ⟨a1, a2, a3, a4, a5⟩ := hI.shape x c hc
      obtain ⟨s0, s1⟩ := hs x c c' hc hx
      rw [c1, c2, c3, c4, s0, s1]
      exact ⟨a1, a2, a3, a4, a5⟩
    · simp [f1, f2, f3, f4, f5, f6]
  · intro x c' k i hx hk hi
    rcases back x c' hx with ⟨c, hc, hcore, -⟩ | hf
    · obtain ⟨f, cf, a1, a2, a3⟩ := hI.faces x c k i hc hk (by rw [← hcore.1]; exact hi)
      obtain ⟨cf', b1, b2, -⟩ := fwd f cf a2
      exact ⟨f, cf', by rw [hcore.core_d]; exact a1, b1, by rw [b2.1, hcore.1]; exact a3⟩
    · rw [hf.1] at hi; omega
  · intro f cf' k i l y hf hl' hy
    rcases back f cf' hf with ⟨cf, hc, -, hsame⟩ | hfr
    · rw [hsame] at hl'
      obtain ⟨cy, a1, a2⟩ := hI.cofSound f cf k i l y hc hl' hy
      obtain ⟨cy', b1, b2, -⟩ := fwd y cy a1
      exact ⟨cy', b1, by rw [b2.core_d]; exact a2⟩
    · rw [hfr.fresh_s k i l hl'] at hy
      exact absurd hy (List.not_mem_nil y)
  · intro f cf' k i l hf hl'
    rcases back f cf' hf with ⟨cf, hc, -, hsame⟩ | hfr
    · rw [hsame] at hl'
      exact hI.cofNodup f cf k i l hc hl'
    · rw [hfr.fresh_s k i l hl']
      exact List.nodup_nil
  · intro y cy' k i f hy hd
    rcases back y cy' hy with ⟨cy, hc, hcore, -⟩ | hfr
    · rw [hcore.core_d] at hd
      obtain ⟨cf, l, a1, a2, a3⟩ := hI.cofComplete y cy k i f hc hd
      obtain ⟨cf', b1, -, b3⟩ := fwd f cf a1
      exact ⟨cf', l, b1, by rw [b3]; exact a2, a3⟩
    · rw [hfr.fresh_d] at hd
      simp at hd
  · intro x c' hx
    rcases back x c' hx with ⟨c, hc, hcore, -⟩ | hfr
    · exact CubicalIdentity.identity_ext hE c c' hcore (hI.ident x c hc)
    · intro i j k l hij hj
      rw [hfr.1] at hj
      omega
  · intro x y cx' cy' hx hy hd e0 e1
    rcases back x cx' hx with ⟨cx, hcx, hcorex, -⟩ | hfr
    · rcases back y cy' hy with ⟨cy, hcy, hcorey, -⟩ | hfr
      · refine hI.unique x y cx cy hcx hcy (by rw [← hcorex.1]; exact hd) ?_ ?_
        · rw [← hcorex.2.1, ← hcorey.2.1]; exact e0
        · rw [← hcorex.2.2.1, ← hcorey.2.2.1]; exact e1
      · have := (hI.shape x cx hcx).1
        rw [← hcorex.2.1, e0, hfr.2.1, ← hcorex.1] at this
        simp at this
        omega
    · rw [hfr.1] at hd; omega
  · intro x c' hx hd
    rcases back x c' hx with ⟨c, hc, hcore, -⟩ | hfr
    · rw [hcore.2.2.2.1]
      exact hI.edges1 x c hc (by rw [← hcore.1]; exact hd)
    · rw [hfr.1] at hd; omega
  · intro x c' i hx hi
    rcases back x c' hx with ⟨c, hc, hcore, -⟩ | hfr
    · obtain ⟨e, ce, p, a1, a2, a3, a4⟩ := hI.edgesOK x c i hc (by rw [← hcore.1]; exact hi)
      obtain ⟨ce', b1, b2, -⟩ := fwd e ce a2
      exact ⟨e, ce', p, by rw [hcore.2.2.2.1]; exact a1, b1, by rw [b2.1]; exact a3,
        hE.ext_pid _ _ a4⟩
    · rw [hfr.1] at hi; omega
  · intro x c' j hx hd hj
    rcases back x c' hx with ⟨c, hc, hcore, -⟩ | hfr
    · obtain ⟨f, cf, a1, a2, a3⟩ := hI.edgesFace x c j hc (by rw [← hcore.1]; exact hd)
        (by rw [← hcore.1]; exact hj)
      obtain ⟨cf', b1, b2, -⟩ := fwd f cf a2
      exact ⟨f, cf', by rw [hcore.core_d]; exact a1, b1, by rw [b2.2.2.2.1, hcore.2.2.2.1]; exact a3⟩
    · rw [hfr.1] at hd; omega
  · intro x c' i j e1 e2 hx hij h1 h2
    rcases back x c' hx with ⟨c, hc, hcore, -⟩ | hfr
    · rw [hcore.2.2.2.1] at h1 h2
      have hlen := (hI.shape x c hc).2.2.2.2
      have hj : j < c.degree := hlen ▸ getElem?_some_lt _ _ _ h2
      obtain ⟨x1, cx1, p1, a1, a2, a3, a4⟩ := hI.edgesOK x c i hc (by omega)
      obtain ⟨x2, cx2, p2, b1, b2, b3, b4⟩ := hI.edgesOK x c j hc hj
      rw [h1] at a1
      rw [h2] at b1
      have g1 : e1 = some x1 := Option.some.inj a1
      have g2 : e2 = some x2 := Option.some.inj b1
      subst g1 g2
      have := hI.pids x c i j _ _ hc hij h1 h2
      rw [hE.ext_pid _ _ a4, hE.ext_pid _ _ b4]
      rw [a4, b4] at this
      exact this
    · rw [hfr.2.2.2.2.2] at h2
      simp at h2

theorem Inv_sim {st st' : Store} (hI : Inv st) (hlen : st.cubes.length ≤ st'.cubes.length)
    (hget : ∀ y,
      (∃ c c', st.get (some y) = some c ∧ st'.get (some y) = some c' ∧ Core c c' ∧
        c'.s0 = c.s0 ∧ c'.s1 = c.s1) ∨
      (st.get (some y) = none ∧ ∀ c', st'.get (some y) = some c' → FreshVertex c'))
    (hl : ∀ d l x, st'.cubelist[d]? = some l → x ∈ l →
      ∃ c, st'.get (some x) = some c ∧ c.degree = d)
    (hla : ∀ x c, st'.get (some x) = some c → 1 ≤ c.degree →
      ∃ l, st'.cubelist[c.degree]? = some l ∧ x ∈ l) : Inv st' ∧ Ext st st' := by
  have hE : Ext st st' := by
    refine ⟨hlen, ?_⟩
    intro y cy hy
    rcases hget y with ⟨c, c', a1, a2, a3, a4, a5⟩ | ⟨a1, -⟩
    · rw [hy] at a1
      have : cy = c := Option.some.inj a1
      subst this
      refine ⟨c', a2, a3, ?_⟩
      intro k i l hl'
      exact ⟨[], by rw [s_congr cy c' a4 a5, hl']; simp⟩
    · rw [hy] at a1; simp at a1
  refine ⟨Inv_transport hI hE ?_ ?_ hl hla, hE⟩
  · intro y c c' hy hy'
    rcases hget y with ⟨c0, c0', a1, a2, a3, a4, a5⟩ | ⟨a1, -⟩
    · rw [hy] at a1
      rw [hy'] at a2
      have e1 : c = c0 := Option.some.inj a1
      have e2 : c' = c0' := Option.some.inj a2
      subst e1 e2
      exact ⟨a4, a5⟩
    · rw [hy] at a1; simp at a1
  · intro y c' hy'
    rcases hget y with ⟨c0, c0', a1, a2, a3, a4, a5⟩ | ⟨a1, a2⟩
    · exact Or.inl ⟨c0, a1⟩
    · exact Or.inr (a2 c' hy')

/-- The per-degree collections stay sound when they and the cubes of degree at
least 1 are kept. -/
theorem Inv_sim_lists {st st' : Store} (hI : Inv st) (hlen : st.cubes.length ≤ st'.cubes.length)
    (hget : ∀ y,
      (∃ c c', st.get (some y) = some c ∧ st'.get (some y) = some c' ∧ Core c c' ∧
        c'.s0 = c.s0 ∧ c'.s1 = c.s1) ∨
      (st.get (some y) = none ∧ ∀ c', st'.get (some y) = some c' → FreshVertex c'))
    (hcl : st'.cubelist = st.cubelist) : Inv st' ∧ Ext st st' := by
  refine Inv_sim hI hlen hget ?_ ?_
  · intro d l x hd hx
    rw [hcl] at hd
    obtain ⟨c, c1, c2⟩ := hI.listed d l x hd hx
    rcases hget x with ⟨c0, c0', a1, a2, a3, -, -⟩ | ⟨a1, -⟩
    · rw [c1] at a1
      have : c = c0 := Option.some.inj a1
      subst this
      exact ⟨c0', a2, by rw [a3.1]; exact c2⟩
    · rw [c1] at a1; simp at a1
  · intro x c' hx hd
    rcases hget x with ⟨c0, c0', a1, a2, a3, -, -⟩ | ⟨-, a2⟩
    · rw [hx] at a2
      have : c' = c0' := Option.some.inj a2
      subst this
      rw [hcl, a3.1]
      exact hI.listedAll x c0 a1 (by rw [← a3.1]; exact hd)
    · have := (a2 c' hx).1
      omega

theorem alloc_get (st : Store) (c : cube) (y : Nat) :
    (st.alloc c).1.get (some y) = if y = st.cubes.length then some c else st.get (some y) := by
  simp only [Store.alloc, Store.get]
  split
  · rename_i h
    subst h
    simp
  · rename_i h
    by_cases hy : y < st.cubes.length
    · rw [List.getElem?_append_left hy]
    · rw [List.getElem?_eq_none (by simp; omega), List.getElem?_eq_none (by omega)]

theorem delete_alloc_get (st : Store) (c : cube) (y : Nat) :
    (DeleteCube (st.alloc c).1 st.cubes.length).get (some y) = st.get (some y) := by
  simp only [DeleteCube, Store.alloc, Store.get]
  by_cases hy : y = st.cubes.length
  · subst hy
    rw [List.getElem?_set_self (by simp), List.getElem?_eq_none (Nat.le_refl _)]
    rfl
  · rw [List.getElem?_set_ne (fun e => hy e.symm)]
    by_cases hy' : y < st.cubes.length
    · rw [List.getElem?_append_left hy']
    · rw [List.getElem?_eq_none (by simp; omega), List.getElem?_eq_none (by omega)]

theorem get_cases (st : Store) (y : Nat) :
    (∃ c, st.get (some y) = some c) ∨ st.get (some y) = none := by
  cases h : st.get (some y) with
  | none => exact Or.inr rfl
  | some c => exact Or.inl ⟨c, rfl⟩

/-- Storing a fresh vertex keeps the invariant. -/
theorem Inv_alloc {st : Store} (hI : Inv st) (c : cube) (hc : FreshVertex c) :
    Inv (st.alloc c).1 ∧ Ext st (st.alloc c).1 ∧
      (st.alloc c).1.get (some st.cubes.length) = some c := by
  have h := @Inv_sim_lists st (st.alloc c).1 hI (by simp [Store.alloc]) ?_ rfl
  · exact ⟨h.1, h.2, by rw [alloc_get]; simp⟩
  · intro y
    rcases get_cases st y with ⟨cy, hy⟩ | hy
    · refine Or.inl ⟨cy, cy, hy, ?_, Core.core_refl cy, rfl, rfl⟩
      rw [alloc_get, if_neg (Nat.ne_of_lt (get_lt st y cy hy))]
      exact hy
    · refine Or.inr ⟨hy, ?_⟩
      intro c' hc'
      rw [alloc_get] at hc'
      split at hc'
      · rw [← Option.some.inj hc']; exact hc
      · rw [hy] at hc'; simp at hc'

/-- Storing a cell and releasing it again keeps the invariant. -/
theorem Inv_delete_alloc {st : Store} (hI : Inv st) (c : cube) :
    Inv (DeleteCube (st.alloc c).1 st.cubes.length) ∧
      Ext st (DeleteCube (st.alloc c).1 st.cubes.length) := by
  refine Inv_sim_lists hI (by simp [Store.alloc, DeleteCube]) ?_ rfl
  intro y
  rcases get_cases st y with ⟨cy, hy⟩ | hy
  · exact Or.inl ⟨cy, cy, hy, by rw [delete_alloc_get]; exact hy, Core.core_refl cy, rfl, rfl⟩
  · refine Or.inr ⟨hy, ?_⟩
    intro c' hc'
    rw [delete_alloc_get, hy] at hc'
    simp at hc'

theorem Inv_setFin {st st' : Store} (hI : Inv st) (p : Nat) (h : setFin st p = some st') :
    Inv st' ∧ Ext st st' := by
  unfold setFin at h
  split at h
  · simp at h
  · rename_i c hc
    simp only [Option.some.injEq] at h
    subst h
    refine Inv_sim_lists hI (by simp) ?_ rfl
    intro y
    by_cases hy : y = p
    · subst hy
      refine Or.inl ⟨c, { c with fin := true }, hc, ?_, ⟨rfl, rfl, rfl, rfl, rfl⟩, rfl, rfl⟩
      simp only [Store.get]
      rw [List.getElem?_set_self (get_lt st y c hc)]
      rfl
    · have e : ({ st with cubes := st.cubes.set p (some { c with fin := true }) } : Store).get
          (some y) = st.get (some y) := by
        simp only [Store.get]
        rw [List.getElem?_set_ne (fun e => hy e.symm)]
      rcases get_cases st y with ⟨cy, hcy⟩ | hcy
      · exact Or.inl ⟨cy, cy, hcy, by rw [e]; exact hcy, Core.core_refl cy, rfl, rfl⟩
      · refine Or.inr ⟨hcy, ?_⟩
        intro c' hc'
        rw [e, hcy] at hc'
        simp at hc'

/-- Appending a stored vertex to `cubelist[0]` keeps the invariant. -/
theorem Inv_addToList {st st' : Store} (hI : Inv st) (x : Nat) (hx : IsVertex st (some x))
    (h : st.addToList 0 x = some st') : Inv st' ∧ Ext st st' := by
  unfold Store.addToList at h
  split at h
  · simp at h
  · rename_i l hl
    simp only [Option.some.injEq] at h
    subst h
    have hget : ∀ y, ({ st with cubelist := st.cubelist.set 0 (InsertElement x l) } : Store).get
        (some y) = st.get (some y) := fun y => rfl
    refine Inv_sim hI (Nat.le_refl _) ?_ ?_ ?_
    · intro y
      rcases get_cases st y with ⟨cy, hcy⟩ | hcy
      · exact Or.inl ⟨cy, cy, hcy, hcy, Core.core_refl cy, rfl, rfl⟩
      · refine Or.inr ⟨hcy, ?_⟩
        intro c' hc'
        rw [hget, hcy] at hc'
        simp at hc'
    · intro d l' y hd hy
      rw [hget]
      by_cases hd0 : d = 0
      · subst hd0
        simp only at hd
        rw [List.getElem?_set_self (getElem?_some_lt _ _ _ hl)] at hd
        rw [← Option.some.inj hd] at hy
        simp only [InsertElement, List.mem_append, List.mem_singleton] at hy
        rcases hy with hy | hy
        · exact hI.listed 0 l y hl hy
        · subst hy
          exact hx
      · simp only at hd
        rw [List.getElem?_set_ne (fun e => hd0 e.symm)] at hd
        exact hI.listed d l' y hd hy
    · intro y c hy hd
      rw [hget] at hy
      obtain ⟨l', a1, a2⟩ := hI.listedAll y c hy hd
      refine ⟨l', ?_, a2⟩
      simp only
      rw [List.getElem?_set_ne (by omega)]
      exact a1

theorem IsVertex.vertex_ext {st st' : Store} (h : Ext st st') {x : Nat} (hx : IsVertex st (some x)) :
    IsVertex st' (some x) := by
  obtain ⟨c, hc, hd⟩ := hx
  obtain ⟨c', g1, g2⟩ := h.live x c hc
  exact ⟨c', g1, by rw [g2.1]; exact hd⟩

theorem QInv.queue_ext {st st' : Store} (h : Ext st st') {q : List state} (hq : QInv st q) :
    QInv st' q :=
  fun s hs => (hq s hs).vertex_ext h

/-- The cube that `HandleState` makes for a transition between two stored
vertices satisfies what `link` needs. -/
theorem edge_cand {st : Store} (a b : Nat) (l : label)
    (ha : IsVertex st (some a)) (hb : IsVertex st (some b)) :
    Cand st { NewCube 1 st.cubes.length with
      d0 := [some a], d1 := [some b], edges := [some st.cubes.length], lab := some [l] } := by
  obtain ⟨ca, a1, a2⟩ := ha
  obtain ⟨cb, b1, b2⟩ := hb
  refine ⟨by simp [NewCube], ⟨rfl, rfl, rfl, rfl, rfl⟩, ?_, ?_, ?_, fun _ => ⟨rfl, l, [], rfl⟩,
    ?_, ?_, ?_⟩
  · intro k i hk hi
    have hi' : i < 1 := hi
    have hi0 : i = 0 := by omega
    subst hi0
    have hk' : k = 0 ∨ k = 1 := by omega
    rcases hk' with rfl | rfl
    · exact ⟨a, ca, rfl, a1, by rw [a2]; rfl⟩
    · exact ⟨b, cb, rfl, b1, by rw [b2]; rfl⟩
  · intro i j k l' hij hj
    have hj' : j < 1 := hj
    omega
  · intro h
    have h' : 2 ≤ 1 := h
    omega
  · intro h
    have h' : 2 ≤ 1 := h
    omega
  · intro h
    have h' : 2 ≤ 1 := h
    omega
  · intro i j e1 e2 hij _ h2
    have hj : j < 1 := getElem?_some_lt _ _ _ h2
    omega

theorem FillCubesLoop_Inv (edge : Nat) :
    ∀ (fuel : Nat) (st : Store) (fc : Nat) (dim : Int) (r : Store × Int),
      Inv st → FillCubesLoop edge fuel st fc dim = some r → Inv r.1 ∧ Ext st r.1 := by
  intro fuel
  induction fuel with
  | zero => intro st fc dim r _ h; simp [FillCubesLoop] at h
  | succ n ih =>
    intro st fc dim r hI h
    simp only [FillCubesLoop] at h
    split at h
    · simp only [Option.some.injEq] at h
      subst h
      exact ⟨hI, Ext.ext_refl _⟩
    · split at h
      · simp at h
      · rename_i r1 hr1
        obtain ⟨g1, g2⟩ := FillHDCubes_Inv st edge _ fc r1 hI hr1
        obtain ⟨g3, g4⟩ := ih r1.1 r1.2 (dim + 1) r g1 h
        exact ⟨g3, g2.ext_trans g4⟩

/-- A call of `FillCubes` for a stored edge that is not yet a face of any cube
keeps the invariant. -/
theorem FillCubes_Inv (st : Store) (edge : Nat) (ce : cube) (r : Store × Int)
    (hI : Inv st) (he : st.get (some edge) = some ce) (hd : ce.degree = 1)
    (hnew : ∀ y cy, st.get (some y) = some cy → ¬ HasFace cy edge)
    (h : FillCubes st edge = some r) : Inv r.1 ∧ Ext st r.1 := by
  unfold FillCubes at h
  split at h
  · simp at h
  · rename_i r1 hr1
    obtain ⟨g1, g2⟩ := FillSquares_Inv st edge ce r1 hI he hd hnew hr1
    obtain ⟨g3, g4⟩ := FillCubesLoop_Inv edge _ r1.1 r1.2 _ r g1 h
    exact ⟨g3, g2.ext_trans g4⟩

theorem NewCube_fresh (n : Nat) (lab : Option (List label)) (ini : Bool) :
    FreshVertex { NewCube 0 n with lab := lab, ini := ini } :=
  ⟨rfl, rfl, rfl, rfl, rfl, rfl⟩

theorem NextState_spec (st : Store) (sys : System) (sta : state) (trans : transition)
    (pid : Nat) (s1 : Store) (st' : state)
    (h : NextState st sys sta trans pid = some (some (s1, st'))) :
    ∃ c, FreshVertex c ∧ s1 = (st.alloc c).1 ∧ st'.cube = st.cubes.length := by
  unfold NextState at h
  split at h
  · simp at h
  · split at h
    · split at h
      · split at h
        · simp at h
        · rename_i s hs
          simp only [Option.some.injEq, Prod.mk.injEq] at h
          obtain ⟨h1, h2⟩ := h
          exact ⟨_, NewCube_fresh _ _ false, h1.symm, by rw [← h2]; rfl⟩
      · simp at h
    · simp at h

theorem findState_mem (st : Store) (lab : Option (List label)) :
    ∀ (l : List Nat) (x : Nat), findState st lab l = some (some x) → x ∈ l := by
  intro l
  induction l with
  | nil => intro x h; simp [findState] at h
  | cons a l ih =>
    intro x h
    simp only [findState] at h
    split at h
    · simp at h
    · split at h
      · simp only [Option.some.injEq] at h
        subst h
        exact List.mem_cons_self _ _
      · exact List.mem_cons_of_mem _ (ih x h)

/-- A cube that was just linked is not a face of any cube. -/
theorem link_noface (st st' : Store) (c : cube) (hI : Inv st) (hC : Cand st c)
    (h : st.link c = some st') :
    ∀ y cy, st'.get (some y) = some cy → ¬ HasFace cy st.cubes.length := by
  intro y cy hy ⟨k, i, hf⟩
  have hI' := Inv_link st st' c hI hC h
  have hnew := (link_spec st st' c h).new
  obtain ⟨cf, l, a1, a2, a3⟩ := hI'.cofComplete y cy k i _ hy hf
  rw [hnew] at a1
  have : c = cf := Option.some.inj a1
  subst this
  have hk := (d_some_lt cy k i _ hf).1
  have hs0 := hC.shape.2.2.1
  have hs1 := hC.shape.2.2.2.1
  have hk' : k = 0 ∨ k = 1 := by omega
  rcases hk' with rfl | rfl
  · simp only [cube.s, hs0] at a2
    have hl := List.getElem?_mem a2
    rw [List.mem_replicate] at hl
    rw [hl.2] at a3
    exact absurd a3 (List.not_mem_nil y)
  · simp only [cube.s, hs1] at a2
    have hl := List.getElem?_mem a2
    rw [List.mem_replicate] at hl
    rw [hl.2] at a3
    exact absurd a3 (List.not_mem_nil y)

theorem handleTransition_Inv (sys : System) (sta : state) (i : Nat) (a a' : Explore)
    (trans : transition) (hI : Inv a.store) (hsta : IsVertex a.store (some sta.cube))
    (hq : QInv a.store a.statelist) (h : handleTransition sys sta i a trans = some a') :
    Inv a'.store ∧ Ext a.store a'.store ∧ QInv a'.store a'.statelist := by
  unfold handleTransition at h
  split at h
  · simp at h
  · simp only [Option.some.injEq] at h
    subst h
    exact ⟨hI, Ext.ext_refl _, hq⟩
  · rename_i s1 st hnext
    obtain ⟨c, hc, rfl, hcube⟩ := NextState_spec _ _ _ _ _ _ _ hnext
    split at h
    · rename_i cl0 stlab hcl0 hstlab
      split at h
      · simp at h
      · rename_i found hfound
        simp only at h
        split at h
        · simp at h
        · rename_i act hact
          split at h
          · simp at h
          · rename_i s3 hs3
            cases found with
            | none =>
              simp only at h hs3
              split at h
              · simp at h
              · rename_i s4 hs4
                simp only [Option.some.injEq] at h
                subst h
                obtain ⟨g1, g2, g3⟩ := Inv_alloc hI c hc
                have hv1 : IsVertex (a.store.alloc c).1 (some st.cube) :=
                  ⟨c, by rw [hcube]; exact g3, hc.1⟩
                have hC := @edge_cand (a.store.alloc c).1 sta.cube st.cube ⟨act.id, (i : Int)⟩
                  (hsta.vertex_ext g2) hv1
                have g4 := Inv_link _ _ _ g1 hC hs3
                have g5 : Ext (a.store.alloc c).1 s3 := (link_spec _ _ _ hs3).linked_ext
                obtain ⟨g6, g7⟩ := Inv_addToList g4 st.cube (hv1.vertex_ext g5) hs4
                have hE : Ext a.store s4 := g2.ext_trans (g5.ext_trans g7)
                refine ⟨g6, hE, ?_⟩
                intro s hs
                simp only [InsertElement, List.mem_append, List.mem_singleton] at hs
                rcases hs with hs | hs
                · exact (hq s hs).vertex_ext hE
                · subst hs
                  exact (hv1.vertex_ext g5).vertex_ext g7
            | some cpc =>
              simp only at h hs3
              split at h
              · simp at h
              · rename_i r hr
                simp only [Option.some.injEq] at h
                subst h
                rw [hcube] at hs3 hr
                obtain ⟨g1, g2⟩ := Inv_delete_alloc hI c
                have hmem := findState_mem _ _ _ _ hfound
                have hv : IsVertex a.store (some cpc) := hI.listed 0 cl0 cpc hcl0 hmem
                have hC := @edge_cand (DeleteCube (a.store.alloc c).1 a.store.cubes.length)
                  sta.cube cpc ⟨act.id, (i : Int)⟩ (hsta.vertex_ext g2) (hv.vertex_ext g2)
                have g4 := Inv_link _ _ _ g1 hC hs3
                have hL := link_spec _ _ _ hs3
                obtain ⟨g6, g7⟩ := FillCubes_Inv s3 _ _ r g4 hL.new rfl
                  (link_noface _ _ _ g1 hC hs3) hr
                have hE : Ext a.store r.1 := g2.ext_trans (hL.linked_ext.ext_trans g7)
                exact ⟨g6, hE, hq.queue_ext hE⟩
    · simp at h

theorem HandleState_Inv (sys : System) (sta : state) (st : Store) (statelist : List state)
    (a : Explore) (hI : Inv st) (hsta : IsVertex st (some sta.cube)) (hq : QInv st statelist)
    (h : HandleState sys sta st statelist = some a) :
    Inv a.store ∧ Ext st a.store ∧ QInv a.store a.statelist := by
  unfold HandleState at h
  refine loopM_inv _ (fun b => Inv b.store ∧ Ext st b.store ∧ QInv b.store b.statelist) _ ?_
    _ a ⟨hI, Ext.ext_refl _, hq⟩ h
  intro b p b' _ hb hf
  split at hf
  · simp at hf
  · refine loopM_inv _ (fun b => Inv b.store ∧ Ext st b.store ∧ QInv b.store b.statelist) _ ?_
      b b' hb hf
    intro e t e' _ he ht
    obtain ⟨g1, g2, g3⟩ := handleTransition_Inv sys sta p.1 e e' t he.1 (hsta.vertex_ext he.2.1) he.2.2 ht
    exact ⟨g1, he.2.1.ext_trans g2, g3⟩

theorem MakeHDALoop_Inv (sys : System) :
    ∀ (fuel : Nat) (st : Store) (queue : List state) (dim : Int) (r : Store × Int),
      Inv st → QInv st queue → MakeHDALoop sys fuel st queue dim = some r → Inv r.1 := by
  intro fuel
  induction fuel with
  | zero =>
    intro st queue dim r hI _ h
    cases queue with
    | nil => simp only [MakeHDALoop, Option.some.injEq] at h; subst h; exact hI
    | cons s q => simp [MakeHDALoop] at h
  | succ n ih =>
    intro st queue dim r hI hq h
    cases queue with
    | nil => simp only [MakeHDALoop, Option.some.injEq] at h; subst h; exact hI
    | cons sta q =>
      simp only [MakeHDALoop] at h
      split at h
      · simp at h
      · rename_i isfinal _
        split at h
        · simp at h
        · rename_i s1 hs1
          split at h
          · simp at h
          · rename_i a ha
            have h1 : Inv s1 ∧ Ext st s1 := by
              split at hs1
              · exact Inv_setFin hI _ hs1
              · simp only [Option.some.injEq] at hs1
                subst hs1
                exact ⟨hI, Ext.ext_refl _⟩
            obtain ⟨g1, g2, g3⟩ := HandleState_Inv sys sta s1 (sta :: q) a h1.1
              ((hq sta (List.mem_cons_self _ _)).vertex_ext h1.2) (hq.queue_ext h1.2) ha
            exact ih a.store a.statelist.tail _ r g1
              (fun s hs => g3 s (List.mem_of_mem_tail hs)) h

theorem Inv_initialStore (sys : System) : Inv (initialStore sys) := by
  have hget : ∀ y, (initialStore sys).get (some y) = none := by
    intro y
    simp [initialStore, Store.get]
  refine ⟨?_, ?_, ?_, ?_, ?_, ?_, ?_, ?_, ?_, ?_, ?_, ?_, ?_⟩
  · intro x c hx; rw [hget] at hx; simp at hx
  · intro x c k i hx; rw [hget] at hx; simp at hx
  · intro f cf k i l y hf; rw [hget] at hf; simp at hf
  · intro f cf k i l hf; rw [hget] at hf; simp at hf
  · intro y cy k i f hy; rw [hget] at hy; simp at hy
  · intro d l x hd hx
    have := List.getElem?_mem hd
    simp only [initialStore, List.mem_replicate] at this
    rw [this.2] at hx
    exact absurd hx (List.not_mem_nil x)
  · intro x c hx; rw [hget] at hx; simp at hx
  · intro x c hx; rw [hget] at hx; simp at hx
  · intro x y cx cy hx; rw [hget] at hx; simp at hx
  · intro x c hx; rw [hget] at hx; simp at hx
  · intro x c i hx; rw [hget] at hx; simp at hx
  · intro x c j hx; rw [hget] at hx; simp at hx
  · intro x c i j e1 e2 hx; rw [hget] at hx; simp at hx

/-- The complex that `MakeHDA` returns satisfies the invariant. -/
theorem MakeHDA_Inv (fuel : Nat) (sys : System) (r : Store × Int)
    (h : MakeHDA fuel sys (initialStore sys) = some r) : Inv r.1 := by
  unfold MakeHDA at h
  split at h
  · simp at h
  · rename_i r0 hr0
    split at h
    · simp at h
    · rename_i s1 hs1
      unfold InitialStates at hr0
      split at hr0
      · simp at hr0
      · simp only at hr0
        split at hr0
        · simp at hr0
        · rename_i lbl _
          simp only [Option.some.injEq] at hr0
          subst hr0
          simp only [CubesOfStates, loopM] at hs1
          obtain ⟨g1, g2, g3⟩ := Inv_alloc (Inv_initialStore sys) _
            (NewCube_fresh (initialStore sys).cubes.length (some [⟨lbl, -1⟩]) true)
          split at hs1
          · simp at hs1
          · rename_i s2 hs2
            simp only [Option.some.injEq] at hs1
            subst hs1
            have hv : IsVertex ((initialStore sys).alloc
                { NewCube 0 (initialStore sys).cubes.length with
                  lab := some [⟨lbl, -1⟩], ini := true }).1
                (some (initialStore sys).cubes.length) := ⟨_, g3, rfl⟩
            obtain ⟨g4, g5⟩ := Inv_addToList g1 _ hv hs2
            refine MakeHDALoop_Inv sys fuel _ _ 0 r g4 ?_ h
            intro s hs
            simp only [List.mem_singleton] at hs
            subst hs
            exact hv.vertex_ext g5

/-! ### The complex of `MakeHDA` -/

theorem Inv.wf {st : Store} (hI : Inv st) :
    ∀ (d x : Nat) (c : cube), st.get (some x) = some c → c.degree = d →
      wellFormed st d (some x) = true := by
  intro d
  induction d with
  | zero =>
    intro x c hc hd
    simp [wellFormed, hc, hd]
  | succ d ih =>
    intro x c hc hd
    simp only [wellFormed, hc, Bool.and_eq_true, decide_eq_true_eq, List.all_eq_true,
      List.mem_range]
    refine ⟨hd, fun i hi => ?_⟩
    obtain ⟨f0, cf0, a1, a2, a3⟩ := hI.faces x c 0 i hc (by omega) (by omega)
    obtain ⟨f1, cf1, b1, b2, b3⟩ := hI.faces x c 1 i hc (by omega) (by omega)
    simp only [a1, b1, Bool.and_eq_true]
    exact ⟨ih f0 cf0 a2 (by omega), ih f1 cf1 b2 (by omega)⟩

/-- A store that holds a cube of degree `d` has more than `d` cells. -/
theorem Inv.degree_lt {st : Store} (hI : Inv st) (x : Nat) (c : cube)
    (hc : st.get (some x) = some c) : c.degree < st.cubes.length :=
  wellFormed_lt_length st c.degree (some x) (hI.wf c.degree x c hc rfl)

theorem eraseIdx_last_append {α : Type} (l : List α) (n : Nat) (a : α)
    (hlen : l.length = n + 1) (ha : l[n]? = some a) : l.eraseIdx n ++ [a] = l := by
  apply List.ext_getElem?
  intro m
  have hel : (l.eraseIdx n).length = n := by
    rw [List.length_eraseIdx, hlen]
    simp
  rw [List.getElem?_append, hel]
  split
  · rename_i hm
    exact List.getElem?_eraseIdx_of_lt _ _ _ hm
  · rename_i hm
    by_cases hm' : m = n
    · subst hm'
      rw [ha]; simp
    · rw [List.getElem?_eq_none (by simp; omega), List.getElem?_eq_none (by omega)]

theorem readAll_take {α : Type} (v : List α) (n : Nat) (h : n ≤ v.length) :
    readAll v (List.range n) = some (v.take n) := by
  obtain ⟨r, hr⟩ := mapOpt_isSome (fun i => v[i]?) (List.range n) (fun i hi => by
    have hi' := List.mem_range.1 hi
    exact ⟨v[i], List.getElem?_eq_getElem (by omega)⟩)
  have := readAll_range v r n hr
  unfold readAll
  rw [hr, this.2]

/-- The vector `edges` of a stored cube is what `Edges` computes, for every
bound on the depth of the recursion that is at least 1 and at least the degree
minus 1. -/
theorem Inv.EdgesAux_eq {st : Store} (hI : Inv st) :
    ∀ (fuel x : Nat) (c : cube), st.get (some x) = some c → 1 ≤ fuel → c.degree ≤ fuel + 1 →
      EdgesAux st fuel (some x) = some c.edges := by
  intro fuel
  induction fuel with
  | zero => intro x c _ h; omega
  | succ n ih =>
    intro x c hc _ hd
    have hlen := (hI.shape x c hc).2.2.2.2
    simp only [EdgesAux, hc]
    by_cases h1 : c.degree = 1
    · rw [if_pos h1, hI.edges1 x c hc h1]
    · rw [if_neg h1]
      by_cases h2 : c.degree = 2
      · rw [if_pos h2]
        obtain ⟨f0, cf0, a1, a2, a3⟩ := hI.edgesFace x c 0 hc (by omega) (by omega)
        obtain ⟨f1, cf1, b1, b2, b3⟩ := hI.edgesFace x c 1 hc (by omega) (by omega)
        obtain ⟨-, g0, cg0, a4, a5, a6⟩ := hI.face_of_read x c hc 0 0 _ a1
        obtain ⟨-, g1, cg1, b4, b5, b6⟩ := hI.face_of_read x c hc 0 1 _ b1
        have e0 : g0 = f0 := (Option.some.inj a4).symm
        have e1 : g1 = f1 := (Option.some.inj b4).symm
        subst e0 e1
        rw [a2] at a5
        rw [b2] at b5
        have e2 : cf0 = cg0 := Option.some.inj a5
        have e3 : cf1 = cg1 := Option.some.inj b5
        subst e2 e3
        rw [hI.edges1 g0 cf0 a2 (by omega)] at a3
        rw [hI.edges1 g1 cf1 b2 (by omega)] at b3
        simp only [a1, b1]
        rw [h2] at hlen
        match hce : c.edges, hlen with
        | [u, v], _ =>
          rw [hce] at a3 b3
          simp only [List.eraseIdx_cons_zero, List.eraseIdx_cons_succ, List.cons.injEq,
            and_true] at a3 b3
          rw [← a3, ← b3]
      · rw [if_neg h2]
        by_cases h3 : c.degree > 2
        · rw [if_pos h3]
          obtain ⟨fa, ca, a1, a2, a3⟩ := hI.edgesFace x c (c.degree - 1) hc (by omega) (by omega)
          obtain ⟨fb, cb, b1, b2, b3⟩ := hI.edgesFace x c (c.degree - 3) hc (by omega) (by omega)
          obtain ⟨-, g0, cg0, a4, a5, a6⟩ := hI.face_of_read x c hc 0 _ _ a1
          obtain ⟨-, g1, cg1, b4, b5, b6⟩ := hI.face_of_read x c hc 0 _ _ b1
          have e0 : g0 = fa := (Option.some.inj a4).symm
          have e1 : g1 = fb := (Option.some.inj b4).symm
          subst e0 e1
          rw [a2] at a5
          rw [b2] at b5
          have e2 : ca = cg0 := Option.some.inj a5
          have e3 : cb = cg1 := Option.some.inj b5
          subst e2 e3
          simp only [a1, b1]
          rw [ih g0 ca a2 (by omega) (by omega), ih g1 cb b2 (by omega) (by omega)]
          simp only
          have hla := (hI.shape g0 ca a2).2.2.2.2
          rw [readAll_take ca.edges (c.degree - 1) (by omega)]
          obtain ⟨last, hlast⟩ : ∃ last, c.edges[c.degree - 1]? = some last :=
            ⟨c.edges[c.degree - 1], List.getElem?_eq_getElem (by omega)⟩
          have hb : cb.edges[c.degree - 2]? = some last := by
            rw [b3, List.getElem?_eraseIdx_of_ge _ _ _ (by omega)]
            have : c.degree - 2 + 1 = c.degree - 1 := by omega
            rw [this]; exact hlast
          rw [hb]
          simp only
          rw [List.take_of_length_le (by omega), a3]
          rw [eraseIdx_last_append c.edges (c.degree - 1) last (by omega) hlast]
        · rw [if_neg h3]
          have h0 : c.edges.length = 0 := by omega
          rw [List.length_eq_zero.1 h0]

/-- The vector `edges` of a stored cube is what `Edges` returns. -/
theorem Inv.Edges_eq {st : Store} (hI : Inv st) (x : Nat) (c : cube)
    (hc : st.get (some x) = some c) : Edges st (some x) = some c.edges := by
  have := hI.degree_lt x c hc
  exact hI.EdgesAux_eq (st.cubes.length + 1) x c hc (by omega) (by omega)

theorem parallelEdges_run (x : Nat) (hx : x = 2 ∨ x = 4) :
    report x (MakeHDA 2 parallelEdges (initialStore parallelEdges)) =
      some ⟨1, [[0, 1], [2, 4]], [[some 0, some 0], [some 1, some 1]],
        some ([some 0], [some 1])⟩ := by
  rcases hx with rfl | rfl <;> decide!

theorem facesOf_get (st : Store) (x : Nat) (d0 d1 : List (Option Nat))
    (h : facesOf st x = some (d0, d1)) :
    ∃ c, st.get (some x) = some c ∧ c.d0 = d0 ∧ c.d1 = d1 := by
  unfold facesOf at h
  cases hc : st.get (some x) with
  | none => rw [hc] at h; simp at h
  | some c =>
    rw [hc] at h
    simp only [Option.map_some', Option.some.injEq, Prod.mk.injEq] at h
    exact ⟨c, rfl, h.1, h.2⟩

/-- C1: in the complex that `MakeHDA` returns, every cube `c` of the collection
of any degree `d` (in particular of degree 2, where `FillSquares` links the cube
without calling `BdIdsOK`, and of degree at least 3, where `FillHDCubes` links it
after `BdIdsOK`) satisfies the cubical identity: for all `i < j < d` and all `k`,
`l` in `{0, 1}` the faces `c.d[l][j]` and `c.d[k][i]` are cubes, and
`c.d[l][j].d[k][i]` and `c.d[k][i].d[l][j-1]` are one and the same cube. -/
theorem MakeHDA_cubical_identity (fuel : Nat) (sys : System) (r : Store × Int)
    (h : MakeHDA fuel sys (initialStore sys) = some r)
    (d : Nat) (cl : List Nat) (x : Nat) (hcl : r.1.cubelist[d]? = some cl) (hx : x ∈ cl) :
    ∃ c, r.1.get (some x) = some c ∧ c.degree = d ∧
      ∀ i j k l, i < j → j < d → k < 2 → l < 2 →
        ∃ f g y, c.d l j = some (some f) ∧ c.d k i = some (some g) ∧
          r.1.bd (some f) k i = some (some y) ∧ r.1.bd (some g) l (j - 1) = some (some y) := by
  have hI := MakeHDA_Inv fuel sys r h
  obtain ⟨c, hc, hd⟩ := hI.listed d cl x hcl hx
  refine ⟨c, hc, hd, ?_⟩
  intro i j k l hij hj hk hl
  exact hI.ident x c hc i j k l hij (by omega) hk hl

theorem MakeHDA_cubical_identity_witness :
    ∃ st : Store, MakeHDA 8 threeProcesses (initialStore threeProcesses) = some (st, 3) ∧
      st.cubelist[3]? = some [31] ∧
      ∃ c, st.get (some 31) = some c ∧ c.degree = 3 ∧
        ∀ i j k l, i < j → j < 3 → k < 2 → l < 2 →
          ∃ f g y, c.d l j = some (some f) ∧ c.d k i = some (some g) ∧
            st.bd (some f) k i = some (some y) ∧ st.bd (some g) l (j - 1) = some (some y) := by
  obtain ⟨st, h1, h2, -, -⟩ := report_mono _ _ _ 0 _ threeProcesses_run
  have hcl : st.cubelist[3]? = some [31] := by rw [h2]; rfl
  exact ⟨st, h1, hcl,
    MakeHDA_cubical_identity 8 threeProcesses (st, 3) h1 3 [31] 31 hcl (by simp)⟩

/-- C2, counterexample at degree 1: for one process with two transitions `a` and
`b` from location 0 to location 1, `MakeHDA` returns a complex whose collection
of degree 1 holds the two distinct cubes 2 and 4, and both have the boundary
`d[0] = {0}`, `d[1] = {1}`. -/
theorem parallelEdges_same_boundary :
    ∃ (st : Store) (dim : Int) (cx cy : cube),
      MakeHDA 2 parallelEdges (initialStore parallelEdges) = some (st, dim) ∧
      st.cubelist[1]? = some [2, 4] ∧
      st.get (some 2) = some cx ∧ st.get (some 4) = some cy ∧
      cx.degree = 1 ∧ cy.degree = 1 ∧ ∀ k i, k < 2 → i < 1 → cx.d k i = cy.d k i := by
  obtain ⟨st, h1, h2, -, h4⟩ := report_mono _ _ _ 0 _ (parallelEdges_run 2 (Or.inl rfl))
  obtain ⟨st', g1, -, -, g4⟩ := report_mono _ _ _ 0 _ (parallelEdges_run 4 (Or.inr rfl))
  rw [h1] at g1
  have e : st = st' := (Prod.mk.inj (Option.some.inj g1)).1
  subst e
  have hcl : st.cubelist[1]? = some [2, 4] := by rw [h2]; rfl
  have hI := MakeHDA_Inv _ _ _ h1
  obtain ⟨cx, a1, a2, a3⟩ := facesOf_get st 2 _ _ h4
  obtain ⟨cy, b1, b2, b3⟩ := facesOf_get st 4 _ _ g4
  obtain ⟨cx', c1, c2⟩ := hI.listed 1 [2, 4] 2 hcl (by simp)
  obtain ⟨cy', e1, e2⟩ := hI.listed 1 [2, 4] 4 hcl (by simp)
  rw [a1] at c1
  rw [b1] at e1
  have e3 : cx = cx' := Option.some.inj c1
  have e4 : cy = cy' := Option.some.inj e1
  subst e3 e4
  refine ⟨st, 1, cx, cy, h1, hcl, a1, b1, c2, e2, ?_⟩
  intro k i _ _
  unfold cube.d
  rw [a2, a3, b2, b3]

/-- C2, amended: in the complex that `MakeHDA` returns, for every degree
`d >= 2`, two cubes of the collection of degree `d` that have the same boundary
(`c.d[k][i] = c'.d[k][i]` for all `k` in `{0, 1}` and all `i < d`) are one and the
same cube. -/
theorem MakeHDA_unique (fuel : Nat) (sys : System) (r : Store × Int)
    (h : MakeHDA fuel sys (initialStore sys) = some r)
    (d : Nat) (hd : 2 ≤ d) (cl : List Nat) (x y : Nat)
    (hcl : r.1.cubelist[d]? = some cl) (hx : x ∈ cl) (hy : y ∈ cl) :
    ∃ cx cy, r.1.get (some x) = some cx ∧ r.1.get (some y) = some cy ∧
      cx.degree = d ∧ cy.degree = d ∧
      ((∀ k i, k < 2 → i < d → cx.d k i = cy.d k i) → x = y) := by
  have hI := MakeHDA_Inv fuel sys r h
  obtain ⟨cx, a1, a2⟩ := hI.listed d cl x hcl hx
  obtain ⟨cy, b1, b2⟩ := hI.listed d cl y hcl hy
  refine ⟨cx, cy, a1, b1, a2, b2, ?_⟩
  intro hsame
  obtain ⟨s1, s2, -, -, -⟩ := hI.shape x cx a1
  obtain ⟨t1, t2, -, -, -⟩ := hI.shape y cy b1
  refine hI.unique x y cx cy a1 b1 (by omega) ?_ ?_
  · apply List.ext_getElem?
    intro i
    by_cases hi : i < d
    · exact hsame 0 i (by omega) hi
    · rw [List.getElem?_eq_none (by omega), List.getElem?_eq_none (by omega)]
  · apply List.ext_getElem?
    intro i
    by_cases hi : i < d
    · exact hsame 1 i (by omega) hi
    · rw [List.getElem?_eq_none (by omega), List.getElem?_eq_none (by omega)]

theorem MakeHDA_unique_witness :
    ∃ st : Store, MakeHDA 8 threeProcesses (initialStore threeProcesses) = some (st, 3) ∧
      st.cubelist[2]? = some [13, 18, 21, 26, 29, 30] ∧
      ∃ cx cy, st.get (some 13) = some cx ∧ st.get (some 18) = some cy ∧
        cx.degree = 2 ∧ cy.degree = 2 ∧
        ((∀ k i, k < 2 → i < 2 → cx.d k i = cy.d k i) → 13 = 18) := by
  obtain ⟨st, h1, h2, -, -⟩ := report_mono _ _ _ 0 _ threeProcesses_run
  have hcl : st.cubelist[2]? = some [13, 18, 21, 26, 29, 30] := by rw [h2]; rfl
  exact ⟨st, h1, hcl,
    MakeHDA_unique 8 threeProcesses (st, 3) h1 2 (by decide) _ 13 18 hcl (by simp) (by simp)⟩

/-- C8: in the complex that `MakeHDA` returns, for every cube `c` of the
collection of degree `d` (in particular `d >= 1`), any two entries `i < j < d` of
`c.edges` are cubes whose process ids (the number of the first label) are
defined and different. -/
theorem MakeHDA_edge_pids (fuel : Nat) (sys : System) (r : Store × Int)
    (h : MakeHDA fuel sys (initialStore sys) = some r)
    (d : Nat) (cl : List Nat) (x : Nat) (hcl : r.1.cubelist[d]? = some cl) (hx : x ∈ cl) :
    ∃ c, r.1.get (some x) = some c ∧ c.degree = d ∧
      ∀ i j, i < j → j < d →
        ∃ e1 e2 p1 p2, c.edges[i]? = some (some e1) ∧ c.edges[j]? = some (some e2) ∧
          r.1.pid (some e1) = some p1 ∧ r.1.pid (some e2) = some p2 ∧ p1 ≠ p2 := by
  have hI := MakeHDA_Inv fuel sys r h
  obtain ⟨c, hc, hd⟩ := hI.listed d cl x hcl hx
  refine ⟨c, hc, hd, ?_⟩
  intro i j hij hj
  obtain ⟨e1, -, p1, a1, -, -, a4⟩ := hI.edgesOK x c i hc (by omega)
  obtain ⟨e2, -, p2, b1, -, -, b4⟩ := hI.edgesOK x c j hc (by omega)
  refine ⟨e1, e2, p1, p2, a1, b1, a4, b4, ?_⟩
  have := hI.pids x c i j _ _ hc hij a1 b1
  rw [a4, b4] at this
  exact fun e => this (by rw [e])

theorem MakeHDA_edge_pids_witness :
    ∃ st : Store, MakeHDA 8 threeProcesses (initialStore threeProcesses) = some (st, 3) ∧
      st.cubelist[3]? = some [31] ∧
      ∃ c, st.get (some 31) = some c ∧ c.degree = 3 ∧
        ∀ i j, i < j → j < 3 →
          ∃ e1 e2 p1 p2, c.edges[i]? = some (some e1) ∧ c.edges[j]? = some (some e2) ∧
            st.pid (some e1) = some p1 ∧ st.pid (some e2) = some p2 ∧ p1 ≠ p2 := by
  obtain ⟨st, h1, h2, -, -⟩ := report_mono _ _ _ 0 _ threeProcesses_run
  have hcl : st.cubelist[3]? = some [31] := by rw [h2]; rfl
  exact ⟨st, h1, hcl, MakeHDA_edge_pids 8 threeProcesses (st, 3) h1 3 [31] 31 hcl (by simp)⟩

/-- C9: in the complex that `MakeHDA` returns, for every cube `c` of the
collection of degree `d`, the vector `c.edges` has exactly `d` entries, every
entry is a non-null pointer to a cube of degree 1 that is a member of the
collection of degree 1, and `Edges(c)` returns a vector of `d` entries (the
vector `c.edges` itself). -/
theorem MakeHDA_edges (fuel : Nat) (sys : System) (r : Store × Int)
    (h : MakeHDA fuel sys (initialStore sys) = some r)
    (d : Nat) (cl : List Nat) (x : Nat) (hcl : r.1.cubelist[d]? = some cl) (hx : x ∈ cl) :
    ∃ c, r.1.get (some x) = some c ∧ c.degree = d ∧ c.edges.length = d ∧
      (∀ i, i < d → ∃ e ce l1, c.edges[i]? = some (some e) ∧ r.1.get (some e) = some ce ∧
        ce.degree = 1 ∧ r.1.cubelist[1]? = some l1 ∧ e ∈ l1) ∧
      ∃ v, Edges r.1 (some x) = some v ∧ v.length = c.degree ∧ v = c.edges := by
  have hI := MakeHDA_Inv fuel sys r h
  obtain ⟨c, hc, hd⟩ := hI.listed d cl x hcl hx
  have hlen := (hI.shape x c hc).2.2.2.2
  refine ⟨c, hc, hd, by omega, ?_, c.edges, hI.Edges_eq x c hc, hlen, rfl⟩
  intro i hi
  obtain ⟨e, ce, p, a1, a2, a3, -⟩ := hI.edgesOK x c i hc (by omega)
  obtain ⟨l1, b1, b2⟩ := hI.listedAll e ce a2 (by omega)
  rw [a3] at b1
  exact ⟨e, ce, l1, a1, a2, a3, b1, b2⟩

theorem MakeHDA_edges_witness :
    ∃ st : Store, MakeHDA 8 threeProcesses (initialStore threeProcesses) = some (st, 3) ∧
      st.cubelist[3]? = some [31] ∧
      ∃ c, st.get (some 31) = some c ∧ c.degree = 3 ∧ c.edges.length = 3 ∧
        (∀ i, i < 3 → ∃ e ce l1, c.edges[i]? = some (some e) ∧ st.get (some e) = some ce ∧
          ce.degree = 1 ∧ st.cubelist[1]? = some l1 ∧ e ∈ l1) ∧
        ∃ v, Edges st (some 31) = some v ∧ v.length = c.degree ∧ v = c.edges := by
  obtain ⟨st, h1, h2, -, -⟩ := report_mono _ _ _ 0 _ threeProcesses_run
  have hcl : st.cubelist[3]? = some [31] := by rw [h2]; rfl
  exact ⟨st, h1, hcl, MakeHDA_edges 8 threeProcesses (st, 3) h1 3 [31] 31 hcl (by simp)⟩

/-! ### `Product` and `Intersection` -/

theorem foldl_insert_map {α β : Type} (f : β → α) (l : List β) (acc : List α) :
    l.foldl (fun acc2 b => InsertElement (f b) acc2) acc = acc ++ l.map f := by
  induction l generalizing acc with
  | nil => simp
  | cons b l ih =>
    simp only [List.foldl_cons, List.map_cons]
    rw [ih]
    simp [InsertElement]

theorem Product_eq_flatMap {α : Type} (A B : List (List α)) :
    Product A B = A.flatMap (fun a => B.map (fun b => a ++ b)) := by
  unfold Product
  have key : ∀ (acc : List (List α)),
      A.foldl (fun acc vec1 => B.foldl (fun acc2 vec2 => InsertElement (vec1 ++ vec2) acc2) acc)
        acc = acc ++ A.flatMap (fun a => B.map (fun b => a ++ b)) := by
    induction A with
    | nil => intro acc; simp
    | cons a A ih =>
      intro acc
      simp only [List.foldl_cons, List.flatMap_cons]
      rw [foldl_insert_map (fun b => a ++ b) B acc, ih, List.append_assoc]
  simpa using key []

theorem flatMap_map_getElem? {α : Type} (A B : List (List α)) :
    ∀ (i j : Nat) (a b : List α), A[i]? = some a → B[j]? = some b →
      (A.flatMap (fun a => B.map (fun b => a ++ b)))[i * B.length + j]? = some (a ++ b) := by
  induction A with
  | nil => intro i j a b ha; simp at ha
  | cons x A ih =>
    intro i j a b ha hb
    have hj : j < B.length := getElem?_some_lt _ _ _ hb
    simp only [List.flatMap_cons]
    cases i with
    | zero =>
      simp only [List.getElem?_cons_zero, Option.some.injEq] at ha
      subst ha
      rw [Nat.zero_mul, Nat.zero_add, List.getElem?_append_left (by simpa using hj)]
      simp [hb]
    | succ i =>
      simp only [List.getElem?_cons_succ] at ha
      rw [List.getElem?_append_right (by simp; nlinarith)]
      have e : (i + 1) * B.length + j - (List.map (fun b => x ++ b) B).length
          = i * B.length + j := by
        simp only [List.length_map]
        rw [Nat.add_mul, Nat.one_mul]
        omega
      rw [e]
      exact ih i j a b ha hb

/-- C19: `Product(A, B, type)` is empty if `A` or `B` is empty; it has
`|A| * |B|` vectors, and the vector at position `i * |B| + j` is the `i`-th vector
of `A` followed by the `j`-th vector of `B`, of dimension `dim A[i] + dim B[j]`.
(`A` and `B` are values of the embedding, which no function changes; the source
reads them through `const` pointers.) -/
theorem Product_spec {α : Type} (A B : List (List α)) :
    ((A = [] ∨ B = []) → Product A B = []) ∧
    (Product A B).length = A.length * B.length ∧
    ∀ (i j : Nat) (a b : List α), A[i]? = some a → B[j]? = some b →
      (Product A B)[i * B.length + j]? = some (a ++ b) ∧
      (a ++ b).length = a.length + b.length := by
  rw [Product_eq_flatMap]
  refine ⟨?_, ?_, ?_⟩
  · intro h
    rcases h with h | h
    · subst h; rfl
    · subst h; simp
  · induction A with
    | nil => simp
    | cons a A ih =>
      simp only [List.flatMap_cons, List.length_append, List.length_map, List.length_cons, ih]
      rw [Nat.add_mul, Nat.one_mul, Nat.add_comm]
  · intro i j a b ha hb
    exact ⟨flatMap_map_getElem? A B i j a b ha hb, List.length_append _ _⟩

theorem Product_spec_witness :
    (([[1], [2]] = ([] : List (List Nat)) ∨ [[3], [4, 5], [6]] = ([] : List (List Nat))) →
      Product [[1], [2]] [[3], [4, 5], [6]] = []) ∧
    (Product [[1], [2]] [[3], [4, 5], [6]]).length = 2 * 3 ∧
    (Product [[1], [2]] [[3], [4, 5], [6]])[1 * 3 + 1]? = some ([2] ++ [4, 5]) ∧
    ([2] ++ [4, 5]).length = 1 + 2 :=
  ⟨(Product_spec [[1], [2]] [[3], [4, 5], [6]]).1,
   (Product_spec [[1], [2]] [[3], [4, 5], [6]]).2.1,
   (Product_spec [[1], [2]] [[3], [4, 5], [6]]).2.2 1 1 [2] [4, 5] rfl rfl⟩

/-- C20: `Intersection(A, B, cmp)` is the sublist of `A`, in the order and with
the multiplicities of `A`, of those elements `a` for which some element `b` of
`B` has `cmp(b, a) = 0` (or is the same pointer as `a`, when `cmp` is `NULL`);
it is empty when `A` or `B` is empty. -/
theorem Intersection_spec {α : Type} [DecidableEq α] (A B : List α)
    (cmp : Option (α → α → Int)) :
    Intersection A B cmp =
      A.filter (fun a =>
        match cmp with
        | some c => decide (∃ b, b ∈ B ∧ c b a = 0)
        | none => decide (∃ b, b ∈ B ∧ b = a)) ∧
    (Intersection A B cmp).Sublist A ∧
    ((A = [] ∨ B = []) → Intersection A B cmp = []) := by
  have h1 : Intersection A B cmp =
      A.filter (fun a =>
        match cmp with
        | some c => decide (∃ b, b ∈ B ∧ c b a = 0)
        | none => decide (∃ b, b ∈ B ∧ b = a)) := by
    unfold Intersection IsElement
    congr 1
    funext a
    cases cmp with
    | none =>
      simp only
      rw [Bool.eq_iff_iff]
      simp [List.any_eq_true]
    | some c =>
      simp only
      rw [Bool.eq_iff_iff]
      simp [List.any_eq_true]
  refine ⟨h1, ?_, ?_⟩
  · rw [h1]; exact List.filter_sublist _
  · intro h
    rcases h with h | h
    · subst h; rfl
    · subst h
      rw [h1]
      cases cmp <;> simp

theorem Intersection_spec_witness :
    Intersection [3, 1, 3, 2] [3, 2, 7] none = [3, 3, 2] ∧
    (([3, 1, 3, 2] = ([] : List Nat) ∨ [3, 2, 7] = ([] : List Nat)) →
      Intersection [3, 1, 3, 2] [3, 2, 7] none = []) :=
  ⟨by rw [(Intersection_spec [3, 1, 3, 2] [3, 2, 7] none).1]; decide,
   (Intersection_spec [3, 1, 3, 2] [3, 2, 7] none).2.2⟩

/-! ### The first two vertices -/

theorem NextState_cases (st : Store) (sys : System) (sta : state) (trans : transition)
    (pid : Nat) (r : Option (Store × state))
    (h : NextState st sys sta trans pid = some r) :
    (∃ g, CheckCondition sta.valvec trans.cond sys.varlist = some g ∧ g ≠ 1 ∧ r = none) ∨
    (∃ locvec valvec lbl,
      CheckCondition sta.valvec trans.cond sys.varlist = some 1 ∧
      setAt sta.locvec pid trans.loc1 = some locvec ∧
      Effect trans.act sta.valvec sys.varlist = some valvec ∧
      stateLabel sys locvec valvec = some lbl ∧
      r = some ((st.alloc (vertexCell st.cubes.length lbl)).1,
        { locvec := locvec, valvec := valvec, cube := st.cubes.length })) := by
  unfold NextState at h
  split at h
  · simp at h
  · rename_i g hg
    split at h
    · rename_i hg1
      subst hg1
      split at h
      · rename_i locvec valvec hl hv
        split at h
        · simp at h
        · rename_i s hs
          simp only [Option.some.injEq] at h
          exact Or.inr ⟨locvec, valvec, s, hg, hl, hv, hs, h.symm⟩
      · simp at h
    · rename_i hg1
      simp only [Option.some.injEq] at h
      exact Or.inl ⟨g, hg, hg1, h.symm⟩

theorem alloc_lab (st : Store) (c : cube) :
    (st.alloc c).1.lab (some st.cubes.length) = some c.lab := by
  simp only [Store.lab, alloc_get, if_true]

theorem handleTransition_cases (sys : System) (sta : state) (i : Nat) (a a' : Explore)
    (trans : transition) (h : handleTransition sys sta i a trans = some a') :
    (∃ g, CheckCondition sta.valvec trans.cond sys.varlist = some g ∧ g ≠ 1 ∧ a' = a) ∨
    (∃ locvec valvec lbl act cl0 found s3,
      CheckCondition sta.valvec trans.cond sys.varlist = some 1 ∧
      setAt sta.locvec i trans.loc1 = some locvec ∧
      Effect trans.act sta.valvec sys.varlist = some valvec ∧
      stateLabel sys locvec valvec = some lbl ∧ trans.act = some act ∧
      a.store.cubelist[0]? = some cl0 ∧
      findState (a.store.alloc (vertexCell a.store.cubes.length lbl)).1
        (some [⟨lbl, -1⟩]) cl0 = some found ∧
      ((found = none ∧
        (a.store.alloc (vertexCell a.store.cubes.length lbl)).1.link
          (edgeCell (a.store.cubes.length + 1) sta.cube a.store.cubes.length act.id i)
          = some s3 ∧
        ∃ s4, s3.addToList 0 a.store.cubes.length = some s4 ∧
          a' = { store := s4,
                 statelist := InsertElement
                   { locvec := locvec, valvec := valvec, cube := a.store.cubes.length }
                   a.statelist,
                 dim := if 1 > a.dim then 1 else a.dim }) ∨
       (∃ cpc, found = some cpc ∧
        (DeleteCube (a.store.alloc (vertexCell a.store.cubes.length lbl)).1
            a.store.cubes.length).link
          (edgeCell (a.store.cubes.length + 1) sta.cube cpc act.id i) = some s3 ∧
        ∃ r, FillCubes s3 (a.store.cubes.length + 1) = some r ∧
          a' = { store := r.1, statelist := a.statelist,
                 dim := if r.2 > (if 1 > a.dim then 1 else a.dim) then r.2
                        else (if 1 > a.dim then 1 else a.dim) }))) := by
  unfold handleTransition at h
  split at h
  · simp at h
  · rename_i hnext
    simp only [Option.some.injEq] at h
    rcases NextState_cases _ _ _ _ _ _ hnext with ⟨g, g1, g2, -⟩ | ⟨_, _, _, _, _, _, _, hr⟩
    · exact Or.inl ⟨g, g1, g2, h.symm⟩
    · simp at hr
  · rename_i s1 st hnext
    rcases NextState_cases _ _ _ _ _ _ hnext with ⟨g, g1, g2, hr⟩ | ⟨locvec, valvec, lbl, c1, c2, c3, c4, hr⟩
    · simp at hr
    · simp only [Option.some.injEq, Prod.mk.injEq] at hr
      obtain ⟨hr1, hr2⟩ := hr
      subst hr1 hr2
      have hlen1 : (a.store.alloc (vertexCell a.store.cubes.length lbl)).1.cubes.length
          = a.store.cubes.length + 1 := by simp [Store.alloc]
      split at h
      · rename_i cl0 stlab hcl0 hstlab
        simp only at hstlab
        rw [alloc_lab] at hstlab
        have hst : stlab = some [⟨lbl, -1⟩] := (Option.some.inj hstlab).symm
        subst hst
        split at h
        · simp at h
        · rename_i found hfound
          simp only at h
          split at h
          · simp at h
          · rename_i act hact
            split at h
            · simp at h
            · rename_i s3 hs3
              refine Or.inr ⟨locvec, valvec, lbl, act, cl0, found, s3, c1, c2, c3, c4, hact, hcl0,
                hfound, ?_⟩
              cases found with
              | none =>
                simp only at h hs3
                split at h
                · simp at h
                · rename_i s4 hs4
                  simp only [Option.some.injEq] at h
                  rw [hlen1] at hs3
                  exact Or.inl ⟨rfl, hs3, s4, hs4, h.symm⟩
              | some cpc =>
                simp only at h hs3
                split at h
                · simp at h
                · rename_i r hr
                  simp only [Option.some.injEq] at h
                  have hlen2 : (DeleteCube (a.store.alloc (vertexCell a.store.cubes.length lbl)).1
                      a.store.cubes.length).cubes.length = a.store.cubes.length + 1 := by
                    simp [DeleteCube, Store.alloc]
                  rw [hlen2] at hs3 hr
                  exact Or.inr ⟨cpc, rfl, hs3, r, hr, h.symm⟩
      · simp at h

/-! ### What a call leaves as it was -/

theorem FillHDCubes_storeRel_lab (R : Store → Store → Prop) (hrefl : ∀ s, R s s)
    (htrans : ∀ a b c, R a b → R b c → R a c)
    (hlink : ∀ s c s', 2 ≤ c.degree → c.lab = none → s.link c = some s' → R s s')
    (st : Store) (edge deg fc : Nat) (r : Store × Nat)
    (h : FillHDCubes st edge deg fc = some r) : R st r.1 := by
  by_cases hdeg : deg > 2
  · have hR : StepRel deg (fun (a b : Store × Nat) => R a.1 b.1) :=
      ⟨fun a => hrefl a.1, fun a b c => htrans a.1 b.1 c.1,
        fun a c s hc hn hl => hlink a.1 c s (by omega) hn hl⟩
    exact FillHDCubes_rel hR st edge fc r h
  · unfold FillHDCubes at h
    split at h
    · simp at h
    · rw [if_neg hdeg] at h
      simp only [Option.some.injEq] at h
      subst h
      exact hrefl st

theorem FillHDCubes_storeRel (R : Store → Store → Prop) (hrefl : ∀ s, R s s)
    (htrans : ∀ a b c, R a b → R b c → R a c)
    (hlink : ∀ s c s', 2 ≤ c.degree → s.link c = some s' → R s s')
    (st : Store) (edge deg fc : Nat) (r : Store × Nat)
    (h : FillHDCubes st edge deg fc = some r) : R st r.1 :=
  FillHDCubes_storeRel_lab R hrefl htrans (fun s c s' hc _ hl => hlink s c s' hc hl)
    st edge deg fc r h

theorem FillCubes_storeRel_lab (R : Store → Store → Prop) (hrefl : ∀ s, R s s)
    (htrans : ∀ a b c, R a b → R b c → R a c)
    (hlink : ∀ s c s', 2 ≤ c.degree → c.lab = none → s.link c = some s' → R s s')
    (st : Store) (edge : Nat) (r : Store × Int)
    (h : FillCubes st edge = some r) : R st r.1 := by
  have hloop : ∀ (fuel : Nat) (s : Store) (fc : Nat) (dim : Int) (r : Store × Int),
      FillCubesLoop edge fuel s fc dim = some r → R s r.1 := by
    intro fuel
    induction fuel with
    | zero => intro s fc dim r h; simp [FillCubesLoop] at h
    | succ n ih =>
      intro s fc dim r h
      simp only [FillCubesLoop] at h
      split at h
      · simp only [Option.some.injEq] at h
        subst h
        exact hrefl s
      · split at h
        · simp at h
        · rename_i r1 hr1
          exact htrans _ _ _ (FillHDCubes_storeRel_lab R hrefl htrans hlink s edge _ fc r1 hr1)
            (ih r1.1 r1.2 (dim + 1) r h)
  unfold FillCubes at h
  split at h
  · simp at h
  · rename_i r1 hr1
    have hR : StepRel 2 (fun (a b : Store × Nat) => R a.1 b.1) :=
      ⟨fun a => hrefl a.1, fun a b c => htrans a.1 b.1 c.1,
        fun a c s hc hn hl => hlink a.1 c s (by omega) hn hl⟩
    exact htrans _ _ _ (FillSquares_rel hR st edge r1 hr1) (hloop _ r1.1 r1.2 _ r h)

theorem FillCubes_storeRel (R : Store → Store → Prop) (hrefl : ∀ s, R s s)
    (htrans : ∀ a b c, R a b → R b c → R a c)
    (hlink : ∀ s c s', 2 ≤ c.degree → s.link c = some s' → R s s')
    (st : Store) (edge : Nat) (r : Store × Int)
    (h : FillCubes st edge = some r) : R st r.1 :=
  FillCubes_storeRel_lab R hrefl htrans (fun s c s' hc _ hl => hlink s c s' hc hl) st edge r h

theorem Grown.grown_refl (st : Store) : Grown st st :=
  ⟨fun _ cy hy => ⟨cy, hy, Frame.frame_refl cy, fun _ _ l hl => ⟨[], by simpa using hl⟩⟩,
    fun _ l hl => ⟨[], by simpa using hl⟩⟩

theorem Grown.grown_trans {a b c : Store} (h1 : Grown a b) (h2 : Grown b c) : Grown a c := by
  refine ⟨?_, ?_⟩
  · intro y cy hy
    obtain ⟨cy1, g1, f1, s1⟩ := h1.1 y cy hy
    obtain ⟨cy2, g2, f2, s2⟩ := h2.1 y cy1 g1
    refine ⟨cy2, g2, Frame.frame_trans f1 f2, ?_⟩
    intro k i l hl
    obtain ⟨l1, e1⟩ := s1 k i l hl
    obtain ⟨l2, e2⟩ := s2 k i _ e1
    exact ⟨l1 ++ l2, by rw [e2, List.append_assoc]⟩
  · intro d l hl
    obtain ⟨l1, e1⟩ := h1.2 d l hl
    obtain ⟨l2, e2⟩ := h2.2 d _ e1
    exact ⟨l1 ++ l2, by rw [e2, List.append_assoc]⟩

theorem Grown_link (st st' : Store) (c : cube) (h : st.link c = some st') : Grown st st' := by
  have hL := link_spec st st' c h
  refine ⟨?_, ?_⟩
  · intro y cy hy
    obtain ⟨cy', g1, g2, g3⟩ := hL.old y cy hy
    refine ⟨cy', g1, g2, ?_⟩
    intro k i l hl
    rw [g3 k i, hl]
    simp only [Option.map_some']
    split
    · exact ⟨[st.cubes.length], rfl⟩
    · exact ⟨[], by simp⟩
  · intro d l hl
    obtain ⟨l0, e1, e2⟩ := hL.list
    rw [e2]
    by_cases hd : d = c.degree
    · subst hd
      rw [List.getElem?_set_self (getElem?_some_lt _ _ _ hl)]
      rw [hl] at e1
      rw [← Option.some.inj e1]
      exact ⟨[st.cubes.length], rfl⟩
    · rw [List.getElem?_set_ne (fun e => hd e.symm), hl]
      exact ⟨[], by simp⟩

/-- The cubes and the collections of `st` are kept when every cell of `st` is
kept. -/
theorem Grown_of_get {st st' : Store}
    (hget : ∀ y cy, st.get (some y) = some cy → st'.get (some y) = some cy)
    (hcl : ∀ (d : Nat) (l : List Nat), st.cubelist[d]? = some l →
      ∃ l', st'.cubelist[d]? = some (l ++ l')) :
    Grown st st' :=
  ⟨fun y cy hy => ⟨cy, hget y cy hy, Frame.frame_refl cy, fun _ _ l hl => ⟨[], by simpa using hl⟩⟩,
    hcl⟩

theorem Grown_alloc (st : Store) (c : cube) : Grown st (st.alloc c).1 := by
  refine Grown_of_get ?_ (fun d l hl => ⟨[], by simpa [Store.alloc] using hl⟩)
  intro y cy hy
  rw [alloc_get, if_neg (Nat.ne_of_lt (get_lt st y cy hy))]
  exact hy

theorem Grown_delete_alloc (st : Store) (c : cube) :
    Grown st (DeleteCube (st.alloc c).1 st.cubes.length) := by
  refine Grown_of_get ?_ (fun d l hl => ⟨[], by simpa [Store.alloc, DeleteCube] using hl⟩)
  intro y cy hy
  rw [delete_alloc_get]
  exact hy

theorem Grown_addToList (st st' : Store) (d x : Nat) (h : st.addToList d x = some st') :
    Grown st st' := by
  unfold Store.addToList at h
  split at h
  · simp at h
  · rename_i l hl
    simp only [Option.some.injEq] at h
    subst h
    refine Grown_of_get (fun y cy hy => hy) ?_
    intro e l' hl'
    simp only
    by_cases he : e = d
    · subst he
      rw [List.getElem?_set_self (getElem?_some_lt _ _ _ hl)]
      rw [hl] at hl'
      rw [← Option.some.inj hl']
      exact ⟨[x], rfl⟩
    · rw [List.getElem?_set_ne (fun e' => he e'.symm), hl']
      exact ⟨[], by simp⟩

theorem FillCubes_Grown (st : Store) (edge : Nat) (r : Store × Int)
    (h : FillCubes st edge = some r) : Grown st r.1 :=
  FillCubes_storeRel Grown Grown.grown_refl (fun _ _ _ => Grown.grown_trans)
    (fun s c s' _ hl => Grown_link s s' c hl) st edge r h

theorem handleTransition_Grown (sys : System) (sta : state) (i : Nat) (a a' : Explore)
    (trans : transition) (h : handleTransition sys sta i a trans = some a') :
    Grown a.store a'.store := by
  rcases handleTransition_cases sys sta i a a' trans h with ⟨g, -, -, rfl⟩ |
    ⟨locvec, valvec, lbl, act, cl0, found, s3, -, -, -, -, -, -, -, hcase⟩
  · exact Grown.grown_refl _
  · rcases hcase with ⟨-, h3, s4, h4, rfl⟩ | ⟨cpc, -, h3, r, h4, rfl⟩
    · exact (Grown_alloc _ _).grown_trans ((Grown_link _ _ _ h3).grown_trans
        (Grown_addToList _ _ _ _ h4))
    · exact (Grown_delete_alloc _ _).grown_trans ((Grown_link _ _ _ h3).grown_trans
        (FillCubes_Grown _ _ _ h4))

theorem HandleState_Grown (sys : System) (sta : state) (st : Store) (statelist : List state)
    (a : Explore) (h : HandleState sys sta st statelist = some a) : Grown st a.store := by
  unfold HandleState at h
  refine loopM_inv _ (fun b => Grown st b.store) _ ?_ _ a (Grown.grown_refl st) h
  intro b p b' _ hb hf
  split at hf
  · simp at hf
  · refine loopM_inv _ (fun b => Grown st b.store) _ ?_ b b' hb hf
    intro e t e' _ he ht
    exact he.grown_trans (handleTransition_Grown sys sta p.1 e e' t ht)

/-- C16: a call of `FillCubes`, and a call of `HandleState`, keeps every cube that
is stored before the call with its degree, its flags, its boundary arrays `d[0]`
and `d[1]`, its edges and its label; every coface list of such a cube, and every
per-degree collection, has after the call its value before the call as a
prefix. -/
theorem FillCubes_HandleState_frame :
    (∀ (st : Store) (edge : Nat) (r : Store × Int), FillCubes st edge = some r → Grown st r.1) ∧
    (∀ (sys : System) (sta : state) (st : Store) (statelist : List state) (a : Explore),
      HandleState sys sta st statelist = some a → Grown st a.store) :=
  ⟨FillCubes_Grown, HandleState_Grown⟩

theorem FillCubes_HandleState_frame_witness : Grown squareReady unitSquare :=
  FillCubes_HandleState_frame.1 squareReady 7 (unitSquare, 2) (by decide)

/-! ### Vertices are listed -/

theorem KeepsLow_link (s s' : Store) (c : cube) (hc : 2 ≤ c.degree) (h : s.link c = some s') :
    ∀ x cx, s'.get (some x) = some cx → cx.degree < 2 →
      ∃ c0, s.get (some x) = some c0 ∧ c0.degree = cx.degree := by
  intro x cx hx hd
  rcases (link_spec s s' c h).cases x cx hx with ⟨-, rfl⟩ | ⟨c0, g1, g2, -⟩
  · omega
  · exact ⟨c0, g1, g2.1.symm⟩

/-- The cubes of degree 0 and 1 after a call of `FillCubes` are cubes that were
there before the call. -/
theorem FillCubes_low (st : Store) (edge : Nat) (r : Store × Int)
    (h : FillCubes st edge = some r) :
    ∀ x cx, r.1.get (some x) = some cx → cx.degree < 2 →
      ∃ c0, st.get (some x) = some c0 ∧ c0.degree = cx.degree :=
  FillCubes_storeRel
    (fun s s' => ∀ x cx, s'.get (some x) = some cx → cx.degree < 2 →
      ∃ c0, s.get (some x) = some c0 ∧ c0.degree = cx.degree)
    (fun _ x cx hx _ => ⟨cx, hx, rfl⟩)
    (fun a b c h1 h2 x cx hx hd => by
      obtain ⟨c1, g1, g2⟩ := h2 x cx hx hd
      obtain ⟨c0, g3, g4⟩ := h1 x c1 g1 (by omega)
      exact ⟨c0, g3, g4.trans g2⟩)
    (fun s c s' hc hl => KeepsLow_link s s' c hc hl) st edge r h

theorem edgeCell_degree (pc src tgt : Nat) (name : String) (i : Nat) :
    (edgeCell pc src tgt name i).degree = 1 := rfl

theorem handleTransition_VListed (sys : System) (sta : state) (i : Nat) (a a' : Explore)
    (trans : transition) (hV : VListed a.store)
    (h : handleTransition sys sta i a trans = some a') : VListed a'.store := by
  rcases handleTransition_cases sys sta i a a' trans h with ⟨g, -, -, rfl⟩ |
    ⟨locvec, valvec, lbl, act, cl0, found, s3, -, -, -, -, -, hcl0, -, hcase⟩
  · exact hV
  · rcases hcase with ⟨-, h3, s4, h4, rfl⟩ | ⟨cpc, -, h3, r, h4, rfl⟩
    · intro x c hx hd
      have hG := (Grown_alloc a.store (vertexCell a.store.cubes.length lbl)).grown_trans
        ((Grown_link _ _ _ h3).grown_trans (Grown_addToList _ _ _ _ h4))
      have h4' := h4
      unfold Store.addToList at h4'
      split at h4'
      · simp at h4'
      · rename_i l hl
        simp only [Option.some.injEq] at h4'
        subst h4'
        have hx3 : s3.get (some x) = some c := hx
        refine ⟨InsertElement a.store.cubes.length l, ?_, ?_⟩
        · simp only
          rw [List.getElem?_set_self (getElem?_some_lt _ _ _ hl)]
        · rcases (link_spec _ _ _ h3).cases x c hx3 with ⟨-, rfl⟩ | ⟨c0, g1, g2, -⟩
          · simp [edgeCell_degree] at hd
          · rw [alloc_get] at g1
            split at g1
            · rename_i hxl
              subst hxl
              simp [InsertElement]
            · obtain ⟨l0, e1, e2⟩ := hV x c0 g1 (by rw [← g2.1]; exact hd)
              obtain ⟨l1, e3⟩ := ((Grown_alloc a.store (vertexCell a.store.cubes.length
                lbl)).grown_trans (Grown_link _ _ _ h3)).2 0 l0 e1
              rw [hl] at e3
              rw [Option.some.inj e3]
              simp only [InsertElement, List.mem_append]
              exact Or.inl (Or.inl e2)
    · intro x c hx hd
      obtain ⟨c1, g1, g2⟩ := FillCubes_low s3 _ r h4 x c hx (by omega)
      rcases (link_spec _ _ _ h3).cases x c1 g1 with ⟨-, rfl⟩ | ⟨c0, g3, g4, -⟩
      · simp [edgeCell_degree] at g2
        omega
      · rw [delete_alloc_get] at g3
        obtain ⟨l0, e1, e2⟩ := hV x c0 g3 (by rw [← g4.1, g2]; exact hd)
        obtain ⟨l1, e3⟩ := ((Grown_delete_alloc a.store (vertexCell a.store.cubes.length
          lbl)).grown_trans ((Grown_link _ _ _ h3).grown_trans (FillCubes_Grown _ _ _ h4))).2
          0 l0 e1
        exact ⟨l0 ++ l1, e3, List.mem_append_left _ e2⟩

theorem HandleState_VListed (sys : System) (sta : state) (st : Store) (statelist : List state)
    (a : Explore) (hV : VListed st) (h : HandleState sys sta st statelist = some a) :
    VListed a.store := by
  unfold HandleState at h
  refine loopM_inv _ (fun b => VListed b.store) _ ?_ _ a hV h
  intro b p b' _ hb hf
  split at hf
  · simp at hf
  · refine loopM_inv _ (fun b => VListed b.store) _ ?_ b b' hb hf
    intro e t e' _ he ht
    exact handleTransition_VListed sys sta p.1 e e' t he ht

theorem setFin_get (st st' : Store) (p : Nat) (h : setFin st p = some st') :
    st'.cubelist = st.cubelist ∧ st'.cubes.length = st.cubes.length ∧
    ∀ y, (st.get (some y) = none ∧ st'.get (some y) = none) ∨
      ∃ c c', st.get (some y) = some c ∧ st'.get (some y) = some c' ∧ Core c c' ∧
        c'.s0 = c.s0 ∧ c'.s1 = c.s1 ∧ c'.ini = c.ini := by
  unfold setFin at h
  split at h
  · simp at h
  · rename_i c hc
    simp only [Option.some.injEq] at h
    subst h
    refine ⟨rfl, by simp, ?_⟩
    intro y
    by_cases hy : y = p
    · subst hy
      refine Or.inr ⟨c, { c with fin := true }, hc, ?_, ⟨rfl, rfl, rfl, rfl, rfl⟩, rfl, rfl, rfl⟩
      simp only [Store.get]
      rw [List.getElem?_set_self (get_lt st y c hc)]
      rfl
    · have e : ({ st with cubes := st.cubes.set p (some { c with fin := true }) } : Store).get
          (some y) = st.get (some y) := by
        simp only [Store.get]
        rw [List.getElem?_set_ne (fun e => hy e.symm)]
      rcases get_cases st y with ⟨cy, hcy⟩ | hcy
      · exact Or.inr ⟨cy, cy, hcy, by rw [e]; exact hcy, Core.core_refl cy, rfl, rfl, rfl⟩
      · exact Or.inl ⟨hcy, by rw [e]; exact hcy⟩

theorem setFin_VListed (st st' : Store) (p : Nat) (hV : VListed st)
    (h : setFin st p = some st') : VListed st' := by
  obtain ⟨h1, -, h3⟩ := setFin_get st st' p h
  intro x c hx hd
  rcases h3 x with ⟨-, g⟩ | ⟨c0, c', g1, g2, g3, -, -, -⟩
  · rw [hx] at g; simp at g
  · rw [hx] at g2
    have : c = c' := Option.some.inj g2
    subst this
    rw [h1]
    exact hV x c0 g1 (by rw [← g3.1]; exact hd)

theorem MakeHDALoop_VListed (sys : System) :
    ∀ (fuel : Nat) (st : Store) (queue : List state) (dim : Int) (r : Store × Int),
      VListed st → MakeHDALoop sys fuel st queue dim = some r → VListed r.1 := by
  intro fuel
  induction fuel with
  | zero =>
    intro st queue dim r hV h
    cases queue with
    | nil => simp only [MakeHDALoop, Option.some.injEq] at h; subst h; exact hV
    | cons s q => simp [MakeHDALoop] at h
  | succ n ih =>
    intro st queue dim r hV h
    cases queue with
    | nil => simp only [MakeHDALoop, Option.some.injEq] at h; subst h; exact hV
    | cons sta q =>
      simp only [MakeHDALoop] at h
      split at h
      · simp at h
      · split at h
        · simp at h
        · rename_i s1 hs1
          split at h
          · simp at h
          · rename_i a ha
            have h1 : VListed s1 := by
              split at hs1
              · exact setFin_VListed _ _ _ hV hs1
              · simp only [Option.some.injEq] at hs1
                subst hs1
                exact hV
            exact ih a.store a.statelist.tail _ r (HandleState_VListed sys sta s1 _ a h1 ha) h

/-- The store and the queue with which `MakeHDA` enters its loop. -/
theorem MakeHDA_start (fuel : Nat) (sys : System) (r : Store × Int)
    (h : MakeHDA fuel sys (initialStore sys) = some r) :
    ∃ lbl s1, sys.varlist ≠ [] ∧
      stateLabel sys (sys.pgvec.map (fun pg => pg.loc_0))
        (sys.varlist.map (fun v => v.initialval)) = some lbl ∧
      ((initialStore sys).alloc { vertexCell 0 lbl with ini := true }).1.addToList 0 0 = some s1 ∧
      MakeHDALoop sys fuel s1
        [{ locvec := sys.pgvec.map (fun pg => pg.loc_0),
           valvec := sys.varlist.map (fun v => v.initialval), cube := 0 }] 0 = some r := by
  unfold MakeHDA at h
  split at h
  · simp at h
  · rename_i r0 hr0
    split at h
    · simp at h
    · rename_i s1 hs1
      unfold InitialStates at hr0
      split at hr0
      · simp at hr0
      · rename_i hvar
        simp only at hr0
        split at hr0
        · simp at hr0
        · rename_i lbl hlbl
          simp only [Option.some.injEq] at hr0
          subst hr0
          simp only [CubesOfStates, loopM] at hs1
          split at hs1
          · simp at hs1
          · rename_i s2 hs2
            simp only [Option.some.injEq] at hs1
            subst hs1
            exact ⟨lbl, s2, hvar, hlbl, hs2, h⟩

theorem MakeHDA_VListed (fuel : Nat) (sys : System) (r : Store × Int)
    (h : MakeHDA fuel sys (initialStore sys) = some r) : VListed r.1 := by
  obtain ⟨lbl, s1, -, -, h1, h2⟩ := MakeHDA_start fuel sys r h
  refine MakeHDALoop_VListed sys fuel s1 _ 0 r ?_ h2
  unfold Store.addToList at h1
  split at h1
  · simp at h1
  · rename_i l hl
    simp only [Option.some.injEq] at h1
    subst h1
    intro x c hx hd
    have hx' : ((initialStore sys).alloc { vertexCell 0 lbl with ini := true }).1.get (some x)
        = some c := hx
    rw [alloc_get] at hx'
    split at hx'
    · rename_i hx0
      refine ⟨InsertElement 0 l, ?_, ?_⟩
      · simp only
        rw [List.getElem?_set_self (getElem?_some_lt _ _ _ hl)]
      · have : x = 0 := hx0
        subst this
        simp [InsertElement]
    · simp [initialStore, Store.get] at hx'

/-- The coface lists of a store that satisfies the invariant agree with the
boundary arrays. -/
theorem Inv.cofaceOK {st : Store} (hI : Inv st) : CofaceOK st := by
  intro f cf hf k i hk hi
  obtain ⟨-, -, s0, s1, -⟩ := hI.shape f cf hf
  obtain ⟨l, hl⟩ : ∃ l, cf.s k i = some l := by
    have hk' : k = 0 ∨ k = 1 := by omega
    rcases hk' with rfl | rfl
    · exact ⟨cf.s0[i], List.getElem?_eq_getElem (by omega)⟩
    · exact ⟨cf.s1[i], List.getElem?_eq_getElem (by omega)⟩
  refine ⟨l, hl, hI.cofNodup f cf k i l hf hl, ?_⟩
  intro x
  constructor
  · intro hx
    obtain ⟨cx, a1, a2⟩ := hI.cofSound f cf k i l x hf hl hx
    obtain ⟨-, g, cg, b1, b2, b3⟩ := hI.face_of_read x cx a1 k i _ a2
    have e : g = f := (Option.some.inj b1).symm
    subst e
    rw [hf] at b2
    have e : cf = cg := Option.some.inj b2
    subst e
    obtain ⟨cl, c1, c2⟩ := hI.listedAll x cx a1 (by omega)
    exact ⟨cx, cl, a1, by omega, by rw [b3]; exact c1, c2, a2⟩
  · rintro ⟨cx, cl, a1, -, -, -, a5⟩
    exact hI.mem_cof x cx k i f l a1 a5 (by simp only [Store.cof, hf, hl])

/-- C12: in the complex that `MakeHDA` returns, every face `c.d[k][i]` (`k` in
`{0, 1}`, `i < d + 1`) of a cube `c` of the collection of degree `d + 1` is a
non-null pointer to a cube of degree `d` that is a member of the collection of
degree `d`. -/
theorem MakeHDA_faces (fuel : Nat) (sys : System) (r : Store × Int)
    (h : MakeHDA fuel sys (initialStore sys) = some r)
    (d : Nat) (cl : List Nat) (x : Nat) (hcl : r.1.cubelist[d + 1]? = some cl) (hx : x ∈ cl) :
    ∃ c, r.1.get (some x) = some c ∧ c.degree = d + 1 ∧
      ∀ k i, k < 2 → i < d + 1 →
        ∃ f cf clf, c.d k i = some (some f) ∧ r.1.get (some f) = some cf ∧ cf.degree = d ∧
          r.1.cubelist[d]? = some clf ∧ f ∈ clf := by
  have hI := MakeHDA_Inv fuel sys r h
  have hV := MakeHDA_VListed fuel sys r h
  obtain ⟨c, hc, hd⟩ := hI.listed (d + 1) cl x hcl hx
  refine ⟨c, hc, hd, ?_⟩
  intro k i hk hi
  obtain ⟨f, cf, a1, a2, a3⟩ := hI.faces x c k i hc hk (by omega)
  have hdf : cf.degree = d := by omega
  by_cases hd0 : d = 0
  · obtain ⟨clf, b1, b2⟩ := hV f cf a2 (by omega)
    exact ⟨f, cf, clf, a1, a2, hdf, by rw [hd0]; exact b1, b2⟩
  · obtain ⟨clf, b1, b2⟩ := hI.listedAll f cf a2 (by omega)
    exact ⟨f, cf, clf, a1, a2, hdf, by rw [← hdf]; exact b1, b2⟩

theorem MakeHDA_faces_witness :
    ∃ st : Store, MakeHDA 8 threeProcesses (initialStore threeProcesses) = some (st, 3) ∧
      st.cubelist[2 + 1]? = some [31] ∧
      ∃ c, st.get (some 31) = some c ∧ c.degree = 2 + 1 ∧
        ∀ k i, k < 2 → i < 2 + 1 →
          ∃ f cf clf, c.d k i = some (some f) ∧ st.get (some f) = some cf ∧ cf.degree = 2 ∧
            st.cubelist[2]? = some clf ∧ f ∈ clf := by
  obtain ⟨st, h1, h2, -, -⟩ := report_mono _ _ _ 0 _ threeProcesses_run
  have hcl : st.cubelist[2 + 1]? = some [31] := by rw [h2]; rfl
  exact ⟨st, h1, hcl, MakeHDA_faces 8 threeProcesses (st, 3) h1 2 [31] 31 hcl (by simp)⟩

/-- C13: the coface lists agree with the boundary arrays after every step of the
construction. The invariant `Inv` holds for the store with which `MakeHDA`
starts, and a call of `HandleState` (for a state of the queue), of `FillSquares`
(for an edge that is not yet a face of any cube, as `HandleState` passes it) and
of `FillHDCubes` on a store that satisfies `Inv` returns a store that satisfies
`Inv` again and in which, for every cube `f`, every `k` in `{0, 1}` and every axis
`i <= degree f`, the members of `f.s[k][i]` are exactly the cubes of the
collection of degree `degree f + 1` whose face `d[k][i]` is `f`, none of them
twice. The same holds in the complex that `MakeHDA` returns. -/
theorem coface_consistency :
    (∀ sys : System, Inv (initialStore sys)) ∧
    (∀ (sys : System) (sta : state) (st : Store) (statelist : List state) (a : Explore),
      Inv st → IsVertex st (some sta.cube) → QInv st statelist →
      HandleState sys sta st statelist = some a →
      CofaceOK a.store ∧ Inv a.store ∧ QInv a.store a.statelist) ∧
    (∀ (st : Store) (edge : Nat) (ce : cube) (r : Store × Nat),
      Inv st → st.get (some edge) = some ce → ce.degree = 1 →
      (∀ y cy, st.get (some y) = some cy → ¬ HasFace cy edge) →
      FillSquares st edge = some r → CofaceOK r.1 ∧ Inv r.1) ∧
    (∀ (st : Store) (edge deg facecount : Nat) (r : Store × Nat),
      Inv st → FillHDCubes st edge deg facecount = some r → CofaceOK r.1 ∧ Inv r.1) ∧
    (∀ (fuel : Nat) (sys : System) (r : Store × Int),
      MakeHDA fuel sys (initialStore sys) = some r → CofaceOK r.1) := by
  refine ⟨Inv_initialStore, ?_, ?_, ?_, ?_⟩
  · intro sys sta st statelist a hI hsta hq h
    obtain ⟨g1, -, g3⟩ := HandleState_Inv sys sta st statelist a hI hsta hq h
    exact ⟨g1.cofaceOK, g1, g3⟩
  · intro st edge ce r hI he hd hnew h
    have g := (FillSquares_Inv st edge ce r hI he hd hnew h).1
    exact ⟨g.cofaceOK, g⟩
  · intro st edge deg fc r hI h
    have g := (FillHDCubes_Inv st edge deg fc r hI h).1
    exact ⟨g.cofaceOK, g⟩
  · intro fuel sys r h
    exact (MakeHDA_Inv fuel sys r h).cofaceOK

theorem coface_consistency_witness :
    ∃ st : Store, MakeHDA 4 twoProcesses (initialStore twoProcesses) = some (st, 2) ∧
      CofaceOK st := by
  obtain ⟨st, h1, -, -, -⟩ := report_mono _ _ _ 0 _ twoProcesses_run
  exact ⟨st, h1, coface_consistency.2.2.2.2 4 twoProcesses (st, 2) h1⟩

/-! ### The effect of `handleTransition` -/

theorem labcmp_eq (a b : label) : labcmp a b = 0 ↔ a = b := by
  simp only [labcmp, Labcmp]
  constructor
  · intro h
    split at h
    · simp at h
    · rename_i hne
      have h1 : a.str = b.str := by
        by_contra hc
        exact hne (Or.inl hc)
      have h2 : a.num = b.num := by
        by_contra hc
        exact hne (Or.inr hc)
      cases a
      cases b
      simp only at h1 h2
      rw [h1, h2]
  · intro h
    subst h
    simp

theorem zip_all_labcmp : ∀ (v1 v2 : List label), v1.length = v2.length →
    ((v1.zip v2).all (fun p => decide (labcmp p.1 p.2 = 0)) = true ↔ v1 = v2) := by
  intro v1
  induction v1 with
  | nil =>
    intro v2 h
    cases v2 with
    | nil => simp
    | cons b v2 => simp at h
  | cons a v1 ih =>
    intro v2 h
    cases v2 with
    | nil => simp at h
    | cons b v2 =>
      simp only [List.length_cons, Nat.add_right_cancel_iff] at h
      rw [List.zip_cons_cons, List.all_cons, Bool.and_eq_true, decide_eq_true_eq, ih v2 h,
        labcmp_eq, List.cons.injEq]

/-- `VecCmp` with `Labcmp` finds two label vectors equal exactly if they are
equal. -/
theorem VecCmp_eq (v1 v2 : Option (List label)) :
    VecCmp v1 v2 (some labcmp) = 0 ↔ v1 = v2 := by
  cases v1 with
  | none =>
    cases v2 with
    | none => simp [VecCmp]
    | some b => simp [VecCmp]
  | some a =>
    cases v2 with
    | none => simp [VecCmp]
    | some b =>
      simp only [VecCmp, Option.some.injEq]
      by_cases hlen : a.length = b.length
      · rw [if_pos hlen]
        have := zip_all_labcmp a b hlen
        by_cases hall : (a.zip b).all (fun p => decide (labcmp p.1 p.2 = 0)) = true
        · rw [if_pos hall]
          simp [this.1 hall]
        · rw [if_neg hall]
          simp only [one_ne_zero, false_iff]
          exact fun e => hall (this.2 e)
      · rw [if_neg hlen]
        simp only [one_ne_zero, false_iff]
        exact fun e => hlen (by rw [e])

theorem findState_spec (st : Store) (lab : Option (List label)) :
    ∀ (l : List Nat) (found : Option Nat), findState st lab l = some found →
      (found = none ∧ ∀ x, x ∈ l → ∃ v, st.lab (some x) = some v ∧ v ≠ lab) ∨
      (∃ x, found = some x ∧ x ∈ l ∧ st.lab (some x) = some lab) := by
  intro l
  induction l with
  | nil =>
    intro found h
    simp only [findState, Option.some.injEq] at h
    exact Or.inl ⟨h.symm, fun x hx => absurd hx (List.not_mem_nil x)⟩
  | cons a l ih =>
    intro found h
    simp only [findState] at h
    split at h
    · simp at h
    · rename_i v hv
      split at h
      · rename_i hcmp
        simp only [Option.some.injEq] at h
        refine Or.inr ⟨a, h.symm, List.mem_cons_self _ _, ?_⟩
        rw [hv, (VecCmp_eq v lab).1 hcmp]
      · rename_i hcmp
        rcases ih found h with ⟨g1, g2⟩ | ⟨x, g1, g2, g3⟩
        · refine Or.inl ⟨g1, ?_⟩
          intro x hx
          rcases List.mem_cons.1 hx with rfl | hx'
          · exact ⟨v, hv, fun e => hcmp ((VecCmp_eq v lab).2 e)⟩
          · exact g2 x hx'
        · exact Or.inr ⟨x, g1, List.mem_cons_of_mem _ g2, g3⟩

theorem link_lists (st st' : Store) (c : cube) (h : st.link c = some st') :
    ∃ l, st.cubelist[c.degree]? = some l ∧
      st'.cubelist[c.degree]? = some (l ++ [st.cubes.length]) ∧
      ∀ d, d ≠ c.degree → st'.cubelist[d]? = st.cubelist[d]? := by
  obtain ⟨l, e1, e2⟩ := (link_spec st st' c h).list
  refine ⟨l, e1, ?_, ?_⟩
  · rw [e2, List.getElem?_set_self (getElem?_some_lt _ _ _ e1)]
  · intro d hd
    rw [e2, List.getElem?_set_ne (fun e => hd e.symm)]

theorem addToList_lists (st st' : Store) (d x : Nat) (h : st.addToList d x = some st') :
    (∀ y, st'.get (some y) = st.get (some y)) ∧
    ∃ l, st.cubelist[d]? = some l ∧ st'.cubelist[d]? = some (l ++ [x]) ∧
      ∀ e, e ≠ d → st'.cubelist[e]? = st.cubelist[e]? := by
  unfold Store.addToList at h
  split at h
  · simp at h
  · rename_i l hl
    simp only [Option.some.injEq] at h
    subst h
    refine ⟨fun y => rfl, l, hl, ?_, ?_⟩
    · simp only [InsertElement]
      rw [List.getElem?_set_self (getElem?_some_lt _ _ _ hl)]
    · intro e he
      simp only
      rw [List.getElem?_set_ne (fun e' => he e'.symm)]

theorem lab_get (st : Store) (x : Nat) (v : Option (List label))
    (h : st.lab (some x) = some v) : ∃ c, st.get (some x) = some c ∧ c.lab = v := by
  cases hc : st.get (some x) with
  | none => simp [Store.lab, hc] at h
  | some c =>
    simp only [Store.lab, hc, Option.some.injEq] at h
    exact ⟨c, rfl, h⟩

theorem lab_of_get (st : Store) (x : Nat) (c : cube) (h : st.get (some x) = some c) :
    st.lab (some x) = some c.lab := by
  simp only [Store.lab, h]

theorem Grown.grown_lab {st st' : Store} (h : Grown st st') (x : Nat)
    (v : Option (List label)) (hx : st.lab (some x) = some v) : st'.lab (some x) = some v := by
  obtain ⟨c, hc, hv⟩ := lab_get st x v hx
  obtain ⟨c', g1, g2, -⟩ := h.1 x c hc
  rw [lab_of_get st' x c' g1, g2.2.2.2.2.2.2, hv]

/-- What a call of `FillCubes` returns and what it does to the per-degree
collections: either -1 and the store as it was, or a degree `D >= 2` with cubes
appended in every degree from 2 to `D` and in no other. -/
theorem FillCubes_lists (st : Store) (edge : Nat) (r : Store × Int)
    (h : FillCubes st edge = some r) :
    (r.2 = -1 ∧ r.1 = st) ∨
    (∃ D : Nat, r.2 = (D : Int) ∧ 2 ≤ D ∧
      (∀ d, 2 ≤ d → d ≤ D → ∃ l nw, nw ≠ [] ∧ st.cubelist[d]? = some l ∧
        r.1.cubelist[d]? = some (l ++ nw)) ∧
      (∀ d, (d < 2 ∨ D < d) → r.1.cubelist[d]? = st.cubelist[d]?)) := by
  obtain ⟨st', rr⟩ := r
  unfold FillCubes at h
  cases hsq : FillSquares st edge with
  | none => simp [hsq] at h
  | some r0 =>
    simp only [hsq] at h
    obtain ⟨g1, g2, g3, ⟨new, g4, g5⟩, g6, g7⟩ := FillSquares_rel (Grows_stepRel 2) st edge r0 hsq
    simp only [Nat.sub_zero] at g1 g2 g3 g4 g5 g6 g7
    by_cases hn : r0.2 = 0
    · have hs : r0.1 = st := g6 hn
      have hpos : ¬ (r0.2 > 0) := by omega
      rw [if_neg hpos] at h
      obtain ⟨i1, i2, i3, -, -, -⟩ :=
        FillCubesLoop_spec edge _ r0.1 r0.2 (-1) st' rr h (Or.inl hn)
      obtain ⟨hr, hst⟩ := i3 hn
      exact Or.inl ⟨hr, hst.trans hs⟩
    · have hpos : r0.2 > 0 := by omega
      rw [if_pos hpos] at h
      obtain ⟨i1, i2, i3, i4, i5, i6⟩ :=
        FillCubesLoop_spec edge _ r0.1 r0.2 1 st' rr h (Or.inr (by omega))
      obtain ⟨i7, i8⟩ := i6 hpos
      have h2lt : 2 < st.cubelist.length := g7 hpos
      obtain ⟨D, hD⟩ : ∃ D : Nat, rr = (D : Int) := ⟨rr.toNat, by omega⟩
      subst hD
      refine Or.inr ⟨D, rfl, by omega, ?_, ?_⟩
      · intro d h2 hd
        by_cases c2 : d = 2
        · subst c2
          refine ⟨st.cubelist[2], new, ?_, List.getElem?_eq_getElem h2lt, ?_⟩
          · intro e
            rw [e] at g4
            simp at g4
            omega
          · show st'.cubelist[2]? = _
            rw [i4 2 (Or.inl (by omega)), g5, List.getElem?_eq_getElem h2lt]
            rfl
        · obtain ⟨j1, nw, j2, j3⟩ := i5 d (by omega) (by omega)
          have hlt : d < st.cubelist.length := by omega
          refine ⟨st.cubelist[d], nw, j2, List.getElem?_eq_getElem hlt, ?_⟩
          show st'.cubelist[d]? = _
          rw [j3, g3 d (by omega), List.getElem?_eq_getElem hlt]
          rfl
      · intro d hd
        show st'.cubelist[d]? = _
        rcases hd with hd | hd
        · rw [i4 d (Or.inl (by omega)), g3 d (by omega)]
        · by_cases e : d = D + 1
          · rw [i8 d (by omega), g3 d (by omega)]
          · rw [i4 d (Or.inr (by omega)), g3 d (by omega)]

theorem FillCubes_lists_low (st : Store) (edge : Nat) (r : Store × Int)
    (h : FillCubes st edge = some r) (d : Nat) (hd : d < 2) :
    r.1.cubelist[d]? = st.cubelist[d]? := by
  rcases FillCubes_lists st edge r h with ⟨-, e⟩ | ⟨D, -, -, -, g⟩
  · rw [e]
  · exact g d (Or.inl hd)

theorem alloc_length (st : Store) (c : cube) : (st.alloc c).1.cubes.length = st.cubes.length + 1 := by
  simp [Store.alloc]

theorem delete_length (st : Store) (x : Nat) : (DeleteCube st x).cubes.length = st.cubes.length := by
  simp [DeleteCube]

theorem handleTransition_effect (sys : System) (sta : state) (i : Nat) (a a' : Explore)
    (trans : transition) (h : handleTransition sys sta i a trans = some a') :
    (∃ g, CheckCondition sta.valvec trans.cond sys.varlist = some g ∧ g ≠ 1 ∧ a' = a) ∨
    ∃ locvec valvec lbl act cl0 l1 tgt ce,
      Fired sys sta i trans a a' locvec valvec lbl act cl0 l1 tgt ce := by
  rcases handleTransition_cases sys sta i a a' trans h with ⟨g, g1, g2, g3⟩ |
    ⟨locvec, valvec, lbl, act, cl0, found, s3, c1, c2, c3, c4, c5, hcl0, hfs, hcase⟩
  · exact Or.inl ⟨g, g1, g2, g3⟩
  · right
    have hfresh : a.store.get (some (a.store.cubes.length + 1)) = none := by
      simp only [Store.get]
      rw [List.getElem?_eq_none (by omega)]
      rfl
    rcases hcase with ⟨hf, h3, s4, h4, rfl⟩ | ⟨cpc, hf, h3, r, h4, rfl⟩
    · subst hf
      have hL := link_spec _ _ _ h3
      obtain ⟨l1, e1, e2, e3⟩ := link_lists _ _ _ h3
      rw [edgeCell_degree] at e1 e2 e3
      rw [alloc_length] at e2
      have e1' : a.store.cubelist[1]? = some l1 := e1
      obtain ⟨k1, l0, k2, k3, k4⟩ := addToList_lists _ _ _ _ h4
      have k2' : a.store.cubelist[0]? = some l0 := by
        rw [← k2, e3 0 (by omega)]
        rfl
      rw [hcl0] at k2'
      have el0 : cl0 = l0 := Option.some.inj k2'
      subst el0
      have hG1 : Grown a.store (a.store.alloc (vertexCell a.store.cubes.length lbl)).1 :=
        Grown_alloc _ _
      have hG2 : Grown (a.store.alloc (vertexCell a.store.cubes.length lbl)).1 s4 :=
        (Grown_link _ _ _ h3).grown_trans (Grown_addToList _ _ _ _ h4)
      have hnew := hL.new
      rw [alloc_length] at hnew
      have hvget : (a.store.alloc (vertexCell a.store.cubes.length lbl)).1.get
          (some a.store.cubes.length) = some (vertexCell a.store.cubes.length lbl) := by
        rw [alloc_get, if_pos rfl]
      obtain ⟨cv, v1, v2, -⟩ := hG2.1 _ _ hvget
      refine ⟨locvec, valvec, lbl, act, cl0, l1, a.store.cubes.length,
        edgeCell (a.store.cubes.length + 1) sta.cube a.store.cubes.length act.id i,
        ⟨c1, c2, c3, c4, c5, hcl0, e1', hG1.grown_trans hG2, ?_, ?_, Frame.frame_refl _, hfresh,
          ?_, ?_, Or.inl ⟨rfl, ?_, ?_, rfl, rfl, ?_, cv, v1, by rw [v2.1]; rfl⟩⟩⟩
      · show s4.cubelist[1]? = _
        rw [k4 1 (by omega), e2]
      · show s4.get _ = _
        rw [k1]; exact hnew
      · show s4.lab _ = _
        exact hG2.grown_lab _ _ (alloc_lab _ _)
      · intro x c hx hd
        have hx' : s4.get (some x) = some c := hx
        rw [k1] at hx'
        rcases hL.cases x c hx' with ⟨e, -⟩ | ⟨c0, g1, -, -⟩
        · rw [alloc_length] at e
          exact Or.inl e
        · rw [alloc_get] at g1
          split at g1
          · rename_i e
            exact Or.inr (Or.inl e)
          · exact Or.inr (Or.inr ⟨c0, g1⟩)
      · intro x hx hlab
        rcases findState_spec _ _ _ _ hfs with ⟨-, g2⟩ | ⟨y, g1, -, -⟩
        · obtain ⟨v, v1', v2'⟩ := g2 x hx
          rw [hG1.grown_lab x _ hlab] at v1'
          exact v2' (Option.some.inj v1').symm
        · simp at g1
      · show s4.cubelist[0]? = _
        exact k3
      · intro d hd
        show s4.cubelist[d]? = _
        rw [k4 d (by omega), e3 d (by omega)]
        rfl
    · subst hf
      have hL := link_spec _ _ _ h3
      obtain ⟨l1, e1, e2, e3⟩ := link_lists _ _ _ h3
      rw [edgeCell_degree] at e1 e2 e3
      rw [delete_length, alloc_length] at e2
      have e1' : a.store.cubelist[1]? = some l1 := e1
      have hG1 : Grown a.store (DeleteCube (a.store.alloc (vertexCell a.store.cubes.length
          lbl)).1 a.store.cubes.length) := Grown_delete_alloc _ _
      have hG2 := (Grown_link _ _ _ h3).grown_trans (FillCubes_Grown _ _ _ h4)
      have hnew := hL.new
      rw [delete_length, alloc_length] at hnew
      obtain ⟨ce, v1, v2, -⟩ := (FillCubes_Grown _ _ _ h4).1 _ _ hnew
      rcases findState_spec _ _ _ _ hfs with ⟨g1, -⟩ | ⟨y, g1, g2, g3⟩
      · simp at g1
      · have ey : cpc = y := Option.some.inj g1
        subst ey
        obtain ⟨fi, cf, l, f1, f2, -⟩ := hL.faces 1 0 (some cpc) rfl
        have efi : cpc = fi := Option.some.inj f1
        subst efi
        rw [delete_alloc_get] at f2
        have hlab : a.store.lab (some cpc) = some (some [⟨lbl, -1⟩]) := by
          have := hG1.grown_lab cpc _ (lab_of_get _ _ _ f2)
          rw [lab_of_get _ _ _ f2]
          have g3' := g3
          rw [lab_of_get _ cpc cf (by
            rw [alloc_get, if_neg (Nat.ne_of_lt (get_lt _ _ _ f2))]; exact f2)] at g3'
          exact g3'
        refine ⟨locvec, valvec, lbl, act, cl0, l1, cpc, ce,
          ⟨c1, c2, c3, c4, c5, hcl0, e1', hG1.grown_trans hG2, ?_, v1, v2, hfresh,
            (hG1.grown_trans hG2).grown_lab _ _ hlab, ?_,
            Or.inr ⟨g2, hlab, ?_, rfl, s3, r, h4, rfl, rfl, e2, ?_⟩⟩⟩
        · show r.1.cubelist[1]? = _
          rw [FillCubes_lists_low _ _ _ h4 1 (by omega), e2]
        · intro x c hx hd
          obtain ⟨c1', g1', g2'⟩ := FillCubes_low s3 _ r h4 x c hx hd
          rcases hL.cases x c1' g1' with ⟨e, -⟩ | ⟨c0, g1'', -, -⟩
          · rw [delete_length, alloc_length] at e
            exact Or.inl e
          · rw [delete_alloc_get] at g1''
            exact Or.inr (Or.inr ⟨c0, g1''⟩)
        · show r.1.cubelist[0]? = _
          rw [FillCubes_lists_low _ _ _ h4 0 (by omega), e3 0 (by omega)]
          exact hcl0
        · intro d hd
          rw [e3 d hd]
          rfl

/-! ### The dimension -/

theorem Grown.nonempty {st st' : Store} (h : Grown st st') (d : Nat)
    (hd : ∃ l, st.cubelist[d]? = some l ∧ l ≠ []) : ∃ l, st'.cubelist[d]? = some l ∧ l ≠ [] := by
  obtain ⟨l, h1, h2⟩ := hd
  obtain ⟨l', h3⟩ := h.2 d l h1
  exact ⟨l ++ l', h3, by simp [h2]⟩

theorem handleTransition_dim (sys : System) (sta : state) (i : Nat) (a a' : Explore)
    (trans : transition) (dim0 : Int)
    (hD : DimOK a.store (if a.dim > dim0 then a.dim else dim0))
    (h : handleTransition sys sta i a trans = some a') :
    DimOK a'.store (if a'.dim > dim0 then a'.dim else dim0) := by
  rcases handleTransition_effect sys sta i a a' trans h with ⟨g, -, -, rfl⟩ |
    ⟨locvec, valvec, lbl, act, cl0, l1, tgt, ce, hF⟩
  · exact hD
  · obtain ⟨D, hD1, hD2, hD3⟩ := hD
    have hedge : ∃ l, a'.store.cubelist[1]? = some l ∧ l ≠ [] := ⟨_, hF.l1new, by simp⟩
    rcases hF.cases with ⟨-, -, -, -, hdim, hhigh, -⟩ | ⟨-, -, -, -, s3, r, h4, hst, hdim, hs31, hs3⟩
    · by_cases hD0 : D = 0
      · refine ⟨1, ?_, hedge, ?_⟩
        · rw [hdim]
          split at hD1 <;> (repeat' split) <;> omega
        · intro d l hd hl
          rw [hhigh d (by omega)] at hl
          exact hD3 d l (by omega) hl
      · refine ⟨D, ?_, hF.grown.nonempty D hD2, ?_⟩
        · rw [hdim]
          split at hD1 <;> (repeat' split) <;> omega
        · intro d l hd hl
          rw [hhigh d (by omega)] at hl
          exact hD3 d l hd hl
    · rcases FillCubes_lists s3 _ r h4 with ⟨hr, hrs⟩ | ⟨D2, hr, hD2', hmid, hout⟩
      · have hsame : ∀ d, 2 ≤ d → a'.store.cubelist[d]? = a.store.cubelist[d]? := by
          intro d hd
          rw [hst, hrs, hs3 d (by omega)]
        by_cases hD0 : D = 0
        · refine ⟨1, ?_, hedge, ?_⟩
          · rw [hdim, hr]
            split at hD1 <;> (repeat' split) <;> omega
          · intro d l hd hl
            rw [hsame d (by omega)] at hl
            exact hD3 d l (by omega) hl
        · refine ⟨D, ?_, hF.grown.nonempty D hD2, ?_⟩
          · rw [hdim, hr]
            split at hD1 <;> (repeat' split) <;> omega
          · intro d l hd hl
            rw [hsame d (by omega)] at hl
            exact hD3 d l hd hl
      · have hsame : ∀ d, D2 < d → a'.store.cubelist[d]? = a.store.cubelist[d]? := by
          intro d hd
          rw [hst, hout d (Or.inr hd), hs3 d (by omega)]
        by_cases hDD : D2 ≤ D
        · refine ⟨D, ?_, hF.grown.nonempty D hD2, ?_⟩
          · rw [hdim, hr]
            split at hD1 <;> (repeat' split) <;> omega
          · intro d l hd hl
            rw [hsame d (by omega)] at hl
            exact hD3 d l hd hl
        · refine ⟨D2, ?_, ?_, ?_⟩
          · rw [hdim, hr]
            split at hD1 <;> (repeat' split) <;> omega
          · obtain ⟨l, nw, n1, n2, n3⟩ := hmid D2 hD2' (Nat.le_refl _)
            exact ⟨l ++ nw, by rw [hst]; exact n3, by simp [n1]⟩
          · intro d l hd hl
            rw [hsame d hd] at hl
            exact hD3 d l (by omega) hl

theorem HandleState_dim (sys : System) (sta : state) (st : Store) (statelist : List state)
    (a : Explore) (dim0 : Int) (hD : DimOK st dim0)
    (h : HandleState sys sta st statelist = some a) :
    DimOK a.store (if a.dim > dim0 then a.dim else dim0) := by
  unfold HandleState at h
  refine loopM_inv _ (fun b => DimOK b.store (if b.dim > dim0 then b.dim else dim0)) _ ?_ _ a
    ?_ h
  · intro b p b' _ hb hf
    split at hf
    · simp at hf
    · refine loopM_inv _ (fun b => DimOK b.store (if b.dim > dim0 then b.dim else dim0)) _ ?_
        b b' hb hf
      intro e t e' _ he ht
      exact handleTransition_dim sys sta p.1 e e' t dim0 he ht
  · obtain ⟨D, hD1, hD2, hD3⟩ := hD
    refine ⟨D, ?_, hD2, hD3⟩
    simp only
    split <;> omega

theorem MakeHDALoop_dim (sys : System) :
    ∀ (fuel : Nat) (st : Store) (queue : List state) (dim : Int) (r : Store × Int),
      DimOK st dim → MakeHDALoop sys fuel st queue dim = some r → DimOK r.1 r.2 := by
  intro fuel
  induction fuel with
  | zero =>
    intro st queue dim r hD h
    cases queue with
    | nil => simp only [MakeHDALoop, Option.some.injEq] at h; subst h; exact hD
    | cons s q => simp [MakeHDALoop] at h
  | succ n ih =>
    intro st queue dim r hD h
    cases queue with
    | nil => simp only [MakeHDALoop, Option.some.injEq] at h; subst h; exact hD
    | cons sta q =>
      simp only [MakeHDALoop] at h
      split at h
      · simp at h
      · split at h
        · simp at h
        · rename_i s1 hs1
          split at h
          · simp at h
          · rename_i a ha
            have h1 : DimOK s1 dim := by
              split at hs1
              · obtain ⟨e1, -, -⟩ := setFin_get _ _ _ hs1
                obtain ⟨D, hD1, hD2, hD3⟩ := hD
                exact ⟨D, hD1, by rw [e1]; exact hD2, by rw [e1]; exact hD3⟩
              · simp only [Option.some.injEq] at hs1
                subst hs1
                exact hD
            exact ih a.store a.statelist.tail _ r (HandleState_dim sys sta s1 _ a dim h1 ha) h

theorem Covered.covered_mono {sys : System} {all all' : List state}
    {g : List (Option Nat) × List Int} (h : Covered sys all g) (hsub : ∀ s, s ∈ all → s ∈ all') :
    Covered sys all' g := by
  obtain ⟨s, lbl, h1, h2, h3⟩ := h
  exact ⟨s, lbl, hsub s h1, h2, h3⟩

theorem lab_lt (st : Store) (x : Nat) (v : Option (List label))
    (h : st.lab (some x) = some v) : x < st.cubes.length := by
  obtain ⟨c, hc, -⟩ := lab_get st x v h
  exact get_lt st x c hc

/-- One pass of the inner loop of `HandleState` keeps the invariant of the
exploration, and afterwards the successor along the transition is covered. -/
theorem handleTransition_BInv (sys : System) (sta : state) (i : Nat) (a a' : Explore)
    (trans : transition) (done : List state) (p : Option Nat) (l : location)
    (hB : BInv sys a.store done a.statelist) (hsta : sta ∈ done ++ a.statelist)
    (hp : sta.locvec[i]? = some p) (hl : sys.loc p = some l) (ht : trans ∈ l.outtranslist)
    (h : handleTransition sys sta i a trans = some a') :
    BInv sys a'.store done a'.statelist ∧ (∃ new, a'.statelist = a.statelist ++ new) ∧
    ∀ g', StepT sys sta.glob i trans g' → Covered sys (done ++ a'.statelist) g' := by
  rcases handleTransition_effect sys sta i a a' trans h with ⟨g, g1, g2, rfl⟩ |
    ⟨locvec, valvec, lbl, act, cl0, l1, tgt, ce, hF⟩
  · refine ⟨hB, ⟨[], by simp⟩, ?_⟩
    intro g' hs
    have := hs.1
    simp only [state.glob] at this
    rw [g1] at this
    exact absurd (Option.some.inj this) g2
  · have hcl0 : cl0 = (done ++ a.statelist).map (fun s => s.cube) := by
      have := hB.cl0
      rw [hF.hcl0] at this
      exact Option.some.inj this
    have hlabs : ∀ s, s ∈ done ++ a.statelist →
        a'.store.lab (some s.cube) = a.store.lab (some s.cube) := by
      intro s hs
      obtain ⟨-, lb, -, h2⟩ := hB.recs s hs
      rw [h2]
      exact hF.grown.grown_lab _ _ h2
    have hstep : ∀ g', StepT sys sta.glob i trans g' → g' = (locvec, valvec) := by
      intro g' hs
      obtain ⟨-, s2, s3⟩ := hs
      simp only [state.glob] at s2 s3
      rw [hF.loc] at s2
      rw [hF.eff] at s3
      exact Prod.ext (Option.some.inj s2).symm (Option.some.inj s3).symm
    have hreach : Reachable sys (locvec, valvec) :=
      Reachable.step sta.glob (locvec, valvec) i trans (hB.recs sta hsta).1
        ⟨p, l, hp, hl, ht, hF.guard, hF.loc, hF.eff⟩
    rcases hF.cases with ⟨htgt, hnew, hcl0', hsl, -, -, -⟩ | ⟨htgt, hlab, hcl0', hsl, -⟩
    · have hall : done ++ a'.statelist
          = (done ++ a.statelist) ++ [{ locvec := locvec, valvec := valvec, cube := tgt }] := by
        rw [hsl, List.append_assoc]
      have hmem : ∀ x, x ∈ cl0 → x < a.store.cubes.length := by
        intro x hx
        rw [hcl0] at hx
        obtain ⟨s, hs, rfl⟩ := List.mem_map.1 hx
        obtain ⟨-, lb, -, h2⟩ := hB.recs s hs
        exact lab_lt _ _ _ h2
      refine ⟨⟨?_, ?_, ?_, ?_, ?_, ?_⟩, ⟨_, hsl⟩, ?_⟩
      · rw [hcl0', hall, hcl0]
        simp
      · rw [hall, List.map_append, List.nodup_append]
        refine ⟨hB.nodup, by simp, ?_⟩
        intro x hx hx'
        simp only [List.map_cons, List.map_nil, List.mem_singleton] at hx'
        rw [← hcl0] at hx
        have := hmem x hx
        omega
      · intro s hs
        rw [hall] at hs
        rcases List.mem_append.1 hs with hs | hs
        · obtain ⟨r1, lb, r2, r3⟩ := hB.recs s hs
          exact ⟨r1, lb, r2, hF.grown.grown_lab _ _ r3⟩
        · simp only [List.mem_singleton] at hs
          subst hs
          exact ⟨hreach, lbl, hF.hlabel, hF.tgtLab⟩
      · intro s s' hs hs' heq
        rw [hall] at hs hs'
        rcases List.mem_append.1 hs with hs | hs <;> rcases List.mem_append.1 hs' with hs' | hs'
        · rw [hlabs s hs, hlabs s' hs'] at heq
          exact hB.distinct s s' hs hs' heq
        · simp only [List.mem_singleton] at hs'
          subst hs'
          rw [hlabs s hs] at heq
          simp only at heq
          rw [hF.tgtLab] at heq
          exact absurd heq (hnew s.cube (by rw [hcl0]; exact List.mem_map_of_mem _ hs))
        · simp only [List.mem_singleton] at hs
          subst hs
          rw [hlabs s' hs'] at heq
          simp only at heq
          rw [hF.tgtLab] at heq
          exact absurd heq.symm (hnew s'.cube (by rw [hcl0]; exact List.mem_map_of_mem _ hs'))
        · simp only [List.mem_singleton] at hs hs'
          rw [hs, hs']
      · intro s hs i' t' g' hst
        exact (hB.closed s hs i' t' g' hst).covered_mono (fun x hx => by
          rw [hall]; exact List.mem_append_left _ hx)
      · obtain ⟨s, hs, hs'⟩ := hB.init
        exact ⟨s, by rw [hall]; exact List.mem_append_left _ hs, hs'⟩
      · intro g' hs
        rw [hstep g' hs, hall]
        exact ⟨{ locvec := locvec, valvec := valvec, cube := tgt }, lbl, by simp, hF.hlabel,
          hF.hlabel⟩
    · have hall : done ++ a'.statelist = done ++ a.statelist := by rw [hsl]
      refine ⟨⟨?_, ?_, ?_, ?_, ?_, ?_⟩, ⟨[], by rw [hsl]; simp⟩, ?_⟩
      · rw [hcl0', hall, hcl0]
      · rw [hall]; exact hB.nodup
      · intro s hs
        rw [hall] at hs
        obtain ⟨r1, lb, r2, r3⟩ := hB.recs s hs
        exact ⟨r1, lb, r2, hF.grown.grown_lab _ _ r3⟩
      · intro s s' hs hs' heq
        rw [hall] at hs hs'
        rw [hlabs s hs, hlabs s' hs'] at heq
        exact hB.distinct s s' hs hs' heq
      · intro s hs i' t' g' hst
        rw [hall]
        exact hB.closed s hs i' t' g' hst
      · rw [hall]; exact hB.init
      · intro g' hs
        rw [hstep g' hs, hall]
        rw [hcl0] at htgt
        obtain ⟨s, hs1, hs2⟩ := List.mem_map.1 htgt
        obtain ⟨-, lb, r2, r3⟩ := hB.recs s hs1
        rw [hs2, hlab] at r3
        have e : lbl = lb := by
          have := Option.some.inj (Option.some.inj r3)
          simpa using this
        subst e
        exact ⟨s, lbl, hs1, hF.hlabel, r2⟩

theorem BInv.binv_shift {sys : System} {st : Store} {done queue : List state} {sta : state}
    (hB : BInv sys st done (sta :: queue))
    (hc : ∀ i t g', Step sys sta.glob i t g' → Covered sys (done ++ sta :: queue) g') :
    BInv sys st (done ++ [sta]) queue := by
  have e : (done ++ [sta]) ++ queue = done ++ sta :: queue := by simp
  refine ⟨?_, ?_, ?_, ?_, ?_, ?_⟩
  · rw [e]; exact hB.cl0
  · rw [e]; exact hB.nodup
  · rw [e]; exact hB.recs
  · rw [e]; exact hB.distinct
  · intro s hs i t g' hst
    rw [e]
    rcases List.mem_append.1 hs with hs | hs
    · exact hB.closed s hs i t g' hst
    · simp only [List.mem_singleton] at hs
      subst hs
      exact hc i t g' hst
  · rw [e]; exact hB.init

/-- The invariant of the exploration depends on the store only through
`cubelist[0]` and the labels. -/
theorem BInv.binv_congr {sys : System} {st st' : Store} {done queue : List state}
    (hB : BInv sys st done queue) (hcl : st'.cubelist[0]? = st.cubelist[0]?)
    (hlab : ∀ x v, st.lab (some x) = some v → st'.lab (some x) = some v) :
    BInv sys st' done queue := by
  have hl : ∀ s, s ∈ done ++ queue → st'.lab (some s.cube) = st.lab (some s.cube) := by
    intro s hs
    obtain ⟨-, lb, -, h2⟩ := hB.recs s hs
    rw [h2]
    exact hlab _ _ h2
  refine ⟨by rw [hcl]; exact hB.cl0, hB.nodup, ?_, ?_, hB.closed, hB.init⟩
  · intro s hs
    obtain ⟨r1, lb, r2, r3⟩ := hB.recs s hs
    exact ⟨r1, lb, r2, hlab _ _ r3⟩
  · intro s s' hs hs' heq
    rw [hl s hs, hl s' hs'] at heq
    exact hB.distinct s s' hs hs' heq

/-- Handling a state keeps the invariant of the exploration: the state moves
from the head of the queue to the states that are done, and the new states are
appended to the queue. -/
theorem HandleState_BInv (sys : System) (sta : state) (st : Store) (queue done : List state)
    (a : Explore) (hB : BInv sys st done (sta :: queue))
    (h : HandleState sys sta st (sta :: queue) = some a) :
    ∃ new, a.statelist = sta :: (queue ++ new) ∧ BInv sys a.store (done ++ [sta]) (queue ++ new) := by
  unfold HandleState at h
  have key := loopM_inv_pre _
    (fun (pre : List (Nat × Option Nat)) (b : Explore) =>
      BInv sys b.store done b.statelist ∧ (∃ new, b.statelist = (sta :: queue) ++ new) ∧
      ∀ ip, ip ∈ pre → ∀ l, sys.loc ip.2 = some l → ∀ t, t ∈ l.outtranslist →
        ∀ g', StepT sys sta.glob ip.1 t g' → Covered sys (done ++ b.statelist) g')
    sta.locvec.enum [] ?_ _ a ⟨hB, ⟨[], by simp⟩, by simp⟩ h
  · obtain ⟨k1, ⟨new, k2⟩, k3⟩ := key
    refine ⟨new, by rw [k2]; simp, ?_⟩
    have k2' : a.statelist = sta :: (queue ++ new) := by rw [k2]; simp
    rw [k2'] at k1 k3
    refine k1.binv_shift ?_
    rintro i t g' ⟨p, l, h1, h2, h3, h4⟩
    refine k3 (i, p) ?_ l h2 t h3 g' h4
    simp only [List.nil_append]
    exact List.mk_mem_enum_iff_getElem?.2 h1
  · intro pp ip q b b' hsplit ⟨b1, ⟨new, b2⟩, b3⟩ hf
    simp only [List.nil_append] at hsplit
    have hip : sta.locvec[ip.1]? = some ip.2 := by
      have : ip ∈ sta.locvec.enum := by rw [hsplit]; simp
      exact List.mk_mem_enum_iff_getElem?.1 this
    split at hf
    · simp at hf
    · rename_i l hl
      have key2 := loopM_inv_pre _
        (fun (pre : List transition) (e : Explore) =>
          BInv sys e.store done e.statelist ∧ (∃ new, e.statelist = (sta :: queue) ++ new) ∧
          (∀ jp, jp ∈ pp → ∀ l, sys.loc jp.2 = some l → ∀ t, t ∈ l.outtranslist →
            ∀ g', StepT sys sta.glob jp.1 t g' → Covered sys (done ++ e.statelist) g') ∧
          ∀ t, t ∈ pre → ∀ g', StepT sys sta.glob ip.1 t g' →
            Covered sys (done ++ e.statelist) g')
        l.outtranslist [] ?_ _ b' ⟨b1, ⟨new, b2⟩, b3, by simp⟩ hf
      · obtain ⟨c1, c2, c3, c4⟩ := key2
        refine ⟨c1, c2, ?_⟩
        intro jp hjp l' hl' t ht g' hs
        rcases List.mem_append.1 hjp with hjp | hjp
        · exact c3 jp hjp l' hl' t ht g' hs
        · simp only [List.mem_singleton] at hjp
          subst hjp
          rw [hl] at hl'
          have : l = l' := Option.some.inj hl'
          subst this
          exact c4 t (by simpa using ht) g' hs
      · intro pt t qt e e' htsplit ⟨e1, ⟨new', e2⟩, e3, e4⟩ hft
        simp only [List.nil_append] at htsplit
        have ht : t ∈ l.outtranslist := by rw [htsplit]; simp
        obtain ⟨f1, ⟨new2, f2⟩, f3⟩ := handleTransition_BInv sys sta ip.1 e e' t done ip.2 l e1
          (by rw [e2]; simp) hip hl ht hft
        have hsub : ∀ s, s ∈ done ++ e.statelist → s ∈ done ++ e'.statelist := by
          intro s hs
          rw [f2, ← List.append_assoc]
          exact List.mem_append_left _ hs
        refine ⟨f1, ⟨new' ++ new2, by rw [f2, e2]; simp⟩, ?_, ?_⟩
        · intro jp hjp l' hl' t' ht' g' hs
          exact (e3 jp hjp l' hl' t' ht' g' hs).covered_mono hsub
        · intro t' ht' g' hs
          rcases List.mem_append.1 ht' with ht' | ht'
          · exact (e4 t' ht' g' hs).covered_mono hsub
          · simp only [List.mem_singleton] at ht'
            subst ht'
            exact f3 g' hs

theorem setFin_lab (st st' : Store) (p : Nat) (h : setFin st p = some st') (x : Nat)
    (v : Option (List label)) (hx : st.lab (some x) = some v) : st'.lab (some x) = some v := by
  obtain ⟨c, hc, hv⟩ := lab_get st x v hx
  obtain ⟨-, -, h3⟩ := setFin_get st st' p h
  rcases h3 x with ⟨g, -⟩ | ⟨c0, c', g1, g2, g3, -⟩
  · rw [hc] at g; simp at g
  · rw [hc] at g1
    have : c = c0 := Option.some.inj g1
    subst this
    rw [lab_of_get st' x c' g2, g3.2.2.2.2, hv]

/-- The invariant of the exploration holds when `MakeHDA` enters its loop. -/
theorem BInv_start (sys : System) (lbl : String) (s1 : Store)
    (hlbl : stateLabel sys (sys.pgvec.map (fun pg => pg.loc_0))
      (sys.varlist.map (fun v => v.initialval)) = some lbl)
    (h1 : ((initialStore sys).alloc { vertexCell 0 lbl with ini := true }).1.addToList 0 0
      = some s1) :
    BInv sys s1 []
      [{ locvec := sys.pgvec.map (fun pg => pg.loc_0),
         valvec := sys.varlist.map (fun v => v.initialval), cube := 0 }] := by
  obtain ⟨a1, l, a2, a3, -⟩ := addToList_lists _ _ _ _ h1
  have hl : l = [] := by
    simp [Store.alloc, initialStore] at a2
    exact a2
  subst hl
  have hlab : s1.lab (some 0) = some (some [⟨lbl, -1⟩]) := by
    simp only [Store.lab, a1]
    have := alloc_get (initialStore sys) { vertexCell 0 lbl with ini := true } 0
    simp only [initialStore, List.length_nil, if_true] at this
    simp only [initialStore]
    rw [this]
    rfl
  refine ⟨by simpa using a3, by simp, ?_, ?_, ?_, ?_⟩
  · intro s hs
    simp only [List.nil_append, List.mem_singleton] at hs
    subst hs
    exact ⟨Reachable.init, lbl, hlbl, hlab⟩
  · intro s s' hs hs' _
    simp only [List.nil_append, List.mem_singleton] at hs hs'
    rw [hs, hs']
  · intro s hs
    simp at hs
  · exact ⟨{ locvec := sys.pgvec.map (fun pg => pg.loc_0),
             valvec := sys.varlist.map (fun v => v.initialval), cube := 0 },
      List.mem_singleton.2 rfl, rfl⟩

theorem BInv.vertex {sys : System} {st : Store} {done : List state} (hB : BInv sys st done [])
    (hV : VListed st) (x : Nat) (hx : IsVertex st (some x)) : ∃ s, s ∈ done ∧ s.cube = x := by
  obtain ⟨c, hc, hd⟩ := hx
  obtain ⟨l, hl, hxl⟩ := hV x c hc hd
  have := hB.cl0
  rw [hl, List.append_nil] at this
  rw [Option.some.inj this] at hxl
  obtain ⟨s, hs, e⟩ := List.mem_map.1 hxl
  exact ⟨s, hs, e⟩

theorem Kept.kept_refl (st : Store) : Kept st st :=
  ⟨fun _ cy hy => ⟨cy, hy, Core.core_refl cy⟩, fun _ l hl => ⟨[], by simpa using hl⟩⟩

theorem Grown.to_kept {st st' : Store} (h : Grown st st') : Kept st st' := by
  refine ⟨?_, h.2⟩
  intro y cy hy
  obtain ⟨cy', g1, g2, -⟩ := h.1 y cy hy
  exact ⟨cy', g1, g2.core⟩

theorem setFin_kept (st st' : Store) (p : Nat) (h : setFin st p = some st') : Kept st st' := by
  obtain ⟨h1, -, h3⟩ := setFin_get st st' p h
  refine ⟨?_, ?_⟩
  · intro y cy hy
    rcases h3 y with ⟨g, -⟩ | ⟨c0, c', g1, g2, g3, -⟩
    · rw [hy] at g; simp at g
    · rw [hy] at g1
      have : cy = c0 := Option.some.inj g1
      subst this
      exact ⟨c', g2, g3⟩
  · intro d l hl
    exact ⟨[], by rw [h1]; simpa using hl⟩

theorem Kept.kept_lab {st st' : Store} (h : Kept st st') (x : Nat) (v : Option (List label))
    (hx : st.lab (some x) = some v) : st'.lab (some x) = some v := by
  obtain ⟨c, hc, hv⟩ := lab_get st x v hx
  obtain ⟨c', g1, g2⟩ := h.1 x c hc
  rw [lab_of_get st' x c' g1, g2.2.2.2.2, hv]

theorem EdgeOf.edge_kept {sys : System} {st st' : Store} {sta : state} {e : Nat}
    {it : Nat × transition} (h : EdgeOf sys st sta e it) (hk : Kept st st') :
    EdgeOf sys st' sta e it := by
  obtain ⟨ce, tgt, act, locvec, valvec, lbl, cl0, h1, h2, h3, h4, h5, h6, h7, h8, h9, h10, h11,
    h12, h13⟩ := h
  obtain ⟨ce', g1, g2⟩ := hk.1 e ce h1
  obtain ⟨l', g3⟩ := hk.2 0 cl0 h11
  exact ⟨ce', tgt, act, locvec, valvec, lbl, cl0 ++ l', g1, by rw [g2.1, h2],
    by rw [g2.2.1, h3], by rw [g2.2.2.1, h4], h5, by rw [g2.2.2.2.2, h6], h7, h8, h9, h10, g3,
    List.mem_append_left _ h12, hk.kept_lab _ _ h13⟩

theorem edgesList_eq (st : Store) (l : List Nat) (h : st.cubelist[1]? = some l) :
    edgesList st = l := by
  simp [edgesList, h]

theorem enabledAt_append (sys : System) (sta : state) (p q : List (Nat × Option Nat)) :
    enabledAt sys sta (p ++ q) = enabledAt sys sta p ++ enabledAt sys sta q := by
  simp [enabledAt, List.flatMap_append]

theorem enabledAt_single (sys : System) (sta : state) (ip : Nat × Option Nat) (l : location)
    (hl : sys.loc ip.2 = some l) :
    enabledAt sys sta [ip] = (l.outtranslist.filter
      (fun t => decide (CheckCondition sta.valvec t.cond sys.varlist = some 1))).map
      (fun t => (ip.1, t)) := by
  simp [enabledAt, hl]

/-- One pass of the inner loop of `HandleState` appends to `cubelist[1]` nothing
if the guard of the transition does not evaluate to 1, and else one new cell,
the edge of the transition. -/
theorem handleTransition_edge (sys : System) (sta : state) (i : Nat) (a a' : Explore)
    (trans : transition) (h : handleTransition sys sta i a trans = some a') :
    Grown a.store a'.store ∧
    ((CheckCondition sta.valvec trans.cond sys.varlist ≠ some 1 ∧ a' = a) ∨
     (CheckCondition sta.valvec trans.cond sys.varlist = some 1 ∧
      ∃ e, edgesList a'.store = edgesList a.store ++ [e] ∧ a.store.get (some e) = none ∧
        EdgeOf sys a'.store sta e (i, trans) ∧
        ∀ x c, a'.store.get (some x) = some c → c.degree = 1 →
          x = e ∨ ∃ c0, a.store.get (some x) = some c0)) := by
  refine ⟨handleTransition_Grown sys sta i a a' trans h, ?_⟩
  rcases handleTransition_effect sys sta i a a' trans h with ⟨g, g1, g2, g3⟩ |
    ⟨locvec, valvec, lbl, act, cl0, l1, tgt, ce, hF⟩
  · left
    refine ⟨?_, g3⟩
    rw [g1]
    intro e
    exact g2 (Option.some.inj e)
  · right
    refine ⟨hF.guard, a.store.cubes.length + 1, ?_, hF.fresh, ?_, ?_⟩
    · rw [edgesList_eq _ _ hF.l1new, edgesList_eq _ _ hF.hl1]
    · obtain ⟨f1, -, -, f4, f5, -, f7⟩ := hF.edgeFrame
      have hcl : ∃ cl0', a'.store.cubelist[0]? = some cl0' ∧ tgt ∈ cl0' := by
        rcases hF.cases with ⟨-, -, c3, -⟩ | ⟨c1, -, c3, -⟩
        · exact ⟨_, c3, by simp⟩
        · exact ⟨_, c3, c1⟩
      obtain ⟨cl0', k1, k2⟩ := hcl
      exact ⟨ce, tgt, act, locvec, valvec, lbl, cl0', hF.edge, by rw [f1]; rfl, by rw [f4]; rfl,
        by rw [f5]; rfl, hF.hact, by rw [f7]; rfl, hF.guard, hF.loc, hF.eff, hF.hlabel, k1, k2,
        hF.tgtLab⟩
    · intro x c hx hd
      rcases hF.low x c hx (by omega) with g | g | g
      · exact Or.inl g
      · subst g
        rcases hF.cases with ⟨-, -, -, -, -, -, cv, c7, c8⟩ | ⟨-, c2, -⟩
        · rw [hx] at c7
          have : c = cv := Option.some.inj c7
          subst this
          omega
        · obtain ⟨c0, hc0, -⟩ := lab_get _ _ _ c2
          exact Or.inr ⟨c0, hc0⟩
      · exact Or.inr g

theorem EdgesFor.edges_step {sys : System} {sta : state} {st : Store} {a a' : Explore}
    {items : List (Nat × transition)} {i : Nat} {trans : transition}
    (hE : EdgesFor sys sta st a.store items)
    (h : handleTransition sys sta i a trans = some a') :
    EdgesFor sys sta st a'.store (items ++ ([trans].filter
      (fun t => decide (CheckCondition sta.valvec t.cond sys.varlist = some 1))).map
      (fun t => (i, t))) := by
  obtain ⟨hG, new, e1, e2, e3, e4, e5⟩ := hE
  obtain ⟨hG', hc⟩ := handleTransition_edge sys sta i a a' trans h
  rcases hc with ⟨hg, rfl⟩ | ⟨hg, e, c1, c2, c3, c4⟩
  · have : ([trans].filter
        (fun t => decide (CheckCondition sta.valvec t.cond sys.varlist = some 1))) = [] := by
      simp [hg]
    rw [this]
    simpa using ⟨hG, new, e1, e2, e3, e4, e5⟩
  · have : ([trans].filter
        (fun t => decide (CheckCondition sta.valvec t.cond sys.varlist = some 1))) = [trans] := by
      simp [hg]
    rw [this]
    refine ⟨hG.grown_trans hG', new ++ [e], ?_, ?_, ?_, ?_, ?_⟩
    · rw [c1, e1, List.append_assoc]
    · rw [List.nodup_append]
      refine ⟨e2, by simp, ?_⟩
      intro x hx hx'
      simp only [List.mem_singleton] at hx'
      subst hx'
      obtain ⟨-, c, hc⟩ := e3 x hx
      rw [hc] at c2
      simp at c2
    · intro x hx
      rcases List.mem_append.1 hx with hx | hx
      · obtain ⟨g1, c, g2⟩ := e3 x hx
        obtain ⟨c', g3, -⟩ := hG'.1 x c g2
        exact ⟨g1, c', g3⟩
      · simp only [List.mem_singleton] at hx
        subst hx
        refine ⟨?_, ?_⟩
        · cases hst : st.get (some x) with
          | none => rfl
          | some c =>
            obtain ⟨c', g3, -⟩ := hG.1 x c hst
            rw [g3] at c2
            simp at c2
        · obtain ⟨ce, _, _, _, _, _, _, g, -⟩ := c3
          exact ⟨ce, g⟩
    · refine List.rel_append (e4.imp (fun _ _ hx => hx.edge_kept hG'.to_kept)) ?_
      simp only [List.map_cons, List.map_nil]
      exact List.Forall₂.cons c3 List.Forall₂.nil
    · intro x c hx hd
      rcases c4 x c hx hd with g | ⟨c0, hc0⟩
      · exact Or.inl (by rw [g]; simp)
      · obtain ⟨c', g1, g2, -⟩ := hG'.1 x c0 hc0
        rw [hx] at g1
        have : c = c' := Option.some.inj g1
        subst this
        rcases e5 x c0 hc0 (by rw [← g2.1]; exact hd) with g | g
        · exact Or.inl (List.mem_append_left _ g)
        · exact Or.inr g

/-- `HandleState` appends to `cubelist[1]` exactly one new cell for every enabled
transition of the state, the edge of this transition, in the order of the loops. -/
theorem HandleState_edges (sys : System) (sta : state) (st : Store) (statelist : List state)
    (a : Explore) (h : HandleState sys sta st statelist = some a) :
    EdgesFor sys sta st a.store (enabled sys sta) := by
  unfold HandleState at h
  have key := loopM_inv_pre _
    (fun (pre : List (Nat × Option Nat)) (b : Explore) =>
      EdgesFor sys sta st b.store (enabledAt sys sta pre))
    sta.locvec.enum [] ?_ _ a ?_ h
  · simpa [enabled] using key
  · intro pp ip q b b' _ hb hf
    split at hf
    · simp at hf
    · rename_i l hl
      have key2 := loopM_inv_pre _
        (fun (pt : List transition) (e : Explore) =>
          EdgesFor sys sta st e.store (enabledAt sys sta pp ++ (pt.filter
            (fun t => decide (CheckCondition sta.valvec t.cond sys.varlist = some 1))).map
            (fun t => (ip.1, t))))
        l.outtranslist [] ?_ _ b' (by simpa using hb) hf
      · simp only [List.nil_append] at key2
        rw [enabledAt_append, enabledAt_single sys sta ip l hl]
        exact key2
      · intro pt t qt e e' _ he hft
        have := he.edges_step hft
        simp only [List.filter_append, List.map_append]
        rw [← List.append_assoc]
        exact this
  · refine ⟨Grown.grown_refl st, [], by simp, by simp, by simp, by simp [enabledAt], ?_⟩
    intro x c hx _
    exact Or.inr ⟨c, hx⟩

/-! ### The run of `MakeHDA` and the states taken from the queue -/

/-- An invariant of the loop of `MakeHDA` that relates the store, the states
taken from the queue and the queue. -/
theorem MakeHDALoopRun_inv (sys : System) (J : Store → List state → List state → Prop)
    (hfin : ∀ st st' done queue p, J st done queue → setFin st p = some st' → J st' done queue)
    (hstep : ∀ st sta queue done a, J st done (sta :: queue) →
      HandleState sys sta st (sta :: queue) = some a → J a.store (done ++ [sta]) a.statelist.tail) :
    ∀ (fuel : Nat) (st : Store) (queue : List state) (dim : Int) (done : List state)
      (x : Store × Int × List state), J st done queue →
      MakeHDALoopRun sys fuel st queue dim done = Outcome.returned x → J x.1 x.2.2 [] := by
  intro fuel
  induction fuel with
  | zero =>
    intro st queue dim done x hJ h
    cases queue with
    | nil =>
      simp only [MakeHDALoopRun, Outcome.returned.injEq] at h
      subst h
      exact hJ
    | cons s q => simp [MakeHDALoopRun] at h
  | succ n ih =>
    intro st queue dim done x hJ h
    cases queue with
    | nil =>
      simp only [MakeHDALoopRun, Outcome.returned.injEq] at h
      subst h
      exact hJ
    | cons sta q =>
      simp only [MakeHDALoopRun] at h
      split at h
      · simp at h
      · split at h
        · simp at h
        · rename_i s1 hs1
          split at h
          · simp at h
          · rename_i a ha
            have h1 : J s1 done (sta :: q) := by
              split at hs1
              · exact hfin _ _ _ _ _ hJ hs1
              · simp only [Option.some.injEq] at hs1
                subst hs1
                exact hJ
            exact ih a.store a.statelist.tail _ (done ++ [sta]) x (hstep _ _ _ _ _ h1 ha) h

/-- The run returns what `MakeHDALoop` returns. -/
theorem MakeHDALoopRun_some (sys : System) :
    ∀ (fuel : Nat) (st : Store) (queue : List state) (dim : Int) (done : List state)
      (r : Store × Int), MakeHDALoop sys fuel st queue dim = some r →
      ∃ tr, MakeHDALoopRun sys fuel st queue dim done = Outcome.returned (r.1, r.2, tr) := by
  intro fuel
  induction fuel with
  | zero =>
    intro st queue dim done r h
    cases queue with
    | nil =>
      simp only [MakeHDALoop, Option.some.injEq] at h
      subst h
      exact ⟨done, by simp [MakeHDALoopRun]⟩
    | cons s q => simp [MakeHDALoop] at h
  | succ n ih =>
    intro st queue dim done r h
    cases queue with
    | nil =>
      simp only [MakeHDALoop, Option.some.injEq] at h
      subst h
      exact ⟨done, by simp [MakeHDALoopRun]⟩
    | cons sta q =>
      simp only [MakeHDALoop] at h
      simp only [MakeHDALoopRun]
      cases h1 : IsFinal sys sta with
      | none => simp [h1] at h
      | some isfinal =>
        simp only [h1] at h ⊢
        cases h2 : (if isfinal ≠ 0 then setFin st sta.cube else some st) with
        | none => simp [h2] at h
        | some s1 =>
          simp only [h2] at h ⊢
          cases h3 : HandleState sys sta s1 (sta :: q) with
          | none => simp [h3] at h
          | some a =>
            simp only [h3] at h ⊢
            exact ih _ _ _ _ r h

theorem MakeHDALoopRun_returned (sys : System) :
    ∀ (fuel : Nat) (st : Store) (queue : List state) (dim : Int) (done : List state)
      (x : Store × Int × List state),
      MakeHDALoopRun sys fuel st queue dim done = Outcome.returned x →
      MakeHDALoop sys fuel st queue dim = some (x.1, x.2.1) := by
  intro fuel
  induction fuel with
  | zero =>
    intro st queue dim done x h
    cases queue with
    | nil =>
      simp only [MakeHDALoopRun, Outcome.returned.injEq] at h
      subst h
      simp [MakeHDALoop]
    | cons s q => simp [MakeHDALoopRun] at h
  | succ n ih =>
    intro st queue dim done x h
    cases queue with
    | nil =>
      simp only [MakeHDALoopRun, Outcome.returned.injEq] at h
      subst h
      simp [MakeHDALoop]
    | cons sta q =>
      simp only [MakeHDALoopRun] at h
      simp only [MakeHDALoop]
      cases h1 : IsFinal sys sta with
      | none => simp [h1] at h
      | some isfinal =>
        simp only [h1] at h ⊢
        cases h2 : (if isfinal ≠ 0 then setFin st sta.cube else some st) with
        | none => simp [h2] at h
        | some s1 =>
          simp only [h2] at h ⊢
          cases h3 : HandleState sys sta s1 (sta :: q) with
          | none => simp [h3] at h
          | some a =>
            simp only [h3] at h ⊢
            exact ih _ _ _ _ x h

/-- How `MakeHDA` and its run start: both meet undefined behaviour before the
loop, or both enter the loop with the store that holds the initial state. -/
theorem MakeHDA_unfold (sys : System) :
    (∀ fuel, MakeHDA fuel sys (initialStore sys) = none ∧
      MakeHDARun fuel sys (initialStore sys) = Outcome.undefined) ∨
    ∃ lbl s1, stateLabel sys (sys.pgvec.map (fun pg => pg.loc_0))
        (sys.varlist.map (fun v => v.initialval)) = some lbl ∧
      ((initialStore sys).alloc { vertexCell 0 lbl with ini := true }).1.addToList 0 0 = some s1 ∧
      ∀ fuel,
        MakeHDA fuel sys (initialStore sys) = MakeHDALoop sys fuel s1
          [{ locvec := sys.pgvec.map (fun pg => pg.loc_0),
             valvec := sys.varlist.map (fun v => v.initialval), cube := 0 }] 0 ∧
        MakeHDARun fuel sys (initialStore sys) = MakeHDALoopRun sys fuel s1
          [{ locvec := sys.pgvec.map (fun pg => pg.loc_0),
             valvec := sys.varlist.map (fun v => v.initialval), cube := 0 }] 0 [] := by
  cases h0 : InitialStates (initialStore sys) sys with
  | none => exact Or.inl (fun fuel => by simp [MakeHDA, MakeHDARun, h0])
  | some r0 =>
    cases hc : CubesOfStates r0.1 r0.2 with
    | none => exact Or.inl (fun fuel => by simp [MakeHDA, MakeHDARun, h0, hc])
    | some s1 =>
      right
      unfold InitialStates at h0
      split at h0
      · simp at h0
      · simp only at h0
        split at h0
        · simp at h0
        · rename_i lbl hlbl
          simp only [Option.some.injEq] at h0
          subst h0
          simp only [CubesOfStates, loopM] at hc
          split at hc
          · simp at hc
          · rename_i s2 hs2
            simp only [Option.some.injEq] at hc
            subst hc
            refine ⟨lbl, s2, hlbl, hs2, ?_⟩
            intro fuel
            constructor
            · unfold MakeHDA InitialStates
              rw [if_neg (by assumption)]
              simp only [hlbl]
              simp only [CubesOfStates, loopM]
              rw [show Store.addToList _ 0 _ = some s2 from hs2]
              rfl
            · unfold MakeHDARun InitialStates
              rw [if_neg (by assumption)]
              simp only [hlbl]
              simp only [CubesOfStates, loopM]
              rw [show Store.addToList _ 0 _ = some s2 from hs2]
              rfl

theorem EInv.einv_kept {sys : System} {st st' : Store} {done : List state} (hE : EInv sys st done)
    (hk : Kept st st') (he : edgesList st' = edgesList st) : EInv sys st' done := by
  obtain ⟨ess, e1, e2, e3, e4⟩ := hE
  refine ⟨ess, by rw [he, e1], e2, ?_, ?_⟩
  · intro e hm
    obtain ⟨c, hc⟩ := e3 e hm
    obtain ⟨c', g, -⟩ := hk.1 e c hc
    exact ⟨c', g⟩
  · exact e4.imp (fun _ _ hx => hx.imp (fun _ _ hy => hy.edge_kept hk))

/-- Handling a state appends the block of the edges of its enabled transitions. -/
theorem HandleState_EInv (sys : System) (sta : state) (st : Store) (statelist done : List state)
    (a : Explore) (hE : EInv sys st done) (h : HandleState sys sta st statelist = some a) :
    EInv sys a.store (done ++ [sta]) := by
  obtain ⟨ess, e1, e2, e3, e4⟩ := hE
  obtain ⟨hG, new, f1, f2, f3, f4, -⟩ := HandleState_edges sys sta st statelist a h
  refine ⟨ess ++ [new], ?_, ?_, ?_, ?_⟩
  · rw [f1, e1]
    simp
  · have : (ess ++ [new]).flatten = ess.flatten ++ new := by simp
    rw [this, List.nodup_append]
    refine ⟨e2, f2, ?_⟩
    intro x hx hx'
    obtain ⟨c, hc⟩ := e3 x hx
    rw [(f3 x hx').1] at hc
    simp at hc
  · intro e hm
    have : (ess ++ [new]).flatten = ess.flatten ++ new := by simp
    rw [this] at hm
    rcases List.mem_append.1 hm with hm | hm
    · obtain ⟨c, hc⟩ := e3 e hm
      obtain ⟨c', g, -⟩ := hG.1 e c hc
      exact ⟨c', g⟩
    · exact (f3 e hm).2
  · refine List.rel_append (e4.imp (fun _ _ hx => hx.imp (fun _ _ hy => hy.edge_kept hG.to_kept))) ?_
    exact List.Forall₂.cons f4 List.Forall₂.nil

theorem EInv_start (sys : System) (lbl : String) (s1 : Store)
    (h1 : ((initialStore sys).alloc { vertexCell 0 lbl with ini := true }).1.addToList 0 0
      = some s1) : EInv sys s1 [] := by
  obtain ⟨-, l, -, -, a4⟩ := addToList_lists _ _ _ _ h1
  refine ⟨[], ?_, by simp, by simp, List.Forall₂.nil⟩
  have := a4 1 (by omega)
  simp only [edgesList, this, Store.alloc, initialStore, List.flatten_nil]
  rw [List.getElem?_replicate]
  split <;> rfl

/-- The exploration invariant and the account of the edges hold for the states
that a run of `MakeHDA` has taken from the queue. -/
theorem MakeHDARun_invs (fuel : Nat) (sys : System) (x : Store × Int × List state)
    (h : MakeHDARun fuel sys (initialStore sys) = Outcome.returned x) :
    MakeHDA fuel sys (initialStore sys) = some (x.1, x.2.1) ∧
    BInv sys x.1 x.2.2 [] ∧ EInv sys x.1 x.2.2 := by
  rcases MakeHDA_unfold sys with hu | ⟨lbl, s1, hlbl, hs1, hu⟩
  · rw [(hu fuel).2] at h
    simp at h
  · rw [(hu fuel).2] at h
    rw [(hu fuel).1]
    refine ⟨MakeHDALoopRun_returned sys fuel _ _ _ _ x h, ?_⟩
    refine MakeHDALoopRun_inv sys (fun st done queue => BInv sys st done queue ∧ EInv sys st done)
      ?_ ?_ fuel s1 _ 0 [] x ⟨BInv_start sys lbl s1 hlbl hs1, EInv_start sys lbl s1 hs1⟩ h
    · intro st st' done queue p hJ hfin
      refine ⟨hJ.1.binv_congr (by rw [(setFin_get _ _ _ hfin).1]) (setFin_lab _ _ _ hfin), ?_⟩
      exact hJ.2.einv_kept (setFin_kept _ _ _ hfin) (by simp [edgesList, (setFin_get _ _ _ hfin).1])
    · intro st sta queue done a hJ ha
      obtain ⟨new, g1, g2⟩ := HandleState_BInv sys sta st queue done a hJ.1 ha
      rw [g1, List.tail_cons]
      exact ⟨g2, HandleState_EInv sys sta st _ done a hJ.2 ha⟩

theorem MakeHDARun_of_some (fuel : Nat) (sys : System) (r : Store × Int)
    (h : MakeHDA fuel sys (initialStore sys) = some r) :
    ∃ tr, MakeHDARun fuel sys (initialStore sys) = Outcome.returned (r.1, r.2, tr) := by
  rcases MakeHDA_unfold sys with hu | ⟨lbl, s1, -, -, hu⟩
  · rw [(hu fuel).1] at h
    simp at h
  · rw [(hu fuel).1] at h
    rw [(hu fuel).2]
    exact MakeHDALoopRun_some sys fuel _ _ _ [] r h

/-- C15: the cubes of degree 1 correspond to the pairs of a state that is taken
from the queue and an enabled transition. A call of `HandleState` for the state
`sta` appends to `cubelist[1]`, for every process `i` and every transition `t` in
the list of the location of `i` at `sta` whose guard evaluates to 1 (in the order
of the loops), exactly one new cell, different from the others: a cube of degree 1
with `d[0][0]` the cube of `sta`, `d[1][0]` the member of `cubelist[0]` that
carries the label of the successor state, and the label (action id of `t`, `i`);
every other cube of degree 1 in the store was there before the call. In the
complex that `MakeHDA` returns, `cubelist[1]` consists of one such block for every
state `tr` that was taken from the queue, has no member twice, and its members
are all the cubes of degree 1. -/
theorem MakeHDA_transitions (fuel : Nat) (sys : System) (r : Store × Int)
    (h : MakeHDA fuel sys (initialStore sys) = some r) :
    (∀ (sta : state) (st : Store) (statelist : List state) (a : Explore),
      HandleState sys sta st statelist = some a →
      EdgesFor sys sta st a.store (enabled sys sta)) ∧
    ∃ tr ess, MakeHDARun fuel sys (initialStore sys) = Outcome.returned (r.1, r.2, tr) ∧
      r.1.cubelist[0]? = some (tr.map (fun s => s.cube)) ∧
      (∀ s, s ∈ tr → ∃ lbl, stateLabel sys s.locvec s.valvec = some lbl ∧
        r.1.lab (some s.cube) = some (some [⟨lbl, -1⟩])) ∧
      edgesList r.1 = ess.flatten ∧ ess.flatten.Nodup ∧
      (∀ x, x ∈ ess.flatten ↔ ∃ c, r.1.get (some x) = some c ∧ c.degree = 1) ∧
      List.Forall₂ (fun es sta => List.Forall₂ (EdgeOf sys r.1 sta) es (enabled sys sta))
        ess tr := by
  refine ⟨fun sta st statelist a ha => HandleState_edges sys sta st statelist a ha, ?_⟩
  obtain ⟨tr, htr⟩ := MakeHDARun_of_some fuel sys r h
  obtain ⟨-, hB, ess, e1, e2, e3, e4⟩ := MakeHDARun_invs fuel sys _ htr
  have hI := MakeHDA_Inv fuel sys r h
  simp only at hB e1 e3 e4
  refine ⟨tr, ess, htr, by simpa using hB.cl0, ?_, e1, e2, ?_, e4⟩
  · intro s hs
    exact (hB.recs s (by simpa using hs)).2
  · intro x
    constructor
    · intro hx
      rw [← e1] at hx
      cases hl : r.1.cubelist[1]? with
      | none => simp [edgesList, hl] at hx
      | some l =>
        simp only [edgesList, hl, Option.getD_some] at hx
        exact hI.listed 1 l x hl hx
    · rintro ⟨c, hc, hd⟩
      obtain ⟨l, hl, hx⟩ := hI.listedAll x c hc (by omega)
      rw [hd] at hl
      rw [← e1]
      simpa [edgesList, hl] using hx

theorem MakeHDA_transitions_witness :
    ∃ st : Store, MakeHDA 4 twoProcesses (initialStore twoProcesses) = some (st, 2) ∧
      ∃ tr ess, MakeHDARun 4 twoProcesses (initialStore twoProcesses)
          = Outcome.returned (st, 2, tr) ∧
        st.cubelist[0]? = some (tr.map (fun s => s.cube)) ∧
        (∀ s, s ∈ tr → ∃ lbl, stateLabel twoProcesses s.locvec s.valvec = some lbl ∧
          st.lab (some s.cube) = some (some [⟨lbl, -1⟩])) ∧
        edgesList st = ess.flatten ∧ ess.flatten.Nodup ∧
        (∀ x, x ∈ ess.flatten ↔ ∃ c, st.get (some x) = some c ∧ c.degree = 1) ∧
        List.Forall₂
          (fun es sta => List.Forall₂ (EdgeOf twoProcesses st sta) es (enabled twoProcesses sta))
          ess tr := by
  obtain ⟨st, h1, -, -, -⟩ := report_mono _ _ _ 0 _ twoProcesses_run
  exact ⟨st, h1, (MakeHDA_transitions 4 twoProcesses (st, 2) h1).2⟩

/-! ### Termination -/

theorem MergeLists_append {α : Type} [DecidableEq α] (A p q : List α)
    (cmp : Option (α → α → Int)) :
    MergeLists A (p ++ q) cmp = MergeLists (MergeLists A p cmp) q cmp := by
  simp [MergeLists, List.foldl_append]

theorem MergeLists_single {α : Type} [DecidableEq α] (M : List α) (b : α)
    (cmp : Option (α → α → Int)) :
    ((∃ a, a ∈ M ∧ mergeEq cmp b a) ∧ MergeLists M [b] cmp = M) ∨
    ((∀ a, a ∈ M → ¬ mergeEq cmp b a) ∧ MergeLists M [b] cmp = M ++ [b]) := by
  cases cmp with
  | none =>
    simp only [MergeLists, List.foldl_cons, List.foldl_nil, mergeEq, InsertElement]
    by_cases h : ∃ a, a ∈ M ∧ b = a
    · left
      refine ⟨h, ?_⟩
      rw [if_pos]
      simpa [List.any_eq_true] using h
    · right
      refine ⟨fun a ha e => h ⟨a, ha, e⟩, ?_⟩
      rw [if_neg]
      simpa [List.any_eq_true] using h
  | some c =>
    simp only [MergeLists, List.foldl_cons, List.foldl_nil, mergeEq, InsertElement]
    by_cases h : ∃ a, a ∈ M ∧ c b a = 0
    · left
      refine ⟨h, ?_⟩
      rw [if_pos]
      simpa [List.any_eq_true] using h
    · right
      refine ⟨fun a ha e => h ⟨a, ha, e⟩, ?_⟩
      rw [if_neg]
      simpa [List.any_eq_true] using h

/-- What `MergeLists` leaves in `*list1`, by induction on `list2` from its end. -/
theorem MergeLists_facts {α : Type} [DecidableEq α] (A : List α) (cmp : Option (α → α → Int)) :
    ∀ B : List α, ∃ new, MergeLists A B cmp = A ++ new ∧ new.Sublist B ∧
      (∀ x, x ∈ B → x ∈ MergeLists A B cmp ∨ ∃ r, r ∈ MergeLists A B cmp ∧ mergeEq cmp x r) ∧
      (A.Pairwise (fun a b => ¬ mergeEq cmp b a) →
        (MergeLists A B cmp).Pairwise (fun a b => ¬ mergeEq cmp b a)) := by
  intro B
  induction B using List.reverseRecOn with
  | nil => exact ⟨[], by simp [MergeLists], List.Sublist.refl _, by simp, by simp [MergeLists]⟩
  | append_singleton p b ih =>
    obtain ⟨new, h1, h2, h3, h4⟩ := ih
    rw [MergeLists_append]
    rcases MergeLists_single (MergeLists A p cmp) b cmp with ⟨⟨a, ha, hab⟩, e⟩ | ⟨hno, e⟩
    · rw [e]
      refine ⟨new, h1, ?_, ?_, h4⟩
      · exact h2.trans (List.sublist_append_left p [b])
      · intro x hx
        rcases List.mem_append.1 hx with hx | hx
        · exact h3 x hx
        · simp only [List.mem_singleton] at hx
          subst hx
          exact Or.inr ⟨a, ha, hab⟩
    · rw [e]
      refine ⟨new ++ [b], by rw [h1, List.append_assoc], ?_, ?_, ?_⟩
      · exact List.Sublist.append h2 (List.Sublist.refl _)
      · intro x hx
        rcases List.mem_append.1 hx with hx | hx
        · rcases h3 x hx with g | ⟨r, g1, g2⟩
          · exact Or.inl (List.mem_append_left _ g)
          · exact Or.inr ⟨r, List.mem_append_left _ g1, g2⟩
        · simp only [List.mem_singleton] at hx
          subst hx
          exact Or.inl (by simp)
      · intro hA
        rw [List.pairwise_append]
        refine ⟨h4 hA, by simp, ?_⟩
        intro a ha x hx
        simp only [List.mem_singleton] at hx
        subst hx
        exact hno a ha

/-- C21: `MergeLists(A, B, cmp)` acts as a union. The result is `A` followed by a
sublist of `B`: going through `B` in its order, an element is appended exactly
if it is not equal (`cmp(b, a) == 0`, or the same pointer when `cmp` is `NULL`)
to any element that is in the result at that time. Every element of the result
is an element of `A` or of `B`, and every element of `A` or of `B` is in the
result or equal to an element of the result; so, when the equality is
transitive, an element is equal to one of the result iff it is equal to one of
`A` or of `B`, and with pointer identity the elements of the result are those of
`A` and of `B`. If no element of `A` is equal to an earlier one, the same holds
for the result; with pointer identity, the result has no element twice if `A`
has none. -/
theorem MergeLists_spec {α : Type} [DecidableEq α] (A B : List α)
    (cmp : Option (α → α → Int)) :
    (∃ new, MergeLists A B cmp = A ++ new ∧ new.Sublist B) ∧
    (∀ p b q, B = p ++ b :: q →
      MergeLists A B cmp = MergeLists (MergeLists A (p ++ [b]) cmp) q cmp ∧
      (((∃ a, a ∈ MergeLists A p cmp ∧ mergeEq cmp b a) ∧
          MergeLists A (p ++ [b]) cmp = MergeLists A p cmp) ∨
       ((∀ a, a ∈ MergeLists A p cmp → ¬ mergeEq cmp b a) ∧
          MergeLists A (p ++ [b]) cmp = MergeLists A p cmp ++ [b]))) ∧
    (∀ x, x ∈ MergeLists A B cmp → x ∈ A ∨ x ∈ B) ∧
    (∀ x, x ∈ A ∨ x ∈ B →
      x ∈ MergeLists A B cmp ∨ ∃ r, r ∈ MergeLists A B cmp ∧ mergeEq cmp x r) ∧
    ((∀ x y z, mergeEq cmp x y → mergeEq cmp y z → mergeEq cmp x z) →
      ∀ x, (∃ r, r ∈ MergeLists A B cmp ∧ mergeEq cmp x r) ↔
        ∃ y, (y ∈ A ∨ y ∈ B) ∧ mergeEq cmp x y) ∧
    (cmp = none → ∀ x, x ∈ MergeLists A B cmp ↔ x ∈ A ∨ x ∈ B) ∧
    (A.Pairwise (fun a b => ¬ mergeEq cmp b a) →
      (MergeLists A B cmp).Pairwise (fun a b => ¬ mergeEq cmp b a)) ∧
    (cmp = none → A.Nodup → (MergeLists A B cmp).Nodup) := by
  obtain ⟨new, h1, h2, h3, h4⟩ := MergeLists_facts A cmp B
  have hsub : ∀ x, x ∈ MergeLists A B cmp → x ∈ A ∨ x ∈ B := by
    intro x hx
    rw [h1] at hx
    rcases List.mem_append.1 hx with hx | hx
    · exact Or.inl hx
    · exact Or.inr (h2.subset hx)
  have hsup : ∀ x, x ∈ A ∨ x ∈ B →
      x ∈ MergeLists A B cmp ∨ ∃ r, r ∈ MergeLists A B cmp ∧ mergeEq cmp x r := by
    intro x hx
    rcases hx with hx | hx
    · exact Or.inl (by rw [h1]; exact List.mem_append_left _ hx)
    · exact h3 x hx
  refine ⟨⟨new, h1, h2⟩, ?_, hsub, hsup, ?_, ?_, h4, ?_⟩
  · intro p b q hB
    refine ⟨?_, ?_⟩
    · rw [← MergeLists_append, hB]
      simp
    · rw [MergeLists_append]
      exact MergeLists_single _ b cmp
  · intro htr x
    constructor
    · rintro ⟨r, hr, hxr⟩
      exact ⟨r, hsub r hr, hxr⟩
    · rintro ⟨y, hy, hxy⟩
      rcases hsup y hy with g | ⟨r, g1, g2⟩
      · exact ⟨y, g, hxy⟩
      · exact ⟨r, g1, htr x y r hxy g2⟩
  · intro hc x
    subst hc
    constructor
    · exact hsub x
    · intro hx
      rcases hsup x hx with g | ⟨r, g1, g2⟩
      · exact g
      · have : x = r := g2
        rw [this]
        exact g1
  · intro hc hA
    subst hc
    have : (MergeLists A B none).Pairwise (fun a b => ¬ mergeEq none b a) :=
      h4 (hA.imp (fun h e => h e.symm))
    exact this.imp (fun h e => h e.symm)

theorem MergeLists_spec_witness :
    MergeLists [1, 2, 3] [3, 4, 1, 4, 5] none = [1, 2, 3, 4, 5] ∧
    (MergeLists [1, 2, 3] [3, 4, 1, 4, 5] none).Nodup ∧
    ∀ x, x ∈ MergeLists [1, 2, 3] [3, 4, 1, 4, 5] none ↔ x ∈ [1, 2, 3] ∨ x ∈ [3, 4, 1, 4, 5] :=
  ⟨by decide,
   (MergeLists_spec [1, 2, 3] [3, 4, 1, 4, 5] none).2.2.2.2.2.2.2 rfl (by decide),
   (MergeLists_spec [1, 2, 3] [3, 4, 1, 4, 5] none).2.2.2.2.2.1 rfl⟩

/-! ### `Labcmp` -/

/-- C22: `Labcmp(l1, l2)` returns 0 iff both labels exist and have equal
strings and equal integers; it returns -1 when one of the labels is `NULL`, and 1
when both exist and the strings or the integers differ. On labels that exist,
`Labcmp = 0` is reflexive, symmetric and transitive. -/
theorem Labcmp_spec :
    (∀ l1 l2, Labcmp l1 l2 = 0 ↔
      ∃ a b, l1 = some a ∧ l2 = some b ∧ a.str = b.str ∧ a.num = b.num) ∧
    (∀ l1 l2, (l1 = none ∨ l2 = none) → Labcmp l1 l2 = -1) ∧
    (∀ a b : label, (a.str ≠ b.str ∨ a.num ≠ b.num) → Labcmp (some a) (some b) = 1) ∧
    (∀ l1 l2, Labcmp l1 l2 = 0 ∨ Labcmp l1 l2 = 1 ∨ Labcmp l1 l2 = -1) ∧
    (∀ a : label, Labcmp (some a) (some a) = 0) ∧
    (∀ a b : label, Labcmp (some a) (some b) = 0 → Labcmp (some b) (some a) = 0) ∧
    (∀ a b c : label, Labcmp (some a) (some b) = 0 → Labcmp (some b) (some c) = 0 →
      Labcmp (some a) (some c) = 0) := by
  have key : ∀ a b : label, Labcmp (some a) (some b) = 0 ↔ a.str = b.str ∧ a.num = b.num := by
    intro a b
    simp only [Labcmp]
    by_cases h : a.str ≠ b.str ∨ a.num ≠ b.num
    · rw [if_pos h]
      constructor
      · intro e; omega
      · rintro ⟨e1, e2⟩
        rcases h with h | h
        · exact absurd e1 h
        · exact absurd e2 h
    · rw [if_neg h]
      push_neg at h
      simp [h.1, h.2]
  refine ⟨?_, ?_, ?_, ?_, ?_, ?_, ?_⟩
  · intro l1 l2
    cases l1 with
    | none => simp [Labcmp]
    | some a =>
      cases l2 with
      | none => simp [Labcmp]
      | some b =>
        rw [key]
        constructor
        · intro h
          exact ⟨a, b, rfl, rfl, h.1, h.2⟩
        · rintro ⟨a', b', e1, e2, h1, h2⟩
          cases e1
          cases e2
          exact ⟨h1, h2⟩
  · intro l1 l2 h
    rcases h with h | h
    · subst h
      simp [Labcmp]
    · subst h
      cases l1 <;> simp [Labcmp]
  · intro a b h
    simp only [Labcmp]
    rw [if_pos h]
  · intro l1 l2
    cases l1 with
    | none => simp [Labcmp]
    | some a =>
      cases l2 with
      | none => simp [Labcmp]
      | some b =>
        simp only [Labcmp]
        split
        · exact Or.inr (Or.inl rfl)
        · exact Or.inl rfl
  · intro a
    exact (key a a).2 ⟨rfl, rfl⟩
  · intro a b h
    have := (key a b).1 h
    exact (key b a).2 ⟨this.1.symm, this.2.symm⟩
  · intro a b c h1 h2
    have g1 := (key a b).1 h1
    have g2 := (key b c).1 h2
    exact (key a c).2 ⟨g1.1.trans g2.1, g1.2.trans g2.2⟩

/-! ### `BdIdsOK` returns, and what it returns -/

theorem mem_bdQuads_iff (deg : Nat) (q : Nat × Nat × Nat × Nat) :
    q ∈ bdQuads deg ↔ q.1 < q.2.1 ∧ q.2.1 < deg ∧ q.2.2.1 < 2 ∧ q.2.2.2 < 2 := by
  constructor
  · intro h
    simp only [bdQuads, List.mem_flatMap, List.mem_range, List.mem_range'] at h
    obtain ⟨i, hi, j, ⟨m, hm, rfl⟩, hq⟩ := h
    simp only [List.mem_cons, List.mem_singleton, List.not_mem_nil, or_false] at hq
    rcases hq with rfl | rfl | rfl | rfl <;> simp <;> omega
  · intro h
    obtain ⟨i, j, k, l⟩ := q
    exact mem_bdQuads deg i j k l h.1 h.2.1 h.2.2.1 h.2.2.2

theorem bdLoop_total (st : Store) (d0 d1 : List (Option Nat)) :
    ∀ (qs : List (Nat × Nat × Nat × Nat)),
      (∀ q, q ∈ qs → ∃ b, bdDiffer st d0 d1 q = some b) →
      ∃ b, bdLoop st d0 d1 qs = some b ∧
        (b = true ↔ ∀ q, q ∈ qs → bdDiffer st d0 d1 q = some false) := by
  intro qs
  induction qs with
  | nil => intro _; exact ⟨true, rfl, by simp⟩
  | cons a qs ih =>
    intro h
    obtain ⟨b, hb, hiff⟩ := ih (fun q hq => h q (List.mem_cons_of_mem _ hq))
    obtain ⟨ba, hba⟩ := h a (List.mem_cons_self _ _)
    cases ba with
    | true =>
      refine ⟨false, by simp [bdLoop, hba], ?_⟩
      constructor
      · intro e; cases e
      · intro hall
        have := hall a (List.mem_cons_self _ _)
        rw [hba] at this
        simp at this
    | false =>
      refine ⟨b, by simp [bdLoop, hba, hb], ?_⟩
      rw [hiff]
      constructor
      · intro hall q hq
        rcases List.mem_cons.1 hq with rfl | hq
        · exact hba
        · exact hall q hq
      · intro hall q hq
        exact hall q (List.mem_cons_of_mem _ hq)

/-- C29: for a cube `c` of degree `d >= 2` all of whose `2d` boundary faces are
stored cubes of degree `d - 1` (with boundary arrays of this length),
`BdIdsOK(c)` returns, and it returns 1 iff
`c.d[k][i].d[l][j-1] = c.d[l][j].d[k][i]` for all `i < j < d` and all `k`, `l` in
`{0, 1}`, and 0 otherwise. -/
theorem BdIdsOK_spec (st : Store) (c : cube) (_hd : 2 ≤ c.degree)
    (hfaces : ∀ k i, k < 2 → i < c.degree →
      ∃ f cf, c.d k i = some (some f) ∧ st.get (some f) = some cf ∧
        cf.degree + 1 = c.degree ∧ cf.d0.length = cf.degree ∧ cf.d1.length = cf.degree) :
    ∃ b, BdIdsOK st c.degree c.d0 c.d1 = some b ∧
      (b = true ↔ ∀ i j k l, i < j → j < c.degree → k < 2 → l < 2 →
        ∃ f g, c.d k i = some (some f) ∧ c.d l j = some (some g) ∧
          st.bd (some f) l (j - 1) = st.bd (some g) k i) ∧
      (b = false ↔ ∃ i j k l, i < j ∧ j < c.degree ∧ k < 2 ∧ l < 2 ∧
        ∃ f g, c.d k i = some (some f) ∧ c.d l j = some (some g) ∧
          st.bd (some f) l (j - 1) ≠ st.bd (some g) k i) := by
  -- every test of the loops is defined
  have hread : ∀ (f : Nat) (cf : cube) (l m : Nat), st.get (some f) = some cf →
      cf.d0.length = cf.degree → cf.d1.length = cf.degree → l < 2 → m < cf.degree →
      ∃ a, st.bd (some f) l m = some a := by
    intro f cf l m hf h0 h1 hl hm
    simp only [Store.bd, hf]
    have hl' : l = 0 ∨ l = 1 := by omega
    rcases hl' with rfl | rfl
    · exact ⟨cf.d0[m], List.getElem?_eq_getElem (by omega)⟩
    · exact ⟨cf.d1[m], List.getElem?_eq_getElem (by omega)⟩
  have hval : ∀ i j k l, i < j → j < c.degree → k < 2 → l < 2 →
      ∃ f g a b', c.d k i = some (some f) ∧ c.d l j = some (some g) ∧
        st.bd (some f) l (j - 1) = some a ∧ st.bd (some g) k i = some b' ∧
        bdDiffer st c.d0 c.d1 (i, j, k, l) = some (decide (a ≠ b')) := by
    intro i j k l hij hj hk hl
    obtain ⟨f, cf, f1, f2, f3, f4, f5⟩ := hfaces k i hk (by omega)
    obtain ⟨g, cg, g1, g2, g3, g4, g5⟩ := hfaces l j hl hj
    obtain ⟨a, ha⟩ := hread f cf l (j - 1) f2 f4 f5 hl (by omega)
    obtain ⟨b', hb'⟩ := hread g cg k i g2 g4 g5 hk (by omega)
    refine ⟨f, g, a, b', f1, g1, ha, hb', ?_⟩
    simp only [bdDiffer]
    rw [row_eq_d c k i hk, row_eq_d c l j hl, f1, g1]
    simp only [ha, hb']
  obtain ⟨b, hb, hiff⟩ := bdLoop_total st c.d0 c.d1 (bdQuads c.degree) (by
    intro q hq
    obtain ⟨i, j, k, l⟩ := q
    obtain ⟨h1, h2, h3, h4⟩ := (mem_bdQuads_iff c.degree _).1 hq
    obtain ⟨f, g, a, b', -, -, -, -, e⟩ := hval i j k l h1 h2 h3 h4
    exact ⟨_, e⟩)
  have hmain : b = true ↔ ∀ i j k l, i < j → j < c.degree → k < 2 → l < 2 →
      ∃ f g, c.d k i = some (some f) ∧ c.d l j = some (some g) ∧
        st.bd (some f) l (j - 1) = st.bd (some g) k i := by
    rw [hiff]
    constructor
    · intro hall i j k l hij hj hk hl
      obtain ⟨f, g, a, b', e1, e2, e3, e4, e5⟩ := hval i j k l hij hj hk hl
      have := hall (i, j, k, l) (mem_bdQuads c.degree i j k l hij hj hk hl)
      rw [e5] at this
      refine ⟨f, g, e1, e2, ?_⟩
      rw [e3, e4]
      simpa using this
    · intro hall q hq
      obtain ⟨i, j, k, l⟩ := q
      obtain ⟨h1, h2, h3, h4⟩ := (mem_bdQuads_iff c.degree _).1 hq
      obtain ⟨f, g, a, b', e1, e2, e3, e4, e5⟩ := hval i j k l h1 h2 h3 h4
      obtain ⟨f', g', e1', e2', e'⟩ := hall i j k l h1 h2 h3 h4
      rw [e1] at e1'
      rw [e2] at e2'
      cases e1'
      cases e2'
      rw [e3, e4] at e'
      rw [e5]
      simpa using e'
  refine ⟨b, hb, hmain, ?_⟩
  constructor
  · intro hbf
    by_contra hcon
    push_neg at hcon
    have : b = true := hmain.2 (by
      intro i j k l hij hj hk hl
      obtain ⟨f, g, a, b', e1, e2, -, -, -⟩ := hval i j k l hij hj hk hl
      exact ⟨f, g, e1, e2, hcon i j k l hij hj hk hl f g e1 e2⟩)
    rw [hbf] at this
    cases this
  · rintro ⟨i, j, k, l, hij, hj, hk, hl, f, g, e1, e2, hne⟩
    cases hbt : b with
    | false => rfl
    | true =>
      obtain ⟨f', g', e1', e2', e'⟩ := hmain.1 hbt i j k l hij hj hk hl
      rw [e1] at e1'
      rw [e2] at e2'
      cases e1'
      cases e2'
      exact absurd e' hne

theorem BdIdsOK_spec_witness :
    ∃ c, unitSquare.get (some 8) = some c ∧ c.degree = 2 ∧
      ∃ b, BdIdsOK unitSquare c.degree c.d0 c.d1 = some b ∧
        (b = true ↔ ∀ i j k l, i < j → j < c.degree → k < 2 → l < 2 →
          ∃ f g, c.d k i = some (some f) ∧ c.d l j = some (some g) ∧
            unitSquare.bd (some f) l (j - 1) = unitSquare.bd (some g) k i) ∧
        (b = false ↔ ∃ i j k l, i < j ∧ j < c.degree ∧ k < 2 ∧ l < 2 ∧
          ∃ f g, c.d k i = some (some f) ∧ c.d l j = some (some g) ∧
            unitSquare.bd (some f) l (j - 1) ≠ unitSquare.bd (some g) k i) := by
  refine ⟨{ NewCube 2 8 with d0 := [some 5, some 4], d1 := [some 6, some 7],
                             edges := [some 4, some 5] }, rfl, rfl, ?_⟩
  refine BdIdsOK_spec unitSquare _ (by decide) ?_
  intro k i hk hi
  have hi' : i < 2 := hi
  interval_cases k <;> interval_cases i
  · exact ⟨5, _, rfl, rfl, rfl, rfl, rfl⟩
  · exact ⟨4, _, rfl, rfl, rfl, rfl, rfl⟩
  · exact ⟨6, _, rfl, rfl, rfl, rfl, rfl⟩
  · exact ⟨7, _, rfl, rfl, rfl, rfl, rfl⟩

/-! ### `NextState` -/

/-- C26: `NextState(sta, trans, pid)` returns `NULL` iff the guard of `trans`
does not evaluate to 1 on the values of `sta`. Otherwise it returns a new state:
its location vector is that of `sta` but for the entry `pid`, which is the target
location of `trans`; its values are the effect of the action of `trans` on the
values of `sta`; its cube is a new cell of degree 0 with both flags cleared, with
no faces and no cofaces, and with the label of the state; every other cell and
the per-degree collections are as they were. The call returns in both cases
whenever the guard, the location vector, the effect and the label are defined. -/
theorem NextState_result (st : Store) (sys : System) (sta : state) (trans : transition)
    (pid : Nat) :
    (∀ r, NextState st sys sta trans pid = some r →
      (r = none ↔ CheckCondition sta.valvec trans.cond sys.varlist ≠ some 1)) ∧
    (∀ g, CheckCondition sta.valvec trans.cond sys.varlist = some g → g ≠ 1 →
      NextState st sys sta trans pid = some none) ∧
    (∀ locvec valvec lbl, CheckCondition sta.valvec trans.cond sys.varlist = some 1 →
      setAt sta.locvec pid trans.loc1 = some locvec →
      Effect trans.act sta.valvec sys.varlist = some valvec →
      stateLabel sys locvec valvec = some lbl →
      ∃ s1 s', NextState st sys sta trans pid = some (some (s1, s'))) ∧
    (∀ s1 s', NextState st sys sta trans pid = some (some (s1, s')) →
      s'.locvec.length = sta.locvec.length ∧ pid < sta.locvec.length ∧
      s'.locvec[pid]? = some trans.loc1 ∧
      (∀ j, j ≠ pid → s'.locvec[j]? = sta.locvec[j]?) ∧
      Effect trans.act sta.valvec sys.varlist = some s'.valvec ∧
      st.get (some s'.cube) = none ∧
      (∃ c lbl, s1.get (some s'.cube) = some c ∧ c.degree = 0 ∧ c.ini = false ∧ c.fin = false ∧
        c.d0 = [] ∧ c.d1 = [] ∧ c.s0 = [[]] ∧ c.s1 = [[]] ∧
        stateLabel sys s'.locvec s'.valvec = some lbl ∧ c.lab = some [⟨lbl, -1⟩]) ∧
      (∀ y, y ≠ s'.cube → s1.get (some y) = st.get (some y)) ∧
      s1.cubelist = st.cubelist) := by
  refine ⟨?_, ?_, ?_, ?_⟩
  · intro r h
    rcases NextState_cases st sys sta trans pid r h with ⟨g, g1, g2, g3⟩ |
      ⟨locvec, valvec, lbl, g1, -, -, -, g5⟩
    · rw [g1, g3]
      simp only [true_iff]
      intro e
      exact g2 (Option.some.inj e)
    · rw [g1, g5]
      simp
  · intro g hg hg1
    simp [NextState, hg, hg1]
  · intro locvec valvec lbl hg hl hv hs
    simp [NextState, hg, hl, hv, hs]
  · intro s1 s' h
    rcases NextState_cases st sys sta trans pid _ h with ⟨g, -, -, g3⟩ |
      ⟨locvec, valvec, lbl, -, g2, g3, g4, g5⟩
    · simp at g3
    · simp only [Option.some.injEq, Prod.mk.injEq] at g5
      obtain ⟨rfl, rfl⟩ := g5
      simp only
      unfold setAt at g2
      split at g2
      · rename_i hlt
        simp only [Option.some.injEq] at g2
        subst g2
        have hfresh : st.get (some st.cubes.length) = none := by
          simp only [Store.get]
          rw [List.getElem?_eq_none (Nat.le_refl _)]
          rfl
        refine ⟨by simp, hlt, by simp [hlt], ?_, g3, hfresh, ?_, ?_, rfl⟩
        · intro j hj
          rw [List.getElem?_set_ne (fun e => hj e.symm)]
        · refine ⟨vertexCell st.cubes.length lbl, lbl, ?_, rfl, rfl, rfl, rfl, rfl, rfl, rfl,
            g4, rfl⟩
          rw [alloc_get, if_pos rfl]
        · intro y hy
          rw [alloc_get, if_neg hy]
      · simp at g2

/-! ### The label vectors of the cubes -/

/-- The label vectors stay as the invariant `LabOK` says when every cell of the
new store is a cell of the old one with the same degree and label vector, or is
a cell as `LabOK` wants it. -/
theorem LabOK_step {s s' : Store} (hL : LabOK s)
    (h : ∀ x c', s'.get (some x) = some c' →
      (∃ c, s.get (some x) = some c ∧ c.degree = c'.degree ∧ c.lab = c'.lab) ∨
      ((c'.degree < 2 → ∃ l, c'.lab = some [l]) ∧ (2 ≤ c'.degree → c'.lab = none))) :
    LabOK s' := by
  intro x c' hx
  rcases h x c' hx with ⟨c, g1, g2, g3⟩ | g
  · rw [← g2, ← g3]
    exact hL x c g1
  · exact g

theorem LabOK_link {s s' : Store} {c : cube} (hL : LabOK s) (h : s.link c = some s')
    (hc : (c.degree < 2 → ∃ l, c.lab = some [l]) ∧ (2 ≤ c.degree → c.lab = none)) :
    LabOK s' := by
  refine LabOK_step hL ?_
  intro x c' hx
  rcases (link_spec s s' c h).cases x c' hx with ⟨-, rfl⟩ | ⟨c0, g1, g2, -⟩
  · exact Or.inr hc
  · exact Or.inl ⟨c0, g1, g2.1.symm, g2.2.2.2.2.2.2.symm⟩

theorem FillCubes_LabOK (st : Store) (edge : Nat) (r : Store × Int) (hL : LabOK st)
    (h : FillCubes st edge = some r) : LabOK r.1 :=
  FillCubes_storeRel_lab (fun s s' => LabOK s → LabOK s') (fun _ h => h)
    (fun _ _ _ h1 h2 h => h2 (h1 h))
    (fun _ c _ hc hn hl hL => LabOK_link hL hl ⟨fun h => by omega, fun _ => hn⟩) st edge r h hL

theorem handleTransition_LabOK (sys : System) (sta : state) (i : Nat) (a a' : Explore)
    (trans : transition) (hL : LabOK a.store)
    (h : handleTransition sys sta i a trans = some a') : LabOK a'.store := by
  rcases handleTransition_cases sys sta i a a' trans h with ⟨g, -, -, rfl⟩ |
    ⟨locvec, valvec, lbl, act, cl0, found, s3, -, -, -, -, -, hcl0, -, hcase⟩
  · exact hL
  · have hedge : ∀ tgt, ((edgeCell (a.store.cubes.length + 1) sta.cube tgt act.id i).degree < 2 →
          ∃ l, (edgeCell (a.store.cubes.length + 1) sta.cube tgt act.id i).lab = some [l]) ∧
        (2 ≤ (edgeCell (a.store.cubes.length + 1) sta.cube tgt act.id i).degree →
          (edgeCell (a.store.cubes.length + 1) sta.cube tgt act.id i).lab = none) := by
      intro tgt
      refine ⟨fun _ => ⟨_, rfl⟩, fun h => ?_⟩
      simp [edgeCell_degree] at h
    rcases hcase with ⟨-, h3, s4, h4, rfl⟩ | ⟨cpc, -, h3, r, h4, rfl⟩
    · have h1 : LabOK (a.store.alloc (vertexCell a.store.cubes.length lbl)).1 := by
        refine LabOK_step hL ?_
        intro x c' hx
        rw [alloc_get] at hx
        split at hx
        · simp only [Option.some.injEq] at hx
          subst hx
          exact Or.inr ⟨fun _ => ⟨_, rfl⟩, fun h => by simp [vertexCell, NewCube] at h⟩
        · exact Or.inl ⟨c', hx, rfl, rfl⟩
      have h2 := LabOK_link h1 h3 (hedge _)
      refine LabOK_step h2 ?_
      intro x c' hx
      exact Or.inl ⟨c', by rw [← (addToList_lists _ _ _ _ h4).1 x]; exact hx, rfl, rfl⟩
    · have h1 : LabOK (DeleteCube (a.store.alloc (vertexCell a.store.cubes.length lbl)).1
          a.store.cubes.length) := by
        refine LabOK_step hL ?_
        intro x c' hx
        rw [delete_alloc_get] at hx
        exact Or.inl ⟨c', hx, rfl, rfl⟩
      exact FillCubes_LabOK _ _ r (LabOK_link h1 h3 (hedge _)) h4

theorem HandleState_LabOK (sys : System) (sta : state) (st : Store) (statelist : List state)
    (a : Explore) (hL : LabOK st) (h : HandleState sys sta st statelist = some a) :
    LabOK a.store := by
  unfold HandleState at h
  refine loopM_inv _ (fun b => LabOK b.store) _ ?_ _ a hL h
  intro b p b' _ hb hf
  split at hf
  · simp at hf
  · refine loopM_inv _ (fun b => LabOK b.store) _ ?_ b b' hb hf
    intro e t e' _ he ht
    exact handleTransition_LabOK sys sta p.1 e e' t he ht

theorem setFin_LabOK (st st' : Store) (p : Nat) (hL : LabOK st)
    (h : setFin st p = some st') : LabOK st' := by
  obtain ⟨-, -, h3⟩ := setFin_get st st' p h
  refine LabOK_step hL ?_
  intro x c' hx
  rcases h3 x with ⟨-, g⟩ | ⟨c0, c1, g1, g2, g3, -, -, -⟩
  · rw [hx] at g; simp at g
  · rw [hx] at g2
    have : c' = c1 := Option.some.inj g2
    subst this
    exact Or.inl ⟨c0, g1, g3.1.symm, g3.2.2.2.2.symm⟩

theorem MakeHDALoop_LabOK (sys : System) :
    ∀ (fuel : Nat) (st : Store) (queue : List state) (dim : Int) (r : Store × Int),
      LabOK st → MakeHDALoop sys fuel st queue dim = some r → LabOK r.1 := by
  intro fuel
  induction fuel with
  | zero =>
    intro st queue dim r hV h
    cases queue with
    | nil => simp only [MakeHDALoop, Option.some.injEq] at h; subst h; exact hV
    | cons s q => simp [MakeHDALoop] at h
  | succ n ih =>
    intro st queue dim r hV h
    cases queue with
    | nil => simp only [MakeHDALoop, Option.some.injEq] at h; subst h; exact hV
    | cons sta q =>
      simp only [MakeHDALoop] at h
      split at h
      · simp at h
      · split at h
        · simp at h
        · rename_i s1 hs1
          split at h
          · simp at h
          · rename_i a ha
            have h1 : LabOK s1 := by
              split at hs1
              · exact setFin_LabOK _ _ _ hV hs1
              · simp only [Option.some.injEq] at hs1
                subst hs1
                exact hV
            exact ih a.store a.statelist.tail _ r (HandleState_LabOK sys sta s1 _ a h1 ha) h

theorem MakeHDA_LabOK (fuel : Nat) (sys : System) (r : Store × Int)
    (h : MakeHDA fuel sys (initialStore sys) = some r) : LabOK r.1 := by
  obtain ⟨lbl, s1, -, -, h1, h2⟩ := MakeHDA_start fuel sys r h
  refine MakeHDALoop_LabOK sys fuel s1 _ 0 r ?_ h2
  intro x c hx
  rw [(addToList_lists _ _ _ _ h1).1 x, alloc_get] at hx
  split at hx
  · simp only [Option.some.injEq] at hx
    subst hx
    exact ⟨fun _ => ⟨_, rfl⟩, fun h => by simp [vertexCell, NewCube] at h⟩
  · simp [initialStore, Store.get] at hx

/-- C23, as stated, fails: the square of the two independent processes, the
member 9 of `cubelist[2]`, has no label vector at all (`lab` is `NULL`), so not
every cube of the complex has a non-empty label sequence. -/
theorem twoProcesses_square_unlabelled :
    ∃ st : Store, MakeHDA 4 twoProcesses (initialStore twoProcesses) = some (st, 2) ∧
      st.cubelist[2]? = some [9] ∧
      (∃ c, st.get (some 9) = some c ∧ c.degree = 2 ∧ c.lab = none) ∧
      ¬ ∀ x c, st.get (some x) = some c → ∃ l ls, c.lab = some (l :: ls) := by
  obtain ⟨st, h1, h2, h3, -⟩ := report_mono _ _ _ 0 _ twoProcesses_run
  have hcl : st.cubelist[2]? = some [9] := by rw [h2]; rfl
  obtain ⟨c, hc, hd⟩ := (MakeHDA_Inv 4 twoProcesses (st, 2) h1).listed 2 [9] 9 hcl (by simp)
  have hlab := ((MakeHDA_LabOK 4 twoProcesses (st, 2) h1) 9 c hc).2 (by omega)
  refine ⟨st, h1, hcl, ⟨c, hc, hd, hlab⟩, ?_⟩
  intro hall
  obtain ⟨l, ls, e⟩ := hall 9 c hc
  rw [hlab] at e
  cases e

/-- C23, amended: in the complex that `MakeHDA` returns, every cube of degree 0
or 1 has a label vector with exactly one entry, and every cube of degree at
least 2 has no label vector (`NewCube` leaves `lab` at `NULL`, and `FillSquares`
and `FillHDCubes` never set it). -/
theorem MakeHDA_labels (fuel : Nat) (sys : System) (r : Store × Int)
    (h : MakeHDA fuel sys (initialStore sys) = some r) :
    ∀ x c, r.1.get (some x) = some c →
      (c.degree < 2 → ∃ l, c.lab = some [l]) ∧ (2 ≤ c.degree → c.lab = none) :=
  MakeHDA_LabOK fuel sys r h

theorem MakeHDA_labels_witness :
    ∃ st : Store, MakeHDA 4 twoProcesses (initialStore twoProcesses) = some (st, 2) ∧
      ∀ x c, st.get (some x) = some c →
        (c.degree < 2 → ∃ l, c.lab = some [l]) ∧ (2 ≤ c.degree → c.lab = none) := by
  obtain ⟨st, h1, -, -, -⟩ := report_mono _ _ _ 0 _ twoProcesses_run
  exact ⟨st, h1, MakeHDA_labels 4 twoProcesses (st, 2) h1⟩

/-! ### The integers of the labels -/

theorem setAt_length {α : Type} (l l' : List α) (i : Nat) (v : α) (h : setAt l i v = some l') :
    l'.length = l.length := by
  unfold setAt at h
  split at h
  · simp only [Option.some.injEq] at h
    subst h
    simp
  · simp at h

theorem Reachable.length_eq {sys : System} {g : List (Option Nat) × List Int}
    (hg : Reachable sys g) : g.1.length = sys.pgvec.length := by
  induction hg with
  | init => simp [initialState]
  | step g g' i t _ hs ih =>
    obtain ⟨p, l, -, -, -, -, h5, -⟩ := hs
    rw [setAt_length _ _ _ _ h5, ih]

theorem mem_enabled (sys : System) (sta : state) (it : Nat × transition)
    (h : it ∈ enabled sys sta) :
    ∃ p l, sta.locvec[it.1]? = some p ∧ sys.loc p = some l ∧ it.2 ∈ l.outtranslist ∧
      CheckCondition sta.valvec it.2.cond sys.varlist = some 1 := by
  simp only [enabled, enabledAt, List.mem_flatMap] at h
  obtain ⟨ip, hip, hit⟩ := h
  have h1 := List.mk_mem_enum_iff_getElem?.1 hip
  cases hl : sys.loc ip.2 with
  | none => simp [hl] at hit
  | some l =>
    simp only [hl, List.mem_map, List.mem_filter, decide_eq_true_eq] at hit
    obtain ⟨t, ⟨ht, hg⟩, rfl⟩ := hit
    exact ⟨ip.2, l, h1, hl, ht, hg⟩

theorem forall2_mem_left {α β : Type} {R : α → β → Prop} :
    ∀ {l1 : List α} {l2 : List β}, List.Forall₂ R l1 l2 → ∀ a, a ∈ l1 → ∃ b, b ∈ l2 ∧ R a b := by
  intro l1 l2 h
  induction h with
  | nil => intro a ha; simp at ha
  | cons hab _ ih =>
    intro a ha
    rcases List.mem_cons.1 ha with rfl | ha
    · exact ⟨_, List.mem_cons_self _ _, hab⟩
    · obtain ⟨b, hb, hr⟩ := ih a ha
      exact ⟨b, List.mem_cons_of_mem _ hb, hr⟩

/-- Every member of `cubelist[1]` is the edge of an enabled transition of a state
that was taken from the queue. -/
theorem EInv.edge_of_mem {sys : System} {st : Store} {done : List state} (hE : EInv sys st done)
    (x : Nat) (hx : x ∈ edgesList st) :
    ∃ sta it, sta ∈ done ∧ it ∈ enabled sys sta ∧ EdgeOf sys st sta x it := by
  obtain ⟨ess, e1, -, -, e4⟩ := hE
  rw [e1, List.mem_flatten] at hx
  obtain ⟨es, hes, hxes⟩ := hx
  obtain ⟨sta, hsta, hF⟩ := forall2_mem_left e4 es hes
  obtain ⟨it, hit, hR⟩ := forall2_mem_left hF x hxes
  exact ⟨sta, it, hsta, hit, hR⟩

/-- C24: in the complex that `MakeHDA` returns for the `n` processes of `pgvec`,
the label of every cube of degree 0 has the integer -1, and the label of every
cube of degree 1 has the integer `i`, where the cube is the edge of a transition
`t` of process `i` that is enabled at a reachable state `sta` (taken from the
queue), with `0 <= i < n`; its text is the id of the action of `t`. -/
theorem MakeHDA_label_nums (fuel : Nat) (sys : System) (r : Store × Int)
    (h : MakeHDA fuel sys (initialStore sys) = some r) :
    (∀ x c, r.1.get (some x) = some c → c.degree = 0 → ∃ s, c.lab = some [⟨s, -1⟩]) ∧
    (∀ x c, r.1.get (some x) = some c → c.degree = 1 →
      ∃ (i : Nat) (t : transition) (act : action) (sta : state),
        i < sys.pgvec.length ∧ c.lab = some [⟨act.id, (i : Int)⟩] ∧ t.act = some act ∧
        (i, t) ∈ enabled sys sta ∧ Reachable sys sta.glob ∧ c.d0 = [some sta.cube]) := by
  obtain ⟨tr, htr⟩ := MakeHDARun_of_some fuel sys r h
  obtain ⟨-, hB, hE⟩ := MakeHDARun_invs fuel sys _ htr
  simp only at hB hE
  have hI := MakeHDA_Inv fuel sys r h
  have hV := MakeHDA_VListed fuel sys r h
  refine ⟨?_, ?_⟩
  · intro x c hc hd
    obtain ⟨s, hs, e⟩ := hB.vertex hV x ⟨c, hc, hd⟩
    subst e
    obtain ⟨-, lbl, -, r3⟩ := hB.recs s (by simpa using hs)
    obtain ⟨c', hc', hl⟩ := lab_get _ _ _ r3
    rw [hc] at hc'
    cases hc'
    exact ⟨lbl, hl⟩
  · intro x c hc hd
    obtain ⟨l, hl, hx⟩ := hI.listedAll x c hc (by omega)
    rw [hd] at hl
    have hx' : x ∈ edgesList r.1 := by simpa [edgesList, hl] using hx
    obtain ⟨sta, it, hsta, hit, ce, tgt, act, locvec, valvec, lbl, cl0, g1, g2, g3, g4, g5, g6,
      -⟩ := hE.edge_of_mem x hx'
    rw [hc] at g1
    cases g1
    obtain ⟨p, lo, m1, -, -, -⟩ := mem_enabled sys sta it hit
    have hr := (hB.recs sta (by simpa using hsta)).1
    have hlen := hr.length_eq
    have hi : it.1 < sys.pgvec.length := by
      rw [← hlen]
      exact getElem?_some_lt _ _ _ m1
    exact ⟨it.1, it.2, act, sta, hi, g6, g5, hit, hr, g3⟩

theorem MakeHDA_label_nums_witness :
    ∃ st : Store, MakeHDA 4 twoProcesses (initialStore twoProcesses) = some (st, 2) ∧
      (∀ x c, st.get (some x) = some c → c.degree = 0 → ∃ s, c.lab = some [⟨s, -1⟩]) ∧
      (∀ x c, st.get (some x) = some c → c.degree = 1 →
        ∃ (i : Nat) (t : transition) (act : action) (sta : state),
          i < twoProcesses.pgvec.length ∧ c.lab = some [⟨act.id, (i : Int)⟩] ∧
          t.act = some act ∧ (i, t) ∈ enabled twoProcesses sta ∧
          Reachable twoProcesses sta.glob ∧ c.d0 = [some sta.cube]) := by
  obtain ⟨st, h1, -, -, -⟩ := report_mono _ _ _ 0 _ twoProcesses_run
  exact ⟨st, h1, MakeHDA_label_nums 4 twoProcesses (st, 2) h1⟩

/-! ### The loop over the upper index vectors in `FillHDCubes` -/

theorem sharedCounter_run :
    slipReport (MakeHDA 6 sharedCounter (initialStore sharedCounter)) =
      some ⟨2, [[0, 1, 3, 7, 15, 20], [2, 4, 6, 8, 10, 12, 16, 18, 21, 23, 26],
          [13, 14, 19, 24, 27, 28], []],
        some ([some 16, some 12], [some 21, some 26]),
        some ([some 18, some 12], [some 23, some 26]),
        some [[0, 1], [1, 0]], some [[0, 0], [1, 1]], true, some 0, some 1⟩ := by
  decide!

/-- C30 at the system `sharedCounter` (the code does not do what the claim says):
when `MakeHDA` handles the last edge 26, the two squares 27 and 28 of this edge
are the faces, `Upperindices` returns the two vectors `[0, 0]` and `[1, 1]` for
their configuration `[0, 1]`, and a pass of the loop with the second vector adds a
cube of degree 3, whereas a pass with the first vector adds none. The loop of the
source takes the vector of every pass from the head of the list, so the call of
`FillHDCubes` adds nothing, and `MakeHDA` returns the complex without a cube of
degree 3 and the dimension 2. -/
theorem sharedCounter_orientation_slip :
    ∃ st : Store, MakeHDA 6 sharedCounter (initialStore sharedCounter) = some (st, 2) ∧
      st.cubelist = [[0, 1, 3, 7, 15, 20], [2, 4, 6, 8, 10, 12, 16, 18, 21, 23, 26],
        [13, 14, 19, 24, 27, 28], []] ∧
      facesOf st 27 = some ([some 16, some 12], [some 21, some 26]) ∧
      facesOf st 28 = some ([some 18, some 12], [some 23, some 26]) ∧
      Config st 26 3 [[0], [1]] [28, 27] = some [[0, 1], [1, 0]] ∧
      Upperindices st 0 [28, 27] [0, 1] = some [[0, 0], [1, 1]] ∧
      FillHDCubes st 26 3 2 = some (st, 0) ∧
      (upperPass [28, 27] [0, 1] 0 3 [0, 0] (st, 0)).map (fun a => a.2) = some 0 ∧
      (upperPass [28, 27] [0, 1] 0 3 [1, 1] (st, 0)).map (fun a => a.2) = some 1 := by
  have h := sharedCounter_run
  cases hr : MakeHDA 6 sharedCounter (initialStore sharedCounter) with
  | none => rw [hr] at h; simp [slipReport] at h
  | some r =>
    rw [hr] at h
    simp only [slipReport, Option.map_some', Option.some.injEq, SlipReport.mk.injEq,
      decide_eq_true_eq] at h
    obtain ⟨h1, h2, h3, h4, h5, h6, h7, h8, h9⟩ := h
    refine ⟨r.1, ?_, h2, h3, h4, h5, h6, h7, h8, h9⟩
    rw [← h1]

/-! ### The edges of a cube start in its initial vertex -/

theorem loopM_append {α σ : Type} (f : σ → α → Option σ) :
    ∀ (l1 l2 : List α) (s : σ),
      loopM f s (l1 ++ l2) = (loopM f s l1).bind (fun b => loopM f b l2) := by
  intro l1
  induction l1 with
  | nil => intro l2 s; simp [loopM]
  | cons a l ih =>
    intro l2 s
    simp only [List.cons_append, loopM]
    cases f s a with
    | none => simp
    | some s1 => simpa using ih l2 s1

/-- A loop whose body, at every element `x`, does what a second loop does on the
block `g x` of a second list, does what the second loop does on the blocks in a
row. -/
theorem loopM_flatMap {α β σ : Type} (J : σ → Prop) (f : σ → α → Option σ)
    (h : σ → β → Option σ) (g : α → List β) :
    ∀ (l : List α),
      (∀ a x, J a → x ∈ l → f a x = loopM h a (g x)) →
      (∀ a x b, J a → x ∈ l → loopM h a (g x) = some b → J b) →
      ∀ a, J a → loopM f a l = loopM h a (l.flatMap g) ∧
        ∀ b, loopM h a (l.flatMap g) = some b → J b := by
  intro l
  induction l with
  | nil =>
    intro _ _ a hJ
    refine ⟨by simp [loopM], ?_⟩
    intro b hb
    simp only [List.flatMap_nil, loopM, Option.some.injEq] at hb
    exact hb ▸ hJ
  | cons x l ih =>
    intro hf hJs a hJ
    have hx := hf a x hJ (List.mem_cons_self _ _)
    simp only [List.flatMap_cons, loopM_append, loopM, hx]
    cases hb : loopM h a (g x) with
    | none => simp
    | some b =>
      have hJb := hJs a x b hJ (List.mem_cons_self _ _) hb
      have := ih (fun a y ha hy => hf a y ha (List.mem_cons_of_mem _ hy))
        (fun a y b ha hy => hJs a y b ha (List.mem_cons_of_mem _ hy)) b hJb
      simpa using this

theorem loopM_total {α σ : Type} (f : σ → α → Option σ) (P : σ → Prop) :
    ∀ (l : List α), (∀ s a, a ∈ l → P s → ∃ s', f s a = some s' ∧ P s') →
      ∀ s, P s → ∃ s', loopM f s l = some s' ∧ P s' := by
  intro l
  induction l with
  | nil => intro _ s hP; exact ⟨s, rfl, hP⟩
  | cons a l ih =>
    intro hstep s hP
    obtain ⟨s1, h1, hP1⟩ := hstep s a (List.mem_cons_self _ _) hP
    obtain ⟨s2, h2, hP2⟩ := ih (fun s a' ha' => hstep s a' (List.mem_cons_of_mem _ ha')) s1 hP1
    exact ⟨s2, by simp only [loopM, h1, h2], hP2⟩

theorem length_eq_of_isSome {α : Type} (l1 l2 : List α)
    (h : ∀ i : Nat, (l1[i]?).isSome = (l2[i]?).isSome) : l1.length = l2.length := by
  by_contra hne
  rcases Nat.lt_or_gt_of_ne hne with hlt | hgt
  · have e1 : l1[l1.length]? = none := List.getElem?_eq_none (Nat.le_refl _)
    have e2 : l2[l1.length]? = some l2[l1.length] := List.getElem?_eq_getElem hlt
    have := h l1.length
    rw [e1, e2] at this
    simp at this
  · have e1 : l2[l2.length]? = none := List.getElem?_eq_none (Nat.le_refl _)
    have e2 : l1[l2.length]? = some l1[l2.length] := List.getElem?_eq_getElem hgt
    have := h l2.length
    rw [e1, e2] at this
    simp at this

/-- The rows of coface lists keep their lengths when entries are appended to
some of the lists. -/
theorem s_rows_length (c c' : cube) (g : Nat → Nat → List Nat → List Nat)
    (h : ∀ k i, c'.s k i = (c.s k i).map (g k i)) :
    c'.s0.length = c.s0.length ∧ c'.s1.length = c.s1.length := by
  constructor
  · apply length_eq_of_isSome
    intro i
    have := h 0 i
    simp only [cube.s] at this
    rw [this]; simp
  · apply length_eq_of_isSome
    intro i
    have := h 1 i
    simp only [cube.s] at this
    rw [this]; simp

theorem s_rows_eq (c c' : cube) (h : ∀ k i, c'.s k i = c.s k i) :
    c'.s0 = c.s0 ∧ c'.s1 = c.s1 := by
  constructor
  · apply List.ext_getElem?
    intro i
    exact h 0 i
  · apply List.ext_getElem?
    intro i
    exact h 1 i

theorem addCoface_total (st s : Store) (f : Option Nat) (k i x : Nat) (hk : k < 2)
    (hs : sameRows st s)
    (hf : ∃ fi cf, f = some fi ∧ st.get (some fi) = some cf ∧
      i < (if k = 0 then cf.s0 else cf.s1).length) :
    ∃ s', s.addCoface f k i x = some s' ∧ sameRows st s' := by
  obtain ⟨fi, cf, rfl, hcf, hi⟩ := hf
  obtain ⟨cf', g1, g2, g3⟩ := hs.2 fi cf hcf
  have hex : ∃ s', s.addCoface (some fi) k i x = some s' := by
    obtain rfl | rfl : k = 0 ∨ k = 1 := by omega
    · simp only [if_true] at hi
      simp only [Store.addCoface, g1]
      rw [List.getElem?_eq_getElem (by omega)]
      exact ⟨_, rfl⟩
    · simp only [show ¬ (1 = 0) by decide, if_false] at hi
      simp only [Store.addCoface, g1]
      rw [List.getElem?_eq_getElem (by omega)]
      exact ⟨_, rfl⟩
  obtain ⟨s', hs'⟩ := hex
  refine ⟨s', hs', ?_⟩
  obtain ⟨fi', c0, l, c1, e1, e2, e3, e4, e5, e6, e7, e8, e9⟩ :=
    addCoface_spec s s' (some fi) k i x hs'
  have : fi' = fi := (Option.some.inj e1).symm
  subst this
  refine ⟨e4.trans hs.1, ?_⟩
  intro y cy hy
  obtain ⟨cy', a1, a2, a3⟩ := hs.2 y cy hy
  by_cases hyf : y = fi'
  · subst hyf
    rw [e2] at a1
    have : c0 = cy' := Option.some.inj a1
    subst this
    have hl := s_rows_length c0 c1
      (fun k' i' l' => if k' = k ∧ i' = i then l' ++ [x] else l')
      (by
        intro k' i'
        rw [e9 k' i']
        by_cases hc : k' = k ∧ i' = i
        · rw [if_pos hc, hc.1, hc.2, e3]; simp
        · rw [if_neg hc]
          cases c0.s k' i' <;> simp [hc])
    exact ⟨c1, e7, hl.1.trans a2, hl.2.trans a3⟩
  · rw [← e6 y hyf] at a1
    exact ⟨cy', a1, a2, a3⟩
theorem sameRows_refl (st : Store) : sameRows st st :=
  ⟨rfl, fun _ cy hy => ⟨cy, hy, rfl, rfl⟩⟩

/-- `link` returns when every face of the cube is a stored cube that has a coface
list for the axis of the face, and the array `cubelist[]` has an entry for the
degree of the cube. -/
theorem link_total (st : Store) (c : cube)
    (h0 : ∀ i f, c.d0[i]? = some f →
      ∃ fi cf, f = some fi ∧ st.get (some fi) = some cf ∧ i < cf.s0.length)
    (h1 : ∀ i f, c.d1[i]? = some f →
      ∃ fi cf, f = some fi ∧ st.get (some fi) = some cf ∧ i < cf.s1.length)
    (hl : c.degree < st.cubelist.length) : ∃ s, st.link c = some s := by
  obtain ⟨s1, a1, a2⟩ := loopM_total
    (fun s (p : Nat × Option Nat) => s.addCoface p.2 0 p.1 st.cubes.length) (sameRows st)
    c.d0.enum
    (by
      intro s a ha hs
      have hget : c.d0[a.1]? = some a.2 := List.mem_enum_iff_getElem?.1 ha
      obtain ⟨fi, cf, e1, e2, e3⟩ := h0 a.1 a.2 hget
      exact addCoface_total st s a.2 0 a.1 st.cubes.length (by omega) hs
        ⟨fi, cf, e1, e2, by simpa using e3⟩)
    st (sameRows_refl st)
  obtain ⟨s2, b1, b2⟩ := loopM_total
    (fun s (p : Nat × Option Nat) => s.addCoface p.2 1 p.1 st.cubes.length) (sameRows st)
    c.d1.enum
    (by
      intro s a ha hs
      have hget : c.d1[a.1]? = some a.2 := List.mem_enum_iff_getElem?.1 ha
      obtain ⟨fi, cf, e1, e2, e3⟩ := h1 a.1 a.2 hget
      exact addCoface_total st s a.2 1 a.1 st.cubes.length (by omega) hs
        ⟨fi, cf, e1, e2, by simpa using e3⟩)
    s1 a2
  simp only [Store.link, Store.register, a1, b1, Store.addToList, b2.1]
  rw [List.getElem?_eq_getElem hl]
  exact ⟨_, rfl⟩
theorem lowReady_cell (st : Store) (h : lowReady st = true) (x : Nat) (c : cube)
    (hc : st.get (some x) = some c) : cellReady st c = true := by
  simp only [Store.get] at hc
  cases hx : st.cubes[x]? with
  | none => simp [hx] at hc
  | some oc =>
    simp only [hx, Option.join] at hc
    simp only [Option.bind_some, id] at hc
    subst hc
    simp only [lowReady, List.all_eq_true] at h
    exact h _ (List.getElem?_mem hx)

theorem get_any (st : Store) (y d : Nat)
    (h : (st.get (some y)).any (fun cy => decide (cy.degree = d)) = true) :
    ∃ cy, st.get (some y) = some cy ∧ cy.degree = d := by
  cases hc : st.get (some y) with
  | none => simp [hc] at h
  | some cy =>
    simp only [hc, Option.any_some, decide_eq_true_eq] at h
    exact ⟨cy, rfl, h⟩

/-- An edge of a store whose cells of degree 0 and 1 are ready. -/
theorem lowReady_edge (st : Store) (h : lowReady st = true) (x : Nat) (c : cube)
    (hc : st.get (some x) = some c) (hd : c.degree = 1) :
    ∃ l u v, EdgeAt st x l u v := by
  have hr := lowReady_cell st h x c hc
  simp only [cellReady, hd, show ¬ ((1 : Nat) = 0) by decide, if_false, if_true,
    Bool.and_eq_true, decide_eq_true_eq] at hr
  obtain ⟨⟨⟨a1, a2⟩, a3⟩, a4⟩ := hr
  cases hlab : c.lab with
  | none => simp [hlab] at a3
  | some lv =>
    cases lv with
    | nil => simp [hlab] at a3
    | cons l ls =>
      cases h0 : c.d 0 0 with
      | none => simp [h0] at a4
      | some ou =>
        cases ou with
        | none => simp [h0] at a4
        | some u =>
          cases h1 : c.d 1 0 with
          | none => simp [h0, h1] at a4
          | some ov =>
            cases ov with
            | none => simp [h0, h1] at a4
            | some v =>
              simp only [h0, h1, Bool.and_eq_true] at a4
              exact ⟨l, u, v, ⟨c, ls, hc, hd, hlab, a1, a2, h0, h1⟩,
                get_any st u 0 a4.1, get_any st v 0 a4.2⟩

/-- The coface lists of a vertex of a store whose cells of degree 0 and 1 are
ready: there is one per row, and its members are edges. -/
theorem lowReady_vertex (st : Store) (h : lowReady st = true) (u : Nat) (cu : cube)
    (hc : st.get (some u) = some cu) (hd : cu.degree = 0) (k : Nat) (hk : k < 2) :
    ∃ l, st.cof (some u) k 0 = some l ∧ ∀ y, y ∈ l → ∃ l' u' v', EdgeAt st y l' u' v' := by
  have hr := lowReady_cell st h u cu hc
  simp only [cellReady, hd, if_true, Bool.and_eq_true, decide_eq_true_eq,
    List.all_eq_true] at hr
  obtain ⟨⟨a1, a2⟩, a3⟩ := hr
  have hex : ∃ l, cu.s k 0 = some l ∧ ∀ y, y ∈ l → y ∈ cu.s0.flatten ++ cu.s1.flatten := by
    obtain rfl | rfl : k = 0 ∨ k = 1 := by omega
    · refine ⟨cu.s0[0], by simp only [cube.s]; exact List.getElem?_eq_getElem (by omega), ?_⟩
      intro y hy
      exact List.mem_append_left _ (List.mem_flatten.2 ⟨_, List.getElem_mem _, hy⟩)
    · refine ⟨cu.s1[0], by simp only [cube.s]; exact List.getElem?_eq_getElem (by omega), ?_⟩
      intro y hy
      exact List.mem_append_right _ (List.mem_flatten.2 ⟨_, List.getElem_mem _, hy⟩)
  obtain ⟨l, e1, e2⟩ := hex
  refine ⟨l, by simp only [Store.cof, hc, e1], ?_⟩
  intro y hy
  obtain ⟨cy, b1, b2⟩ := get_any st y 1 (a3 y (e2 y hy))
  exact lowReady_edge st h y cy b1 b2

theorem EdgeAt.edge_bd0 {st : Store} {x : Nat} {l : label} {u v : Nat} (h : EdgeAt st x l u v) :
    st.bd (some x) 0 0 = some (some u) := by
  obtain ⟨c, ls, a1, a2, a3, a4, a5, a6, a7⟩ := h.cell
  simp only [Store.bd, a1, a6]

theorem EdgeAt.edge_bd1 {st : Store} {x : Nat} {l : label} {u v : Nat} (h : EdgeAt st x l u v) :
    st.bd (some x) 1 0 = some (some v) := by
  obtain ⟨c, ls, a1, a2, a3, a4, a5, a6, a7⟩ := h.cell
  simp only [Store.bd, a1, a7]

theorem EdgeAt.lab_eq {st : Store} {x : Nat} {l : label} {u v : Nat} (h : EdgeAt st x l u v) :
    ∃ ls, st.lab (some x) = some (some (l :: ls)) := by
  obtain ⟨c, ls, a1, a2, a3, a4, a5, a6, a7⟩ := h.cell
  exact ⟨ls, by simp only [Store.lab, a1, a3]⟩

theorem EdgeAt.pid_eq {st : Store} {x : Nat} {l : label} {u v : Nat} (h : EdgeAt st x l u v) :
    st.pid (some x) = some l.num := by
  obtain ⟨c, ls, a1, a2, a3, a4, a5, a6, a7⟩ := h.cell
  simp only [Store.pid, a1, a3]

theorem EdgeAt.front_eq {st : Store} {x : Nat} {l : label} {u v : Nat}
    (h : EdgeAt st x l u v) : frontVertex st x = some u := by
  simp only [frontVertex, h.edge_bd0, Option.join]
  rfl

theorem EdgeAt.back_eq {st : Store} {x : Nat} {l : label} {u v : Nat}
    (h : EdgeAt st x l u v) : backVertex st x = some v := by
  simp only [backVertex, h.edge_bd1, Option.join]
  rfl

theorem SqKeep.keep_refl (st : Store) : SqKeep st st :=
  ⟨rfl, fun _ cy hy => ⟨cy, hy, Frame.frame_refl cy, rfl, rfl, fun _ => ⟨rfl, rfl⟩⟩⟩

theorem SqKeep.keep_bd {st s : Store} (h : SqKeep st s) (x : Nat) (c : cube)
    (hc : st.get (some x) = some c) (k i : Nat) : s.bd (some x) k i = st.bd (some x) k i := by
  obtain ⟨c', a1, a2, -⟩ := h.2 x c hc
  simp only [Store.bd, a1, hc, a2.frame_d]

theorem SqKeep.keep_lab {st s : Store} (h : SqKeep st s) (x : Nat) (c : cube)
    (hc : st.get (some x) = some c) : s.lab (some x) = st.lab (some x) := by
  obtain ⟨c', a1, a2, -⟩ := h.2 x c hc
  simp only [Store.lab, a1, hc, a2.2.2.2.2.2.2]

theorem SqKeep.keep_cof {st s : Store} (h : SqKeep st s) (x : Nat) (c : cube)
    (hc : st.get (some x) = some c) (hd : c.degree = 0) (k i : Nat) :
    s.cof (some x) k i = st.cof (some x) k i := by
  obtain ⟨c', a1, a2, -, -, a3⟩ := h.2 x c hc
  obtain ⟨e0, e1⟩ := a3 hd
  simp only [Store.cof, a1, hc]
  match k with
  | 0 => simp only [cube.s, e0]
  | 1 => simp only [cube.s, e1]
  | (n + 2) => rfl
theorem square_faces (self d00 d01 d10 d11 : Nat) (k i y : Nat)
    (h : ({ NewCube 2 self with
      d0 := [some d00, some d01], d1 := [some d10, some d11],
      edges := [some d01, some d00] } : cube).d k i = some (some y)) :
    y = d00 ∨ y = d01 ∨ y = d10 ∨ y = d11 := by
  match k, i with
  | 0, 0 => simp [cube.d] at h; omega
  | 0, 1 => simp [cube.d] at h; omega
  | 0, (n + 2) => simp [cube.d] at h
  | 1, 0 => simp [cube.d] at h; omega
  | 1, 1 => simp [cube.d] at h; omega
  | 1, (n + 2) => simp [cube.d] at h
  | (m + 2), _ => simp [cube.d] at h

theorem EdgeAt.keep_live {st s : Store} {x : Nat} {l : label} {u v : Nat}
    (h : EdgeAt st x l u v) (hJ : SqKeep st s) :
    ∃ c, s.get (some x) = some c ∧ c.s0.length = 2 ∧ c.s1.length = 2 := by
  obtain ⟨c, ls, a1, a2, a3, a4, a5, a6, a7⟩ := h.cell
  obtain ⟨c', b1, b2, b3, b4, -⟩ := hJ.2 x c a1
  exact ⟨c', b1, b3.trans a4, b4.trans a5⟩

/-- One more square on four edges of `base` keeps the relation to `base`. -/
theorem addSquare_keep (base : Store) (a b : Store × Nat) (q : Nat × Nat × Nat × Nat)
    (hJ : SqKeep base a.1)
    (hq : ∀ x, x = q.1 ∨ x = q.2.1 ∨ x = q.2.2.1 ∨ x = q.2.2.2 →
      ∃ l u v, EdgeAt base x l u v)
    (h : addSquare a q = some b) : SqKeep base b.1 := by
  simp only [addSquare, Option.map_eq_some'] at h
  obtain ⟨s, hs, rfl⟩ := h
  have hL := link_spec _ _ _ hs
  obtain ⟨l2, g1, g2⟩ := hL.list
  refine ⟨?_, ?_⟩
  · rw [hJ.1]
    simp only [g2, List.length_set]
  · intro y cy hy
    obtain ⟨cy', a1, a2, a3, a4, a5⟩ := hJ.2 y cy hy
    obtain ⟨cy2, b1, b2, b3⟩ := hL.old y cy' a1
    have hlen := s_rows_length cy' cy2 _ b3
    refine ⟨cy2, b1, a2.frame_trans b2, hlen.1.trans a3, hlen.2.trans a4, ?_⟩
    intro hd
    have hne : ∀ k i, cy2.s k i = cy'.s k i := by
      intro k i
      rw [b3 k i]
      have : ¬ (({ NewCube 2 a.1.cubes.length with
          d0 := [some q.1, some q.2.1], d1 := [some q.2.2.1, some q.2.2.2],
          edges := [some q.2.1, some q.1] } : cube).d k i = some (some y)) := by
        intro hf
        obtain ⟨l, u, v, hE⟩ := hq y (square_faces _ _ _ _ _ k i y hf)
        obtain ⟨c, ls, e1, e2, -⟩ := hE.cell
        rw [hy] at e1
        have : cy = c := Option.some.inj e1
        subst this
        omega
      simp only [this, if_false]
      cases cy'.s k i <;> rfl
    have := s_rows_eq cy' cy2 hne
    obtain ⟨e0, e1⟩ := a5 hd
    exact ⟨this.1.trans e0, this.2.trans e1⟩

theorem addSquare_count (a b : Store × Nat) (q : Nat × Nat × Nat × Nat)
    (h : addSquare a q = some b) : b.2 = a.2 + 1 := by
  simp only [addSquare, Option.map_eq_some'] at h
  obtain ⟨s, -, rfl⟩ := h
  rfl

/-- The statements for one match return when the four faces are edges of `base`
and `cubelist[2]` exists. -/
theorem addSquare_total (base : Store) (a : Store × Nat) (q : Nat × Nat × Nat × Nat)
    (hJ : SqKeep base a.1)
    (hq : ∀ x, x = q.1 ∨ x = q.2.1 ∨ x = q.2.2.1 ∨ x = q.2.2.2 →
      ∃ l u v, EdgeAt base x l u v)
    (hl : 2 < base.cubelist.length) : ∃ b, addSquare a q = some b := by
  have hlive : ∀ x, x = q.1 ∨ x = q.2.1 ∨ x = q.2.2.1 ∨ x = q.2.2.2 →
      ∃ c, a.1.get (some x) = some c ∧ c.s0.length = 2 ∧ c.s1.length = 2 := by
    intro x hx
    obtain ⟨l, u, v, hE⟩ := hq x hx
    exact hE.keep_live hJ
  obtain ⟨s, hs⟩ := link_total a.1
    { NewCube 2 a.1.cubes.length with
      d0 := [some q.1, some q.2.1], d1 := [some q.2.2.1, some q.2.2.2],
      edges := [some q.2.1, some q.1] }
    (by
      intro i f hf
      match i with
      | 0 =>
        simp only [List.getElem?_cons_zero, Option.some.injEq] at hf
        obtain ⟨c, e1, e2, e3⟩ := hlive q.1 (Or.inl rfl)
        exact ⟨q.1, c, hf.symm, e1, by omega⟩
      | 1 =>
        simp only [List.getElem?_cons_succ, List.getElem?_cons_zero, Option.some.injEq] at hf
        obtain ⟨c, e1, e2, e3⟩ := hlive q.2.1 (Or.inr (Or.inl rfl))
        exact ⟨q.2.1, c, hf.symm, e1, by omega⟩
      | (n + 2) => simp at hf)
    (by
      intro i f hf
      match i with
      | 0 =>
        simp only [List.getElem?_cons_zero, Option.some.injEq] at hf
        obtain ⟨c, e1, e2, e3⟩ := hlive q.2.2.1 (Or.inr (Or.inr (Or.inl rfl)))
        exact ⟨q.2.2.1, c, hf.symm, e1, by omega⟩
      | 1 =>
        simp only [List.getElem?_cons_succ, List.getElem?_cons_zero, Option.some.injEq] at hf
        obtain ⟨c, e1, e2, e3⟩ := hlive q.2.2.2 (Or.inr (Or.inr (Or.inr rfl)))
        exact ⟨q.2.2.2, c, hf.symm, e1, by omega⟩
      | (n + 2) => simp at hf)
    (by
      show 2 < a.1.cubelist.length
      rw [← hJ.1]; exact hl)
  exact ⟨(s, a.2 + 1), by simp only [addSquare, newSquare, hs, Option.map_some']⟩
theorem pidLt_eq {st : Store} {x y : Nat} {l l' : label} {u v u' v' : Nat}
    (hx : EdgeAt st x l u v) (hy : EdgeAt st y l' u' v') :
    pidLt st x y = decide (l.num < l'.num) := by
  simp only [pidLt, hx.pid_eq, hy.pid_eq]

theorem loopM_single {α σ : Type} (f : σ → α → Option σ) (s : σ) (x : α) :
    loopM f s [x] = f s x := by
  simp only [loopM]
  cases f s x <;> rfl

/-- The body of the innermost loop of the first half of `FillSquares` creates
the square of the match `(pc, pc2, pc3)` if it is one, and does nothing
otherwise. -/
theorem fwdInner_fold (st : Store) (edge pc pc2 pc3 : Nat) (a : Store × Nat)
    (le l l2 l3 : label) (ue ve u v u2 v2 u3 v3 : Nat)
    (hJ : SqKeep st a.1) (hE : EdgeAt st edge le ue ve) (hpc : EdgeAt st pc l u v)
    (hpc2 : EdgeAt st pc2 l2 u2 v2) (hpc3 : EdgeAt st pc3 l3 u3 v3) :
    fwdInner edge pc pc2 l.num le.num a pc3 =
      loopM addSquare a
        ((if st.lab (some pc3) = st.lab (some edge) ∧ backVertex st pc3 = backVertex st pc2
          then [(pc, pc2, pc3)] else []).map (fwdQuad st edge)) := by
  obtain ⟨ce, lse, e1, -⟩ := hE.cell
  obtain ⟨c2, ls2, f1, -⟩ := hpc2.cell
  obtain ⟨c3, ls3, g1, -⟩ := hpc3.cell
  obtain ⟨lse', hle⟩ := hE.lab_eq
  obtain ⟨ls3', hl3⟩ := hpc3.lab_eq
  simp only [fwdInner, hJ.keep_bd pc2 c2 f1, hJ.keep_bd pc3 c3 g1, hpc2.edge_bd1, hpc3.edge_bd1,
    hJ.keep_lab edge ce e1, hJ.keep_lab pc3 c3 g1, hle, hl3, hpc2.back_eq, hpc3.back_eq,
    Option.some.injEq]
  by_cases hv : v2 = v3
  · by_cases hlab : le :: lse' = l3 :: ls3'
    · cases hlab
      have hc : VecCmp (some (le :: lse')) (some (le :: lse')) (some labcmp) = 0 :=
        (VecCmp_eq _ _).2 rfl
      simp only [hv, hc, if_true, and_self, List.map_cons, List.map_nil, loopM_single,
        addSquare, fwdQuad, pidLt_eq hpc hE]
      by_cases hp : l.num < le.num
      · simp only [hp, decide_True, if_true]
        cases newSquare a.1 edge pc pc3 pc2 <;> rfl
      · simp only [hp, decide_False, if_false, Bool.false_eq_true]
        cases newSquare a.1 pc edge pc2 pc3 <;> rfl
    · have hc : ¬ VecCmp (some (le :: lse')) (some (l3 :: ls3')) (some labcmp) = 0 :=
        fun h => hlab (Option.some.inj ((VecCmp_eq _ _).1 h))
      have hlab' : ¬ (l3 :: ls3' = le :: lse') := fun h => hlab h.symm
      simp only [hv, hc, if_true, if_false, hlab', false_and, List.map_nil, loopM]
  · have hv' : ¬ (v3 = v2) := fun h => hv h.symm
    simp only [hv, hv', if_false, and_false, List.map_nil, loopM]
theorem addSquares_keep (base : Store) (qs : List (Nat × Nat × Nat × Nat))
    (hq : ∀ q, q ∈ qs → QuadOK base q) (a b : Store × Nat) (hJ : SqKeep base a.1)
    (h : loopM addSquare a qs = some b) : SqKeep base b.1 :=
  loopM_inv addSquare (fun s => SqKeep base s.1) qs
    (fun s q s' hqm hs hstep => addSquare_keep base s s' q hs (hq q hqm) hstep) a b hJ h

theorem fwdQuad_ok {st : Store} {e f g h : Nat}
    (he : ∃ l u v, EdgeAt st e l u v) (hf : ∃ l u v, EdgeAt st f l u v)
    (hg : ∃ l u v, EdgeAt st g l u v) (hh : ∃ l u v, EdgeAt st h l u v) :
    QuadOK st (fwdQuad st e (f, g, h)) := by
  intro x hx
  simp only [fwdQuad] at hx
  split at hx
  · rcases hx with rfl | rfl | rfl | rfl
    exacts [he, hf, hh, hg]
  · rcases hx with rfl | rfl | rfl | rfl
    exacts [hf, he, hg, hh]

theorem bwdQuad_ok {st : Store} {e f g h : Nat}
    (he : ∃ l u v, EdgeAt st e l u v) (hf : ∃ l u v, EdgeAt st f l u v)
    (hg : ∃ l u v, EdgeAt st g l u v) (hh : ∃ l u v, EdgeAt st h l u v) :
    QuadOK st (bwdQuad st e (f, g, h)) := by
  intro x hx
  simp only [bwdQuad] at hx
  split at hx
  · rcases hx with rfl | rfl | rfl | rfl
    exacts [hh, hg, he, hf]
  · rcases hx with rfl | rfl | rfl | rfl
    exacts [hg, hh, hf, he]

theorem outEdges_edge (st : Store) (hR : lowReady st = true) (w : Nat) (cw : cube)
    (hw : st.get (some w) = some cw) (hd : cw.degree = 0) (y : Nat)
    (hy : y ∈ outEdges st (some w)) : ∃ l u v, EdgeAt st y l u v := by
  obtain ⟨l, a1, a2⟩ := lowReady_vertex st hR w cw hw hd 0 (by omega)
  simp only [outEdges, a1, Option.getD_some] at hy
  exact a2 y hy

theorem inEdges_edge (st : Store) (hR : lowReady st = true) (w : Nat) (cw : cube)
    (hw : st.get (some w) = some cw) (hd : cw.degree = 0) (y : Nat)
    (hy : y ∈ inEdges st (some w)) : ∃ l u v, EdgeAt st y l u v := by
  obtain ⟨l, a1, a2⟩ := lowReady_vertex st hR w cw hw hd 1 (by omega)
  simp only [inEdges, a1, Option.getD_some] at hy
  exact a2 y hy

theorem mem_fwdMatches3 (st : Store) (e f g : Nat) (m : Nat × Nat × Nat) :
    m ∈ fwdMatches3 st e f g ↔ m.1 = f ∧ m.2.1 = g ∧
      m.2.2 ∈ outEdges st (backVertex st f) ∧ st.lab (some m.2.2) = st.lab (some e) ∧
      backVertex st m.2.2 = backVertex st g := by
  obtain ⟨m1, m2, m3⟩ := m
  simp only [fwdMatches3, List.mem_flatMap]
  constructor
  · rintro ⟨h, h1, h2⟩
    split at h2
    · rename_i hc
      simp only [List.mem_singleton, Prod.mk.injEq] at h2
      obtain ⟨rfl, rfl, rfl⟩ := h2
      exact ⟨rfl, rfl, h1, hc.1, hc.2⟩
    · simp at h2
  · rintro ⟨rfl, rfl, h1, h2, h3⟩
    exact ⟨m3, h1, by simp only [h2, h3, and_self, if_true, List.mem_singleton]⟩

theorem mem_fwdMatches2 (st : Store) (e f : Nat) (m : Nat × Nat × Nat) :
    m ∈ fwdMatches2 st e f ↔ m.2.1 ∈ outEdges st (backVertex st e) ∧
      st.lab (some m.2.1) = st.lab (some f) ∧ m ∈ fwdMatches3 st e f m.2.1 := by
  simp only [fwdMatches2, List.mem_flatMap]
  constructor
  · rintro ⟨g, h1, h2⟩
    split at h2
    · rename_i hc
      have := ((mem_fwdMatches3 st e f g m).1 h2).2.1
      subst this
      exact ⟨h1, hc, h2⟩
    · simp at h2
  · rintro ⟨h1, h2, h3⟩
    exact ⟨m.2.1, h1, by simp only [h2, if_true]; exact h3⟩

/-- The forward matches of the definition are the triples of the claim. -/
theorem mem_fwdMatches (st : Store) (e : Nat) (m : Nat × Nat × Nat) :
    m ∈ fwdMatches st e ↔
      m.1 ∈ outEdges st (frontVertex st e) ∧ st.pid (some m.1) ≠ st.pid (some e) ∧
      m.2.1 ∈ outEdges st (backVertex st e) ∧ st.lab (some m.2.1) = st.lab (some m.1) ∧
      m.2.2 ∈ outEdges st (backVertex st m.1) ∧ st.lab (some m.2.2) = st.lab (some e) ∧
      backVertex st m.2.2 = backVertex st m.2.1 := by
  simp only [fwdMatches, List.mem_flatMap]
  constructor
  · rintro ⟨f, h1, h2⟩
    split at h2
    · rename_i hc
      obtain ⟨a1, a2, a3⟩ := (mem_fwdMatches2 st e f m).1 h2
      obtain ⟨b1, -, b3, b4, b5⟩ := (mem_fwdMatches3 st e f m.2.1 m).1 a3
      subst b1
      exact ⟨h1, hc, a1, a2, b3, b4, b5⟩
    · simp at h2
  · rintro ⟨h1, h2, h3, h4, h5, h6, h7⟩
    refine ⟨m.1, h1, ?_⟩
    simp only [h2, ne_eq, not_false_eq_true, if_true]
    exact (mem_fwdMatches2 st e m.1 m).2
      ⟨h3, h4, (mem_fwdMatches3 st e m.1 m.2.1 m).2 ⟨rfl, rfl, h5, h6, h7⟩⟩

theorem mem_bwdMatches3 (st : Store) (e f g : Nat) (m : Nat × Nat × Nat) :
    m ∈ bwdMatches3 st e f g ↔ m.1 = f ∧ m.2.1 = g ∧
      m.2.2 ∈ inEdges st (frontVertex st f) ∧ m.2.2 ≠ e ∧
      st.lab (some m.2.2) = st.lab (some e) ∧
      frontVertex st m.2.2 = frontVertex st g := by
  obtain ⟨m1, m2, m3⟩ := m
  simp only [bwdMatches3, List.mem_flatMap]
  constructor
  · rintro ⟨h, h1, h2⟩
    split at h2
    · rename_i hc
      simp only [List.mem_singleton, Prod.mk.injEq] at h2
      obtain ⟨rfl, rfl, rfl⟩ := h2
      exact ⟨rfl, rfl, h1, hc.1, hc.2.1, hc.2.2⟩
    · simp at h2
  · rintro ⟨rfl, rfl, h1, h2, h3, h4⟩
    exact ⟨m3, h1, by simp only [h2, h3, h4, ne_eq, not_false_eq_true, and_self, if_true,
      List.mem_singleton]⟩

theorem mem_bwdMatches2 (st : Store) (e f : Nat) (m : Nat × Nat × Nat) :
    m ∈ bwdMatches2 st e f ↔ m.2.1 ∈ inEdges st (frontVertex st e) ∧
      st.lab (some m.2.1) = st.lab (some f) ∧ m ∈ bwdMatches3 st e f m.2.1 := by
  simp only [bwdMatches2, List.mem_flatMap]
  constructor
  · rintro ⟨g, h1, h2⟩
    split at h2
    · rename_i hc
      have := ((mem_bwdMatches3 st e f g m).1 h2).2.1
      subst this
      exact ⟨h1, hc, h2⟩
    · simp at h2
  · rintro ⟨h1, h2, h3⟩
    exact ⟨m.2.1, h1, by simp only [h2, if_true]; exact h3⟩

/-- The backward matches of the definition are the triples of the claim. -/
theorem mem_bwdMatches (st : Store) (e : Nat) (m : Nat × Nat × Nat) :
    m ∈ bwdMatches st e ↔
      m.1 ∈ inEdges st (backVertex st e) ∧ st.pid (some m.1) ≠ st.pid (some e) ∧
      m.2.1 ∈ inEdges st (frontVertex st e) ∧ st.lab (some m.2.1) = st.lab (some m.1) ∧
      m.2.2 ∈ inEdges st (frontVertex st m.1) ∧ m.2.2 ≠ e ∧
      st.lab (some m.2.2) = st.lab (some e) ∧
      frontVertex st m.2.2 = frontVertex st m.2.1 := by
  simp only [bwdMatches, List.mem_flatMap]
  constructor
  · rintro ⟨f, h1, h2⟩
    split at h2
    · rename_i hc
      obtain ⟨a1, a2, a3⟩ := (mem_bwdMatches2 st e f m).1 h2
      obtain ⟨b1, -, b3, b4, b5, b6⟩ := (mem_bwdMatches3 st e f m.2.1 m).1 a3
      subst b1
      exact ⟨h1, hc, a1, a2, b3, b4, b5, b6⟩
    · simp at h2
  · rintro ⟨h1, h2, h3, h4, h5, h6, h7, h8⟩
    refine ⟨m.1, h1, ?_⟩
    simp only [h2, ne_eq, not_false_eq_true, if_true]
    exact (mem_bwdMatches2 st e m.1 m).2
      ⟨h3, h4, (mem_bwdMatches3 st e m.1 m.2.1 m).2 ⟨rfl, rfl, h5, h6, h7, h8⟩⟩
theorem fwdMatches3_ok (st : Store) (hR : lowReady st = true) (e f g : Nat)
    (he : ∃ l u v, EdgeAt st e l u v) (hf : ∃ l u v, EdgeAt st f l u v)
    (hg : ∃ l u v, EdgeAt st g l u v) (m : Nat × Nat × Nat)
    (hm : m ∈ fwdMatches3 st e f g) : QuadOK st (fwdQuad st e m) := by
  obtain ⟨a1, a2, a3, -, -⟩ := (mem_fwdMatches3 st e f g m).1 hm
  obtain ⟨m1, m2, m3⟩ := m
  simp only at a1 a2 a3
  subst a1 a2
  obtain ⟨l, u, v, hF⟩ := hf
  obtain ⟨cv, b1, b2⟩ := hF.tgt
  rw [hF.back_eq] at a3
  exact fwdQuad_ok he ⟨l, u, v, hF⟩ hg (outEdges_edge st hR v cv b1 b2 m3 a3)

theorem fwdMatches2_ok (st : Store) (hR : lowReady st = true) (e f : Nat)
    (he : ∃ l u v, EdgeAt st e l u v) (hf : ∃ l u v, EdgeAt st f l u v)
    (m : Nat × Nat × Nat) (hm : m ∈ fwdMatches2 st e f) : QuadOK st (fwdQuad st e m) := by
  obtain ⟨a1, -, a3⟩ := (mem_fwdMatches2 st e f m).1 hm
  obtain ⟨l, u, v, hE⟩ := he
  obtain ⟨cv, b1, b2⟩ := hE.tgt
  rw [hE.back_eq] at a1
  exact fwdMatches3_ok st hR e f m.2.1 ⟨l, u, v, hE⟩ hf
    (outEdges_edge st hR v cv b1 b2 _ a1) m a3

theorem fwdMatches_ok (st : Store) (hR : lowReady st = true) (e : Nat)
    (he : ∃ l u v, EdgeAt st e l u v) (m : Nat × Nat × Nat) (hm : m ∈ fwdMatches st e) :
    QuadOK st (fwdQuad st e m) := by
  obtain ⟨a1, a2, a3, a4, a5, a6, a7⟩ := (mem_fwdMatches st e m).1 hm
  obtain ⟨l, u, v, hE⟩ := he
  obtain ⟨cu, b1, b2⟩ := hE.src
  rw [hE.front_eq] at a1
  exact fwdMatches2_ok st hR e m.1 ⟨l, u, v, hE⟩ (outEdges_edge st hR u cu b1 b2 _ a1) m
    ((mem_fwdMatches2 st e m.1 m).2
      ⟨a3, a4, (mem_fwdMatches3 st e m.1 m.2.1 m).2 ⟨rfl, rfl, a5, a6, a7⟩⟩)

theorem map_quads_ok (st : Store) (Q : Nat × Nat × Nat → Nat × Nat × Nat × Nat)
    (ms : List (Nat × Nat × Nat)) (h : ∀ m, m ∈ ms → QuadOK st (Q m)) :
    ∀ q, q ∈ ms.map Q → QuadOK st q := by
  intro q hq
  obtain ⟨m, hm, rfl⟩ := List.mem_map.1 hq
  exact h m hm

/-- The body of the middle loop of the first half of `FillSquares` creates the
squares of the matches `(pc, pc2, h)`. -/
theorem fwdMiddle_fold (st : Store) (hR : lowReady st = true) (edge pc pc2 : Nat)
    (a : Store × Nat) (le l l2 : label) (ue ve u v u2 v2 : Nat)
    (hJ : SqKeep st a.1) (hE : EdgeAt st edge le ue ve) (hpc : EdgeAt st pc l u v)
    (hpc2 : EdgeAt st pc2 l2 u2 v2) :
    fwdMiddle edge pc l.num le.num a pc2 =
      loopM addSquare a
        ((if st.lab (some pc2) = st.lab (some pc) then fwdMatches3 st edge pc pc2
          else []).map (fwdQuad st edge)) := by
  obtain ⟨c, ls, e1, -⟩ := hpc.cell
  obtain ⟨c2, ls2, f1, -⟩ := hpc2.cell
  obtain ⟨cv, g1, g2⟩ := hpc.tgt
  obtain ⟨l3, k1, k2⟩ := lowReady_vertex st hR v cv g1 g2 0 (by omega)
  obtain ⟨ls', hl⟩ := hpc.lab_eq
  obtain ⟨ls2', hl2⟩ := hpc2.lab_eq
  have hm3 : (fwdMatches3 st edge pc pc2).map (fwdQuad st edge) =
      l3.flatMap (fun h =>
        (if st.lab (some h) = st.lab (some edge) ∧ backVertex st h = backVertex st pc2
          then [(pc, pc2, h)] else []).map (fwdQuad st edge)) := by
    simp only [fwdMatches3, hpc.back_eq, outEdges, k1, Option.getD_some, List.map_flatMap]
  simp only [fwdMiddle, hJ.keep_bd pc c e1, hpc.edge_bd1, hJ.keep_cof v cv g1 g2, k1,
    hJ.keep_lab pc2 c2 f1, hJ.keep_lab pc c e1, hl, hl2, Option.some.injEq]
  by_cases hnil : l3 = []
  · subst hnil
    simp only [if_true]
    have : fwdMatches3 st edge pc pc2 = [] := by
      simp only [fwdMatches3, hpc.back_eq, outEdges, k1, Option.getD_some, List.flatMap_nil]
    rw [this]
    simp [loopM]
  · simp only [hnil, if_false]
    by_cases hlab : l2 :: ls2' = l :: ls'
    · cases hlab
      have hc : VecCmp (some (l :: ls')) (some (l :: ls')) (some labcmp) = 0 :=
        (VecCmp_eq _ _).2 rfl
      simp only [hc, if_true, hm3]
      exact (loopM_flatMap (fun s => SqKeep st s.1) _ addSquare _ l3
        (fun s h hs hh => by
          obtain ⟨l3', u3, v3, hpc3⟩ := k2 h hh
          exact fwdInner_fold st edge pc pc2 h s le l l l3' ue ve u v u2 v2 u3 v3 hs hE hpc
            hpc2 hpc3)
        (fun s h b hs hh hb => by
          refine addSquares_keep st _ (map_quads_ok st _ _ ?_) s b hs hb
          intro m hm
          split at hm
          · rw [List.mem_singleton.1 hm]
            exact fwdQuad_ok ⟨_, _, _, hE⟩ ⟨_, _, _, hpc⟩ ⟨_, _, _, hpc2⟩ (k2 h hh)
          · simp at hm)
        a hJ).1
    · have hc : ¬ VecCmp (some (l2 :: ls2')) (some (l :: ls')) (some labcmp) = 0 :=
        fun h => hlab (Option.some.inj ((VecCmp_eq _ _).1 h))
      simp only [hc, if_false, hlab, List.map_nil, loopM]
/-- The body of the outer loop of the first half of `FillSquares` creates the
squares of the matches `(pc, g, h)`. -/
theorem fwdOuter_fold (st : Store) (hR : lowReady st = true) (edge pc : Nat)
    (a : Store × Nat) (le l : label) (lse : List label) (ue ve u v : Nat)
    (hJ : SqKeep st a.1) (hE : EdgeAt st edge le ue ve) (hpc : EdgeAt st pc l u v) :
    fwdOuter edge (le :: lse) a pc =
      loopM addSquare a
        ((if st.pid (some pc) ≠ st.pid (some edge) then fwdMatches2 st edge pc
          else []).map (fwdQuad st edge)) := by
  obtain ⟨c, ls, e1, -⟩ := hpc.cell
  obtain ⟨ce, lse2, f1, -⟩ := hE.cell
  obtain ⟨cv, g1, g2⟩ := hE.tgt
  obtain ⟨l2, k1, k2⟩ := lowReady_vertex st hR ve cv g1 g2 0 (by omega)
  obtain ⟨ls', hl⟩ := hpc.lab_eq
  have hm2 : (fwdMatches2 st edge pc).map (fwdQuad st edge) =
      l2.flatMap (fun g =>
        (if st.lab (some g) = st.lab (some pc) then fwdMatches3 st edge pc g
          else []).map (fwdQuad st edge)) := by
    simp only [fwdMatches2, hE.back_eq, outEdges, k1, Option.getD_some, List.map_flatMap]
  simp only [fwdOuter, hJ.keep_lab pc c e1, hl, hJ.keep_bd edge ce f1, hE.edge_bd1,
    hJ.keep_cof ve cv g1 g2, k1, List.head?_cons, hpc.pid_eq, hE.pid_eq, ne_eq,
    Option.some.injEq]
  by_cases hnil : l2 = []
  · subst hnil
    simp only [if_true]
    have : fwdMatches2 st edge pc = [] := by
      simp only [fwdMatches2, hE.back_eq, outEdges, k1, Option.getD_some, List.flatMap_nil]
    rw [this]
    simp [loopM]
  · simp only [hnil, if_false]
    by_cases hp : l.num = le.num
    · simp only [hp, not_true_eq_false, if_false, List.map_nil, loopM]
    · simp only [hp, not_false_eq_true, if_true, hm2]
      exact (loopM_flatMap (fun s => SqKeep st s.1) _ addSquare _ l2
        (fun s g hs hg => by
          obtain ⟨l2', u2, v2, hpc2⟩ := k2 g hg
          exact fwdMiddle_fold st hR edge pc g s le l l2' ue ve u v u2 v2 hs hE hpc hpc2)
        (fun s g b hs hg hb => by
          refine addSquares_keep st _ (map_quads_ok st _ _ ?_) s b hs hb
          intro m hm
          split at hm
          · exact fwdMatches3_ok st hR edge pc g ⟨_, _, _, hE⟩ ⟨_, _, _, hpc⟩ (k2 g hg) m hm
          · simp at hm)
        a hJ).1

/-- The first half of `FillSquares` creates the squares of the forward matches of
the edge, in their order. -/
theorem fwdLoop_fold (st : Store) (hR : lowReady st = true) (edge : Nat)
    (a : Store × Nat) (le : label) (lse : List label) (ue ve : Nat)
    (hJ : SqKeep st a.1) (hE : EdgeAt st edge le ue ve) :
    loopM (fwdOuter edge (le :: lse)) a (outEdges st (some ue)) =
      loopM addSquare a ((fwdMatches st edge).map (fwdQuad st edge)) ∧
    ∀ b, loopM addSquare a ((fwdMatches st edge).map (fwdQuad st edge)) = some b →
      SqKeep st b.1 := by
  obtain ⟨cu, g1, g2⟩ := hE.src
  have hm1 : (fwdMatches st edge).map (fwdQuad st edge) =
      (outEdges st (some ue)).flatMap (fun f =>
        (if st.pid (some f) ≠ st.pid (some edge) then fwdMatches2 st edge f
          else []).map (fwdQuad st edge)) := by
    simp only [fwdMatches, hE.front_eq, List.map_flatMap]
  rw [hm1]
  exact loopM_flatMap (fun s => SqKeep st s.1) _ addSquare _ (outEdges st (some ue))
    (fun s f hs hf => by
      obtain ⟨l, u, v, hpc⟩ := outEdges_edge st hR ue cu g1 g2 f hf
      exact fwdOuter_fold st hR edge f s le l lse ue ve u v hs hE hpc)
    (fun s f b hs hf hb => by
      refine addSquares_keep st _ (map_quads_ok st _ _ ?_) s b hs hb
      intro m hm
      split at hm
      · exact fwdMatches2_ok st hR edge f ⟨_, _, _, hE⟩
          (outEdges_edge st hR ue cu g1 g2 f hf) m hm
      · simp at hm)
    a hJ
/-- The body of the innermost loop of the second half of `FillSquares` creates
the square of the match `(pc, pc2, pc3)` if it is one, and does nothing
otherwise. -/
theorem bwdInner_fold (st : Store) (edge pc pc2 pc3 : Nat) (a : Store × Nat)
    (le l l2 l3 : label) (ue ve u v u2 v2 u3 v3 : Nat)
    (hJ : SqKeep st a.1) (hE : EdgeAt st edge le ue ve) (hpc : EdgeAt st pc l u v)
    (hpc2 : EdgeAt st pc2 l2 u2 v2) (hpc3 : EdgeAt st pc3 l3 u3 v3) :
    bwdInner edge pc pc2 l.num le.num a pc3 =
      loopM addSquare a
        ((if pc3 ≠ edge ∧ st.lab (some pc3) = st.lab (some edge) ∧
            frontVertex st pc3 = frontVertex st pc2
          then [(pc, pc2, pc3)] else []).map (bwdQuad st edge)) := by
  obtain ⟨ce, lse, e1, -⟩ := hE.cell
  obtain ⟨c2, ls2, f1, -⟩ := hpc2.cell
  obtain ⟨c3, ls3, g1, -⟩ := hpc3.cell
  obtain ⟨lse', hle⟩ := hE.lab_eq
  obtain ⟨ls3', hl3⟩ := hpc3.lab_eq
  simp only [bwdInner, hJ.keep_bd pc2 c2 f1, hJ.keep_bd pc3 c3 g1, hpc2.edge_bd0, hpc3.edge_bd0,
    hJ.keep_lab edge ce e1, hJ.keep_lab pc3 c3 g1, hle, hl3, hpc2.front_eq, hpc3.front_eq,
    Option.some.injEq, ne_eq]
  by_cases hne : pc3 = edge
  · simp only [hne, not_true_eq_false, if_false, false_and, List.map_nil, loopM]
  · simp only [hne, not_false_eq_true, if_true, true_and]
    by_cases hv : u2 = u3
    · by_cases hlab : le :: lse' = l3 :: ls3'
      · cases hlab
        have hc : VecCmp (some (le :: lse')) (some (le :: lse')) (some labcmp) = 0 :=
          (VecCmp_eq _ _).2 rfl
        simp only [hv, hc, if_true, and_self, List.map_cons, List.map_nil, loopM_single,
          addSquare, bwdQuad, pidLt_eq hpc hE]
        by_cases hp : l.num < le.num
        · simp only [hp, decide_True, if_true]
          cases newSquare a.1 pc3 pc2 edge pc <;> rfl
        · simp only [hp, decide_False, if_false, Bool.false_eq_true]
          cases newSquare a.1 pc2 pc3 pc edge <;> rfl
      · have hc : ¬ VecCmp (some (le :: lse')) (some (l3 :: ls3')) (some labcmp) = 0 :=
          fun h => hlab (Option.some.inj ((VecCmp_eq _ _).1 h))
        have hlab' : ¬ (l3 :: ls3' = le :: lse') := fun h => hlab h.symm
        simp only [hv, hc, if_true, if_false, hlab', false_and, List.map_nil, loopM]
    · have hv' : ¬ (u3 = u2) := fun h => hv h.symm
      simp only [hv, hv', if_false, and_false, List.map_nil, loopM]

theorem bwdMatches3_ok (st : Store) (hR : lowReady st = true) (e f g : Nat)
    (he : ∃ l u v, EdgeAt st e l u v) (hf : ∃ l u v, EdgeAt st f l u v)
    (hg : ∃ l u v, EdgeAt st g l u v) (m : Nat × Nat × Nat)
    (hm : m ∈ bwdMatches3 st e f g) : QuadOK st (bwdQuad st e m) := by
  obtain ⟨a1, a2, a3, -, -⟩ := (mem_bwdMatches3 st e f g m).1 hm
  obtain ⟨m1, m2, m3⟩ := m
  simp only at a1 a2 a3
  subst a1 a2
  obtain ⟨l, u, v, hF⟩ := hf
  obtain ⟨cu, b1, b2⟩ := hF.src
  rw [hF.front_eq] at a3
  exact bwdQuad_ok he ⟨l, u, v, hF⟩ hg (inEdges_edge st hR u cu b1 b2 m3 a3)

theorem bwdMatches2_ok (st : Store) (hR : lowReady st = true) (e f : Nat)
    (he : ∃ l u v, EdgeAt st e l u v) (hf : ∃ l u v, EdgeAt st f l u v)
    (m : Nat × Nat × Nat) (hm : m ∈ bwdMatches2 st e f) : QuadOK st (bwdQuad st e m) := by
  obtain ⟨a1, -, a3⟩ := (mem_bwdMatches2 st e f m).1 hm
  obtain ⟨l, u, v, hE⟩ := he
  obtain ⟨cu, b1, b2⟩ := hE.src
  rw [hE.front_eq] at a1
  exact bwdMatches3_ok st hR e f m.2.1 ⟨l, u, v, hE⟩ hf
    (inEdges_edge st hR u cu b1 b2 _ a1) m a3

theorem bwdMatches_ok (st : Store) (hR : lowReady st = true) (e : Nat)
    (he : ∃ l u v, EdgeAt st e l u v) (m : Nat × Nat × Nat) (hm : m ∈ bwdMatches st e) :
    QuadOK st (bwdQuad st e m) := by
  obtain ⟨a1, a2, a3, a4, a5, a6, a7, a8⟩ := (mem_bwdMatches st e m).1 hm
  obtain ⟨l, u, v, hE⟩ := he
  obtain ⟨cv, b1, b2⟩ := hE.tgt
  rw [hE.back_eq] at a1
  exact bwdMatches2_ok st hR e m.1 ⟨l, u, v, hE⟩ (inEdges_edge st hR v cv b1 b2 _ a1) m
    ((mem_bwdMatches2 st e m.1 m).2
      ⟨a3, a4, (mem_bwdMatches3 st e m.1 m.2.1 m).2 ⟨rfl, rfl, a5, a6, a7, a8⟩⟩)

/-- The body of the middle loop of the second half of `FillSquares` creates the
squares of the matches `(pc, pc2, h)`. -/
theorem bwdMiddle_fold (st : Store) (hR : lowReady st = true) (edge pc pc2 : Nat)
    (a : Store × Nat) (le l l2 : label) (ue ve u v u2 v2 : Nat)
    (hJ : SqKeep st a.1) (hE : EdgeAt st edge le ue ve) (hpc : EdgeAt st pc l u v)
    (hpc2 : EdgeAt st pc2 l2 u2 v2) :
    bwdMiddle edge pc l.num le.num a pc2 =
      loopM addSquare a
        ((if st.lab (some pc2) = st.lab (some pc) then bwdMatches3 st edge pc pc2
          else []).map (bwdQuad st edge)) := by
  obtain ⟨c, ls, e1, -⟩ := hpc.cell
  obtain ⟨c2, ls2, f1, -⟩ := hpc2.cell
  obtain ⟨cu, g1, g2⟩ := hpc.src
  obtain ⟨l3, k1, k2⟩ := lowReady_vertex st hR u cu g1 g2 1 (by omega)
  obtain ⟨ls', hl⟩ := hpc.lab_eq
  obtain ⟨ls2', hl2⟩ := hpc2.lab_eq
  have hm3 : (bwdMatches3 st edge pc pc2).map (bwdQuad st edge) =
      l3.flatMap (fun h =>
        (if h ≠ edge ∧ st.lab (some h) = st.lab (some edge) ∧
            frontVertex st h = frontVertex st pc2
          then [(pc, pc2, h)] else []).map (bwdQuad st edge)) := by
    simp only [bwdMatches3, hpc.front_eq, inEdges, k1, Option.getD_some, List.map_flatMap]
  simp only [bwdMiddle, hJ.keep_bd pc c e1, hpc.edge_bd0, hJ.keep_cof u cu g1 g2, k1,
    hJ.keep_lab pc2 c2 f1, hJ.keep_lab pc c e1, hl, hl2, Option.some.injEq]
  by_cases hnil : l3 = []
  · subst hnil
    simp only [if_true]
    have : bwdMatches3 st edge pc pc2 = [] := by
      simp only [bwdMatches3, hpc.front_eq, inEdges, k1, Option.getD_some, List.flatMap_nil]
    rw [this]
    simp [loopM]
  · simp only [hnil, if_false]
    by_cases hlab : l2 :: ls2' = l :: ls'
    · cases hlab
      have hc : VecCmp (some (l :: ls')) (some (l :: ls')) (some labcmp) = 0 :=
        (VecCmp_eq _ _).2 rfl
      simp only [hc, if_true, hm3]
      exact (loopM_flatMap (fun s => SqKeep st s.1) _ addSquare _ l3
        (fun s h hs hh => by
          obtain ⟨l3', u3, v3, hpc3⟩ := k2 h hh
          exact bwdInner_fold st edge pc pc2 h s le l l l3' ue ve u v u2 v2 u3 v3 hs hE hpc
            hpc2 hpc3)
        (fun s h b hs hh hb => by
          refine addSquares_keep st _ (map_quads_ok st _ _ ?_) s b hs hb
          intro m hm
          split at hm
          · rw [List.mem_singleton.1 hm]
            exact bwdQuad_ok ⟨_, _, _, hE⟩ ⟨_, _, _, hpc⟩ ⟨_, _, _, hpc2⟩ (k2 h hh)
          · simp at hm)
        a hJ).1
    · have hc : ¬ VecCmp (some (l2 :: ls2')) (some (l :: ls')) (some labcmp) = 0 :=
        fun h => hlab (Option.some.inj ((VecCmp_eq _ _).1 h))
      simp only [hc, if_false, hlab, List.map_nil, loopM]

/-- The body of the outer loop of the second half of `FillSquares` creates the
squares of the matches `(pc, g, h)`. -/
theorem bwdOuter_fold (st : Store) (hR : lowReady st = true) (edge pc : Nat)
    (a : Store × Nat) (le l : label) (lse : List label) (ue ve u v : Nat)
    (hJ : SqKeep st a.1) (hE : EdgeAt st edge le ue ve) (hpc : EdgeAt st pc l u v) :
    bwdOuter edge (le :: lse) a pc =
      loopM addSquare a
        ((if st.pid (some pc) ≠ st.pid (some edge) then bwdMatches2 st edge pc
          else []).map (bwdQuad st edge)) := by
  obtain ⟨c, ls, e1, -⟩ := hpc.cell
  obtain ⟨ce, lse2, f1, -⟩ := hE.cell
  obtain ⟨cu, g1, g2⟩ := hE.src
  obtain ⟨l2, k1, k2⟩ := lowReady_vertex st hR ue cu g1 g2 1 (by omega)
  obtain ⟨ls', hl⟩ := hpc.lab_eq
  have hm2 : (bwdMatches2 st edge pc).map (bwdQuad st edge) =
      l2.flatMap (fun g =>
        (if st.lab (some g) = st.lab (some pc) then bwdMatches3 st edge pc g
          else []).map (bwdQuad st edge)) := by
    simp only [bwdMatches2, hE.front_eq, inEdges, k1, Option.getD_some, List.map_flatMap]
  simp only [bwdOuter, hJ.keep_lab pc c e1, hl, hJ.keep_bd edge ce f1, hE.edge_bd0,
    hJ.keep_cof ue cu g1 g2, k1, List.head?_cons, hpc.pid_eq, hE.pid_eq, ne_eq,
    Option.some.injEq]
  by_cases hnil : l2 = []
  · subst hnil
    simp only [if_true]
    have : bwdMatches2 st edge pc = [] := by
      simp only [bwdMatches2, hE.front_eq, inEdges, k1, Option.getD_some, List.flatMap_nil]
    rw [this]
    simp [loopM]
  · simp only [hnil, if_false]
    by_cases hp : l.num = le.num
    · simp only [hp, not_true_eq_false, if_false, List.map_nil, loopM]
    · simp only [hp, not_false_eq_true, if_true, hm2]
      exact (loopM_flatMap (fun s => SqKeep st s.1) _ addSquare _ l2
        (fun s g hs hg => by
          obtain ⟨l2', u2, v2, hpc2⟩ := k2 g hg
          exact bwdMiddle_fold st hR edge pc g s le l l2' ue ve u v u2 v2 hs hE hpc hpc2)
        (fun s g b hs hg hb => by
          refine addSquares_keep st _ (map_quads_ok st _ _ ?_) s b hs hb
          intro m hm
          split at hm
          · exact bwdMatches3_ok st hR edge pc g ⟨_, _, _, hE⟩ ⟨_, _, _, hpc⟩ (k2 g hg) m hm
          · simp at hm)
        a hJ).1

/-- The second half of `FillSquares` creates the squares of the backward matches
of the edge, in their order. -/
theorem bwdLoop_fold (st : Store) (hR : lowReady st = true) (edge : Nat)
    (a : Store × Nat) (le : label) (lse : List label) (ue ve : Nat)
    (hJ : SqKeep st a.1) (hE : EdgeAt st edge le ue ve) :
    loopM (bwdOuter edge (le :: lse)) a (inEdges st (some ve)) =
      loopM addSquare a ((bwdMatches st edge).map (bwdQuad st edge)) ∧
    ∀ b, loopM addSquare a ((bwdMatches st edge).map (bwdQuad st edge)) = some b →
      SqKeep st b.1 := by
  obtain ⟨cv, g1, g2⟩ := hE.tgt
  have hm1 : (bwdMatches st edge).map (bwdQuad st edge) =
      (inEdges st (some ve)).flatMap (fun f =>
        (if st.pid (some f) ≠ st.pid (some edge) then bwdMatches2 st edge f
          else []).map (bwdQuad st edge)) := by
    simp only [bwdMatches, hE.back_eq, List.map_flatMap]
  rw [hm1]
  exact loopM_flatMap (fun s => SqKeep st s.1) _ addSquare _ (inEdges st (some ve))
    (fun s f hs hf => by
      obtain ⟨l, u, v, hpc⟩ := inEdges_edge st hR ve cv g1 g2 f hf
      exact bwdOuter_fold st hR edge f s le l lse ue ve u v hs hE hpc)
    (fun s f b hs hf hb => by
      refine addSquares_keep st _ (map_quads_ok st _ _ ?_) s b hs hb
      intro m hm
      split at hm
      · exact bwdMatches2_ok st hR edge f ⟨_, _, _, hE⟩
          (inEdges_edge st hR ve cv g1 g2 f hf) m hm
      · simp at hm)
    a hJ

/-- `FillSquares` does what the statements for one match do on the matches of
the edge in a row, the forward matches first. -/
theorem FillSquares_fold (st : Store) (hR : lowReady st = true) (edge : Nat) (ce : cube)
    (he : st.get (some edge) = some ce) (hd : ce.degree = 1) :
    FillSquares st edge = loopM addSquare (st, 0) (matchQuads st edge) := by
  obtain ⟨le, ue, ve, hE⟩ := lowReady_edge st hR edge ce he hd
  obtain ⟨lse, hle⟩ := hE.lab_eq
  obtain ⟨cu, g1, g2⟩ := hE.src
  obtain ⟨cv, k1, k2⟩ := hE.tgt
  obtain ⟨l1, a1, -⟩ := lowReady_vertex st hR ue cu g1 g2 0 (by omega)
  obtain ⟨l1b, b1, -⟩ := lowReady_vertex st hR ve cv k1 k2 1 (by omega)
  have hout : outEdges st (some ue) = l1 := by simp only [outEdges, a1, Option.getD_some]
  have hin : inEdges st (some ve) = l1b := by simp only [inEdges, b1, Option.getD_some]
  obtain ⟨f1, f2⟩ := fwdLoop_fold st hR edge (st, 0) le lse ue ve (SqKeep.keep_refl st) hE
  rw [hout] at f1
  simp only [FillSquares, hle, hE.edge_bd0, a1, f1, matchQuads, loopM_append]
  cases hb : loopM addSquare (st, 0) ((fwdMatches st edge).map (fwdQuad st edge)) with
  | none => rfl
  | some b =>
    have hJ := f2 b hb
    obtain ⟨r1, -⟩ := bwdLoop_fold st hR edge b le lse ue ve hJ hE
    rw [hin] at r1
    simp only [hJ.keep_bd edge ce he, hE.edge_bd1, hJ.keep_cof ve cv k1 k2, b1, r1,
      Option.some_bind]
/-- What the statements for the matches with the faces `qs` do, one after the
other, from a store `a.1` that is in the relation `SqKeep` to `base`: they return,
the count grows by the number of the matches, and for the match `i` the cell
`a.1.cubes.length + i` is a new cube of degree 2 with these faces, which is
appended to `cubelist[2]`; nothing else changes but coface lists. -/
theorem addSquares_spec (base : Store) :
    ∀ (qs : List (Nat × Nat × Nat × Nat)), (∀ q, q ∈ qs → QuadOK base q) →
      (qs = [] ∨ 2 < base.cubelist.length) →
      ∀ a : Store × Nat, SqKeep base a.1 →
        ∃ b, loopM addSquare a qs = some b ∧ b.2 = a.2 + qs.length ∧
          b.1.cubes.length = a.1.cubes.length + qs.length ∧
          (∀ i q, qs[i]? = some q →
            ∃ c, b.1.get (some (a.1.cubes.length + i)) = some c ∧ c.degree = 2 ∧
              c.d0 = [some q.1, some q.2.1] ∧ c.d1 = [some q.2.2.1, some q.2.2.2] ∧
              c.edges = [some q.2.1, some q.1] ∧ c.lab = none) ∧
          b.1.cubelist[2]? =
            (a.1.cubelist[2]?).map (fun l => l ++ List.range' a.1.cubes.length qs.length) ∧
          (∀ d, d ≠ 2 → b.1.cubelist[d]? = a.1.cubelist[d]?) ∧
          (∀ y cy, a.1.get (some y) = some cy →
            ∃ cy', b.1.get (some y) = some cy' ∧ Frame cy cy') ∧
          (qs = [] → b = a) := by
  intro qs
  induction qs with
  | nil =>
    intro _ _ a _
    refine ⟨a, rfl, rfl, rfl, ?_, ?_, fun _ _ => rfl,
      fun y cy hy => ⟨cy, hy, Frame.frame_refl cy⟩, fun _ => rfl⟩
    · intro i q hq
      simp at hq
    · cases a.1.cubelist[2]? <;> simp
  | cons q qs ih =>
    intro hq hl a hJ
    have hl2 : 2 < base.cubelist.length := by
      rcases hl with h | h
      · simp at h
      · exact h
    obtain ⟨b1, hb1⟩ := addSquare_total base a q hJ (hq q (List.mem_cons_self _ _)) hl2
    have hJ1 := addSquare_keep base a b1 q hJ (hq q (List.mem_cons_self _ _)) hb1
    have hcnt := addSquare_count a b1 q hb1
    obtain ⟨b, c1, c2, c3, c4, c5, c6, c7, -⟩ :=
      ih (fun q' hq' => hq q' (List.mem_cons_of_mem _ hq')) (Or.inr hl2) b1 hJ1
    have hs : ∃ s, newSquare a.1 q.1 q.2.1 q.2.2.1 q.2.2.2 = some s ∧ b1 = (s, a.2 + 1) := by
      simp only [addSquare, Option.map_eq_some'] at hb1
      obtain ⟨s, e1, e2⟩ := hb1
      exact ⟨s, e1, e2.symm⟩
    obtain ⟨s, hs1, rfl⟩ := hs
    have hL := link_spec _ _ _ hs1
    obtain ⟨l2, g1, g2⟩ := hL.list
    have g1' : a.1.cubelist[2]? = some l2 := g1
    refine ⟨b, by simp only [loopM, hb1, c1], ?_, ?_, ?_, ?_, ?_, ?_, fun h => by simp at h⟩
    · rw [c2, hcnt, List.length_cons]; omega
    · rw [c3, hL.len, List.length_cons]; omega
    · intro i q' hq'
      cases i with
      | zero =>
        simp only [List.getElem?_cons_zero, Option.some.injEq] at hq'
        subst hq'
        obtain ⟨c', d1, d2⟩ := c7 _ _ hL.new
        refine ⟨c', by simpa using d1, d2.1, d2.2.2.2.1, d2.2.2.2.2.1, d2.2.2.2.2.2.1,
          d2.2.2.2.2.2.2⟩
      | succ i =>
        simp only [List.getElem?_cons_succ] at hq'
        obtain ⟨c', d1, d2⟩ := c4 i q' hq'
        refine ⟨c', ?_, d2⟩
        rw [← d1, hL.len]
        congr 2
        omega
    · have e1 : s.cubelist[2]? = some (l2 ++ [a.1.cubes.length]) := by
        have hlt : 2 < a.1.cubelist.length := getElem?_some_lt _ _ _ g1'
        rw [g2]
        show (a.1.cubelist.set 2 (l2 ++ [a.1.cubes.length]))[2]? = _
        rw [List.getElem?_set_self hlt]
      rw [c5]
      show (s.cubelist[2]?).map _ = _
      rw [e1, g1', hL.len]
      simp only [Option.map_some', List.length_cons, List.append_assoc, List.singleton_append,
        Option.some.injEq, List.append_cancel_left_eq]
      rw [List.range'_succ]
    · intro d hd
      rw [c6 d hd]
      show s.cubelist[d]? = _
      rw [g2]
      show (a.1.cubelist.set 2 _)[d]? = _
      rw [List.getElem?_set_ne (Ne.symm hd)]
    · intro y cy hy
      obtain ⟨cy1, d1, d2, -⟩ := hL.old y cy hy
      obtain ⟨cy2, d3, d4⟩ := c7 y cy1 d1
      exact ⟨cy2, d3, d2.frame_trans d4⟩
theorem pid_of_lab (st : Store) (x y : Nat) (h : st.lab (some x) = st.lab (some y)) :
    st.pid (some x) = st.pid (some y) := by
  simp only [Store.lab, Store.pid] at h ⊢
  cases hx : st.get (some x) with
  | none =>
    cases hy : st.get (some y) with
    | none => rfl
    | some cy => simp [hx, hy] at h
  | some cx =>
    cases hy : st.get (some y) with
    | none => simp [hx, hy] at h
    | some cy =>
      simp only [hx, hy, Option.some.injEq] at h
      simp only [h]

theorem fwdMatches3_nodup (st : Store) (h : ∀ v, (outEdges st v).Nodup) (e f g : Nat) :
    (fwdMatches3 st e f g).Nodup := by
  unfold fwdMatches3
  refine List.nodup_flatMap.2 ⟨?_, ?_⟩
  · intro x _
    split
    · exact List.nodup_singleton _
    · exact List.nodup_nil
  · refine List.Pairwise.imp ?_ (h _)
    intro x y hxy
    simp only [Function.onFun]
    intro m hm1 hm2
    split at hm1
    · split at hm2
      · rw [List.mem_singleton.1 hm1] at hm2
        simp only [List.mem_singleton, Prod.mk.injEq, true_and] at hm2
        exact hxy hm2
      · simp at hm2
    · simp at hm1

theorem fwdMatches2_nodup (st : Store) (h : ∀ v, (outEdges st v).Nodup) (e f : Nat) :
    (fwdMatches2 st e f).Nodup := by
  unfold fwdMatches2
  refine List.nodup_flatMap.2 ⟨?_, ?_⟩
  · intro x _
    split
    · exact fwdMatches3_nodup st h e f x
    · exact List.nodup_nil
  · refine List.Pairwise.imp ?_ (h _)
    intro x y hxy
    simp only [Function.onFun]
    intro m hm1 hm2
    split at hm1
    · split at hm2
      · have a1 := ((mem_fwdMatches3 st e f x m).1 hm1).2.1
        have a2 := ((mem_fwdMatches3 st e f y m).1 hm2).2.1
        exact hxy (a1.symm.trans a2)
      · simp at hm2
    · simp at hm1

/-- No forward match is listed twice when no coface list has an edge twice. -/
theorem fwdMatches_nodup (st : Store) (h : ∀ v, (outEdges st v).Nodup) (e : Nat) :
    (fwdMatches st e).Nodup := by
  unfold fwdMatches
  refine List.nodup_flatMap.2 ⟨?_, ?_⟩
  · intro x _
    split
    · exact fwdMatches2_nodup st h e x
    · exact List.nodup_nil
  · refine List.Pairwise.imp ?_ (h _)
    intro x y hxy
    simp only [Function.onFun]
    intro m hm1 hm2
    split at hm1
    · split at hm2
      · have a1 := ((mem_fwdMatches2 st e x m).1 hm1).2.2
        have a2 := ((mem_fwdMatches2 st e y m).1 hm2).2.2
        have b1 := ((mem_fwdMatches3 st e x _ m).1 a1).1
        have b2 := ((mem_fwdMatches3 st e y _ m).1 a2).1
        exact hxy (b1.symm.trans b2)
      · simp at hm2
    · simp at hm1

theorem bwdMatches3_nodup (st : Store) (h : ∀ v, (inEdges st v).Nodup) (e f g : Nat) :
    (bwdMatches3 st e f g).Nodup := by
  unfold bwdMatches3
  refine List.nodup_flatMap.2 ⟨?_, ?_⟩
  · intro x _
    split
    · exact List.nodup_singleton _
    · exact List.nodup_nil
  · refine List.Pairwise.imp ?_ (h _)
    intro x y hxy
    simp only [Function.onFun]
    intro m hm1 hm2
    split at hm1
    · split at hm2
      · rw [List.mem_singleton.1 hm1] at hm2
        simp only [List.mem_singleton, Prod.mk.injEq, true_and] at hm2
        exact hxy hm2
      · simp at hm2
    · simp at hm1

theorem bwdMatches2_nodup (st : Store) (h : ∀ v, (inEdges st v).Nodup) (e f : Nat) :
    (bwdMatches2 st e f).Nodup := by
  unfold bwdMatches2
  refine List.nodup_flatMap.2 ⟨?_, ?_⟩
  · intro x _
    split
    · exact bwdMatches3_nodup st h e f x
    · exact List.nodup_nil
  · refine List.Pairwise.imp ?_ (h _)
    intro x y hxy
    simp only [Function.onFun]
    intro m hm1 hm2
    split at hm1
    · split at hm2
      · have a1 := ((mem_bwdMatches3 st e f x m).1 hm1).2.1
        have a2 := ((mem_bwdMatches3 st e f y m).1 hm2).2.1
        exact hxy (a1.symm.trans a2)
      · simp at hm2
    · simp at hm1

/-- No backward match is listed twice when no coface list has an edge twice. -/
theorem bwdMatches_nodup (st : Store) (h : ∀ v, (inEdges st v).Nodup) (e : Nat) :
    (bwdMatches st e).Nodup := by
  unfold bwdMatches
  refine List.nodup_flatMap.2 ⟨?_, ?_⟩
  · intro x _
    split
    · exact bwdMatches2_nodup st h e x
    · exact List.nodup_nil
  · refine List.Pairwise.imp ?_ (h _)
    intro x y hxy
    simp only [Function.onFun]
    intro m hm1 hm2
    split at hm1
    · split at hm2
      · have a1 := ((mem_bwdMatches2 st e x m).1 hm1).2.2
        have a2 := ((mem_bwdMatches2 st e y m).1 hm2).2.2
        have b1 := ((mem_bwdMatches3 st e x _ m).1 a1).1
        have b2 := ((mem_bwdMatches3 st e y _ m).1 a2).1
        exact hxy (b1.symm.trans b2)
      · simp at hm2
    · simp at hm1

theorem matchQuads_ok (st : Store) (hR : lowReady st = true) (e : Nat)
    (he : ∃ l u v, EdgeAt st e l u v) : ∀ q, q ∈ matchQuads st e → QuadOK st q := by
  intro q hq
  rcases List.mem_append.1 hq with h | h
  · exact map_quads_ok st _ _ (fwdMatches_ok st hR e he) q h
  · exact map_quads_ok st _ _ (bwdMatches_ok st hR e he) q h

/-- The run of `FillSquares` on an edge of a store whose cells of degree 0 and 1
are ready, when `cubelist[2]` exists or there is no match. -/
theorem FillSquares_run (st : Store) (edge : Nat) (ce : cube)
    (hR : lowReady st = true) (he : st.get (some edge) = some ce) (hd : ce.degree = 1)
    (hl : matchQuads st edge = [] ∨ 2 < st.cubelist.length) :
    ∃ r, FillSquares st edge = some r ∧ r.2 = (matchQuads st edge).length ∧
      r.1.cubes.length = st.cubes.length + (matchQuads st edge).length ∧
      (∀ i q, (matchQuads st edge)[i]? = some q →
        ∃ c, r.1.get (some (st.cubes.length + i)) = some c ∧ c.degree = 2 ∧
          c.d0 = [some q.1, some q.2.1] ∧ c.d1 = [some q.2.2.1, some q.2.2.2] ∧
          c.edges = [some q.2.1, some q.1] ∧ c.lab = none) ∧
      r.1.cubelist[2]? =
        (st.cubelist[2]?).map
          (fun l => l ++ List.range' st.cubes.length (matchQuads st edge).length) ∧
      (∀ d, d ≠ 2 → r.1.cubelist[d]? = st.cubelist[d]?) ∧
      (∀ y cy, st.get (some y) = some cy →
        ∃ cy', r.1.get (some y) = some cy' ∧ Frame cy cy') ∧
      (matchQuads st edge = [] → r = (st, 0)) := by
  obtain ⟨b, c1, c2, c3, c4, c5, c6, c7, c8⟩ :=
    addSquares_spec st (matchQuads st edge)
      (matchQuads_ok st hR edge (lowReady_edge st hR edge ce he hd)) hl (st, 0)
      (SqKeep.keep_refl st)
  refine ⟨b, by rw [FillSquares_fold st hR edge ce he hd, c1], by simpa using c2, c3, c4, c5,
    c6, c7, c8⟩
/-- The faces of the square of a forward match: the process id of `d[0][1]` is
less than that of `d[0][0]`, and opposite faces carry the same label vector. -/
theorem fwdQuad_axes (st : Store) (hR : lowReady st = true) (e : Nat) (le : label)
    (ue ve : Nat) (hE : EdgeAt st e le ue ve) (m : Nat × Nat × Nat)
    (hm : m ∈ fwdMatches st e) :
    ∃ p0 p1 lv0 lv1, st.pid (some (fwdQuad st e m).1) = some p0 ∧
      st.pid (some (fwdQuad st e m).2.1) = some p1 ∧ p1 < p0 ∧
      st.lab (some (fwdQuad st e m).1) = some (some lv0) ∧
      st.lab (some (fwdQuad st e m).2.2.1) = some (some lv0) ∧
      st.lab (some (fwdQuad st e m).2.1) = some (some lv1) ∧
      st.lab (some (fwdQuad st e m).2.2.2) = some (some lv1) := by
  obtain ⟨a1, a2, a3, a4, a5, a6, a7⟩ := (mem_fwdMatches st e m).1 hm
  obtain ⟨cu, b1, b2⟩ := hE.src
  rw [hE.front_eq] at a1
  obtain ⟨lf, uf, vf, hF⟩ := outEdges_edge st hR ue cu b1 b2 _ a1
  obtain ⟨lse, hle⟩ := hE.lab_eq
  obtain ⟨lsf, hlf⟩ := hF.lab_eq
  rw [hF.pid_eq, hE.pid_eq] at a2
  have hne : lf.num ≠ le.num := fun h => a2 (by rw [h])
  simp only [fwdQuad, pidLt_eq hF hE]
  by_cases hp : lf.num < le.num
  · simp only [hp, decide_True, if_true]
    exact ⟨le.num, lf.num, le :: lse, lf :: lsf, hE.pid_eq, hF.pid_eq, hp, hle,
      a6.trans hle, hlf, a4.trans hlf⟩
  · simp only [hp, decide_False, if_false, Bool.false_eq_true]
    exact ⟨lf.num, le.num, lf :: lsf, le :: lse, hF.pid_eq, hE.pid_eq, by omega, hlf,
      a4.trans hlf, hle, a6.trans hle⟩

/-- The faces of the square of a backward match: the process id of `d[0][1]` is
less than that of `d[0][0]`, and opposite faces carry the same label vector. -/
theorem bwdQuad_axes (st : Store) (hR : lowReady st = true) (e : Nat) (le : label)
    (ue ve : Nat) (hE : EdgeAt st e le ue ve) (m : Nat × Nat × Nat)
    (hm : m ∈ bwdMatches st e) :
    ∃ p0 p1 lv0 lv1, st.pid (some (bwdQuad st e m).1) = some p0 ∧
      st.pid (some (bwdQuad st e m).2.1) = some p1 ∧ p1 < p0 ∧
      st.lab (some (bwdQuad st e m).1) = some (some lv0) ∧
      st.lab (some (bwdQuad st e m).2.2.1) = some (some lv0) ∧
      st.lab (some (bwdQuad st e m).2.1) = some (some lv1) ∧
      st.lab (some (bwdQuad st e m).2.2.2) = some (some lv1) := by
  obtain ⟨a1, a2, a3, a4, a5, -, a6, a7⟩ := (mem_bwdMatches st e m).1 hm
  obtain ⟨cv, b1, b2⟩ := hE.tgt
  rw [hE.back_eq] at a1
  obtain ⟨lf, uf, vf, hF⟩ := inEdges_edge st hR ve cv b1 b2 _ a1
  obtain ⟨lse, hle⟩ := hE.lab_eq
  obtain ⟨lsf, hlf⟩ := hF.lab_eq
  have hpg : st.pid (some m.2.1) = some lf.num := (pid_of_lab st _ _ a4).trans hF.pid_eq
  have hph : st.pid (some m.2.2) = some le.num := (pid_of_lab st _ _ a6).trans hE.pid_eq
  rw [hF.pid_eq, hE.pid_eq] at a2
  have hne : lf.num ≠ le.num := fun h => a2 (by rw [h])
  simp only [bwdQuad, pidLt_eq hF hE]
  by_cases hp : lf.num < le.num
  · simp only [hp, decide_True, if_true]
    exact ⟨le.num, lf.num, le :: lse, lf :: lsf, hph, hpg, hp, a6.trans hle, hle,
      a4.trans hlf, hlf⟩
  · simp only [hp, decide_False, if_false, Bool.false_eq_true]
    exact ⟨lf.num, le.num, lf :: lsf, le :: lse, hpg, hph, by omega, a4.trans hlf, hlf,
      a6.trans hle, hle⟩

theorem frame_pid (st s : Store) (x : Nat) (c c' : cube) (hc : st.get (some x) = some c)
    (hc' : s.get (some x) = some c') (hF : Frame c c') :
    s.pid (some x) = st.pid (some x) ∧ s.lab (some x) = st.lab (some x) := by
  simp only [Store.pid, Store.lab, hc, hc', hF.2.2.2.2.2.2, and_self]

theorem get_lt_length (st : Store) (x : Nat) (c : cube) (h : st.get (some x) = some c) :
    x < st.cubes.length := by
  by_contra hx
  simp only [Store.get, List.getElem?_eq_none (Nat.le_of_not_lt hx)] at h
  simp at h

/-- C27: `FillSquares(edge)`, on an edge of a store whose cubes of degree 0 and 1
are as the function needs them and whose array `cubelist[]` has the entry 2 if
there is a match, returns the number of the matches and adds exactly one cube of
degree 2 per match: the cells after those of `st` are, in this order, the squares
of the forward matches `(f, g, h)`, with the front faces `edge`, `f` and the back
faces `h`, `g`, and the squares of the backward matches, with the back faces
`edge`, `f` and the front faces `h`, `g`; they are appended to `cubelist[2]`, no
other collection changes, and the cubes of `st` are kept but for their coface
lists. A forward match is a triple `(f, g, h)` with `f` in the out-edges of the
front vertex of `edge` and `pid(f) != pid(edge)`, `g` in the out-edges of the back
vertex of `edge` with `label(g) = label(f)`, `h` in the out-edges of the back
vertex of `f` with `label(h) = label(edge)` and the back vertex of `g`; a backward
match is the mirror triple over in-edges with `h != edge`. No match is counted
twice when no coface list has a member twice. -/
theorem FillSquares_matches (st : Store) (edge : Nat) (ce : cube)
    (hR : lowReady st = true) (he : st.get (some edge) = some ce) (hd : ce.degree = 1)
    (hl : (fwdMatches st edge = [] ∧ bwdMatches st edge = []) ∨ 2 < st.cubelist.length) :
    ∃ r, FillSquares st edge = some r ∧
      r.2 = (fwdMatches st edge).length + (bwdMatches st edge).length ∧
      r.1.cubes.length = st.cubes.length + r.2 ∧
      r.1.cubelist[2]? =
        (st.cubelist[2]?).map (fun l => l ++ List.range' st.cubes.length r.2) ∧
      (∀ d, d ≠ 2 → r.1.cubelist[d]? = st.cubelist[d]?) ∧
      (∀ y cy, st.get (some y) = some cy →
        ∃ cy', r.1.get (some y) = some cy' ∧ Frame cy cy') ∧
      (∀ i m, (fwdMatches st edge)[i]? = some m →
        ∃ c, r.1.get (some (st.cubes.length + i)) = some c ∧ c.degree = 2 ∧
          FwdShape edge m.1 m.2.1 m.2.2 c) ∧
      (∀ i m, (bwdMatches st edge)[i]? = some m →
        ∃ c, r.1.get (some (st.cubes.length + (fwdMatches st edge).length + i)) = some c ∧
          c.degree = 2 ∧ BwdShape edge m.1 m.2.1 m.2.2 c) ∧
      (∀ m, m ∈ fwdMatches st edge ↔
        m.1 ∈ outEdges st (frontVertex st edge) ∧ st.pid (some m.1) ≠ st.pid (some edge) ∧
        m.2.1 ∈ outEdges st (backVertex st edge) ∧
        st.lab (some m.2.1) = st.lab (some m.1) ∧
        m.2.2 ∈ outEdges st (backVertex st m.1) ∧ st.lab (some m.2.2) = st.lab (some edge) ∧
        backVertex st m.2.2 = backVertex st m.2.1) ∧
      (∀ m, m ∈ bwdMatches st edge ↔
        m.1 ∈ inEdges st (backVertex st edge) ∧ st.pid (some m.1) ≠ st.pid (some edge) ∧
        m.2.1 ∈ inEdges st (frontVertex st edge) ∧
        st.lab (some m.2.1) = st.lab (some m.1) ∧
        m.2.2 ∈ inEdges st (frontVertex st m.1) ∧ m.2.2 ≠ edge ∧
        st.lab (some m.2.2) = st.lab (some edge) ∧
        frontVertex st m.2.2 = frontVertex st m.2.1) ∧
      ((∀ v, (outEdges st v).Nodup) → (fwdMatches st edge).Nodup) ∧
      ((∀ v, (inEdges st v).Nodup) → (bwdMatches st edge).Nodup) := by
  have hl' : matchQuads st edge = [] ∨ 2 < st.cubelist.length := by
    rcases hl with h | h
    · exact Or.inl (by simp only [matchQuads, h.1, h.2, List.map_nil, List.append_nil])
    · exact Or.inr h
  obtain ⟨r, c1, c2, c3, c4, c5, c6, c7, -⟩ := FillSquares_run st edge ce hR he hd hl'
  have hlen : (matchQuads st edge).length =
      (fwdMatches st edge).length + (bwdMatches st edge).length := by
    simp only [matchQuads, List.length_append, List.length_map]
  refine ⟨r, c1, c2.trans hlen, by rw [c3, c2], by rw [c5, c2], c6, c7, ?_, ?_,
    mem_fwdMatches st edge, mem_bwdMatches st edge,
    fun h => fwdMatches_nodup st h edge, fun h => bwdMatches_nodup st h edge⟩
  · intro i m hm
    have hi := getElem?_some_lt _ _ _ hm
    have hq : (matchQuads st edge)[i]? = some (fwdQuad st edge m) := by
      simp only [matchQuads]
      rw [List.getElem?_append_left (by simpa using hi), List.getElem?_map, hm]
      rfl
    obtain ⟨c, d1, d2, d3, d4, -⟩ := c4 i _ hq
    refine ⟨c, d1, d2, ?_⟩
    simp only [fwdQuad] at d3 d4
    by_cases hp : pidLt st m.1 edge = true
    · simp only [hp, if_true] at d3 d4
      exact Or.inl ⟨d3, d4⟩
    · simp only [hp, if_false] at d3 d4
      exact Or.inr ⟨d3, d4⟩
  · intro i m hm
    have hq : (matchQuads st edge)[(fwdMatches st edge).length + i]? =
        some (bwdQuad st edge m) := by
      simp only [matchQuads]
      rw [List.getElem?_append_right (by simp), List.getElem?_map]
      simp only [List.length_map, Nat.add_sub_cancel_left, hm]
      rfl
    obtain ⟨c, d1, d2, d3, d4, -⟩ := c4 _ _ hq
    refine ⟨c, by rw [← d1, Nat.add_assoc], d2, ?_⟩
    simp only [bwdQuad] at d3 d4
    by_cases hp : pidLt st m.1 edge = true
    · simp only [hp, if_true] at d3 d4
      exact Or.inl ⟨d3, d4⟩
    · simp only [hp, if_false] at d3 d4
      exact Or.inr ⟨d3, d4⟩

theorem FillSquares_matches_witness :
    ∃ r, FillSquares squareReady 7 = some r ∧
      r.2 = (fwdMatches squareReady 7).length + (bwdMatches squareReady 7).length ∧
      r.1.cubes.length = squareReady.cubes.length + r.2 ∧
      r.1.cubelist[2]? =
        (squareReady.cubelist[2]?).map
          (fun l => l ++ List.range' squareReady.cubes.length r.2) ∧
      (∀ d, d ≠ 2 → r.1.cubelist[d]? = squareReady.cubelist[d]?) ∧
      (∀ y cy, squareReady.get (some y) = some cy →
        ∃ cy', r.1.get (some y) = some cy' ∧ Frame cy cy') ∧
      (∀ i m, (fwdMatches squareReady 7)[i]? = some m →
        ∃ c, r.1.get (some (squareReady.cubes.length + i)) = some c ∧ c.degree = 2 ∧
          FwdShape 7 m.1 m.2.1 m.2.2 c) ∧
      (∀ i m, (bwdMatches squareReady 7)[i]? = some m →
        ∃ c, r.1.get (some (squareReady.cubes.length +
            (fwdMatches squareReady 7).length + i)) = some c ∧
          c.degree = 2 ∧ BwdShape 7 m.1 m.2.1 m.2.2 c) ∧
      (∀ m, m ∈ fwdMatches squareReady 7 ↔
        m.1 ∈ outEdges squareReady (frontVertex squareReady 7) ∧
        squareReady.pid (some m.1) ≠ squareReady.pid (some 7) ∧
        m.2.1 ∈ outEdges squareReady (backVertex squareReady 7) ∧
        squareReady.lab (some m.2.1) = squareReady.lab (some m.1) ∧
        m.2.2 ∈ outEdges squareReady (backVertex squareReady m.1) ∧
        squareReady.lab (some m.2.2) = squareReady.lab (some 7) ∧
        backVertex squareReady m.2.2 = backVertex squareReady m.2.1) ∧
      (∀ m, m ∈ bwdMatches squareReady 7 ↔
        m.1 ∈ inEdges squareReady (backVertex squareReady 7) ∧
        squareReady.pid (some m.1) ≠ squareReady.pid (some 7) ∧
        m.2.1 ∈ inEdges squareReady (frontVertex squareReady 7) ∧
        squareReady.lab (some m.2.1) = squareReady.lab (some m.1) ∧
        m.2.2 ∈ inEdges squareReady (frontVertex squareReady m.1) ∧ m.2.2 ≠ 7 ∧
        squareReady.lab (some m.2.2) = squareReady.lab (some 7) ∧
        frontVertex squareReady m.2.2 = frontVertex squareReady m.2.1) ∧
      ((∀ v, (outEdges squareReady v).Nodup) → (fwdMatches squareReady 7).Nodup) ∧
      ((∀ v, (inEdges squareReady v).Nodup) → (bwdMatches squareReady 7).Nodup) :=
  FillSquares_matches squareReady 7 _ (by decide) rfl (by decide) (Or.inr (by decide))
theorem matchQuads_axes (st : Store) (hR : lowReady st = true) (e : Nat) (le : label)
    (ue ve : Nat) (hE : EdgeAt st e le ue ve) (q : Nat × Nat × Nat × Nat)
    (hq : q ∈ matchQuads st e) :
    ∃ p0 p1 lv0 lv1, st.pid (some q.1) = some p0 ∧ st.pid (some q.2.1) = some p1 ∧ p1 < p0 ∧
      st.lab (some q.1) = some (some lv0) ∧ st.lab (some q.2.2.1) = some (some lv0) ∧
      st.lab (some q.2.1) = some (some lv1) ∧ st.lab (some q.2.2.2) = some (some lv1) := by
  rcases List.mem_append.1 hq with h | h
  · obtain ⟨m, hm, rfl⟩ := List.mem_map.1 h
    exact fwdQuad_axes st hR e le ue ve hE m hm
  · obtain ⟨m, hm, rfl⟩ := List.mem_map.1 h
    exact bwdQuad_axes st hR e le ue ve hE m hm

/-- C28: every cube that `FillSquares(edge)` creates (every cell of the returned
store after the cells of `st`) is a cube of degree 2 whose two front faces
`d[0][0]` and `d[0][1]` have different process ids, whose vector `edges` is
`[d[0][1], d[0][0]]` with `pid(edges[0]) < pid(edges[1])`, and whose opposite
faces carry the same label vector: `label(d[0][i]) = label(d[1][i])` for
`i = 0, 1`. -/
theorem FillSquares_axes (st : Store) (edge : Nat) (ce : cube)
    (hR : lowReady st = true) (he : st.get (some edge) = some ce) (hd : ce.degree = 1)
    (r : Store × Nat) (h : FillSquares st edge = some r) (x : Nat) (c : cube)
    (hx : st.cubes.length ≤ x) (hc : r.1.get (some x) = some c) :
    c.degree = 2 ∧ ∃ e0 e1 b0 b1 p0 p1 lv0 lv1,
      c.d0 = [some e0, some e1] ∧ c.d1 = [some b0, some b1] ∧
      c.edges = [some e1, some e0] ∧
      r.1.pid (some e0) = some p0 ∧ r.1.pid (some e1) = some p1 ∧ p0 ≠ p1 ∧ p1 < p0 ∧
      r.1.lab (some e0) = some (some lv0) ∧ r.1.lab (some b0) = some (some lv0) ∧
      r.1.lab (some e1) = some (some lv1) ∧ r.1.lab (some b1) = some (some lv1) := by
  obtain ⟨le, ue, ve, hE⟩ := lowReady_edge st hR edge ce he hd
  have hfold := FillSquares_fold st hR edge ce he hd
  have hl : matchQuads st edge = [] ∨ 2 < st.cubelist.length := by
    cases hq : matchQuads st edge with
    | nil => exact Or.inl rfl
    | cons q qs =>
      right
      rw [hfold, hq] at h
      simp only [loopM] at h
      cases hb : addSquare (st, 0) q with
      | none => simp [hb] at h
      | some b1 =>
        simp only [addSquare, Option.map_eq_some'] at hb
        obtain ⟨s, hs, -⟩ := hb
        obtain ⟨l2, g1, -⟩ := (link_spec _ _ _ hs).list
        exact getElem?_some_lt _ _ _ g1
  obtain ⟨r', c1, c2, c3, c4, c5, c6, c7, c8⟩ := FillSquares_run st edge ce hR he hd hl
  rw [h] at c1
  have er : r = r' := Option.some.inj c1
  subst er
  have hlt := get_lt_length r.1 x c hc
  rw [c3] at hlt
  obtain ⟨i, rfl⟩ : ∃ i, x = st.cubes.length + i := ⟨x - st.cubes.length, by omega⟩
  have hi : i < (matchQuads st edge).length := by omega
  have hq : (matchQuads st edge)[i]? = some (matchQuads st edge)[i] :=
    List.getElem?_eq_getElem hi
  obtain ⟨c', d1, d2, d3, d4, d5, -⟩ := c4 i _ hq
  rw [hc] at d1
  have ec : c = c' := Option.some.inj d1
  subst ec
  have hmem : (matchQuads st edge)[i] ∈ matchQuads st edge := List.getElem_mem _
  obtain ⟨p0, p1, lv0, lv1, a1, a2, a3, a4, a5, a6, a7⟩ :=
    matchQuads_axes st hR edge le ue ve hE _ hmem
  have hok := matchQuads_ok st hR edge ⟨le, ue, ve, hE⟩ _ hmem
  have tr : ∀ y, (∃ l u v, EdgeAt st y l u v) →
      r.1.pid (some y) = st.pid (some y) ∧ r.1.lab (some y) = st.lab (some y) := by
    intro y hy
    obtain ⟨l, u, v, hY⟩ := hy
    obtain ⟨cy, ls, k1, -⟩ := hY.cell
    obtain ⟨cy', k2, k3⟩ := c7 y cy k1
    exact frame_pid st r.1 y cy cy' k1 k2 k3
  refine ⟨d2, _, _, _, _, p0, p1, lv0, lv1, d3, d4, d5, ?_, ?_, by omega, a3, ?_, ?_, ?_, ?_⟩
  · rw [(tr _ (hok _ (Or.inl rfl))).1, a1]
  · rw [(tr _ (hok _ (Or.inr (Or.inl rfl)))).1, a2]
  · rw [(tr _ (hok _ (Or.inl rfl))).2, a4]
  · rw [(tr _ (hok _ (Or.inr (Or.inr (Or.inl rfl))))).2, a5]
  · rw [(tr _ (hok _ (Or.inr (Or.inl rfl)))).2, a6]
  · rw [(tr _ (hok _ (Or.inr (Or.inr (Or.inr rfl))))).2, a7]

theorem FillSquares_axes_witness :
    ∃ c, unitSquare.get (some 8) = some c ∧
      c.degree = 2 ∧ ∃ e0 e1 b0 b1 p0 p1 lv0 lv1,
        c.d0 = [some e0, some e1] ∧ c.d1 = [some b0, some b1] ∧
        c.edges = [some e1, some e0] ∧
        unitSquare.pid (some e0) = some p0 ∧ unitSquare.pid (some e1) = some p1 ∧
        p0 ≠ p1 ∧ p1 < p0 ∧
        unitSquare.lab (some e0) = some (some lv0) ∧
        unitSquare.lab (some b0) = some (some lv0) ∧
        unitSquare.lab (some e1) = some (some lv1) ∧
        unitSquare.lab (some b1) = some (some lv1) :=
  ⟨_, rfl, FillSquares_axes squareReady 7 _ (by decide) rfl (by decide) (unitSquare, 1)
    (by decide) 8 _ (by decide) rfl⟩
/-- The invariant of the construction gives `FillSquares` the cubes of degree 0
and 1 as it needs them. -/
theorem Inv.lowReady_of {st : Store} (hI : Inv st) : lowReady st = true := by
  simp only [lowReady, List.all_eq_true]
  intro oc hoc
  cases oc with
  | none => rfl
  | some c =>
    obtain ⟨x, hx⟩ := List.mem_iff_getElem?.1 hoc
    have hc : st.get (some x) = some c := by simp [Store.get, hx]
    obtain ⟨s1, s2, s3, s4, s5⟩ := hI.shape x c hc
    simp only [cellReady]
    by_cases h0 : c.degree = 0
    · simp only [h0, if_true, Bool.and_eq_true, decide_eq_true_eq, List.all_eq_true]
      refine ⟨⟨by omega, by omega⟩, ?_⟩
      intro y hy
      have hex : ∃ k l, k < 2 ∧ c.s k 0 = some l ∧ y ∈ l := by
        rcases List.mem_append.1 hy with h | h
        · obtain ⟨l, hl, hyl⟩ := List.mem_flatten.1 h
          obtain ⟨i, hi⟩ := List.mem_iff_getElem?.1 hl
          have : i = 0 := by have := getElem?_some_lt _ _ _ hi; omega
          subst this
          exact ⟨0, l, by omega, hi, hyl⟩
        · obtain ⟨l, hl, hyl⟩ := List.mem_flatten.1 h
          obtain ⟨i, hi⟩ := List.mem_iff_getElem?.1 hl
          have : i = 0 := by have := getElem?_some_lt _ _ _ hi; omega
          subst this
          exact ⟨1, l, by omega, hi, hyl⟩
      obtain ⟨k, l, hk, hl, hyl⟩ := hex
      obtain ⟨cy, a1, a2⟩ := hI.cofSound x c k 0 l y hc hl hyl
      obtain ⟨-, f, cf, b1, b2, b3⟩ := hI.face_of_read y cy a1 k 0 _ a2
      have : f = x := (Option.some.inj b1).symm
      subst this
      rw [hc] at b2
      have : c = cf := Option.some.inj b2
      subst this
      simp only [a1, Option.any_some, decide_eq_true_eq]
      omega
    · by_cases h1 : c.degree = 1
      · obtain ⟨u, v, p, hA⟩ := hI.arrow x c hc h1
        obtain ⟨⟨cu, g1, g2⟩, ⟨cv, k1, k2⟩⟩ := hI.arrow_ends hA
        obtain ⟨c', e1, e2, e3, e4, e5⟩ := hA
        rw [hc] at e1
        have : c = c' := Option.some.inj e1
        subst this
        obtain ⟨lv, hlv⟩ : ∃ lv, st.lab (some x) = some lv := ⟨c.lab, by simp [Store.lab, hc]⟩
        obtain ⟨l, ls, q1, -⟩ := lab_pid st x lv p hlv e5
        have hlab : c.lab = some (l :: ls) := by
          simp only [Store.lab, hc, Option.some.injEq] at hlv
          rw [hlv, q1]
        have n10 : ¬ ((1 : Nat) = 0) := by decide
        simp only [h1, n10, if_false, if_true, hlab, e3, e4, g1, k1, Option.any_some, g2, k2,
          s3, s4, decide_True, Bool.and_self]
      · simp only [h0, h1, if_false]

/-! ### The list `others` and the insertion of a candidate -/

theorem Inv.cofAgree {st : Store} (hI : Inv st) : CofAgree st := by
  constructor
  · intro f cf k i l y hf hl hy
    obtain ⟨cy, a1, a2⟩ := hI.cofSound f cf k i l y hf hl hy
    obtain ⟨-, f', cf', b1, b2, b3⟩ := hI.face_of_read y cy a1 k i _ a2
    have : f' = f := (Option.some.inj b1).symm
    subst this
    rw [hf] at b2
    have : cf = cf' := Option.some.inj b2
    subst this
    exact ⟨cy, a1, by omega, a2⟩
  · intro y cy k i f cf l hy hd hf hl
    exact hI.mem_cof y cy k i f l hy hd (by simp only [Store.cof, hf, hl])

theorem mem_Intersection_iff (l1 l2 : List Nat) (y : Nat) :
    y ∈ Intersection l1 l2 none ↔ y ∈ l1 ∧ y ∈ l2 := by
  simp only [Intersection, IsElement, List.mem_filter, List.any_eq_true, decide_eq_true_eq]
  constructor
  · rintro ⟨h1, x, hx, rfl⟩
    exact ⟨h1, hx⟩
  · rintro ⟨h1, h2⟩
    exact ⟨h1, y, h2, rfl⟩

/-- Membership in a coface list that the code reads, under `CofAgree`. -/
theorem CofAgree.mem_iff {st : Store} (hA : CofAgree st) (f k i : Nat) (l : List Nat)
    (hl : st.cof (some f) k i = some l) (y : Nat) :
    y ∈ l ↔ ∃ cy, st.get (some y) = some cy ∧ cy.d k i = some (some f) := by
  obtain ⟨x, cf, e1, e2, e3⟩ := cof_get st _ k i l hl
  have : x = f := (Option.some.inj e1).symm
  subst this
  constructor
  · intro hy
    obtain ⟨cy, a1, -, a3⟩ := hA.1 x cf k i l y e2 e3 hy
    exact ⟨cy, a1, a3⟩
  · rintro ⟨cy, a1, a2⟩
    exact hA.2 y cy k i x cf l a1 a2 e2 e3

theorem CofAgree.mem_degree {st : Store} (hA : CofAgree st) (f k i : Nat) (l : List Nat)
    (cf : cube) (hf : st.get (some f) = some cf)
    (hl : st.cof (some f) k i = some l) (y : Nat) (hy : y ∈ l) :
    ∃ cy, st.get (some y) = some cy ∧ cy.degree = cf.degree + 1 := by
  have hs : cf.s k i = some l := by simpa only [Store.cof, hf] using hl
  obtain ⟨cy, a1, a2, -⟩ := hA.1 f cf k i l y hf hs hy
  exact ⟨cy, a1, a2⟩

theorem assembleStep_exact {st : Store} (hA : CofAgree st) (faces vc up cv : List Nat)
    (shift : Nat) (W : Nat → Prop) (a a' : Assembly) (i : Nat)
    (h : assembleStep st faces vc up cv shift a i = some a')
    (hW : ¬ W (i + shift)) (hQ : AsmExact st W a) :
    AsmExact st (fun x => W x ∨ x = i + shift) a' ∧
    a'.d0.length = a.d0.length ∧ a'.d1.length = a.d1.length ∧
    (∀ k x, x ≠ i + shift → a'.d k x = a.d k x) ∧
    (∃ vci f, vc[i]? = some vci ∧ faces[vci]? = some f ∧
      ∀ cf, st.get (some f) = some cf → ∀ y, y ∈ a'.others →
        ∃ cy, st.get (some y) = some cy ∧ cy.degree = cf.degree + 1) ∧
    (∀ y, y ∈ a'.others → y ∈ a.others) ∧
    (∀ k, k < 2 → ∃ g cg, a'.d k (i + shift) = some (some g) ∧
      st.get (some g) = some cg) := by
  unfold assembleStep at h
  simp only at h
  split at h
  · rename_i vci ui ci hvc hup hcv
    split at h
    · rename_i f oi hf ho
      split at h
      · simp at h
      · rename_i a1 ha1
        split at h
        · simp at h
        · rename_i l1 hl1
          split at h
          · simp at h
          · rename_i a2 ha2
            split at h
            · simp at h
            · rename_i l2 hl2
              simp only [Option.some.injEq] at h
              subst h
              obtain ⟨-, b1, b2, b3, b4, b5⟩ := setD_spec _ _ _ _ _ ha1
              obtain ⟨-, c1, c2, c3, c4, c5⟩ := setD_spec _ _ _ _ _ ha2
              have hne : oi ≠ ui := by
                rcases opp_cases ui oi ho with ⟨e1, e2⟩ | ⟨e1, e2⟩ <;> omega
              have hu : a2.d ui (i + shift) = some (some f) := by
                rw [c5 ui (i + shift) (Or.inl (fun e => hne e.symm))]
                exact b4
              have hother : ∀ k x, x ≠ i + shift → a2.d k x = a.d k x := by
                intro k x hx
                rw [c5 k x (Or.inr hx)]
                exact b5 k x (Or.inr hx)
              have hmem : ∀ y, y ∈ Intersection a2.others l2 none ↔
                  y ∈ a.others ∧ y ∈ l1 ∧ y ∈ l2 := by
                intro y
                rw [mem_Intersection_iff, c3]
                show y ∈ Intersection a1.others l1 none ∧ y ∈ l2 ↔ _
                rw [mem_Intersection_iff, b3, and_assoc]
              obtain ⟨xf, cf0, e1, e2, e3⟩ := cof_get st _ _ _ _ hl1
              have exf : xf = f := (Option.some.inj e1).symm
              subst exf
              obtain ⟨xc, cc0, g1, g2, g3⟩ := cof_get st _ _ _ _ hl2
              have exc : xc = ci := (Option.some.inj g1).symm
              subst exc
              refine ⟨?_, c1.trans b1, c2.trans b2, hother, ⟨vci, xf, hvc, hf, ?_⟩, ?_, ?_⟩
              · intro y
                show y ∈ Intersection a2.others l2 none ↔ _
                rw [hmem, hQ y, hA.mem_iff xf ui (i + shift) l1 hl1 y,
                  hA.mem_iff xc oi (i + shift) l2 hl2 y]
                constructor
                · rintro ⟨⟨cy, hy, hag⟩, ⟨cy1, hy1, hd1⟩, ⟨cy2, hy2, hd2⟩⟩
                  rw [hy] at hy1 hy2
                  have q1 : cy = cy1 := Option.some.inj hy1
                  have q2 : cy = cy2 := Option.some.inj hy2
                  subst q1 q2
                  refine ⟨cy, hy, ?_⟩
                  intro x hx
                  rcases hx with hx | hx
                  · have hx' : x ≠ i + shift := fun e => hW (e ▸ hx)
                    exact ⟨(hag x hx).1.trans (hother 0 x hx').symm,
                      (hag x hx).2.trans (hother 1 x hx').symm⟩
                  · subst hx
                    rcases opp_cases ui oi ho with ⟨q1, q2⟩ | ⟨q1, q2⟩
                    · subst q1 q2
                      exact ⟨hd1.trans hu.symm, hd2.trans c4.symm⟩
                    · subst q1 q2
                      exact ⟨hd2.trans c4.symm, hd1.trans hu.symm⟩
                · rintro ⟨cy, hy, hag⟩
                  have hag' := hag (i + shift) (Or.inr rfl)
                  refine ⟨⟨cy, hy, ?_⟩, ⟨cy, hy, ?_⟩, ⟨cy, hy, ?_⟩⟩
                  · intro x hx
                    have hx' : x ≠ i + shift := fun e => hW (e ▸ hx)
                    exact ⟨(hag x (Or.inl hx)).1.trans (hother 0 x hx'),
                      (hag x (Or.inl hx)).2.trans (hother 1 x hx')⟩
                  · rcases opp_cases ui oi ho with ⟨q1, q2⟩ | ⟨q1, q2⟩
                    · subst q1; exact hag'.1.trans hu
                    · subst q1; exact hag'.2.trans hu
                  · rcases opp_cases ui oi ho with ⟨q1, q2⟩ | ⟨q1, q2⟩
                    · subst q2; exact hag'.2.trans c4
                    · subst q2; exact hag'.1.trans c4
              · intro cf hcf y hy
                have := ((hmem y).1 hy).2.1
                exact hA.mem_degree xf ui (i + shift) l1 cf hcf hl1 y this
              · intro y hy
                exact ((hmem y).1 hy).1
              · intro k hk
                rcases opp_cases ui oi ho with ⟨q1, q2⟩ | ⟨q1, q2⟩
                · subst q1 q2
                  obtain rfl | rfl : k = 0 ∨ k = 1 := by omega
                  · exact ⟨xf, cf0, hu, e2⟩
                  · exact ⟨xc, cc0, c4, g2⟩
                · subst q1 q2
                  obtain rfl | rfl : k = 0 ∨ k = 1 := by omega
                  · exact ⟨xc, cc0, c4, g2⟩
                  · exact ⟨xf, cf0, hu, e2⟩
    · simp at h
  · simp at h

theorem AsmExact.exact_congr {st : Store} {W W' : Nat → Prop} {a : Assembly}
    (h : AsmExact st W a) (hW : ∀ x, W x ↔ W' x) : AsmExact st W' a := by
  intro y
  rw [h y]
  constructor
  · rintro ⟨cy, hy, hag⟩
    exact ⟨cy, hy, fun x hx => hag x ((hW x).2 hx)⟩
  · rintro ⟨cy, hy, hag⟩
    exact ⟨cy, hy, fun x hx => hag x ((hW x).1 hx)⟩

theorem assembleLoop_exact {st : Store} (hA : CofAgree st) (faces vc up cv : List Nat)
    (shift : Nat) :
    ∀ (is : List Nat) (W : Nat → Prop) (a a' : Assembly),
      loopM (assembleStep st faces vc up cv shift) a is = some a' →
      is.Nodup → (∀ i, i ∈ is → ¬ W (i + shift)) → AsmExact st W a →
      AsmExact st (fun x => W x ∨ ∃ i, i ∈ is ∧ x = i + shift) a' ∧
      a'.d0.length = a.d0.length ∧ a'.d1.length = a.d1.length ∧
      (∀ k x, (∀ i, i ∈ is → x ≠ i + shift) → a'.d k x = a.d k x) ∧
      (∀ i, i ∈ is → ∃ vci f, vc[i]? = some vci ∧ faces[vci]? = some f ∧
        ∀ cf, st.get (some f) = some cf → ∀ y, y ∈ a'.others →
          ∃ cy, st.get (some y) = some cy ∧ cy.degree = cf.degree + 1) ∧
      (∀ y, y ∈ a'.others → y ∈ a.others) ∧
      (∀ i, i ∈ is → ∀ k, k < 2 → ∃ g cg, a'.d k (i + shift) = some (some g) ∧
        st.get (some g) = some cg) := by
  intro is
  induction is with
  | nil =>
    intro W a a' h _ _ hQ
    simp only [loopM, Option.some.injEq] at h
    subst h
    refine ⟨hQ.exact_congr (fun x => by simp), rfl, rfl, fun _ _ _ => rfl,
      fun i hi => absurd hi (List.not_mem_nil i), fun _ hy => hy,
      fun i hi => absurd hi (List.not_mem_nil i)⟩
  | cons i is ih =>
    intro W a a' h hnd hW hQ
    simp only [loopM] at h
    cases hs : assembleStep st faces vc up cv shift a i with
    | none => simp [hs] at h
    | some a1 =>
      simp only [hs] at h
      obtain ⟨hni, hnd'⟩ := List.nodup_cons.1 hnd
      obtain ⟨s1, s2, s3, s4, s5, s6, s7⟩ := assembleStep_exact hA faces vc up cv shift W a a1 i
        hs (hW i (List.mem_cons_self _ _)) hQ
      have hW1 : ∀ j, j ∈ is → ¬ (W (j + shift) ∨ j + shift = i + shift) := by
        intro j hj hor
        rcases hor with hor | hor
        · exact hW j (List.mem_cons_of_mem _ hj) hor
        · have : j = i := by omega
          exact hni (this ▸ hj)
      obtain ⟨t1, t2, t3, t4, t5, t6, t7⟩ := ih _ a1 a' h hnd' hW1 s1
      refine ⟨t1.exact_congr ?_, t2.trans s2, t3.trans s3, ?_, ?_, fun y hy => s6 y (t6 y hy), ?_⟩
      · intro x
        constructor
        · rintro ((hx | hx) | ⟨j, hj, hx⟩)
          · exact Or.inl hx
          · exact Or.inr ⟨i, List.mem_cons_self _ _, hx⟩
          · exact Or.inr ⟨j, List.mem_cons_of_mem _ hj, hx⟩
        · rintro (hx | ⟨j, hj, hx⟩)
          · exact Or.inl (Or.inl hx)
          · rcases List.mem_cons.1 hj with rfl | hj'
            · exact Or.inl (Or.inr hx)
            · exact Or.inr ⟨j, hj', hx⟩
      · intro k x hx
        rw [t4 k x (fun j hj => hx j (List.mem_cons_of_mem _ hj))]
        exact s4 k x (hx i (List.mem_cons_self _ _))
      · intro j hj
        rcases List.mem_cons.1 hj with rfl | hj'
        · obtain ⟨vci, f, e1, e2, e3⟩ := s5
          exact ⟨vci, f, e1, e2, fun cf hcf y hy => e3 cf hcf y (t6 y hy)⟩
        · exact t5 j hj'
      · intro j hj k hk
        rcases List.mem_cons.1 hj with rfl | hj'
        · obtain ⟨g, cg, e1, e2⟩ := s7 k hk
          refine ⟨g, cg, ?_, e2⟩
          rw [t4 k (j + shift) (fun m hm e => ?_)]
          · exact e1
          · have : m = j := by omega
            exact hni (this ▸ hm)
        · exact t7 j hj' k hk

/-- The list `others` at the end of the assembly of a candidate, when the
coface lists agree with the boundary arrays and the cubes of the array `faces`
have the degree `deg - 1`: its members are exactly the stored cubes of degree
`deg` that have the boundary of the candidate. All faces of the candidate are
stored cubes. -/
theorem assemble_exact {st : Store} (hA : CofAgree st) (faces vc up cv : List Nat)
    (ei deg top0 top1 : Nat) (asm : Assembly) (hdeg : 2 ≤ deg)
    (hfaces : ∀ (v f : Nat), faces[v]? = some f →
      ∃ cf, st.get (some f) = some cf ∧ cf.degree + 1 = deg)
    (h : assemble st faces vc up cv ei deg top0 top1 = some asm) :
    (∀ y, y ∈ asm.others ↔ SameBoundary st deg asm y) ∧
    asm.d0.length = deg ∧ asm.d1.length = deg ∧
    (∀ k i, k < 2 → i < deg → ∃ g cg, asm.d k i = some (some g) ∧
      st.get (some g) = some cg) := by
  unfold assemble at h
  split at h
  · simp at h
  · rename_i a0 ha0
    split at h
    · simp at h
    · rename_i a1 ha1
      split at h
      · rename_i l0 l1 hl0 hl1
        split at h
        · simp at h
        · rename_i a2 ha2
          obtain ⟨-, b1, b2, -, b4, b5⟩ := setD_spec _ _ _ _ _ ha0
          obtain ⟨-, c1, c2, -, c4, c5⟩ := setD_spec _ _ _ _ _ ha1
          have h0 : a1.d 0 ei = some (some top0) := by
            rw [c5 0 ei (Or.inl (by omega))]; exact b4
          have hlen0 : a1.d0.length = deg := by rw [c1, b1]; simp
          have hlen1 : a1.d1.length = deg := by rw [c2, b2]; simp
          have hei : ei < deg := by
            have : a1.d0[ei]? = some (some top0) := h0
            have := getElem?_some_lt _ _ _ this
            omega
          obtain ⟨x0, ct0, p1, p2, p3⟩ := cof_get st _ _ _ _ hl0
          have ex0 : x0 = top0 := (Option.some.inj p1).symm
          subst ex0
          obtain ⟨x1, ct1, q1, q2, q3⟩ := cof_get st _ _ _ _ hl1
          have ex1 : x1 = top1 := (Option.some.inj q1).symm
          subst ex1
          have hQ0 : AsmExact st (fun x => x = ei)
              ({ a1 with others := Intersection l0 l1 none } : Assembly) := by
            intro y
            show y ∈ Intersection l0 l1 none ↔ _
            rw [mem_Intersection_iff, hA.mem_iff x0 0 ei l0 hl0 y, hA.mem_iff x1 1 ei l1 hl1 y]
            constructor
            · rintro ⟨⟨cy, hy, hd0⟩, ⟨cy1, hy1, hd1⟩⟩
              rw [hy] at hy1
              have : cy = cy1 := Option.some.inj hy1
              subst this
              refine ⟨cy, hy, ?_⟩
              intro x hx
              subst hx
              exact ⟨hd0.trans h0.symm, hd1.trans c4.symm⟩
            · rintro ⟨cy, hy, hag⟩
              exact ⟨⟨cy, hy, (hag ei rfl).1.trans h0⟩, ⟨cy, hy, (hag ei rfl).2.trans c4⟩⟩
          obtain ⟨s1, s2, s3, s4, s5, s6, s7⟩ := assembleLoop_exact hA faces vc up cv 0 _ _ _ a2
            ha2 (List.nodup_range ei) (fun i hi e => by
              have := List.mem_range.1 hi
              omega) hQ0
          obtain ⟨t1, t2, t3, t4, t5, t6, t7⟩ := assembleLoop_exact hA faces vc up cv 1 _ _ _ asm
            h (List.nodup_range' ei (deg - 1 - ei)) (fun i hi e => by
              have hi' := (List.mem_range'_1.1 hi).1
              rcases e with e | ⟨j, hj, e⟩
              · omega
              · have := List.mem_range.1 hj
                omega) s1
          have hcover : ∀ x, x < deg →
              ((x = ei ∨ ∃ i, i ∈ List.range ei ∧ x = i + 0) ∨
                ∃ i, i ∈ List.range' ei (deg - 1 - ei) ∧ x = i + 1) := by
            intro x hx
            rcases Nat.lt_trichotomy x ei with hlt | heq | hgt
            · exact Or.inl (Or.inr ⟨x, List.mem_range.2 hlt, rfl⟩)
            · exact Or.inl (Or.inl heq)
            · exact Or.inr ⟨x - 1, List.mem_range'_1.2 ⟨by omega, by omega⟩, by omega⟩
          have hlive : ∀ k i, k < 2 → i < deg → ∃ g cg, asm.d k i = some (some g) ∧
              st.get (some g) = some cg := by
            intro k i hk hi
            rcases hcover i hi with (heq | ⟨j, hj, hx⟩) | ⟨j, hj, hx⟩
            · subst heq
              have e1 : asm.d k i = a1.d k i := by
                rw [t4 k i (fun j hj => by
                  have := (List.mem_range'_1.1 hj).1
                  omega)]
                exact s4 k i (fun j hj => by
                  have := List.mem_range.1 hj
                  omega)
              obtain rfl | rfl : k = 0 ∨ k = 1 := by omega
              · exact ⟨x0, ct0, e1.trans h0, p2⟩
              · exact ⟨x1, ct1, e1.trans c4, q2⟩
            · have hij : j = i := by omega
              subst hij
              obtain ⟨g, cg, e1, e2⟩ := s7 j hj k hk
              refine ⟨g, cg, ?_, e2⟩
              rw [t4 k j (fun m hm => by
                have := (List.mem_range'_1.1 hm).1
                have := List.mem_range.1 hj
                omega)]
              exact e1
            · rw [hx]
              exact t7 j hj k hk
          have hdegree : ∀ y, y ∈ asm.others → ∃ cy, st.get (some y) = some cy ∧
              cy.degree = deg := by
            intro y hy
            by_cases he : 0 < ei
            · obtain ⟨vci, f, e1, e2, e3⟩ := s5 0 (List.mem_range.2 he)
              obtain ⟨cf, g1, g2⟩ := hfaces vci f e2
              obtain ⟨cy, k1, k2⟩ := e3 cf g1 y (t6 y hy)
              exact ⟨cy, k1, by omega⟩
            · obtain ⟨vci, f, e1, e2, e3⟩ :=
                t5 ei (List.mem_range'_1.2 ⟨Nat.le_refl _, by omega⟩)
              obtain ⟨cf, g1, g2⟩ := hfaces vci f e2
              obtain ⟨cy, k1, k2⟩ := e3 cf g1 y hy
              exact ⟨cy, k1, by omega⟩
          refine ⟨?_, by rw [t2]; exact s2.trans hlen0, by rw [t3]; exact s3.trans hlen1,
            hlive⟩
          intro y
          constructor
          · intro hy
            obtain ⟨cy, k1, k2⟩ := hdegree y hy
            obtain ⟨cy', m1, m2⟩ := (t1 y).1 hy
            rw [k1] at m1
            have : cy = cy' := Option.some.inj m1
            subst this
            refine ⟨cy, k1, k2, ?_⟩
            intro k i hk hi
            have := m2 i (hcover i hi)
            obtain rfl | rfl : k = 0 ∨ k = 1 := by omega
            · exact this.1
            · exact this.2
          · rintro ⟨cy, k1, k2, k3⟩
            refine (t1 y).2 ⟨cy, k1, ?_⟩
            intro x hx
            have hx' : x < deg := by
              rcases hx with (heq | ⟨j, hj, hx⟩) | ⟨j, hj, hx⟩
              · omega
              · have := List.mem_range.1 hj
                omega
              · have := (List.mem_range'_1.1 hj).2
                omega
            exact ⟨k3 0 x (by omega) hx', k3 1 x (by omega) hx'⟩
      · simp at h

theorem assembleStep_length (st : Store) (faces vc up cv : List Nat) (shift : Nat)
    (a a' : Assembly) (i : Nat) (h : assembleStep st faces vc up cv shift a i = some a') :
    a'.d0.length = a.d0.length ∧ a'.d1.length = a.d1.length := by
  unfold assembleStep at h
  simp only at h
  split at h
  · split at h
    · split at h
      · simp at h
      · rename_i a1 ha1
        split at h
        · simp at h
        · split at h
          · simp at h
          · rename_i a2 ha2
            split at h
            · simp at h
            · simp only [Option.some.injEq] at h
              subst h
              obtain ⟨-, b1, b2, -⟩ := setD_spec _ _ _ _ _ ha1
              obtain ⟨-, c1, c2, -⟩ := setD_spec _ _ _ _ _ ha2
              exact ⟨c1.trans b1, c2.trans b2⟩
    · simp at h
  · simp at h

/-- The boundary arrays of an assembled candidate have `degree` entries. -/
theorem assemble_length (st : Store) (faces vc up cv : List Nat)
    (ei deg top0 top1 : Nat) (asm : Assembly)
    (h : assemble st faces vc up cv ei deg top0 top1 = some asm) :
    asm.d0.length = deg ∧ asm.d1.length = deg := by
  unfold assemble at h
  split at h
  · simp at h
  · rename_i a0 ha0
    split at h
    · simp at h
    · rename_i a1 ha1
      split at h
      · split at h
        · simp at h
        · rename_i a2 ha2
          obtain ⟨-, b1, b2, -⟩ := setD_spec _ _ _ _ _ ha0
          obtain ⟨-, c1, c2, -⟩ := setD_spec _ _ _ _ _ ha1
          have hP : ∀ (is : List Nat) (x y : Assembly),
              loopM (assembleStep st faces vc up cv 0) x is = some y →
              y.d0.length = x.d0.length ∧ y.d1.length = x.d1.length := by
            intro is x y hxy
            exact loopM_inv _ (fun z => z.d0.length = x.d0.length ∧ z.d1.length = x.d1.length)
              is (fun s i s' _ hs hstep => by
                obtain ⟨e1, e2⟩ := assembleStep_length st faces vc up cv 0 s s' i hstep
                exact ⟨e1.trans hs.1, e2.trans hs.2⟩) x y ⟨rfl, rfl⟩ hxy
          have hP1 : ∀ (is : List Nat) (x y : Assembly),
              loopM (assembleStep st faces vc up cv 1) x is = some y →
              y.d0.length = x.d0.length ∧ y.d1.length = x.d1.length := by
            intro is x y hxy
            exact loopM_inv _ (fun z => z.d0.length = x.d0.length ∧ z.d1.length = x.d1.length)
              is (fun s i s' _ hs hstep => by
                obtain ⟨e1, e2⟩ := assembleStep_length st faces vc up cv 1 s s' i hstep
                exact ⟨e1.trans hs.1, e2.trans hs.2⟩) x y ⟨rfl, rfl⟩ hxy
          obtain ⟨s1, s2⟩ := hP _ _ _ ha2
          obtain ⟨t1, t2⟩ := hP1 _ _ _ h
          have hlen0 : a1.d0.length = deg := by rw [c1, b1]; simp
          have hlen1 : a1.d1.length = deg := by rw [c2, b2]; simp
          exact ⟨t1.trans (s1.trans hlen0), t2.trans (s2.trans hlen1)⟩
      · simp at h

theorem cand_d (deg self : Nat) (d0 d1 edges : List (Option Nat)) (asm : Assembly)
    (h0 : d0 = asm.d0) (h1 : d1 = asm.d1) (k i : Nat) :
    ({ NewCube deg self with d0 := d0, d1 := d1, edges := edges } : cube).d k i =
      asm.d k i := by
  subst h0 h1
  match k with
  | 0 => rfl
  | 1 => rfl
  | (n + 2) => rfl

/-- What `tryCube` returns, by the cases of its test. -/
theorem tryCube_cases (faces vc up : List Nat) (ei deg top0 top1 : Nat) (a a' : Store × Nat)
    (cv : List Nat) (h : tryCube faces vc up ei deg top0 top1 a cv = some a') :
    ∃ asm ok, assemble a.1 faces vc up cv ei deg top0 top1 = some asm ∧
      BdIdsOK a.1 deg asm.d0 asm.d1 = some ok ∧
      (((ok = false ∨ asm.others ≠ []) ∧ a' = a) ∨
       (ok = true ∧ asm.others = [] ∧ ∃ edges s,
          cachedEdges a.1 deg asm.d0 = some edges ∧
          a.1.link { NewCube deg a.1.cubes.length with
                      d0 := asm.d0, d1 := asm.d1, edges := edges } = some s ∧
          a' = (s, a.2 + 1))) := by
  unfold tryCube at h
  split at h
  · simp at h
  · rename_i asm hasm
    split at h
    · simp at h
    · rename_i ok hok
      refine ⟨asm, ok, hasm, hok, ?_⟩
      split at h
      · rename_i hacc
        split at h
        · simp at h
        · rename_i edges hed
          split at h
          · simp at h
          · rename_i s hs
            simp only [Option.some.injEq] at h
            exact Or.inr ⟨hacc.1, hacc.2, edges, s, hed, hs, h.symm⟩
      · rename_i hrej
        simp only [Option.some.injEq] at h
        refine Or.inl ⟨?_, h.symm⟩
        by_cases hok' : ok = true
        · right
          intro ho
          exact hrej ⟨hok', ho⟩
        · left
          simpa using hok'

/-- A rejected candidate leaves the loop state as it was. -/
theorem tryCube_reject (faces vc up : List Nat) (ei deg top0 top1 : Nat) (a : Store × Nat)
    (cv : List Nat) (asm : Assembly) (ok : Bool)
    (hasm : assemble a.1 faces vc up cv ei deg top0 top1 = some asm)
    (hok : BdIdsOK a.1 deg asm.d0 asm.d1 = some ok)
    (hrej : ok = false ∨ asm.others ≠ []) :
    tryCube faces vc up ei deg top0 top1 a cv = some a := by
  simp only [tryCube, hasm, hok]
  rw [if_neg]
  rintro ⟨h1, h2⟩
  rcases hrej with h | h
  · rw [h] at h1; exact absurd h1 (by decide)
  · exact h h2

/-- An assembled candidate that passes the test of `FillHDCubes` is inserted:
the call of `link` returns, when the store satisfies the invariant of the
construction and `cubelist[deg]` exists. -/
theorem tryCube_accept_total (faces vc up : List Nat) (ei deg top0 top1 : Nat)
    (a : Store × Nat) (cv : List Nat) (asm : Assembly)
    (hI : Inv a.1) (hdeg : 3 ≤ deg)
    (hfaces : ∀ (v f : Nat), faces[v]? = some f →
      ∃ cf, a.1.get (some f) = some cf ∧ cf.degree + 1 = deg)
    (hl : deg < a.1.cubelist.length)
    (hasm : assemble a.1 faces vc up cv ei deg top0 top1 = some asm)
    (hok : BdIdsOK a.1 deg asm.d0 asm.d1 = some true) (hoth : asm.others = []) :
    ∃ edges s, cachedEdges a.1 deg asm.d0 = some edges ∧
      a.1.link { NewCube deg a.1.cubes.length with
                  d0 := asm.d0, d1 := asm.d1, edges := edges } = some s ∧
      tryCube faces vc up ei deg top0 top1 a cv = some (s, a.2 + 1) := by
  obtain ⟨l0, l1⟩ := assemble_length _ _ _ _ _ _ _ _ _ _ hasm
  obtain ⟨-, -, -, k0, i0, v, f0, hv, hd0⟩ :=
    assemble_spec hI faces vc up cv ei deg top0 top1 asm (by omega) hasm
  obtain ⟨cf0, g1, g2⟩ := hfaces v f0 hv
  have hc0 : ({ NewCube deg a.1.cubes.length with d0 := asm.d0, d1 := asm.d1 } : cube).d k0 i0
      = some (some f0) := by
    rw [cand_d deg _ asm.d0 asm.d1 _ asm rfl rfl]; exact hd0
  have hi0 : i0 < deg := by
    obtain ⟨-, hlt⟩ := d_some_lt _ k0 i0 _ hc0
    split at hlt
    · have h' : i0 < asm.d0.length := hlt
      omega
    · have h' : i0 < asm.d1.length := hlt
      omega
  have hall := BdIdsOK_degrees hI
    ({ NewCube deg a.1.cubes.length with d0 := asm.d0, d1 := asm.d1 } : cube) (by
      show 2 ≤ deg
      omega) hok k0 i0 f0 cf0 hc0 g1 hi0
  have hface : ∀ k i, k < 2 → i < deg → ∃ f cf, asm.d k i = some (some f) ∧
      a.1.get (some f) = some cf ∧ cf.degree + 1 = deg := by
    intro k i hk hi
    obtain ⟨f, cf, e1, e2, e3⟩ := hall k i hk hi
    rw [cand_d deg _ asm.d0 asm.d1 _ asm rfl rfl] at e1
    exact ⟨f, cf, e1, e2, by omega⟩
  obtain ⟨pa, ca, a1, a2, a3⟩ := hface 0 (deg - 1) (by omega) (by omega)
  obtain ⟨pb, cb, b1, b2, b3⟩ := hface 0 (deg - 3) (by omega) (by omega)
  have hla := (hI.shape pa ca a2).2.2.2.2
  have hlb := (hI.shape pb cb b2).2.2.2.2
  obtain ⟨last, hlast⟩ : ∃ last, cb.edges[deg - 2]? = some last :=
    ⟨cb.edges[deg - 2], List.getElem?_eq_getElem (by omega)⟩
  have a1' : asm.d0[deg - 1]? = some (some pa) := a1
  have b1' : asm.d0[deg - 3]? = some (some pb) := b1
  have hed : cachedEdges a.1 deg asm.d0 = some (ca.edges.take (deg - 1) ++ [last]) := by
    simp only [cachedEdges, a1', b1', a2, b2, readAll_take ca.edges (deg - 1) (by omega), hlast]
  obtain ⟨s, hs⟩ := link_total a.1
    { NewCube deg a.1.cubes.length with
      d0 := asm.d0, d1 := asm.d1, edges := ca.edges.take (deg - 1) ++ [last] }
    (by
      intro i f hf
      have hi : i < deg := by
        have := getElem?_some_lt _ _ _ hf
        have h' : i < asm.d0.length := this
        omega
      obtain ⟨g, cg, e1, e2, e3⟩ := hface 0 i (by omega) hi
      have e1' : asm.d0[i]? = some (some g) := e1
      have hf' : asm.d0[i]? = some f := hf
      rw [e1'] at hf'
      refine ⟨g, cg, (Option.some.inj hf').symm, e2, ?_⟩
      have := (hI.shape g cg e2).2.2.1
      omega)
    (by
      intro i f hf
      have hi : i < deg := by
        have := getElem?_some_lt _ _ _ hf
        have h' : i < asm.d1.length := this
        omega
      obtain ⟨g, cg, e1, e2, e3⟩ := hface 1 i (by omega) hi
      have e1' : asm.d1[i]? = some (some g) := e1
      have hf' : asm.d1[i]? = some f := hf
      rw [e1'] at hf'
      refine ⟨g, cg, (Option.some.inj hf').symm, e2, ?_⟩
      have := (hI.shape g cg e2).2.2.2.1
      omega)
    (by
      show deg < a.1.cubelist.length
      exact hl)
  refine ⟨_, s, hed, hs, ?_⟩
  simp only [tryCube, hasm, hok, hoth, hed, hs, and_self, if_true]

theorem Inserted_of_link (deg : Nat) (asm : Assembly) (a : Store × Nat)
    (edges : List (Option Nat)) (s : Store)
    (hs : a.1.link { NewCube deg a.1.cubes.length with
                      d0 := asm.d0, d1 := asm.d1, edges := edges } = some s) :
    Inserted deg asm a (s, a.2 + 1) := by
  have hL := link_spec _ _ _ hs
  exact ⟨hL.len, rfl, _, hL.new, rfl, rfl, rfl⟩

/-- C31: duplicate detection in `FillHDCubes`. On a store whose coface lists
agree with the boundary arrays, for a candidate cube of degree `deg >= 3` that
the function has assembled from faces of degree `deg - 1`, the list `others` has
as its members exactly the stored cubes `y` of degree `deg` with
`y.d[k][i] = cub.d[k][i]` for `k` in `{0, 1}` and every axis `i`; so `others` is
non-empty iff there is such a cube (which is a member of `cubelist[deg]`, on a
store that satisfies the invariant of the construction). The candidate is
inserted iff `BdIdsOK(cub)` returns 1 and no such cube exists; in every other
case that returns the store and the count stay as they were. A candidate that
is rejected always returns; one that passes the test returns (inserted) when the
store satisfies the invariant and `cubelist[deg]` exists. -/
theorem tryCube_duplicates (faces vc up : List Nat) (ei deg top0 top1 : Nat)
    (a : Store × Nat) (cv : List Nat) (asm : Assembly)
    (hA : CofAgree a.1) (hdeg : 3 ≤ deg)
    (hfaces : ∀ (v f : Nat), faces[v]? = some f →
      ∃ cf, a.1.get (some f) = some cf ∧ cf.degree + 1 = deg)
    (hasm : assemble a.1 faces vc up cv ei deg top0 top1 = some asm) :
    (∀ y, y ∈ asm.others ↔ SameBoundary a.1 deg asm y) ∧
    (asm.others ≠ [] ↔ ∃ y, SameBoundary a.1 deg asm y) ∧
    (∀ a', tryCube faces vc up ei deg top0 top1 a cv = some a' →
      (Inserted deg asm a a' ↔
        (BdIdsOK a.1 deg asm.d0 asm.d1 = some true ∧
          ¬ ∃ y, SameBoundary a.1 deg asm y)) ∧
      (¬ Inserted deg asm a a' → a' = a)) ∧
    (∀ ok, BdIdsOK a.1 deg asm.d0 asm.d1 = some ok →
      (ok = false ∨ ∃ y, SameBoundary a.1 deg asm y) →
      tryCube faces vc up ei deg top0 top1 a cv = some a) ∧
    (Inv a.1 → deg < a.1.cubelist.length →
      BdIdsOK a.1 deg asm.d0 asm.d1 = some true → (¬ ∃ y, SameBoundary a.1 deg asm y) →
      ∃ a', tryCube faces vc up ei deg top0 top1 a cv = some a' ∧ Inserted deg asm a a') ∧
    (Inv a.1 → ∀ y, SameBoundary a.1 deg asm y →
      ∃ l, a.1.cubelist[deg]? = some l ∧ y ∈ l) := by
  obtain ⟨hmem, -, -, -⟩ :=
    assemble_exact hA faces vc up cv ei deg top0 top1 asm (by omega) hfaces hasm
  have hne : asm.others ≠ [] ↔ ∃ y, SameBoundary a.1 deg asm y := by
    constructor
    · intro h
      obtain ⟨y, hy⟩ := List.exists_mem_of_ne_nil _ h
      exact ⟨y, (hmem y).1 hy⟩
    · rintro ⟨y, hy⟩ h
      have := (hmem y).2 hy
      rw [h] at this
      exact absurd this (List.not_mem_nil y)
  have hnil : asm.others = [] ↔ ¬ ∃ y, SameBoundary a.1 deg asm y := by
    rw [← hne]
    exact ⟨fun h h' => h' h, fun h => by_contra h⟩
  refine ⟨hmem, hne, ?_, ?_, ?_, ?_⟩
  · intro a' h
    obtain ⟨asm', ok, e1, e2, e3⟩ := tryCube_cases _ _ _ _ _ _ _ _ _ _ h
    rw [hasm] at e1
    have : asm = asm' := Option.some.inj e1
    subst this
    rcases e3 with ⟨hrej, heq⟩ | ⟨hok, hoth, edges, s, hed, hs, rfl⟩
    · rw [heq]
      have hnot : ¬ Inserted deg asm a a := by
        rintro ⟨-, h2, -⟩
        omega
      refine ⟨⟨fun hi => absurd hi hnot, ?_⟩, fun _ => rfl⟩
      rintro ⟨h1, h2⟩
      rcases hrej with h | h
      · rw [e2, h] at h1
        exact absurd (Option.some.inj h1) (by decide)
      · exact absurd (hnil.2 h2) h
    · have hins := Inserted_of_link deg asm a edges s hs
      refine ⟨⟨fun _ => ⟨by rw [e2, hok], hnil.1 hoth⟩, fun _ => hins⟩,
        fun h => absurd hins h⟩
  · intro ok hok hrej
    refine tryCube_reject _ _ _ _ _ _ _ _ _ asm ok hasm hok ?_
    rcases hrej with h | h
    · exact Or.inl h
    · exact Or.inr (hne.2 h)
  · intro hI hl hok hno
    obtain ⟨edges, s, -, hs, ht⟩ := tryCube_accept_total faces vc up ei deg top0 top1 a cv asm
      hI hdeg hfaces hl hasm hok (hnil.2 hno)
    exact ⟨_, ht, Inserted_of_link deg asm a edges s hs⟩
  · rintro hI y ⟨cy, h1, h2, -⟩
    obtain ⟨l, g1, g2⟩ := hI.listedAll y cy h1 (by omega)
    rw [h2] at g1
    exact ⟨l, g1, g2⟩

theorem threeProcesses_dup_run :
    dupReport (MakeHDA 8 threeProcesses (initialStore threeProcesses)) =
      some ⟨3, [[0, 1, 3, 5, 7, 9, 14, 22], [2, 4, 6, 8, 10, 12, 15, 17, 20, 23, 25, 28],
          [13, 18, 21, 26, 29, 30], [31]], some dupAsm, some true, true⟩ := by
  decide!

theorem tryCube_duplicates_witness :
    ∃ st : Store, MakeHDA 8 threeProcesses (initialStore threeProcesses) = some (st, 3) ∧
      ((∀ y, y ∈ dupAsm.others ↔ SameBoundary st 3 dupAsm y) ∧
      (dupAsm.others ≠ [] ↔ ∃ y, SameBoundary st 3 dupAsm y) ∧
      (∀ a', tryCube [30, 29] [1, 0] [1, 1] 0 3 21 26 (st, 0) [18, 13] = some a' →
        (Inserted 3 dupAsm (st, 0) a' ↔
          (BdIdsOK st 3 dupAsm.d0 dupAsm.d1 = some true ∧
            ¬ ∃ y, SameBoundary st 3 dupAsm y)) ∧
        (¬ Inserted 3 dupAsm (st, 0) a' → a' = (st, 0))) ∧
      (∀ ok, BdIdsOK st 3 dupAsm.d0 dupAsm.d1 = some ok →
        (ok = false ∨ ∃ y, SameBoundary st 3 dupAsm y) →
        tryCube [30, 29] [1, 0] [1, 1] 0 3 21 26 (st, 0) [18, 13] = some (st, 0)) ∧
      (Inv st → 3 < st.cubelist.length →
        BdIdsOK st 3 dupAsm.d0 dupAsm.d1 = some true → (¬ ∃ y, SameBoundary st 3 dupAsm y) →
        ∃ a', tryCube [30, 29] [1, 0] [1, 1] 0 3 21 26 (st, 0) [18, 13] = some a' ∧
          Inserted 3 dupAsm (st, 0) a') ∧
      (Inv st → ∀ y, SameBoundary st 3 dupAsm y →
        ∃ l, st.cubelist[3]? = some l ∧ y ∈ l)) := by
  have hrun := threeProcesses_dup_run
  cases hr : MakeHDA 8 threeProcesses (initialStore threeProcesses) with
  | none => rw [hr] at hrun; simp [dupReport] at hrun
  | some r =>
    rw [hr] at hrun
    simp only [dupReport, Option.map_some', Option.some.injEq, DupReport.mk.injEq] at hrun
    obtain ⟨h1, h2, h3, -, -⟩ := hrun
    obtain ⟨st, dim⟩ := r
    simp only at h1 h2 h3
    subst h1
    have hI := MakeHDA_Inv 8 threeProcesses (st, 3) hr
    refine ⟨st, rfl, tryCube_duplicates [30, 29] [1, 0] [1, 1] 0 3 21 26 (st, 0) [18, 13] dupAsm
      hI.cofAgree (by omega) ?_ h3⟩
    intro v f hv
    have hfm : f ∈ [13, 18, 21, 26, 29, 30] := by
      have : f ∈ [30, 29] := List.getElem?_mem hv
      simp only [List.mem_cons, List.mem_singleton, List.not_mem_nil, or_false] at this ⊢
      omega
    obtain ⟨c, c1, c2⟩ := hI.listed 2 [13, 18, 21, 26, 29, 30] f (by
      show st.cubelist[2]? = _
      rw [h2]; rfl) hfm
    exact ⟨c, c1, by omega⟩

/-- C32: rejection is atomic. For every candidate that `FillHDCubes` assembles
and tests (a call of the loop body that returns): if the candidate is rejected
(`BdIdsOK` returns 0 or `others` is not empty), the store, with every coface list
and every per-degree collection, and the count are exactly as before. If it is
accepted, the count grows by one, the candidate is the one new cell, its address
is appended to the coface list `f.s[k][i]` of its face `f = cub.d[k][i]` for
each of the `2 * deg` pairs `(k, i)` with `k` in `{0, 1}` and `i < deg`, every
other coface list keeps its value, and the address is appended to
`cubelist[deg]` and to no other collection. The count that `FillHDCubes` returns
is the number of the addresses that the call has appended to `cubelist[deg]`. -/
theorem tryCube_atomic (deg : Nat) :
    (∀ (faces vc up : List Nat) (ei top0 top1 : Nat) (a a' : Store × Nat) (cv : List Nat),
      tryCube faces vc up ei deg top0 top1 a cv = some a' →
      ∃ asm ok, assemble a.1 faces vc up cv ei deg top0 top1 = some asm ∧
        BdIdsOK a.1 deg asm.d0 asm.d1 = some ok ∧
        ((ok = false ∨ asm.others ≠ []) → a' = a) ∧
        ((ok = true ∧ asm.others = []) →
          a'.2 = a.2 + 1 ∧ a'.1.cubes.length = a.1.cubes.length + 1 ∧
          (∃ c, a'.1.get (some a.1.cubes.length) = some c ∧ c.degree = deg ∧
            c.d0 = asm.d0 ∧ c.d1 = asm.d1) ∧
          (∀ k i, k < 2 → i < deg → ∃ f cf cf' l, asm.d k i = some (some f) ∧
            a.1.get (some f) = some cf ∧ cf.s k i = some l ∧
            a'.1.get (some f) = some cf' ∧ cf'.s k i = some (l ++ [a.1.cubes.length])) ∧
          (∀ y cy, a.1.get (some y) = some cy →
            ∃ cy', a'.1.get (some y) = some cy' ∧ Frame cy cy' ∧
              ∀ k i l, cy.s k i = some l → asm.d k i ≠ some (some y) → cy'.s k i = some l) ∧
          (∃ l, a.1.cubelist[deg]? = some l ∧
            a'.1.cubelist[deg]? = some (l ++ [a.1.cubes.length])) ∧
          (∀ d, d ≠ deg → a'.1.cubelist[d]? = a.1.cubelist[d]?))) ∧
    (∀ (faces vc up : List Nat) (ei top0 top1 : Nat) (a : Store × Nat) (cv : List Nat)
      (asm : Assembly) (ok : Bool),
      assemble a.1 faces vc up cv ei deg top0 top1 = some asm →
      BdIdsOK a.1 deg asm.d0 asm.d1 = some ok → (ok = false ∨ asm.others ≠ []) →
      tryCube faces vc up ei deg top0 top1 a cv = some a) ∧
    (∀ (st : Store) (edge facecount : Nat) (r : Store × Nat),
      FillHDCubes st edge deg facecount = some r →
      ∃ new, new.length = r.2 ∧
        r.1.cubelist[deg]? = (st.cubelist[deg]?).map (fun l => l ++ new) ∧
        ∀ d, d ≠ deg → r.1.cubelist[d]? = st.cubelist[d]?) := by
  refine ⟨?_, ?_, ?_⟩
  · intro faces vc up ei top0 top1 a a' cv h
    obtain ⟨asm, ok, e1, e2, e3⟩ := tryCube_cases _ _ _ _ _ _ _ _ _ _ h
    refine ⟨asm, ok, e1, e2, ?_, ?_⟩
    · intro hrej
      rcases e3 with ⟨-, heq⟩ | ⟨hok, hoth, -⟩
      · exact heq
      · rcases hrej with h' | h'
        · rw [hok] at h'; exact absurd h' (by decide)
        · exact absurd hoth h'
    · rintro ⟨hok, hoth⟩
      rcases e3 with ⟨hrej, -⟩ | ⟨-, -, edges, s, hed, hs, rfl⟩
      · rcases hrej with h' | h'
        · rw [hok] at h'; exact absurd h' (by decide)
        · exact absurd hoth h'
      · have hL := link_spec _ _ _ hs
        obtain ⟨l0, l1⟩ := assemble_length _ _ _ _ _ _ _ _ _ _ e1
        obtain ⟨l, g1, g2, g3⟩ := link_lists _ _ _ hs
        refine ⟨rfl, hL.len, ⟨_, hL.new, rfl, rfl, rfl⟩, ?_, ?_, ⟨l, g1, g2⟩, g3⟩
        · intro k i hk hi
          have hsome : ∃ f, asm.d k i = some f := by
            obtain rfl | rfl : k = 0 ∨ k = 1 := by omega
            · exact ⟨asm.d0[i], List.getElem?_eq_getElem (by omega)⟩
            · exact ⟨asm.d1[i], List.getElem?_eq_getElem (by omega)⟩
          obtain ⟨f, hf⟩ := hsome
          have hcd := cand_d deg a.1.cubes.length asm.d0 asm.d1 edges asm rfl rfl k i
          obtain ⟨fi, cf, lf, q1, q2, q3⟩ := hL.faces k i f (hcd.trans hf)
          subst q1
          obtain ⟨cf', r1, r2, r3⟩ := hL.old fi cf q2
          refine ⟨fi, cf, cf', lf, hf, q2, q3, r1, ?_⟩
          rw [r3 k i, q3, hcd, hf]
          simp
        · intro y cy hy
          obtain ⟨cy', r1, r2, r3⟩ := hL.old y cy hy
          refine ⟨cy', r1, r2, ?_⟩
          intro k i l hl hne
          have hcd := cand_d deg a.1.cubes.length asm.d0 asm.d1 edges asm rfl rfl k i
          rw [r3 k i, hl, hcd]
          simp [hne]
  · intro faces vc up ei top0 top1 a cv asm ok hasm hok hrej
    exact tryCube_reject _ _ _ _ _ _ _ _ _ asm ok hasm hok hrej
  · intro st edge facecount r h
    obtain ⟨g1, -, g3, ⟨new, n1, n2⟩, -, -⟩ :=
      FillHDCubes_rel (Grows_stepRel deg) st edge facecount r h
    exact ⟨new, by simpa using n1, n2, g3⟩

theorem sharedCounter_accept_run :
    acceptReport (MakeHDA 6 sharedCounter (initialStore sharedCounter)) =
      some ⟨2, 29,
        some ⟨[some 19, some 14, some 13], [some 24, some 28, some 27], []⟩,
        some true, some 1, some 30⟩ := by
  decide!

theorem tryCube_atomic_witness :
    ∃ (st : Store) (a' : Store × Nat),
      MakeHDA 6 sharedCounter (initialStore sharedCounter) = some (st, 2) ∧
      tryCube [28, 27] [0, 1] [1, 1] 0 3 19 24 (st, 0) [14, 13] = some a' ∧
      ∃ asm ok, assemble st [28, 27] [0, 1] [1, 1] [14, 13] 0 3 19 24 = some asm ∧
        BdIdsOK st 3 asm.d0 asm.d1 = some ok ∧
        ((ok = false ∨ asm.others ≠ []) → a' = (st, 0)) ∧
        ((ok = true ∧ asm.others = []) →
          a'.2 = 0 + 1 ∧ a'.1.cubes.length = st.cubes.length + 1 ∧
          (∃ c, a'.1.get (some st.cubes.length) = some c ∧ c.degree = 3 ∧
            c.d0 = asm.d0 ∧ c.d1 = asm.d1) ∧
          (∀ k i, k < 2 → i < 3 → ∃ f cf cf' l, asm.d k i = some (some f) ∧
            st.get (some f) = some cf ∧ cf.s k i = some l ∧
            a'.1.get (some f) = some cf' ∧ cf'.s k i = some (l ++ [st.cubes.length])) ∧
          (∀ y cy, st.get (some y) = some cy →
            ∃ cy', a'.1.get (some y) = some cy' ∧ Frame cy cy' ∧
              ∀ k i l, cy.s k i = some l → asm.d k i ≠ some (some y) → cy'.s k i = some l) ∧
          (∃ l, st.cubelist[3]? = some l ∧
            a'.1.cubelist[3]? = some (l ++ [st.cubes.length])) ∧
          (∀ d, d ≠ 3 → a'.1.cubelist[d]? = st.cubelist[d]?)) := by
  have hrun := sharedCounter_accept_run
  cases hr : MakeHDA 6 sharedCounter (initialStore sharedCounter) with
  | none => rw [hr] at hrun; simp [acceptReport] at hrun
  | some r =>
    rw [hr] at hrun
    simp only [acceptReport, Option.map_some', Option.some.injEq, AcceptReport.mk.injEq] at hrun
    obtain ⟨h1, -, -, -, h5, -⟩ := hrun
    obtain ⟨st, dim⟩ := r
    simp only at h1 h5
    subst h1
    obtain ⟨a', ha', -⟩ := Option.map_eq_some'.1 h5
    exact ⟨st, a', rfl, ha',
      (tryCube_atomic 3).1 [28, 27] [0, 1] [1, 1] 0 19 24 (st, 0) a' [14, 13] ha'⟩

/-! ### The cached vector of edges -/

/-- C35: the cached edge vector agrees with the recursive definition. In the
complex that `MakeHDA` returns, for every cube `c` of degree at least 1,
`Edges(c)` returns a vector that is equal to the vector stored in `c.edges`,
entry by entry (both have `degree` entries). The stored vector is `[c]` for
degree 1, `[c.d[0][1], c.d[0][0]]` for degree 2, and for degree at least 3 the
stored vector of `c.d[0][degree-1]` followed by the entry `degree - 2` of the
stored vector of `c.d[0][degree-3]`. -/
theorem MakeHDA_cached_edges (fuel : Nat) (sys : System) (r : Store × Int)
    (h : MakeHDA fuel sys (initialStore sys) = some r)
    (x : Nat) (c : cube) (hc : r.1.get (some x) = some c) (_hd : 1 ≤ c.degree) :
    (∃ v, Edges r.1 (some x) = some v ∧ v.length = c.edges.length ∧
      ∀ i : Nat, v[i]? = c.edges[i]?) ∧
    c.edges.length = c.degree ∧
    (c.degree = 1 → c.edges = [some x]) ∧
    (c.degree = 2 → ∃ a b, c.d 0 1 = some a ∧ c.d 0 0 = some b ∧ c.edges = [a, b]) ∧
    (3 ≤ c.degree → ∃ pe pf ce cf last,
      c.d 0 (c.degree - 1) = some (some pe) ∧ c.d 0 (c.degree - 3) = some (some pf) ∧
      r.1.get (some pe) = some ce ∧ r.1.get (some pf) = some cf ∧
      ce.edges.length = c.degree - 1 ∧ cf.edges[c.degree - 2]? = some last ∧
      c.edges = ce.edges ++ [last]) := by
  have hI := MakeHDA_Inv fuel sys r h
  have hE := hI.Edges_eq x c hc
  have hlen := (hI.shape x c hc).2.2.2.2
  refine ⟨⟨c.edges, hE, rfl, fun _ => rfl⟩, hlen, hI.edges1 x c hc, ?_, ?_⟩
  · intro h2
    have hfuel : ∃ n, r.1.cubes.length + 1 = n + 1 := ⟨_, rfl⟩
    obtain ⟨n, hn⟩ := hfuel
    simp only [Edges, EdgesAux, hc, h2] at hE
    simp only [show ¬ ((2 : Nat) = 1) by decide, if_false, if_true] at hE
    cases ha : c.d 0 1 with
    | none => simp [ha] at hE
    | some a =>
      cases hb : c.d 0 0 with
      | none => simp [ha, hb] at hE
      | some b =>
        simp only [ha, hb, Option.some.injEq] at hE
        exact ⟨a, b, rfl, rfl, hE.symm⟩
  · intro h3
    obtain ⟨pe, ce, a1, a2, a3⟩ := hI.edgesFace x c (c.degree - 1) hc (by omega) (by omega)
    obtain ⟨pf, cf, b1, b2, b3⟩ := hI.edgesFace x c (c.degree - 3) hc (by omega) (by omega)
    obtain ⟨last, hlast⟩ : ∃ last, c.edges[c.degree - 1]? = some last :=
      ⟨c.edges[c.degree - 1], List.getElem?_eq_getElem (by omega)⟩
    refine ⟨pe, pf, ce, cf, last, a1, b1, a2, b2, ?_, ?_, ?_⟩
    · rw [a3, List.length_eraseIdx, hlen]
      simp only [show c.degree - 1 < c.degree by omega, if_true]
    · rw [b3]
      have := eraseIdx_get c.edges (c.degree - 3) (c.degree - 1) (by omega)
      rw [if_neg (by omega)] at this
      have e : c.degree - 1 - 1 = c.degree - 2 := by omega
      rw [e] at this
      rw [this, hlast]
    · rw [a3]
      exact (eraseIdx_last_append c.edges (c.degree - 1) last (by omega) hlast).symm

theorem MakeHDA_cached_edges_witness :
    ∃ st : Store, MakeHDA 8 threeProcesses (initialStore threeProcesses) = some (st, 3) ∧
      ∃ c, st.get (some 31) = some c ∧ c.degree = 3 ∧
        (∃ v, Edges st (some 31) = some v ∧ v.length = c.edges.length ∧
          ∀ i : Nat, v[i]? = c.edges[i]?) ∧
        c.edges.length = c.degree ∧
        (c.degree = 1 → c.edges = [some 31]) ∧
        (c.degree = 2 → ∃ a b, c.d 0 1 = some a ∧ c.d 0 0 = some b ∧ c.edges = [a, b]) ∧
        (3 ≤ c.degree → ∃ pe pf ce cf last,
          c.d 0 (c.degree - 1) = some (some pe) ∧ c.d 0 (c.degree - 3) = some (some pf) ∧
          st.get (some pe) = some ce ∧ st.get (some pf) = some cf ∧
          ce.edges.length = c.degree - 1 ∧ cf.edges[c.degree - 2]? = some last ∧
          c.edges = ce.edges ++ [last]) := by
  obtain ⟨st, h1, h2, -, -⟩ := report_mono _ _ _ 0 _ threeProcesses_run
  have hcl : st.cubelist[3]? = some [31] := by rw [h2]; rfl
  obtain ⟨c, hc, hd⟩ := (MakeHDA_Inv 8 threeProcesses (st, 3) h1).listed 3 [31] 31 hcl (by simp)
  exact ⟨st, h1, c, hc, hd,
    MakeHDA_cached_edges 8 threeProcesses (st, 3) h1 31 c hc (by omega)⟩

/-! ### The reuse of states in `HandleState` -/

theorem edgeCell_d (pc src tgt : Nat) (name : String) (i : Nat) (k j y : Nat) :
    (edgeCell pc src tgt name i).d k j = some (some y) ↔
      (k = 0 ∧ j = 0 ∧ y = src) ∨ (k = 1 ∧ j = 0 ∧ y = tgt) := by
  unfold edgeCell cube.d
  match k with
  | 0 =>
    cases j with
    | zero => simp; exact eq_comm
    | succ j => simp
  | 1 =>
    cases j with
    | zero => simp; exact eq_comm
    | succ j => simp
  | k + 2 => simp

theorem EdgeAdded_of_link (s2 s3 : Store) (pc src tgt : Nat) (name : String) (i : Nat)
    (hpc : pc = s2.cubes.length)
    (h : s2.link (edgeCell pc src tgt name i) = some s3) :
    EdgeAdded s2 s3 pc src tgt (edgeCell pc src tgt name i) := by
  have L := link_spec _ _ _ h
  obtain ⟨l1, e1, e2, e3⟩ := link_lists _ _ _ h
  have hdeg : (edgeCell pc src tgt name i).degree = 1 := rfl
  rw [hdeg] at e1 e2 e3
  refine ⟨hpc, L.len, ?_, rfl, rfl, rfl, ⟨l1, e1, ?_⟩, e3, ?_, ?_, ?_, ?_⟩
  · rw [hpc]
    exact (congrArg (fun x => s3.get (some x)) rfl).trans (hpc ▸ L.new)
  · rw [e2, hpc]
  · obtain ⟨fi, cf, l, g1, g2, g3⟩ := L.faces 0 0 (some src) rfl
    cases g1
    exact ⟨cf, l, g2, g3⟩
  · obtain ⟨fi, cf, l, g1, g2, g3⟩ := L.faces 1 0 (some tgt) rfl
    cases g1
    exact ⟨cf, l, g2, g3⟩
  · intro y cy hy
    obtain ⟨cy', g1, g2, g3⟩ := L.old y cy hy
    refine ⟨cy', g1, g2, ?_⟩
    intro k j
    rw [g3 k j]
    congr 1
    funext l
    by_cases hc : (edgeCell pc src tgt name i).d k j = some (some y)
    · rw [if_pos hc, if_pos ((edgeCell_d _ _ _ _ _ _ _ _).1 hc), hpc]
    · rw [if_neg hc, if_neg (fun e => hc ((edgeCell_d _ _ _ _ _ _ _ _).2 e))]
  · intro y hy hn
    exact L.dead y (hpc ▸ hy) hn

/-- C33: a transition of process `i` whose guard holds, handled by `HandleState`
in the state `sta`. Let `lbl` be the label of the successor state and `s1` the
store in which the cube of the successor state exists. If some cube of the
collection of degree 0 has a label equal to the label of the successor state,
the first such cube `tgt` is the back boundary of the new edge, the queue and
the collection of degree 0 are unchanged, the cube of the successor state is
released and the result is the one of `FillCubes` on the new edge. Otherwise the
successor state is appended to the queue, its cube `tgt` to the collection of
degree 0, and the result is the store of the new edge with that collection; no
call of `FillCubes` takes place. In both cases exactly one cube of degree 1, the
edge `pc` from the cube of `sta` to `tgt`, is inserted: it is appended to the
collection of degree 1, to `s[0][0]` of the cube of `sta` and to `s[1][0]` of
`tgt`, and the collection of degree 1 of the result is the old one with `pc`. -/
theorem handleTransition_reuse (sys : System) (sta : state) (i : Nat) (a a' : Explore)
    (trans : transition) (h : handleTransition sys sta i a trans = some a')
    (hg : CheckCondition sta.valvec trans.cond sys.varlist = some 1) :
    ∃ locvec valvec lbl act cl0 l1 tgt s2 s3,
      setAt sta.locvec i trans.loc1 = some locvec ∧
      Effect trans.act sta.valvec sys.varlist = some valvec ∧
      stateLabel sys locvec valvec = some lbl ∧ trans.act = some act ∧
      a.store.cubelist[0]? = some cl0 ∧ a.store.cubelist[1]? = some l1 ∧
      s2.cubelist = a.store.cubelist ∧
      (∀ y, y ≠ a.store.cubes.length → s2.get (some y) = a.store.get (some y)) ∧
      EdgeAdded s2 s3 (a.store.cubes.length + 1) sta.cube tgt
        (edgeCell (a.store.cubes.length + 1) sta.cube tgt act.id i) ∧
      a'.store.cubelist[1]? = some (l1 ++ [a.store.cubes.length + 1]) ∧
      (((∃ x, x ∈ cl0 ∧
            (a.store.alloc (vertexCell a.store.cubes.length lbl)).1.lab (some x)
              = some (some [⟨lbl, -1⟩])) ∧
          tgt ∈ cl0 ∧
          (a.store.alloc (vertexCell a.store.cubes.length lbl)).1.lab (some tgt)
            = some (some [⟨lbl, -1⟩]) ∧
          findState (a.store.alloc (vertexCell a.store.cubes.length lbl)).1
            (some [⟨lbl, -1⟩]) cl0 = some (some tgt) ∧
          s2.get (some a.store.cubes.length) = none ∧
          a'.statelist = a.statelist ∧
          a'.store.cubelist[0]? = some cl0 ∧
          ∃ r, FillCubes s3 (a.store.cubes.length + 1) = some r ∧ a'.store = r.1) ∨
       ((∀ x, x ∈ cl0 →
            (a.store.alloc (vertexCell a.store.cubes.length lbl)).1.lab (some x)
              ≠ some (some [⟨lbl, -1⟩])) ∧
          tgt = a.store.cubes.length ∧
          s2.get (some tgt) = some (vertexCell tgt lbl) ∧
          a'.statelist = a.statelist ++ [{ locvec := locvec, valvec := valvec, cube := tgt }] ∧
          a'.store.cubelist[0]? = some (cl0 ++ [tgt]) ∧
          s3.addToList 0 tgt = some a'.store ∧
          (∀ y, a'.store.get (some y) = s3.get (some y)) ∧
          ∀ d, d ≠ 0 → a'.store.cubelist[d]? = s3.cubelist[d]?)) := by
  rcases handleTransition_cases sys sta i a a' trans h with
    ⟨g, g1, g2, -⟩ | ⟨locvec, valvec, lbl, act, cl0, found, s3, -, e1, e2, e3, e4, e5, e6, hc⟩
  · rw [hg] at g1
    exact absurd (Option.some.inj g1).symm g2
  · rcases hc with ⟨hf, hl, s4, h4, ha⟩ | ⟨cpc, hf, hl, r, hr, ha⟩
    · -- the state is new
      subst hf
      have E := EdgeAdded_of_link _ _ _ _ _ _ _ (alloc_length _ _).symm hl
      obtain ⟨l1, q1, q2⟩ := E.2.2.2.2.2.2.1
      obtain ⟨g4, l0, q3, q4, q5⟩ := addToList_lists _ _ _ _ h4
      have hcl : (a.store.alloc (vertexCell a.store.cubes.length lbl)).1.cubelist
          = a.store.cubelist := rfl
      have hs3 : s3.cubelist[0]? = some cl0 := by
        rw [E.2.2.2.2.2.2.2.1 0 (by decide), hcl, e5]
      rw [hs3] at q3
      cases q3
      refine ⟨locvec, valvec, lbl, act, cl0, l1, a.store.cubes.length, _, s3, e1, e2, e3, e4,
        e5, hcl ▸ q1, hcl, ?_, E, ?_, Or.inr ⟨?_, rfl, ?_, ?_, ?_, ?_, ?_, ?_⟩⟩
      · intro y hy
        rw [alloc_get, if_neg hy]
      · rw [ha]
        simp only
        rw [q5 1 (by decide), q2]
      · rcases findState_spec _ _ _ _ e6 with ⟨-, g⟩ | ⟨x, g, -⟩
        · intro x hx e
          obtain ⟨v, v1, v2⟩ := g x hx
          rw [v1] at e
          exact v2 (Option.some.inj e)
        · cases g
      · rw [alloc_get, if_pos rfl]
      · rw [ha]
        rfl
      · rw [ha]
        exact q4
      · rw [ha]
        exact h4
      · rw [ha]
        exact g4
      · rw [ha]
        exact q5
    · -- the state exists already
      subst hf
      have E := EdgeAdded_of_link _ _ _ _ _ _ _
        ((delete_length _ _).trans (alloc_length _ _)).symm hl
      obtain ⟨l1, q1, q2⟩ := E.2.2.2.2.2.2.1
      have hcl : (DeleteCube (a.store.alloc (vertexCell a.store.cubes.length lbl)).1
          a.store.cubes.length).cubelist = a.store.cubelist := rfl
      rcases findState_spec _ _ _ _ e6 with ⟨g, -⟩ | ⟨x, g, gm, gl⟩
      · cases g
      · cases g
        refine ⟨locvec, valvec, lbl, act, cl0, l1, cpc, _, s3, e1, e2, e3, e4,
          e5, hcl ▸ q1, hcl, ?_, E, ?_,
          Or.inl ⟨⟨cpc, gm, gl⟩, gm, gl, e6, ?_, ?_, ?_, r, hr, ?_⟩⟩
        · intro y _
          exact delete_alloc_get _ _ _
        · rw [ha]
          simp only
          rw [FillCubes_lists_low _ _ _ hr 1 (by decide), q2]
        · rw [delete_alloc_get]
          simp only [Store.get]
          rw [List.getElem?_eq_none (Nat.le_refl _)]
          rfl
        · rw [ha]
        · rw [ha]
          simp only
          rw [FillCubes_lists_low _ _ _ hr 0 (by decide), E.2.2.2.2.2.2.2.1 0 (by decide),
            hcl, e5]
        · rw [ha]

/-- C33 at the last transition of `twoProcesses`: the successor of the state of
the vertex 3 under `a` has the label of the vertex 5, which is reused. -/
theorem handleTransition_reuse_witness :
    ∃ a', handleTransition twoProcesses reuseState 0 reuseReady reuseTrans = some a' ∧
      a'.statelist = reuseReady.statelist ∧
      ∃ locvec valvec lbl act cl0 l1 tgt s2 s3,
      setAt reuseState.locvec 0 reuseTrans.loc1 = some locvec ∧
      Effect reuseTrans.act reuseState.valvec twoProcesses.varlist = some valvec ∧
      stateLabel twoProcesses locvec valvec = some lbl ∧ reuseTrans.act = some act ∧
      reuseReady.store.cubelist[0]? = some cl0 ∧ reuseReady.store.cubelist[1]? = some l1 ∧
      s2.cubelist = reuseReady.store.cubelist ∧
      (∀ y, y ≠ reuseReady.store.cubes.length →
        s2.get (some y) = reuseReady.store.get (some y)) ∧
      EdgeAdded s2 s3 (reuseReady.store.cubes.length + 1) reuseState.cube tgt
        (edgeCell (reuseReady.store.cubes.length + 1) reuseState.cube tgt act.id 0) ∧
      a'.store.cubelist[1]? = some (l1 ++ [reuseReady.store.cubes.length + 1]) := by
  have hsome : (handleTransition twoProcesses reuseState 0 reuseReady reuseTrans).isSome
      = true := by decide!
  obtain ⟨a', ha⟩ := Option.isSome_iff_exists.1 hsome
  have hst : (handleTransition twoProcesses reuseState 0 reuseReady reuseTrans).map
      (fun x => x.statelist) = some reuseReady.statelist := by decide!
  rw [ha] at hst
  obtain ⟨locvec, valvec, lbl, act, cl0, l1, tgt, s2, s3, g1, g2, g3, g4, g5, g6, g7, g8, g9,
    g10, -⟩ := handleTransition_reuse twoProcesses reuseState 0 reuseReady a' reuseTrans ha
      (by decide!)
  exact ⟨a', ha, Option.some.inj hst, locvec, valvec, lbl, act, cl0, l1, tgt, s2, s3,
    g1, g2, g3, g4, g5, g6, g7, g8, g9, g10⟩

/-! ### The vertices of a cube and the vertices of its first two faces -/

theorem mapOpt_eq_map {α β : Type} (f : α → Option β) (g : α → β) :
    ∀ (l : List α), (∀ a, a ∈ l → f a = some (g a)) → mapOpt f l = some (l.map g) := by
  intro l
  induction l with
  | nil => intro _; rfl
  | cons a l ih =>
    intro h
    simp only [mapOpt, h a (List.mem_cons_self _ _),
      ih (fun x hx => h x (List.mem_cons_of_mem _ hx)), List.map_cons]

theorem facesArray_append (old new : List Nat) :
    facesArray (old ++ new) new.length = some new.reverse := by
  unfold facesArray
  rw [mapOpt_eq_map _ (fun i => (new.reverse[i]?).getD 0)]
  · congr 1
    apply List.ext_getElem?
    intro i
    by_cases hi : i < new.length
    · rw [List.getElem?_map, List.getElem?_range hi]
      simp only [Option.map_some']
      rw [List.getElem?_eq_getElem (by simpa using hi)]
      rfl
    · rw [List.getElem?_eq_none (by simp; omega), List.getElem?_eq_none (by simp; omega)]
  · intro i hi
    have hi' : i < new.length := List.mem_range.1 hi
    have hm : i % (old ++ new).length = i := Nat.mod_eq_of_lt (by simp; omega)
    rw [hm, List.reverse_append, List.getElem?_append_left (by simpa using hi'),
      List.getElem?_eq_getElem (by simpa using hi')]
    rfl

theorem reverse_last (old new : List Nat) (i : Nat) (hi : i < new.length) :
    new.reverse[i]? = (old ++ new)[(old ++ new).length - 1 - i]? := by
  rw [List.getElem?_reverse hi, List.getElem?_append_right (by simp; omega)]
  congr 1
  simp
  omega

theorem FillHDCubes_with (st : Store) (edge degree facecount : Nat) (cl faces : List Nat)
    (hd : 2 < degree) (hcl : st.cubelist[degree - 1]? = some cl) (hne : cl ≠ [])
    (hf : facesArray cl facecount = some faces) :
    FillHDCubes st edge degree facecount = FillHDCubesWith st edge degree facecount faces := by
  unfold FillHDCubes FillHDCubesWith
  unfold facesArray at hf
  cases st.pid (some edge) with
  | none => rfl
  | some edgepid =>
    simp only [if_pos hd, hcl]
    cases cl with
    | nil => exact absurd rfl hne
    | cons x l =>
      simp only [hf]

theorem FillCubesLoopTraced_fst (edge : Nat) :
    ∀ (fuel : Nat) (prev st : Store) (fc : Nat) (dim : Int),
      (FillCubesLoopTraced edge fuel prev st fc dim).map (fun x => (x.1, x.2.1))
        = FillCubesLoop edge fuel st fc dim := by
  intro fuel
  induction fuel with
  | zero => intro prev st fc dim; rfl
  | succ n ih =>
    intro prev st fc dim
    simp only [FillCubesLoopTraced, FillCubesLoop]
    by_cases hfc : fc = 0
    · simp [hfc]
    · simp only [hfc, if_false]
      cases hr : FillHDCubes st edge (dim + 1 + 1).toNat fc with
      | none => rfl
      | some r =>
        simp only
        rw [← ih st r.1 r.2 (dim + 1)]
        cases FillCubesLoopTraced edge n st r.1 r.2 (dim + 1) with
        | none => rfl
        | some x => rfl

theorem FillCubesTraced_fst (st : Store) (edge : Nat) :
    (FillCubesTraced st edge).map (fun x => (x.1, x.2.1)) = FillCubes st edge := by
  unfold FillCubesTraced FillCubes
  cases FillSquares st edge with
  | none => rfl
  | some r => exact FillCubesLoopTraced_fst edge _ st r.1 r.2 _

theorem FacesOK_of_grows (edge : Nat) (prev st : Store) (fc k : Nat) (hfc : fc ≠ 0)
    (hG : Grows (k + 2) (prev, 0) (st, fc)) : FacesOK edge (prev, st, k + 3, fc) := by
  obtain ⟨-, -, -, ⟨new, n1, n2⟩, -, g6⟩ := hG
  simp only at n1 n2 g6
  have hlt := g6 (by omega)
  obtain ⟨old, ho⟩ : ∃ old, prev.cubelist[k + 2]? = some old :=
    ⟨_, List.getElem?_eq_getElem hlt⟩
  rw [ho] at n2
  simp only [Option.map_some'] at n2
  have hn : new.length = fc := by omega
  have hdeg : k + 3 - 1 = k + 2 := by omega
  refine ⟨by simp only; omega, old, new, ?_, ?_, hn, ?_, ?_, ?_⟩
  · simp only
    rw [hdeg]
    exact ho
  · simp only
    rw [hdeg]
    exact n2
  · simp only
    rw [← hn]
    exact facesArray_append old new
  · intro i hi
    exact reverse_last old new i (by simp only at hi; omega)
  · simp only
    refine FillHDCubes_with st edge _ fc (old ++ new) _ (by omega) ?_ ?_ ?_
    · rw [hdeg]
      exact n2
    · intro e
      have hl := congrArg List.length e
      rw [List.length_append, hn, List.length_nil] at hl
      omega
    · rw [← hn]
      exact facesArray_append old new

theorem FillCubesLoopTraced_spec (edge : Nat) :
    ∀ (fuel : Nat) (prev st : Store) (fc k : Nat)
      (x : Store × Int × List (Store × Store × Nat × Nat)),
      Grows (k + 2) (prev, 0) (st, fc) →
      FillCubesLoopTraced edge fuel prev st fc ((k : Int) + 1) = some x →
      (fc = 0 → x = (st, (k : Int) + 1, [])) ∧
      (fc ≠ 0 → x.2.2.head? = some (prev, st, k + 3, fc)) ∧
      ∀ (i : Nat) (call : Store × Store × Nat × Nat), x.2.2[i]? = some call →
        call.2.2.1 = k + 3 + i ∧ call.2.2.2 ≠ 0 ∧
        (∃ r', FillHDCubes call.2.1 edge call.2.2.1 call.2.2.2 = some r' ∧
          (r'.2 = 0 → x.2.2[i + 1]? = none ∧ r'.1 = x.1 ∧ x.2.1 = (call.2.2.1 : Int) - 1) ∧
          (r'.2 ≠ 0 → x.2.2[i + 1]? = some (call.2.1, r'.1, call.2.2.1 + 1, r'.2))) ∧
        FacesOK edge call := by
  intro fuel
  induction fuel with
  | zero => intro prev st fc k x _ h; simp [FillCubesLoopTraced] at h
  | succ n ih =>
    intro prev st fc k x hG h
    simp only [FillCubesLoopTraced] at h
    by_cases hfc : fc = 0
    · simp only [hfc, if_true, Option.some.injEq] at h
      subst h
      refine ⟨fun _ => rfl, fun e => absurd hfc e, ?_⟩
      intro i call hc
      simp at hc
    · simp only [hfc, if_false] at h
      have hdeg : ((k : Int) + 1 + 1 + 1).toNat = k + 3 := by omega
      rw [hdeg] at h
      cases hr : FillHDCubes st edge (k + 3) fc with
      | none => rw [hr] at h; simp at h
      | some r' =>
        rw [hr] at h
        simp only at h
        cases hx : FillCubesLoopTraced edge n st r'.1 r'.2 ((k : Int) + 1 + 1) with
        | none => rw [hx] at h; simp at h
        | some x' =>
          rw [hx] at h
          simp only [Option.some.injEq] at h
          subst h
          have hG' : Grows (k + 1 + 2) (st, 0) (r'.1, r'.2) :=
            FillHDCubes_rel (Grows_stepRel (k + 3)) st edge fc r' hr
          have hx' : FillCubesLoopTraced edge n st r'.1 r'.2 (((k + 1 : Nat) : Int) + 1)
              = some x' := by
            have e : (((k + 1 : Nat) : Int) + 1) = (k : Int) + 1 + 1 := by
              push_cast
              ring
            rw [e]
            exact hx
          obtain ⟨i1, i2, i3⟩ := ih st r'.1 r'.2 (k + 1) x' hG' hx'
          refine ⟨fun e => absurd e hfc, fun _ => rfl, ?_⟩
          intro i call hc
          cases i with
          | zero =>
            simp only [List.getElem?_cons_zero, Option.some.injEq] at hc
            subst hc
            refine ⟨rfl, hfc, ⟨r', hr, ?_, ?_⟩, FacesOK_of_grows edge prev st fc k hfc hG⟩
            · intro h0
              have e := i1 h0
              rw [e]
              refine ⟨rfl, rfl, ?_⟩
              simp only
              push_cast
              ring
            · intro h0
              have e := i2 h0
              simp only [List.getElem?_cons_succ]
              rw [← List.head?_eq_getElem?] at *
              rw [e]
          | succ j =>
            simp only [List.getElem?_cons_succ] at hc
            obtain ⟨a1, a2, ⟨r2, b1, b2, b3⟩, a4⟩ := i3 j call hc
            refine ⟨by omega, a2, ⟨r2, b1, ?_, ?_⟩, a4⟩
            · intro h0
              simp only [List.getElem?_cons_succ]
              exact b2 h0
            · intro h0
              simp only [List.getElem?_cons_succ]
              exact b3 h0

/-- The store `threeReady` is a store of the run of `MakeHDA` for
`threeProcesses`: completing it at the edge 28 and marking the vertex 22 as
final gives what the run returns. -/
theorem threeReady_completes :
    (FillCubes threeReady 28).bind (fun r => (setFin r.1 22).map (fun s => (s, r.2)))
      = MakeHDA 8 threeProcesses (initialStore threeProcesses) := by
  decide!

/-- C36: an invocation `FillCubes(edge, cubelist)` on the store `st` that
returns `r` makes the calls of `FillHDCubes` listed in `calls`, the list that
`FillCubesTraced`, which is `FillCubes` with a record of these calls, returns
with `r`. If `FillSquares` has added no square there is no call. Otherwise the
first call is made in the store of `FillSquares` with the degree 3 and the count
of `FillSquares`; the call number `i` has the degree `i + 3` and a `facecount`
that is not 0, and if it returns the count 0 it is the last one and its store
and `degree - 1` are the result of `FillCubes`, otherwise the next call is made
in its store with `degree + 1` and its count. For every call, made in the store
`cur` after the preceding step of the invocation from the store `prev`:
`facecount` is the number of the cubes `new` that this step has appended to
`cubelist[degree - 1]`, and the array `faces` that `FillHDCubes` fills and works
with consists of exactly these cubes, the last `facecount` elements of
`cubelist[degree - 1]`, the most recently inserted one at index 0. -/
theorem FillCubes_faces (st : Store) (edge : Nat) (r : Store × Int)
    (h : FillCubes st edge = some r) :
    (FillCubesTraced st edge).map (fun x => (x.1, x.2.1)) = FillCubes st edge ∧
    ∃ r0 calls, FillSquares st edge = some r0 ∧
      FillCubesTraced st edge = some (r.1, r.2, calls) ∧
      (r0.2 = 0 → calls = [] ∧ r = (r0.1, -1)) ∧
      (r0.2 ≠ 0 → calls.head? = some (st, r0.1, 3, r0.2)) ∧
      ∀ (i : Nat) (prev cur : Store) (degree facecount : Nat),
        calls[i]? = some (prev, cur, degree, facecount) →
        degree = i + 3 ∧ facecount ≠ 0 ∧
        (∃ r', FillHDCubes cur edge degree facecount = some r' ∧
          (r'.2 = 0 → calls[i + 1]? = none ∧ r'.1 = r.1 ∧ r.2 = (degree : Int) - 1) ∧
          (r'.2 ≠ 0 → calls[i + 1]? = some (cur, r'.1, degree + 1, r'.2))) ∧
        ∃ old new, prev.cubelist[degree - 1]? = some old ∧
          cur.cubelist[degree - 1]? = some (old ++ new) ∧
          new.length = facecount ∧
          facesArray (old ++ new) facecount = some new.reverse ∧
          (∀ j, j < facecount →
            new.reverse[j]? = (old ++ new)[(old ++ new).length - 1 - j]?) ∧
          FillHDCubes cur edge degree facecount
            = FillHDCubesWith cur edge degree facecount new.reverse := by
  have hfst := FillCubesTraced_fst st edge
  refine ⟨hfst, ?_⟩
  rw [h] at hfst
  cases hx : FillCubesTraced st edge with
  | none => rw [hx] at hfst; simp at hfst
  | some x =>
    rw [hx] at hfst
    simp only [Option.map_some', Option.some.injEq] at hfst
    subst hfst
    unfold FillCubesTraced at hx
    cases h0 : FillSquares st edge with
    | none => rw [h0] at hx; simp at hx
    | some r0 =>
      rw [h0] at hx
      simp only at hx
      refine ⟨r0, x.2.2, rfl, rfl, ?_⟩
      by_cases hz : r0.2 = 0
      · have hn : ¬ (r0.2 > 0) := by omega
        rw [if_neg hn] at hx
        simp only [FillCubesLoopTraced, hz, if_true, Option.some.injEq] at hx
        subst hx
        refine ⟨fun _ => ⟨rfl, rfl⟩, fun e => absurd hz e, ?_⟩
        intro i prev cur degree facecount hc
        simp at hc
      · have hp : r0.2 > 0 := Nat.pos_of_ne_zero hz
        rw [if_pos hp] at hx
        have hG := FillSquares_rel (Grows_stepRel 2) st edge r0 h0
        have hx' : FillCubesLoopTraced edge (st.cubelist.length + 1) st r0.1 r0.2
            (((0 : Nat) : Int) + 1) = some x := hx
        obtain ⟨-, i2, i3⟩ := FillCubesLoopTraced_spec edge _ st r0.1 r0.2 0 x hG hx'
        refine ⟨fun e => absurd e hz, fun _ => i2 hz, ?_⟩
        intro i prev cur degree facecount hc
        obtain ⟨a1, a2, a3, a4⟩ := i3 i _ hc
        simp only at a1 a2 a3 a4
        refine ⟨by omega, a2, a3, ?_⟩
        obtain ⟨-, old, new, b⟩ := a4
        exact ⟨old, new, b⟩

/-- C36 on `threeReady`, completed at its last edge 28: `FillSquares` appends the
squares 29 and 30 to `cubelist[2]`, which was `[13, 18, 21, 26]`; the invocation
makes two calls of `FillHDCubes`, the first with the degree 3 and the count 2,
whose array `faces` is `[30, 29]`, the second with the degree 4 and the count 1,
after the first has appended one cube, and returns the dimension 3. -/
theorem FillCubes_faces_witness :
    threeReady.cubelist[2]? = some [13, 18, 21, 26] ∧
    (FillSquares threeReady 28).map (fun r0 => (r0.1.cubelist[2]?, r0.2))
      = some (some [13, 18, 21, 26, 29, 30], 2) ∧
    facesArray [13, 18, 21, 26, 29, 30] 2 = some [30, 29] ∧
    (FillCubesTraced threeReady 28).map
        (fun x => x.2.2.map
          (fun c => (c.1.cubelist[c.2.2.1 - 1]?, c.2.1.cubelist[c.2.2.1 - 1]?, c.2.2.1, c.2.2.2)))
      = some [(some [13, 18, 21, 26], some [13, 18, 21, 26, 29, 30], 3, 2),
              (some [], some [31], 4, 1)] ∧
    ∃ r, FillCubes threeReady 28 = some r ∧ r.2 = 3 ∧
      (FillCubesTraced threeReady 28).map (fun x => (x.1, x.2.1)) = FillCubes threeReady 28 ∧
      ∃ r0 calls, FillSquares threeReady 28 = some r0 ∧
        FillCubesTraced threeReady 28 = some (r.1, r.2, calls) ∧
        (r0.2 = 0 → calls = [] ∧ r = (r0.1, -1)) ∧
        (r0.2 ≠ 0 → calls.head? = some (threeReady, r0.1, 3, r0.2)) ∧
        ∀ (i : Nat) (prev cur : Store) (degree facecount : Nat),
          calls[i]? = some (prev, cur, degree, facecount) →
          degree = i + 3 ∧ facecount ≠ 0 ∧
          (∃ r', FillHDCubes cur 28 degree facecount = some r' ∧
            (r'.2 = 0 → calls[i + 1]? = none ∧ r'.1 = r.1 ∧ r.2 = (degree : Int) - 1) ∧
            (r'.2 ≠ 0 → calls[i + 1]? = some (cur, r'.1, degree + 1, r'.2))) ∧
          ∃ old new, prev.cubelist[degree - 1]? = some old ∧
            cur.cubelist[degree - 1]? = some (old ++ new) ∧
            new.length = facecount ∧
            facesArray (old ++ new) facecount = some new.reverse ∧
            (∀ j, j < facecount →
              new.reverse[j]? = (old ++ new)[(old ++ new).length - 1 - j]?) ∧
            FillHDCubes cur 28 degree facecount
              = FillHDCubesWith cur 28 degree facecount new.reverse := by
  have hc : (FillCubes threeReady 28).map (fun r => r.2) = some 3 := by decide!
  refine ⟨by decide, by decide!, by decide, by decide!, ?_⟩
  cases h : FillCubes threeReady 28 with
  | none => rw [h] at hc; simp at hc
  | some r =>
    rw [h] at hc
    exact ⟨r, rfl, Option.some.inj hc, h ▸ FillCubes_faces threeReady 28 r h⟩

/-! ### The bound of the degrees -/

theorem pid_single (st : Store) (x : Nat) (c : cube) (l : label) (ls : List label)
    (h : st.get (some x) = some c) (hl : c.lab = some (l :: ls)) :
    st.pid (some x) = some l.num := by
  simp only [Store.pid, h, hl]

theorem Bounded_step {n : Nat} {s s' : Store} (hB : Bounded n s)
    (hl : s'.cubelist.length = s.cubelist.length)
    (h : ∀ x c', s'.get (some x) = some c' →
      (∃ c, s.get (some x) = some c ∧ c.degree = c'.degree ∧ c.lab = c'.lab) ∨
      c'.degree ≠ 1 ∨ ∃ (p : Nat) (name : String), c'.lab = some [⟨name, (p : Int)⟩] ∧ p < n) :
    Bounded n s' := by
  refine ⟨hl.trans hB.1, ?_⟩
  intro x c' hx hd
  rcases h x c' hx with ⟨c, g1, g2, g3⟩ | g | ⟨p, name, g1, g2⟩
  · obtain ⟨p, hp, hlt⟩ := hB.2 x c g1 (g2.trans hd)
    refine ⟨p, ?_, hlt⟩
    rw [pid_congr s s' (some x) c c' g1 hx g3.symm]
    exact hp
  · exact absurd hd g
  · refine ⟨p, ?_, g2⟩
    exact pid_single _ _ _ _ _ hx g1

theorem Bounded_link {n : Nat} {s s' : Store} {c : cube} (hB : Bounded n s)
    (h : s.link c = some s')
    (hc : c.degree ≠ 1 ∨ ∃ (p : Nat) (name : String), c.lab = some [⟨name, (p : Int)⟩] ∧ p < n) :
    Bounded n s' := by
  have L := link_spec s s' c h
  refine Bounded_step hB ?_ ?_
  · obtain ⟨l, -, e⟩ := L.list
    rw [e, List.length_set]
  · intro x c' hx
    rcases L.cases x c' hx with ⟨-, rfl⟩ | ⟨c0, g1, g2, -⟩
    · exact Or.inr hc
    · exact Or.inl ⟨c0, g1, g2.1.symm, g2.2.2.2.2.2.2.symm⟩

theorem FillCubes_Bounded (n : Nat) (st : Store) (edge : Nat) (r : Store × Int)
    (hB : Bounded n st) (h : FillCubes st edge = some r) : Bounded n r.1 :=
  FillCubes_storeRel_lab (fun s s' => Bounded n s → Bounded n s') (fun _ h => h)
    (fun _ _ _ h1 h2 h => h2 (h1 h))
    (fun _ c _ hc _ hl hB => Bounded_link hB hl (Or.inl (by omega))) st edge r h hB

theorem addToList_length (st st' : Store) (d x : Nat) (h : st.addToList d x = some st') :
    st'.cubelist.length = st.cubelist.length := by
  unfold Store.addToList at h
  split at h
  · simp at h
  · simp only [Option.some.injEq] at h
    subst h
    simp

theorem handleTransition_Bounded (n : Nat) (sys : System) (sta : state) (i : Nat)
    (a a' : Explore) (trans : transition) (hi : i < n) (hB : Bounded n a.store)
    (h : handleTransition sys sta i a trans = some a') : Bounded n a'.store := by
  rcases handleTransition_cases sys sta i a a' trans h with ⟨g, -, -, rfl⟩ |
    ⟨locvec, valvec, lbl, act, cl0, found, s3, -, -, -, -, -, hcl0, -, hcase⟩
  · exact hB
  · have hedge : ∀ tgt, (edgeCell (a.store.cubes.length + 1) sta.cube tgt act.id i).degree ≠ 1 ∨
        ∃ (p : Nat) (name : String),
          (edgeCell (a.store.cubes.length + 1) sta.cube tgt act.id i).lab
            = some [⟨name, (p : Int)⟩] ∧ p < n :=
      fun tgt => Or.inr ⟨i, act.id, rfl, hi⟩
    rcases hcase with ⟨-, h3, s4, h4, rfl⟩ | ⟨cpc, -, h3, r, h4, rfl⟩
    · have h1 : Bounded n (a.store.alloc (vertexCell a.store.cubes.length lbl)).1 := by
        refine Bounded_step hB rfl ?_
        intro x c' hx
        rw [alloc_get] at hx
        split at hx
        · simp only [Option.some.injEq] at hx
          subst hx
          exact Or.inr (Or.inl (by simp [vertexCell, NewCube]))
        · exact Or.inl ⟨c', hx, rfl, rfl⟩
      have h2 := Bounded_link h1 h3 (hedge _)
      refine Bounded_step h2 (addToList_length _ _ _ _ h4) ?_
      intro x c' hx
      exact Or.inl ⟨c', by rw [← (addToList_lists _ _ _ _ h4).1 x]; exact hx, rfl, rfl⟩
    · have h1 : Bounded n (DeleteCube (a.store.alloc (vertexCell a.store.cubes.length lbl)).1
          a.store.cubes.length) := by
        refine Bounded_step hB rfl ?_
        intro x c' hx
        rw [delete_alloc_get] at hx
        exact Or.inl ⟨c', hx, rfl, rfl⟩
      exact FillCubes_Bounded n _ _ r (Bounded_link h1 h3 (hedge _)) h4

theorem HandleState_Bounded (n : Nat) (sys : System) (sta : state) (st : Store)
    (statelist : List state) (a : Explore) (hlen : sta.locvec.length = n) (hB : Bounded n st)
    (h : HandleState sys sta st statelist = some a) : Bounded n a.store := by
  unfold HandleState at h
  refine loopM_inv _ (fun b => Bounded n b.store) _ ?_ _ a hB h
  intro b p b' hp hb hf
  have hi : p.1 < n := by
    have := List.mk_mem_enum_iff_getElem?.1 (show (p.1, p.2) ∈ sta.locvec.enum from hp)
    rw [← hlen]
    exact getElem?_some_lt _ _ _ this
  split at hf
  · simp at hf
  · refine loopM_inv _ (fun b => Bounded n b.store) _ ?_ b b' hb hf
    intro e t e' _ he ht
    exact handleTransition_Bounded n sys sta p.1 e e' t hi he ht

theorem setFin_Bounded (n : Nat) (st st' : Store) (p : Nat) (hB : Bounded n st)
    (h : setFin st p = some st') : Bounded n st' := by
  obtain ⟨h1, -, h3⟩ := setFin_get st st' p h
  refine Bounded_step hB (by rw [h1]) ?_
  intro x c' hx
  rcases h3 x with ⟨-, g⟩ | ⟨c0, c1, g1, g2, g3, -, -, -⟩
  · rw [hx] at g; simp at g
  · rw [hx] at g2
    have : c' = c1 := Option.some.inj g2
    subst this
    exact Or.inl ⟨c0, g1, g3.1.symm, g3.2.2.2.2.symm⟩

theorem MakeHDA_Bounded (fuel : Nat) (sys : System) (r : Store × Int)
    (h : MakeHDA fuel sys (initialStore sys) = some r) : Bounded sys.pgvec.length r.1 := by
  obtain ⟨tr, hrun⟩ := MakeHDARun_of_some fuel sys r h
  rcases MakeHDA_unfold sys with hu | ⟨lbl, s1, hlbl, hs1, hu⟩
  · rw [(hu fuel).2] at hrun
    simp at hrun
  · rw [(hu fuel).2] at hrun
    have key := MakeHDALoopRun_inv sys
      (fun st done queue => BInv sys st done queue ∧ Bounded sys.pgvec.length st)
      ?_ ?_ fuel s1 _ 0 [] (r.1, r.2, tr) ⟨BInv_start sys lbl s1 hlbl hs1, ?_⟩ hrun
    · exact key.2
    · intro st st' done queue p hJ hfin
      exact ⟨hJ.1.binv_congr (by rw [(setFin_get _ _ _ hfin).1]) (setFin_lab _ _ _ hfin),
        setFin_Bounded _ _ _ _ hJ.2 hfin⟩
    · intro st sta queue done a hJ ha
      obtain ⟨new, g1, g2⟩ := HandleState_BInv sys sta st queue done a hJ.1 ha
      rw [g1, List.tail_cons]
      refine ⟨g2, HandleState_Bounded _ sys sta st _ a ?_ hJ.2 ha⟩
      exact (hJ.1.recs sta (by simp)).1.length_eq
    · refine ⟨?_, ?_⟩
      · rw [addToList_length _ _ _ _ hs1]
        simp [Store.alloc, initialStore]
      · intro x c hx hd
        rw [(addToList_lists _ _ _ _ hs1).1 x, alloc_get] at hx
        split at hx
        · simp only [Option.some.injEq] at hx
          subst hx
          exact absurd hd (by simp [vertexCell, NewCube])
        · simp [initialStore, Store.get] at hx

theorem degree_le_of_pids (n : Nat) (st : Store) (deg : Nat) (edges : List (Option Nat))
    (hB : Bounded n st)
    (hE : ∀ i, i < deg → ∃ e ce p, edges[i]? = some (some e) ∧ st.get (some e) = some ce ∧
      ce.degree = 1 ∧ st.pid (some e) = some p)
    (hD : ∀ (i j : Nat) (e1 e2 : Option Nat), i < j → edges[i]? = some e1 →
      edges[j]? = some e2 → st.pid e1 ≠ st.pid e2) : deg ≤ n := by
  have key : ∀ i : Fin deg, ∃ p : Fin n, ∃ e, edges[i.1]? = some (some e) ∧
      st.pid (some e) = some ((p.1 : Nat) : Int) := by
    intro i
    obtain ⟨e, ce, -, h1, h2, h3, -⟩ := hE i.1 i.2
    obtain ⟨p, hp, hlt⟩ := hB.2 e ce h2 h3
    exact ⟨⟨p, hlt⟩, e, h1, hp⟩
  choose f hf using key
  have hinj : Function.Injective f := by
    intro i j hij
    by_contra hne
    obtain ⟨ei, hi1, hi2⟩ := hf i
    obtain ⟨ej, hj1, hj2⟩ := hf j
    rw [hij] at hi2
    have hne' : i.1 ≠ j.1 := fun e => hne (Fin.ext e)
    rcases Nat.lt_or_gt_of_ne hne' with hlt | hgt
    · exact hD i.1 j.1 _ _ hlt hi1 hj1 (hi2.trans hj2.symm)
    · exact hD j.1 i.1 _ _ hgt hj1 hi1 (hj2.trans hi2.symm)
  have := Fintype.card_le_of_injective f hinj
  simpa using this

theorem Inv.degree_le {n : Nat} {st : Store} (hI : Inv st) (hB : Bounded n st) (x : Nat)
    (c : cube) (hc : st.get (some x) = some c) : c.degree ≤ n :=
  degree_le_of_pids n st c.degree c.edges hB (fun i hi => hI.edgesOK x c i hc hi)
    (fun i j e1 e2 hij h1 h2 => hI.pids x c i j e1 e2 hc hij h1 h2)

theorem Cand.write_bound {n : Nat} {st : Store} {c : cube} (hC : Cand st c) (hI : Inv st)
    (hB : Bounded n st) (hd : 2 ≤ c.degree) :
    c.degree ≤ n ∧ c.degree < st.cubelist.length ∧
      ∃ st', st.link c = some st' ∧ Bounded n st' := by
  have hle : c.degree ≤ n :=
    degree_le_of_pids _ st c.degree c.edges hB (hC.edgesOK hd) hC.pids
  have hlt : c.degree < st.cubelist.length := by rw [hB.1]; omega
  have hs : ∀ k i f, k < 2 → (c.d k i = some f) →
      ∃ fi cf, f = some fi ∧ st.get (some fi) = some cf ∧ i < cf.degree + 1 := by
    intro k i f hk hf
    have hi : i < c.degree := by
      obtain rfl | rfl : k = 0 ∨ k = 1 := by omega
      · have := getElem?_some_lt _ _ _ hf
        rw [hC.shape.1] at this
        exact this
      · have := getElem?_some_lt _ _ _ hf
        rw [hC.shape.2.1] at this
        exact this
    obtain ⟨fi, cf, g1, g2, g3⟩ := hC.faces k i hk hi
    rw [g1] at hf
    cases hf
    exact ⟨fi, cf, rfl, g2, by omega⟩
  obtain ⟨st', hst'⟩ := link_total st c
    (fun i f hf => by
      obtain ⟨fi, cf, g1, g2, g3⟩ := hs 0 i f (by decide) hf
      exact ⟨fi, cf, g1, g2, by rw [(hI.shape fi cf g2).2.2.1]; exact g3⟩)
    (fun i f hf => by
      obtain ⟨fi, cf, g1, g2, g3⟩ := hs 1 i f (by decide) hf
      exact ⟨fi, cf, g1, g2, by rw [(hI.shape fi cf g2).2.2.2.1]; exact g3⟩)
    hlt
  exact ⟨hle, hlt, st', hst', Bounded_link hB hst' (Or.inl (by omega))⟩

theorem cachedEdges_total (faces vc up : List Nat) (ei deg top0 top1 : Nat)
    (a : Store × Nat) (cv : List Nat) (asm : Assembly)
    (hI : Inv a.1) (hdeg : 3 ≤ deg)
    (hfaces : ∀ (v f : Nat), faces[v]? = some f →
      ∃ cf, a.1.get (some f) = some cf ∧ cf.degree + 1 = deg)
    (hasm : assemble a.1 faces vc up cv ei deg top0 top1 = some asm)
    (hok : BdIdsOK a.1 deg asm.d0 asm.d1 = some true) :
    ∃ edges, cachedEdges a.1 deg asm.d0 = some edges := by
  obtain ⟨l0, l1⟩ := assemble_length _ _ _ _ _ _ _ _ _ _ hasm
  obtain ⟨-, -, -, k0, i0, v, f0, hv, hd0⟩ :=
    assemble_spec hI faces vc up cv ei deg top0 top1 asm (by omega) hasm
  obtain ⟨cf0, g1, g2⟩ := hfaces v f0 hv
  have hc0 : ({ NewCube deg a.1.cubes.length with d0 := asm.d0, d1 := asm.d1 } : cube).d k0 i0
      = some (some f0) := by
    rw [cand_d deg _ asm.d0 asm.d1 _ asm rfl rfl]; exact hd0
  have hi0 : i0 < deg := by
    obtain ⟨-, hlt⟩ := d_some_lt _ k0 i0 _ hc0
    split at hlt
    · have h' : i0 < asm.d0.length := hlt
      omega
    · have h' : i0 < asm.d1.length := hlt
      omega
  have hall := BdIdsOK_degrees hI
    ({ NewCube deg a.1.cubes.length with d0 := asm.d0, d1 := asm.d1 } : cube) (by
      show 2 ≤ deg
      omega) hok k0 i0 f0 cf0 hc0 g1 hi0
  have hface : ∀ k i, k < 2 → i < deg → ∃ f cf, asm.d k i = some (some f) ∧
      a.1.get (some f) = some cf ∧ cf.degree + 1 = deg := by
    intro k i hk hi
    obtain ⟨f, cf, e1, e2, e3⟩ := hall k i hk hi
    rw [cand_d deg _ asm.d0 asm.d1 _ asm rfl rfl] at e1
    exact ⟨f, cf, e1, e2, by omega⟩
  obtain ⟨pa, ca, a1, a2, a3⟩ := hface 0 (deg - 1) (by omega) (by omega)
  obtain ⟨pb, cb, b1, b2, b3⟩ := hface 0 (deg - 3) (by omega) (by omega)
  have hla := (hI.shape pa ca a2).2.2.2.2
  have hlb := (hI.shape pb cb b2).2.2.2.2
  obtain ⟨last, hlast⟩ : ∃ last, cb.edges[deg - 2]? = some last :=
    ⟨cb.edges[deg - 2], List.getElem?_eq_getElem (by omega)⟩
  have a1' : asm.d0[deg - 1]? = some (some pa) := a1
  have b1' : asm.d0[deg - 3]? = some (some pb) := b1
  refine ⟨ca.edges.take (deg - 1) ++ [last], ?_⟩
  simp only [cachedEdges, a1', b1', a2, b2, readAll_take ca.edges (deg - 1) (by omega), hlast]

theorem tryCube_write_bound (n : Nat) (faces vc up : List Nat) (ei deg top0 top1 : Nat)
    (a : Store × Nat) (cv : List Nat) (asm : Assembly)
    (hI : Inv a.1) (hB : Bounded n a.1) (hdeg : 3 ≤ deg)
    (hfaces : ∀ (v f : Nat), faces[v]? = some f →
      ∃ cf, a.1.get (some f) = some cf ∧ cf.degree + 1 = deg)
    (hasm : assemble a.1 faces vc up cv ei deg top0 top1 = some asm)
    (hok : BdIdsOK a.1 deg asm.d0 asm.d1 = some true) (hoth : asm.others = []) :
    deg ≤ n ∧ deg < a.1.cubelist.length ∧
      ∃ s, tryCube faces vc up ei deg top0 top1 a cv = some (s, a.2 + 1) := by
  obtain ⟨edges, hed⟩ := cachedEdges_total faces vc up ei deg top0 top1 a cv asm hI hdeg
    hfaces hasm hok
  obtain ⟨l0, l1, hun, k0, i0, v, f0, hv, hd⟩ :=
    assemble_spec hI faces vc up cv ei deg top0 top1 asm (by omega) hasm
  obtain ⟨cf, g1, g2⟩ := hfaces v f0 hv
  have hC := hdCand hI deg hdeg asm.d0 asm.d1 edges l0 l1 hok
    ⟨k0, i0, f0, cf, by
      rw [← hd]
      match k0 with
      | 0 => rfl
      | 1 => rfl
      | (n + 2) => rfl, g1, g2⟩
    (fun y cy hy e0 e1 => by
      have := hun y cy hy e0 e1
      rw [hoth] at this
      exact absurd this (List.not_mem_nil y)) hed
  obtain ⟨h1, h2, -⟩ := hC.write_bound hI hB (by show 2 ≤ deg; omega)
  have h1' : deg ≤ n := h1
  have h2' : deg < a.1.cubelist.length := h2
  obtain ⟨-, s, -, -, hs⟩ := tryCube_accept_total faces vc up ei deg top0 top1 a cv asm hI hdeg
    hfaces h2' hasm hok hoth
  exact ⟨h1', h2', s, hs⟩

/-- C37: in the run of `MakeHDA` for the `n` processes of `pgvec`, on the array of
`n + 1` collections that `main` allocates: the array keeps its `n + 1`
collections; every cube of the result has a degree of at most `n`, because its
edges carry pairwise different process ids, all in `[0, n)`; every collection
that has a member has an index `d ≤ n`; and the value returned lies in `[0, n]`.
Moreover, in every store that satisfies the invariant of the construction and in
which the edges carry process ids in `[0, n)` (as every store of the run does):
a square that `FillSquares` is about to insert needs `2 ≤ n`, a candidate of
degree `deg ≥ 3` that `FillHDCubes` accepts has `deg ≤ n`, and in general a cube
of degree at least 2 that is fit for insertion has a degree of at most `n`; so
the write to `cubelist[degree]` is inside the array and the insertion returns. -/
theorem MakeHDA_degree_bound (fuel : Nat) (sys : System) (r : Store × Int)
    (h : MakeHDA fuel sys (initialStore sys) = some r) :
    (initialStore sys).cubelist.length = sys.pgvec.length + 1 ∧
    r.1.cubelist.length = sys.pgvec.length + 1 ∧
    Inv r.1 ∧ Bounded sys.pgvec.length r.1 ∧
    (∀ x c, r.1.get (some x) = some c → c.degree ≤ sys.pgvec.length) ∧
    (∀ d l, r.1.cubelist[d]? = some l → l ≠ [] →
      d ≤ sys.pgvec.length ∧ d < r.1.cubelist.length) ∧
    (0 ≤ r.2 ∧ r.2 ≤ (sys.pgvec.length : Int)) ∧
    (∀ (st : Store) (c : cube), Inv st → Bounded sys.pgvec.length st → Cand st c →
      2 ≤ c.degree →
      c.degree ≤ sys.pgvec.length ∧ c.degree < st.cubelist.length ∧
      ∃ st', st.link c = some st' ∧ Bounded sys.pgvec.length st') ∧
    (∀ (st : Store) (d00 d01 d10 d11 u v w t : Nat) (p q p' q' : Int), Inv st →
      Bounded sys.pgvec.length st →
      Arrow st d00 u v p → Arrow st d01 u w q → Arrow st d10 w t p' → Arrow st d11 v t q' →
      q ≠ p →
      (∀ y cy, st.get (some y) = some cy →
        ¬ (cy.d0 = [some d00, some d01] ∧ cy.d1 = [some d10, some d11])) →
      2 ≤ sys.pgvec.length ∧ 2 < st.cubelist.length ∧
      ∃ st', st.link { NewCube 2 st.cubes.length with
        d0 := [some d00, some d01], d1 := [some d10, some d11],
        edges := [some d01, some d00] } = some st') ∧
    (∀ (faces vc up : List Nat) (ei deg top0 top1 : Nat) (a : Store × Nat) (cv : List Nat)
      (asm : Assembly), Inv a.1 → Bounded sys.pgvec.length a.1 → 3 ≤ deg →
      (∀ (v f : Nat), faces[v]? = some f →
        ∃ cf, a.1.get (some f) = some cf ∧ cf.degree + 1 = deg) →
      assemble a.1 faces vc up cv ei deg top0 top1 = some asm →
      BdIdsOK a.1 deg asm.d0 asm.d1 = some true → asm.others = [] →
      deg ≤ sys.pgvec.length ∧ deg < a.1.cubelist.length ∧
      ∃ s, tryCube faces vc up ei deg top0 top1 a cv = some (s, a.2 + 1)) := by
  have hI := MakeHDA_Inv fuel sys r h
  have hB := MakeHDA_Bounded fuel sys r h
  have hdeg : ∀ x c, r.1.get (some x) = some c → c.degree ≤ sys.pgvec.length :=
    fun x c hc => hI.degree_le hB x c hc
  have hcol : ∀ d l, r.1.cubelist[d]? = some l → l ≠ [] → d ≤ sys.pgvec.length := by
    intro d l hl hne
    obtain ⟨x, hx⟩ := List.exists_mem_of_ne_nil l hne
    obtain ⟨c, hc, hd⟩ := hI.listed d l x hl hx
    rw [← hd]
    exact hdeg x c hc
  refine ⟨by simp [initialStore], hB.1, hI, hB, hdeg, ?_, ?_, ?_, ?_, ?_⟩
  · intro d l hl hne
    have := hcol d l hl hne
    exact ⟨this, by rw [hB.1]; omega⟩
  · have hdim : ∃ D : Nat, r.2 = (D : Int) ∧ (∃ l, r.1.cubelist[D]? = some l ∧ l ≠ []) ∧
        ∀ (d : Nat) (l : List Nat), D < d → r.1.cubelist[d]? = some l → l = [] := by
      obtain ⟨lbl, s1, -, -, h1, h2⟩ := MakeHDA_start fuel sys r h
      refine MakeHDALoop_dim sys fuel s1 _ 0 r ?_ h2
      obtain ⟨-, l, k2, k3, k4⟩ := addToList_lists _ _ _ _ h1
      refine ⟨0, rfl, ⟨l ++ [0], k3, by simp⟩, ?_⟩
      intro d l' hd hl'
      rw [k4 d (by omega)] at hl'
      have := List.getElem?_mem hl'
      simp only [Store.alloc, initialStore, List.mem_replicate] at this
      exact this.2
    obtain ⟨D, hD, ⟨l, hl, hne⟩, -⟩ := hdim
    rw [hD]
    have := hcol D l hl hne
    omega
  · intro st c hI' hB' hC hd
    exact hC.write_bound hI' hB' hd
  · intro st d00 d01 d10 d11 u v w t p q p' q' hI' hB' h00 h01 h10 h11 hpq hu
    have hC := square_cand hI' d00 d01 d10 d11 u v w t p q p' q' h00 h01 h10 h11 hpq hu
    obtain ⟨g1, g2, s, hs, -⟩ := hC.write_bound hI' hB' (Nat.le_refl 2)
    exact ⟨g1, g2, s, hs⟩
  · intro faces vc up ei deg top0 top1 a cv asm hI' hB' hd hfaces hasm hok hoth
    exact tryCube_write_bound _ faces vc up ei deg top0 top1 a cv asm hI' hB' hd hfaces hasm
      hok hoth

/-- C37 on the two independent processes: the degrees are at most 2 and the
value returned is 2. -/
theorem MakeHDA_degree_bound_witness :
    ∃ st : Store, MakeHDA 4 twoProcesses (initialStore twoProcesses) = some (st, 2) ∧
    (initialStore twoProcesses).cubelist.length = twoProcesses.pgvec.length + 1 ∧
    st.cubelist.length = twoProcesses.pgvec.length + 1 ∧
    Inv st ∧ Bounded twoProcesses.pgvec.length st ∧
    (∀ x c, st.get (some x) = some c → c.degree ≤ twoProcesses.pgvec.length) ∧
    (∀ d l, st.cubelist[d]? = some l → l ≠ [] →
      d ≤ twoProcesses.pgvec.length ∧ d < st.cubelist.length) ∧
    ((0 : Int) ≤ 2 ∧ (2 : Int) ≤ (twoProcesses.pgvec.length : Int)) := by
  obtain ⟨st, h1, -, -, -⟩ := report_mono _ _ _ 0 _ twoProcesses_run
  obtain ⟨g1, g2, g3, g4, g5, g6, g7, -⟩ := MakeHDA_degree_bound 4 twoProcesses (st, 2) h1
  exact ⟨st, h1, g1, g2, g3, g4, g5, g6, g7⟩

/-! ### The flags of the cubes of degree 0 -/

theorem digitChar_spec (k : Nat) (hk : k < 10) :
    Nat.digitChar k ∈ decDigits ∧ digitVal (Nat.digitChar k) = k := by
  interval_cases k <;> exact ⟨by decide, by decide⟩

theorem decVal_append (xs : List Char) (c : Char) :
    decVal (xs ++ [c]) = 10 * decVal xs + digitVal c := by
  simp [decVal, List.foldl_append]

theorem toDigitsCore_spec :
    ∀ (fuel n : Nat) (ds : List Char), n < fuel →
      ∃ xs, Nat.toDigitsCore 10 fuel n ds = xs ++ ds ∧ xs ≠ [] ∧
        (∀ c, c ∈ xs → c ∈ decDigits) ∧ decVal xs = n := by
  intro fuel
  induction fuel with
  | zero => intro n ds h; omega
  | succ f ih =>
    intro n ds h
    obtain ⟨d1, d2⟩ := digitChar_spec (n % 10) (Nat.mod_lt _ (by decide))
    simp only [Nat.toDigitsCore]
    by_cases h0 : n / 10 = 0
    · rw [if_pos h0]
      refine ⟨[Nat.digitChar (n % 10)], rfl, by simp, ?_, ?_⟩
      · intro c hc
        rw [List.mem_singleton] at hc
        rw [hc]
        exact d1
      · have : decVal [Nat.digitChar (n % 10)] = digitVal (Nat.digitChar (n % 10)) := by
          simp [decVal]
        rw [this, d2]
        omega
    · rw [if_neg h0]
      obtain ⟨xs, e1, e2, e3, e4⟩ := ih (n / 10) (Nat.digitChar (n % 10) :: ds) (by omega)
      refine ⟨xs ++ [Nat.digitChar (n % 10)], ?_, by simp, ?_, ?_⟩
      · rw [e1]
        simp
      · intro c hc
        rcases List.mem_append.1 hc with hc | hc
        · exact e3 c hc
        · rw [List.mem_singleton] at hc
          rw [hc]
          exact d1
      · rw [decVal_append, e4, d2]
        omega

theorem toDigits_spec (n : Nat) :
    Nat.toDigits 10 n ≠ [] ∧ (∀ c, c ∈ Nat.toDigits 10 n → c ∈ decDigits) ∧
      decVal (Nat.toDigits 10 n) = n := by
  obtain ⟨xs, e1, e2, e3, e4⟩ := toDigitsCore_spec (n + 1) n [] (by omega)
  have e : Nat.toDigits 10 n = xs := by
    unfold Nat.toDigits
    rw [e1, List.append_nil]
  rw [e]
  exact ⟨e2, e3, e4⟩

theorem toDigits_injective (m n : Nat) (h : Nat.toDigits 10 m = Nat.toDigits 10 n) : m = n := by
  rw [← (toDigits_spec m).2.2, ← (toDigits_spec n).2.2, h]

theorem intChars_data (z : Int) : (toString z).data = intChars z := by
  cases z <;> rfl

theorem intChars_injective (y z : Int) (h : intChars y = intChars z) : y = z := by
  cases y with
  | ofNat m =>
    cases z with
    | ofNat n =>
      simp only [intChars] at h
      rw [toDigits_injective m n h]
    | negSucc n =>
      simp only [intChars] at h
      obtain ⟨h1, h2, -⟩ := toDigits_spec m
      cases hd : Nat.toDigits 10 m with
      | nil => exact absurd hd h1
      | cons c cs =>
        rw [hd] at h
        have hc : c = '-' := (List.cons.inj h).1
        have := h2 c (by rw [hd]; exact List.mem_cons_self _ _)
        rw [hc] at this
        exact absurd this (by decide)
  | negSucc m =>
    cases z with
    | ofNat n =>
      simp only [intChars] at h
      obtain ⟨h1, h2, -⟩ := toDigits_spec n
      cases hd : Nat.toDigits 10 n with
      | nil => exact absurd hd h1
      | cons c cs =>
        rw [hd] at h
        have hc : '-' = c := (List.cons.inj h).1
        have := h2 c (by rw [hd]; exact List.mem_cons_self _ _)
        rw [← hc] at this
        exact absurd this (by decide)
    | negSucc n =>
      simp only [intChars] at h
      have := toDigits_injective (m + 1) (n + 1) (List.cons.inj h).2
      have e : m = n := by omega
      rw [e]

theorem intChars_plain (z : Int) (c : Char) (hc : c ∈ intChars z) : c ≠ ',' := by
  have key : ∀ n, c ∈ Nat.toDigits 10 n → c ≠ ',' := by
    intro n hn e
    have := (toDigits_spec n).2.1 c hn
    rw [e] at this
    exact absurd this (by decide)
  cases z with
  | ofNat m => exact key m hc
  | negSucc m =>
    simp only [intChars] at hc
    rcases List.mem_cons.1 hc with rfl | hc
    · decide
    · exact key _ hc

theorem mapOpt_map {α β γ : Type} (g : α → Option β) (f : β → γ) :
    ∀ (l : List α), mapOpt (fun a => (g a).map f) l = (mapOpt g l).map (List.map f) := by
  intro l
  induction l with
  | nil => rfl
  | cons a l ih =>
    simp only [mapOpt, ih]
    cases g a with
    | none => rfl
    | some b =>
      cases mapOpt g l with
      | none => rfl
      | some r => rfl

theorem token_split (a a' r r' : List Char) (ha : ∀ c, c ∈ a → c ≠ ',')
    (ha' : ∀ c, c ∈ a' → c ≠ ',') (h : a ++ ',' :: r = a' ++ ',' :: r') :
    a = a' ∧ r = r' := by
  induction a generalizing a' with
  | nil =>
    cases a' with
    | nil => exact ⟨rfl, (List.cons.inj h).2⟩
    | cons c cs =>
      have := (List.cons.inj h).1
      exact absurd this.symm (ha' c (List.mem_cons_self _ _))
  | cons x xs ih =>
    cases a' with
    | nil =>
      have := (List.cons.inj h).1
      exact absurd this (ha x (List.mem_cons_self _ _))
    | cons c cs =>
      obtain ⟨h1, h2⟩ := List.cons.inj h
      obtain ⟨g1, g2⟩ := ih cs (fun c hc => ha c (List.mem_cons_of_mem _ hc))
        (fun c hc => ha' c (List.mem_cons_of_mem _ hc)) h2
      exact ⟨by rw [h1, g1], g2⟩

theorem tokens_split :
    ∀ (A A' : List (List Char)) (r r' : List Char), A.length = A'.length →
      (∀ a, a ∈ A → ∀ c, c ∈ a → c ≠ ',') → (∀ a, a ∈ A' → ∀ c, c ∈ a → c ≠ ',') →
      (A.map (fun a => a ++ [','])).flatten ++ r = (A'.map (fun a => a ++ [','])).flatten ++ r' →
      A = A' ∧ r = r' := by
  intro A
  induction A with
  | nil =>
    intro A' r r' hl _ _ h
    cases A' with
    | nil => exact ⟨rfl, by simpa using h⟩
    | cons a as => simp at hl
  | cons a as ih =>
    intro A' r r' hl hA hA' h
    cases A' with
    | nil => simp at hl
    | cons a' as' =>
      simp only [List.map_cons, List.flatten_cons, List.append_assoc, List.singleton_append]
        at h
      obtain ⟨g1, g2⟩ := token_split a a' _ _ (hA a (List.mem_cons_self _ _))
        (hA' a' (List.mem_cons_self _ _)) h
      obtain ⟨k1, k2⟩ := ih as' r r' (by simpa using hl)
        (fun x hx => hA x (List.mem_cons_of_mem _ hx))
        (fun x hx => hA' x (List.mem_cons_of_mem _ hx)) g2
      exact ⟨by rw [g1, k1], k2⟩

theorem map_intChars_injective (l l' : List Int) (h : l.map intChars = l'.map intChars) :
    l = l' := by
  induction l generalizing l' with
  | nil =>
    cases l' with
    | nil => rfl
    | cons a as => simp at h
  | cons x xs ih =>
    cases l' with
    | nil => simp at h
    | cons a as =>
      simp only [List.map_cons, List.cons.injEq] at h
      rw [intChars_injective x a h.1, ih as h.2]

theorem stateLabel_data (sys : System) (locvec : List (Option Nat)) (valvec : List Int)
    (lbl : String) (h : stateLabel sys locvec valvec = some lbl) :
    ∃ idxs last, locIndices sys locvec = some idxs ∧ valvec.getLast? = some last ∧
      lbl.data = '(' :: (((idxs ++ valvec.dropLast).map intChars).map
        (fun a => a ++ [','])).flatten ++ (intChars last ++ [')']) := by
  unfold stateLabel at h
  have e : (fun p => (sys.loc p).map (fun l => toString l.index ++ ","))
      = (fun p => ((sys.loc p).map (fun l => l.index)).map (fun i => toString i ++ ",")) := by
    funext p
    cases sys.loc p <;> rfl
  rw [e, mapOpt_map, mapOpt_map] at h
  unfold locIndices
  cases hi : mapOpt (fun p => sys.loc p) locvec with
  | none => simp [hi] at h
  | some locs =>
    cases hl : valvec.getLast? with
    | none => simp [hi, hl] at h
    | some last =>
      simp only [hi, hl, Option.map_some', Option.some.injEq] at h
      refine ⟨locs.map (fun l => l.index), last, ?_, rfl, ?_⟩
      · rw [mapOpt_map, hi]
        rfl
      · rw [← h]
        simp only [String.data_append, String.data_join, List.map_map, List.map_append,
          List.flatten_append, intChars_data]
        simp [Function.comp_def, intChars_data]

theorem locIndices_eq_iff (sys : System) (lv lv' : List (Option Nat)) (idxs idxs' : List Int)
    (hn : lv.length = lv'.length)
    (h : locIndices sys lv = some idxs) (h' : locIndices sys lv' = some idxs')
    (hdist : ∀ (i : Nat) (p p' : Option Nat) (l l' : location), lv[i]? = some p →
      lv'[i]? = some p' → sys.loc p = some l → sys.loc p' = some l' → l.index = l'.index →
      p = p') :
    idxs = idxs' ↔ lv = lv' := by
  constructor
  · intro e
    subst e
    apply List.ext_getElem?
    intro i
    by_cases hi : i < lv.length
    · have hi' : i < lv'.length := by omega
      obtain ⟨b, b1, b2⟩ := mapOpt_getElem? _ _ _ h i _ (List.getElem?_eq_getElem hi)
      obtain ⟨b', b1', b2'⟩ := mapOpt_getElem? _ _ _ h' i _ (List.getElem?_eq_getElem hi')
      rw [b2] at b2'
      cases b2'
      cases hl : sys.loc lv[i] with
      | none => rw [hl] at b1; cases b1
      | some l =>
        cases hl' : sys.loc lv'[i] with
        | none => rw [hl'] at b1'; cases b1'
        | some l' =>
          rw [hl] at b1
          rw [hl'] at b1'
          simp only [Option.map_some', Option.some.injEq] at b1 b1'
          rw [List.getElem?_eq_getElem hi, List.getElem?_eq_getElem hi']
          exact congrArg some (hdist i _ _ l l' (List.getElem?_eq_getElem hi)
            (List.getElem?_eq_getElem hi') hl hl' (b1.trans b1'.symm))
    · rw [List.getElem?_eq_none (by omega), List.getElem?_eq_none (by omega)]
  · intro e
    subst e
    rw [h] at h'
    exact Option.some.inj h'

/-- C38: two global states of a system (vectors of locations of the same length
and vectors of values of the same length) for which the label is built (there
is at least one variable). The two labels `(l_0,...,l_{n-1},v_0,...,v_{m-1})`
are equal if and only if the states have the same location index for every
process and the same value for every variable. If, process by process, two
locations with the same index are the same location, the labels are equal if and
only if the states are equal; and the comparison of `HandleState` (`VecCmp` with
`Labcmp` on the label vectors of the cubes) finds the labels equal exactly then. -/
theorem stateLabel_injective (sys : System) (lv lv' : List (Option Nat)) (vv vv' : List Int)
    (lbl lbl' : String) (h : stateLabel sys lv vv = some lbl)
    (h' : stateLabel sys lv' vv' = some lbl')
    (hn : lv.length = lv'.length) (hm : vv.length = vv'.length) :
    (lbl = lbl' ↔ locIndices sys lv = locIndices sys lv' ∧ vv = vv') ∧
    ((∀ (i : Nat) (p p' : Option Nat) (l l' : location), lv[i]? = some p →
        lv'[i]? = some p' → sys.loc p = some l → sys.loc p' = some l' →
        l.index = l'.index → p = p') →
      (lbl = lbl' ↔ lv = lv' ∧ vv = vv') ∧
      (VecCmp (some [⟨lbl, -1⟩]) (some [⟨lbl', -1⟩]) (some labcmp) = 0 ↔
        lv = lv' ∧ vv = vv')) := by
  obtain ⟨idxs, last, a1, a2, a3⟩ := stateLabel_data sys lv vv lbl h
  obtain ⟨idxs', last', b1, b2, b3⟩ := stateLabel_data sys lv' vv' lbl' h'
  have hv : vv = vv.dropLast ++ [last] := (List.dropLast_append_getLast? last a2).symm
  have hv' : vv' = vv'.dropLast ++ [last'] := (List.dropLast_append_getLast? last' b2).symm
  have hli : idxs.length = idxs'.length := by
    have e1 := mapOpt_length _ _ _ a1
    have e2 := mapOpt_length _ _ _ b1
    omega
  have key : lbl = lbl' ↔ idxs = idxs' ∧ vv = vv' := by
    constructor
    · intro e
      rw [e, b3] at a3
      have a4 := (List.cons.inj a3).2
      have hlen : ((idxs' ++ vv'.dropLast).map intChars).length
          = ((idxs ++ vv.dropLast).map intChars).length := by
        simp only [List.length_map, List.length_append, List.length_dropLast]
        omega
      have hplain : ∀ (l : List Int) a, a ∈ l.map intChars → ∀ c, c ∈ a → c ≠ ',' := by
        intro l a ha c hc
        obtain ⟨z, -, rfl⟩ := List.mem_map.1 ha
        exact intChars_plain z c hc
      obtain ⟨g1, g2⟩ := tokens_split _ _ _ _ hlen (hplain _) (hplain _) a4
      have g3 := map_intChars_injective _ _ g1
      have g4 := List.append_inj g3 hli.symm
      have g5 : last' = last := intChars_injective _ _ (List.append_cancel_right g2)
      refine ⟨g4.1.symm, ?_⟩
      rw [hv, hv', g4.2, g5]
    · rintro ⟨e1, e2⟩
      subst e1 e2
      rw [a2] at b2
      cases b2
      apply String.ext
      rw [a3, b3]
  have key1 : lbl = lbl' ↔ locIndices sys lv = locIndices sys lv' ∧ vv = vv' := by
    rw [key, a1, b1]
    simp
  refine ⟨key1, ?_⟩
  intro hdist
  have key2 : lbl = lbl' ↔ lv = lv' ∧ vv = vv' := by
    rw [key, locIndices_eq_iff sys lv lv' idxs idxs' hn a1 b1 hdist]
  refine ⟨key2, ?_⟩
  rw [VecCmp_eq, ← key2]
  constructor
  · intro e
    simp only [Option.some.injEq, List.cons.injEq, label.mk.injEq, and_true] at e
    exact e
  · intro e
    rw [e]

/-- C38 on two states of `twoProcesses`: the labels `(0,0,0)` and `(1,0,0)`
differ. -/
theorem stateLabel_injective_witness :
    stateLabel twoProcesses [some 0, some 2] [0] = some "(0,0,0)" ∧
    stateLabel twoProcesses [some 1, some 2] [0] = some "(1,0,0)" ∧
    (("(0,0,0)" : String) = "(1,0,0)" ↔
      locIndices twoProcesses [some 0, some 2] = locIndices twoProcesses [some 1, some 2] ∧
        ([0] : List Int) = [0]) ∧
    ((∀ (i : Nat) (p p' : Option Nat) (l l' : location),
        ([some 0, some 2] : List (Option Nat))[i]? = some p →
        ([some 1, some 2] : List (Option Nat))[i]? = some p' →
        twoProcesses.loc p = some l → twoProcesses.loc p' = some l' →
        l.index = l'.index → p = p') →
      ((("(0,0,0)" : String) = "(1,0,0)") ↔
        ([some 0, some 2] : List (Option Nat)) = [some 1, some 2] ∧ ([0] : List Int) = [0]) ∧
      (VecCmp (some [⟨"(0,0,0)", -1⟩]) (some [⟨"(1,0,0)", -1⟩]) (some labcmp) = 0 ↔
        ([some 0, some 2] : List (Option Nat)) = [some 1, some 2] ∧ ([0] : List Int) = [0])) :=
  ⟨by decide, by decide,
    stateLabel_injective twoProcesses [some 0, some 2] [some 1, some 2] [0] [0]
      "(0,0,0)" "(1,0,0)" (by decide) (by decide) (by decide) (by decide)⟩

/-! ### A system whose labels do not tell the reachable states apart -/

theorem flatMap_congr_mem {α β : Type} (l : List α) (f g : α → List β)
    (h : ∀ x, x ∈ l → f x = g x) : l.flatMap f = l.flatMap g := by
  induction l with
  | nil => rfl
  | cons a l ih =>
    simp only [List.flatMap_cons]
    rw [h a (List.mem_cons_self _ _), ih (fun x hx => h x (List.mem_cons_of_mem _ hx))]

/-- Between two stores that satisfy the invariant, the second grown from the
first without a new cube of degree 0 or 1, the coface lists of the vertices are
the same. -/
theorem SqKeep_of_Inv (st s1 : Store) (hI : Inv st) (hI1 : Inv s1) (hG : Grown st s1)
    (hlow : ∀ x cx, s1.get (some x) = some cx → cx.degree < 2 →
      ∃ c0, st.get (some x) = some c0 ∧ c0.degree = cx.degree)
    (hlen : s1.cubelist.length = st.cubelist.length) : SqKeep st s1 := by
  refine ⟨hlen.symm, ?_⟩
  intro y cy hy
  obtain ⟨cy', g1, g2, g3⟩ := hG.1 y cy hy
  obtain ⟨-, -, a3, a4, -⟩ := hI.shape y cy hy
  obtain ⟨-, -, b3, b4, -⟩ := hI1.shape y cy' g1
  have hdeg : cy'.degree = cy.degree := g2.1
  refine ⟨cy', g1, g2, by omega, by omega, ?_⟩
  intro hd0
  have key : ∀ k, k < 2 → ∀ l, cy.s k 0 = some l → cy'.s k 0 = some l := by
    intro k hk l hl
    obtain ⟨l', hl'⟩ := g3 k 0 l hl
    have hnd := hI1.cofNodup y cy' k 0 _ g1 hl'
    have : l' = [] := by
      apply List.eq_nil_iff_forall_not_mem.2
      intro z hz
      obtain ⟨cz, c1, c2⟩ := hI1.cofSound y cy' k 0 _ z g1 hl' (List.mem_append_right _ hz)
      have hzpos : 0 < cz.degree := by
        obtain ⟨-, d2⟩ := d_some_lt cz k 0 _ c2
        obtain ⟨e1, e2, -⟩ := hI1.shape z cz c1
        split at d2 <;> omega
      obtain ⟨f, cf, f1, f2, f3⟩ := hI1.faces z cz k 0 c1 hk hzpos
      rw [c2] at f1
      have hfy : y = f := Option.some.inj (Option.some.inj f1)
      subst hfy
      rw [g1] at f2
      have hcf : cy' = cf := Option.some.inj f2
      subst hcf
      obtain ⟨c0, h1, h2⟩ := hlow z cz c1 (by omega)
      obtain ⟨cz', i1, i2, -⟩ := hG.1 z c0 h1
      rw [c1] at i1
      have hcz : cz = cz' := Option.some.inj i1
      subst hcz
      have hd : c0.d k 0 = some (some y) := by rw [← i2.frame_d k 0]; exact c2
      obtain ⟨cf2, l2, j1, j2, j3⟩ := hI.cofComplete z c0 k 0 y h1 hd
      rw [hy] at j1
      have : cy = cf2 := Option.some.inj j1
      subst this
      rw [hl] at j2
      have : l = l2 := Option.some.inj j2
      subst this
      exact (List.disjoint_of_nodup_append hnd) j3 hz
    rw [hl', this, List.append_nil]
  have e0 : cy'.s0 = cy.s0 := by
    have h1 : cy.s0.length = 1 := by omega
    have h2 : cy'.s0.length = 1 := by omega
    have := key 0 (by omega) cy.s0[0] (by simp only [cube.s]; exact List.getElem?_eq_getElem _)
    simp only [cube.s] at this
    apply List.ext_getElem? 
    intro n
    cases n with
    | zero => rw [this, List.getElem?_eq_getElem]
    | succ m =>
      rw [List.getElem?_eq_none (by omega), List.getElem?_eq_none (by omega)]
  have e1 : cy'.s1 = cy.s1 := by
    have h1 : cy.s1.length = 1 := by omega
    have h2 : cy'.s1.length = 1 := by omega
    have := key 1 (by omega) cy.s1[0] (by simp only [cube.s]; exact List.getElem?_eq_getElem _)
    simp only [cube.s] at this
    apply List.ext_getElem? 
    intro n
    cases n with
    | zero => rw [this, List.getElem?_eq_getElem]
    | succ m =>
      rw [List.getElem?_eq_none (by omega), List.getElem?_eq_none (by omega)]
  exact ⟨e0, e1⟩

/-- What the loops of `FillSquares` read of an edge of `st` is the same in a store
`s` that is in the relation `SqKeep` to `st`. -/
theorem SqKeep.keep_edge {st s : Store} (hK : SqKeep st s) {x : Nat} {l : label} {u v : Nat}
    (hE : EdgeAt st x l u v) :
    frontVertex s x = frontVertex st x ∧ backVertex s x = backVertex st x ∧
      s.lab (some x) = st.lab (some x) ∧ s.pid (some x) = st.pid (some x) := by
  obtain ⟨c, ls, a1, -⟩ := hE.cell
  obtain ⟨c', b1, b2, -⟩ := hK.2 x c a1
  refine ⟨?_, ?_, hK.keep_lab x c a1, (frame_pid st s x c c' a1 b1 b2).1⟩
  · simp only [frontVertex, hK.keep_bd x c a1]
  · simp only [backVertex, hK.keep_bd x c a1]

theorem SqKeep.keep_out {st s : Store} (hK : SqKeep st s) (w : Nat) (cw : cube)
    (hw : st.get (some w) = some cw) (hd : cw.degree = 0) :
    outEdges s (some w) = outEdges st (some w) ∧ inEdges s (some w) = inEdges st (some w) := by
  simp only [outEdges, inEdges, hK.keep_cof w cw hw hd, and_self]

theorem fwdMatches_keep {st s : Store} (hK : SqKeep st s) (hR : lowReady st = true) (e : Nat)
    {le : label} {ue ve : Nat} (hE : EdgeAt st e le ue ve) :
    fwdMatches s e = fwdMatches st e := by
  obtain ⟨e1, e2, e3, e4⟩ := hK.keep_edge hE
  obtain ⟨cu, u1, u2⟩ := hE.src
  obtain ⟨cv, v1, v2⟩ := hE.tgt
  simp only [fwdMatches, e1, e4]
  rw [hE.front_eq, (hK.keep_out ue cu u1 u2).1]
  apply flatMap_congr_mem
  intro f hf
  obtain ⟨lf, uf, vf, hF⟩ := outEdges_edge st hR ue cu u1 u2 f hf
  obtain ⟨f1, f2, f3, f4⟩ := hK.keep_edge hF
  obtain ⟨cvf, w1, w2⟩ := hF.tgt
  rw [f4]
  congr 1
  simp only [fwdMatches2, e2, f3]
  rw [hE.back_eq, (hK.keep_out ve cv v1 v2).1]
  apply flatMap_congr_mem
  intro g hg
  obtain ⟨lg, ug, vg, hGe⟩ := outEdges_edge st hR ve cv v1 v2 g hg
  obtain ⟨g1, g2, g3, g4⟩ := hK.keep_edge hGe
  rw [g3]
  congr 1
  simp only [fwdMatches3, f2, e3, g2]
  rw [hF.back_eq, (hK.keep_out vf cvf w1 w2).1]
  apply flatMap_congr_mem
  intro h hh
  obtain ⟨lh, uh, vh, hH⟩ := outEdges_edge st hR vf cvf w1 w2 h hh
  obtain ⟨h1, h2, h3, h4⟩ := hK.keep_edge hH
  rw [h3, h2]

theorem bwdMatches_keep {st s : Store} (hK : SqKeep st s) (hR : lowReady st = true) (e : Nat)
    {le : label} {ue ve : Nat} (hE : EdgeAt st e le ue ve) :
    bwdMatches s e = bwdMatches st e := by
  obtain ⟨e1, e2, e3, e4⟩ := hK.keep_edge hE
  obtain ⟨cu, u1, u2⟩ := hE.src
  obtain ⟨cv, v1, v2⟩ := hE.tgt
  simp only [bwdMatches, e2, e4]
  rw [hE.back_eq, (hK.keep_out ve cv v1 v2).2]
  apply flatMap_congr_mem
  intro f hf
  obtain ⟨lf, uf, vf, hF⟩ := inEdges_edge st hR ve cv v1 v2 f hf
  obtain ⟨f1, f2, f3, f4⟩ := hK.keep_edge hF
  obtain ⟨cuf, w1, w2⟩ := hF.src
  rw [f4]
  congr 1
  simp only [bwdMatches2, e1, f3]
  rw [hE.front_eq, (hK.keep_out ue cu u1 u2).2]
  apply flatMap_congr_mem
  intro g hg
  obtain ⟨lg, ug, vg, hGe⟩ := inEdges_edge st hR ue cu u1 u2 g hg
  obtain ⟨g1, g2, g3, g4⟩ := hK.keep_edge hGe
  rw [g3]
  congr 1
  simp only [bwdMatches3, f1, e3, g1]
  rw [hF.front_eq, (hK.keep_out uf cuf w1 w2).2]
  apply flatMap_congr_mem
  intro h hh
  obtain ⟨lh, uh, vh, hH⟩ := inEdges_edge st hR uf cuf w1 w2 h hh
  obtain ⟨h1, h2, h3, h4⟩ := hK.keep_edge hH
  rw [h3, h1]

/-- The matches of an edge, with the faces of their squares, are the same in a
store `s` that is in the relation `SqKeep` to `st`. -/
theorem matchQuads_keep {st s : Store} (hK : SqKeep st s) (hR : lowReady st = true) (e : Nat)
    {le : label} {ue ve : Nat} (hE : EdgeAt st e le ue ve) :
    matchQuads s e = matchQuads st e := by
  obtain ⟨e1, e2, e3, e4⟩ := hK.keep_edge hE
  obtain ⟨cu, u1, u2⟩ := hE.src
  obtain ⟨cv, v1, v2⟩ := hE.tgt
  simp only [matchQuads, fwdMatches_keep hK hR e hE, bwdMatches_keep hK hR e hE]
  congr 1
  · apply List.map_congr_left
    intro m hm
    obtain ⟨a1, -⟩ := (mem_fwdMatches st e m).1 hm
    rw [hE.front_eq] at a1
    obtain ⟨lf, uf, vf, hF⟩ := outEdges_edge st hR ue cu u1 u2 _ a1
    simp only [fwdQuad, pidLt, e4, (hK.keep_edge hF).2.2.2]
  · apply List.map_congr_left
    intro m hm
    obtain ⟨a1, -⟩ := (mem_bwdMatches st e m).1 hm
    rw [hE.back_eq] at a1
    obtain ⟨lf, uf, vf, hF⟩ := inEdges_edge st hR ve cv v1 v2 _ a1
    simp only [bwdQuad, pidLt, e4, (hK.keep_edge hF).2.2.2]

/-- The count of `FillSquares` in a call of `FillCubes` is the number of the cubes
that the call adds to `cubelist[2]`; the call returns -1 and leaves the store as
it is if the count is 0, and a degree of at least 2 otherwise. -/
theorem FillCubes_count (st s' : Store) (edge : Nat) (r : Int)
    (h : FillCubes st edge = some (s', r)) :
    ∃ r0, FillSquares st edge = some r0 ∧ addedCubes st s' 2 = r0.2 ∧
      FillCubesLoop edge (st.cubelist.length + 1) r0.1 r0.2 (if r0.2 > 0 then 1 else -1)
        = some (s', r) ∧
      (r0.2 = 0 → s' = st ∧ r = -1) ∧ (0 < r0.2 → 2 ≤ r) ∧
      s'.cubelist.length = st.cubelist.length := by
  unfold FillCubes at h
  cases hsq : FillSquares st edge with
  | none => simp [hsq] at h
  | some r0 =>
    simp only [hsq] at h
    obtain ⟨g1, g2, g3, ⟨new, g4, g5⟩, g6, g7⟩ := FillSquares_rel (Grows_stepRel 2) st edge r0 hsq
    simp only [Nat.sub_zero] at g1 g2 g3 g4 g5 g6 g7
    refine ⟨r0, rfl, ?_, h, ?_, ?_, ?_⟩
    · by_cases hn : r0.2 = 0
      · have hs : r0.1 = st := g6 hn
        have hpos : ¬ (r0.2 > 0) := by omega
        rw [if_neg hpos] at h
        obtain ⟨-, -, i3, -, -, -⟩ :=
          FillCubesLoop_spec edge _ r0.1 r0.2 (-1) s' r h (Or.inl hn)
        obtain ⟨-, hst⟩ := i3 hn
        rw [hst, hs, hn]
        simp [addedCubes]
      · have hpos : r0.2 > 0 := by omega
        rw [if_pos hpos] at h
        obtain ⟨-, -, -, i4, -, -⟩ :=
          FillCubesLoop_spec edge _ r0.1 r0.2 1 s' r h (Or.inr (by omega))
        have e2 : s'.cubelist[2]? = (st.cubelist[2]?).map (fun l => l ++ new) := by
          rw [i4 2 (Or.inl (by omega)), g5]
        rw [(addedCubes_of_append st s' 2 new e2 (g7 hpos)).1, g4]
    · intro hn
      have hs : r0.1 = st := g6 hn
      have hpos : ¬ (r0.2 > 0) := by omega
      rw [if_neg hpos] at h
      obtain ⟨-, -, i3, -, -, -⟩ :=
        FillCubesLoop_spec edge _ r0.1 r0.2 (-1) s' r h (Or.inl hn)
      obtain ⟨hr, hst⟩ := i3 hn
      exact ⟨hst.trans hs, hr⟩
    · intro hpos
      rw [if_pos hpos] at h
      obtain ⟨-, -, -, -, -, i6⟩ :=
        FillCubesLoop_spec edge _ r0.1 r0.2 1 s' r h (Or.inr (by omega))
      have := (i6 hpos).1
      omega
    · by_cases hn : r0.2 = 0
      · have hpos : ¬ (r0.2 > 0) := by omega
        rw [if_neg hpos] at h
        obtain ⟨-, i2, -⟩ := FillCubesLoop_spec edge _ r0.1 r0.2 (-1) s' r h (Or.inl hn)
        omega
      · have hpos : r0.2 > 0 := by omega
        rw [if_pos hpos] at h
        obtain ⟨-, i2, -⟩ := FillCubesLoop_spec edge _ r0.1 r0.2 1 s' r h (Or.inr (by omega))
        omega

/-- A run of `FillSquares` that returns on an edge with at least one match has
found the collection `cubelist[2]`. -/
theorem FillSquares_list (st : Store) (edge : Nat) (ce : cube) (r0 : Store × Nat)
    (hR : lowReady st = true) (he : st.get (some edge) = some ce) (hd : ce.degree = 1)
    (h : FillSquares st edge = some r0) :
    matchQuads st edge = [] ∨ 2 < st.cubelist.length := by
  rw [FillSquares_fold st hR edge ce he hd] at h
  cases hq : matchQuads st edge with
  | nil => exact Or.inl rfl
  | cons q qs =>
    right
    rw [hq] at h
    simp only [loopM] at h
    cases ha : addSquare (st, 0) q with
    | none => rw [ha] at h; simp at h
    | some b =>
      simp only [addSquare, Option.map_eq_some'] at ha
      obtain ⟨s, hs, -⟩ := ha
      obtain ⟨l, hl, -⟩ := (link_spec _ _ _ hs).list
      have := getElem?_some_lt _ _ _ hl
      exact this

/-- C3, amended: let a call `FillCubes(e, complex)` on the store `st` return `r`
and the store `s1`. It has added no cube of degree 2 exactly if `r = -1`, and
then a second call at `e` returns -1 again, leaves the complex as it is and adds
zero cubes to every collection. If `st` satisfies the invariant of the
construction and the edge `e` is not yet a face of any cube, as when
`HandleState` makes the call, then: the call has added one square for every match
of `e`; the matches of `e` in `s1` are those in `st`, so `FillSquares` in a second
call at `e` returns with the same count and adds the squares of the first call
again (for every `i` below the count, the square `i` of the first call and the
square `i` of the second call are two cubes of degree 2 at different addresses
with the same boundary); and whenever the second call returns, it has added to
`cubelist[2]` as many cubes as the first one, so that it has added zero cubes to
every collection exactly if `r = -1`. -/
theorem FillCubes_second_call (st s1 : Store) (e : Nat) (r : Int)
    (h : FillCubes st e = some (s1, r)) :
    (r = -1 ↔ addedCubes st s1 2 = 0) ∧
    (r = -1 → FillCubes s1 e = some (s1, -1) ∧ ∀ d, addedCubes s1 s1 d = 0) ∧
    ∀ ce, Inv st → st.get (some e) = some ce → ce.degree = 1 →
      (∀ y cy, st.get (some y) = some cy → ¬ HasFace cy e) →
      addedCubes st s1 2 = (matchQuads st e).length ∧
      matchQuads s1 e = matchQuads st e ∧
      (∃ r2, FillSquares s1 e = some r2 ∧ r2.2 = addedCubes st s1 2 ∧
        addedCubes s1 r2.1 2 = addedCubes st s1 2 ∧
        ∀ i, i < addedCubes st s1 2 →
          ∃ c c', s1.get (some (st.cubes.length + i)) = some c ∧
            r2.1.get (some (s1.cubes.length + i)) = some c' ∧
            st.cubes.length + i < s1.cubes.length + i ∧
            c.degree = 2 ∧ c'.degree = 2 ∧ c'.d0 = c.d0 ∧ c'.d1 = c.d1) ∧
      ∀ s2 r', FillCubes s1 e = some (s2, r') →
        addedCubes s1 s2 2 = addedCubes st s1 2 ∧
        ((∀ d, addedCubes s1 s2 d = 0) ↔ r = -1) := by
  obtain ⟨r0, h0, c1, hloop, c3, c4, hlen⟩ := FillCubes_count st s1 e r h
  have hiff : r = -1 ↔ addedCubes st s1 2 = 0 := by
    constructor
    · intro hr
      by_contra hne
      have := c4 (by omega)
      omega
    · intro hz
      exact (c3 (by omega)).2
  refine ⟨hiff, ?_, ?_⟩
  · intro hr
    obtain ⟨hs, -⟩ := c3 (by have := hiff.1 hr; omega)
    subst hs
    subst hr
    exact ⟨h, fun d => by simp [addedCubes]⟩
  intro ce hI he hd hnew
  have hR := hI.lowReady_of
  obtain ⟨le, ue, ve, hE⟩ := lowReady_edge st hR e ce he hd
  obtain ⟨hI1, hX1⟩ := FillCubes_Inv st e ce (s1, r) hI he hd hnew h
  simp only at hI1 hX1
  have hl := FillSquares_list st e ce r0 hR he hd h0
  obtain ⟨r1, q1, q2, q3, q4, q5, q6, q7, q8⟩ := FillSquares_run st e ce hR he hd hl
  rw [h0] at q1
  have hr01 : r0 = r1 := Option.some.inj q1
  subst hr01
  have hk : addedCubes st s1 2 = (matchQuads st e).length := c1.trans q2
  have hK : SqKeep st s1 :=
    SqKeep_of_Inv st s1 hI hI1 (FillCubes_Grown st e (s1, r) h) (FillCubes_low st e (s1, r) h) hlen
  have hmq := matchQuads_keep hK hR e hE
  obtain ⟨ce', b1, b2, -⟩ := hK.2 e ce he
  have hd' : ce'.degree = 1 := b2.1.trans hd
  have hR1 := hI1.lowReady_of
  have hl' : matchQuads s1 e = [] ∨ 2 < s1.cubelist.length := by
    rw [hmq, hlen]
    exact hl
  obtain ⟨r2, p1, p2, p3, p4, p5, p6, p7, p8⟩ := FillSquares_run s1 e ce' hR1 b1 hd' hl'
  rw [hmq] at p2 p3 p4 p5
  have hIr0 := (FillSquares_Inv st e ce r0 hI he hd hnew h0).1
  have hXloop := (FillCubesLoop_Inv e _ r0.1 r0.2 _ (s1, r) hIr0 hloop).2
  simp only at hXloop
  have hadd2 : addedCubes s1 r2.1 2 = addedCubes st s1 2 := by
    rcases hl' with hnil | hlt
    · rw [hmq] at hnil
      have hz : (matchQuads st e).length = 0 := by rw [hnil]; rfl
      have e2 : r2.1.cubelist[2]? = s1.cubelist[2]? := by
        rw [p5, hz]
        cases s1.cubelist[2]? <;> simp
      rw [(addedCubes_of_eq s1 r2.1 2 e2).1, hk, hz]
    · rw [(addedCubes_of_append s1 r2.1 2 _ p5 hlt).1, List.length_range', hk]
  refine ⟨hk, hmq, ⟨r2, p1, p2.trans hk.symm, hadd2, ?_⟩, ?_⟩
  · intro i hi
    rw [hk] at hi
    have hq : (matchQuads st e)[i]? = some (matchQuads st e)[i] := List.getElem?_eq_getElem hi
    obtain ⟨c, a1, a2, a3, a4, -⟩ := q4 i _ hq
    obtain ⟨c', a1', a2', a3', a4', -⟩ := p4 i _ hq
    obtain ⟨cx, x1, x2, -⟩ := hXloop.2 _ c a1
    have hlt := get_lt s1 _ cx x1
    refine ⟨cx, c', x1, a1', by omega, x2.1.trans a2, a2', ?_, ?_⟩
    · rw [a3', x2.2.1, a3]
    · rw [a4', x2.2.2.1, a4]
  · intro s2 r' h2
    obtain ⟨r0', h0', c1', -, c3', -, -⟩ := FillCubes_count s1 s2 e r' h2
    rw [p1] at h0'
    have hr : r2 = r0' := Option.some.inj h0'
    subst hr
    have hc : addedCubes s1 s2 2 = addedCubes st s1 2 := by rw [c1', p2, hk]
    refine ⟨hc, ?_, ?_⟩
    · intro hall
      have := hall 2
      exact hiff.2 (by omega)
    · intro hr d
      have hz := hiff.1 hr
      obtain ⟨hs, -⟩ := c3' (by omega)
      rw [hs]
      simp [addedCubes]

theorem twoResult_run :
    MakeHDA 4 twoProcesses (initialStore twoProcesses) = some (twoResult, 2) := by
  decide!

theorem twoLinked_link : twoResult.link (edgeCell 10 3 5 "a" 0) = some twoLinked := by
  decide

/-- The store `twoLinked` satisfies the invariant, and its edge 10 is not a face
of any cube. -/
theorem twoLinked_Inv :
    Inv twoLinked ∧ ∀ y cy, twoLinked.get (some y) = some cy → ¬ HasFace cy 10 := by
  have hI0 : Inv twoResult := MakeHDA_Inv 4 twoProcesses _ twoResult_run
  have hC : Cand twoResult (edgeCell 10 3 5 "a" 0) :=
    @edge_cand twoResult 3 5 ⟨"a", 0⟩ ⟨_, rfl, rfl⟩ ⟨_, rfl, rfl⟩
  exact ⟨Inv_link _ _ _ hI0 hC twoLinked_link, link_noface _ _ _ hI0 hC twoLinked_link⟩

/-- C3, amended, on `twoLinked` and its edge 10, which has one match: the first
call of `FillCubes` returns 2 and adds one square, the cube 11, and the second
call adds this square again, as the cube 12; and on `singleEdge`, whose edge 2
has no match: both calls return -1 and add nothing. -/
theorem FillCubes_second_call_witness :
    (FillCubes singleEdge 2 = some (singleEdge, -1) ∧
      ∀ d, addedCubes singleEdge singleEdge d = 0) ∧
    Inv twoLinked ∧ twoLinked.get (some 10) = some (edgeCell 10 3 5 "a" 0) ∧
    (∀ y cy, twoLinked.get (some y) = some cy → ¬ HasFace cy 10) ∧
    matchQuads twoLinked 10 = [(4, 2, 6, 10)] ∧
    ∃ s1, FillCubes twoLinked 10 = some (s1, 2) ∧ addedCubes twoLinked s1 2 = 1 ∧
      ((2 : Int) = -1 ↔ addedCubes twoLinked s1 2 = 0) ∧
      ((2 : Int) = -1 → FillCubes s1 10 = some (s1, -1) ∧ ∀ d, addedCubes s1 s1 d = 0) ∧
      addedCubes twoLinked s1 2 = (matchQuads twoLinked 10).length ∧
      matchQuads s1 10 = matchQuads twoLinked 10 ∧
      (∃ r2, FillSquares s1 10 = some r2 ∧ r2.2 = addedCubes twoLinked s1 2 ∧
        addedCubes s1 r2.1 2 = addedCubes twoLinked s1 2 ∧
        ∀ i, i < addedCubes twoLinked s1 2 →
          ∃ c c', s1.get (some (twoLinked.cubes.length + i)) = some c ∧
            r2.1.get (some (s1.cubes.length + i)) = some c' ∧
            twoLinked.cubes.length + i < s1.cubes.length + i ∧
            c.degree = 2 ∧ c'.degree = 2 ∧ c'.d0 = c.d0 ∧ c'.d1 = c.d1) ∧
      ∀ s2 r', FillCubes s1 10 = some (s2, r') →
        addedCubes s1 s2 2 = addedCubes twoLinked s1 2 ∧
        ((∀ d, addedCubes s1 s2 d = 0) ↔ (2 : Int) = -1) := by
  have hc : (FillCubes twoLinked 10).map (fun x => (x.2, addedCubes twoLinked x.1 2))
      = some (2, 1) := by decide!
  refine ⟨(FillCubes_second_call singleEdge singleEdge 2 (-1) (by decide)).2.1 rfl,
    twoLinked_Inv.1, rfl, twoLinked_Inv.2, by decide!, ?_⟩
  cases h : FillCubes twoLinked 10 with
  | none => rw [h] at hc; simp at hc
  | some x =>
    obtain ⟨s1, r⟩ := x
    rw [h] at hc
    simp only [Option.map_some', Option.some.injEq, Prod.mk.injEq] at hc
    obtain ⟨hr, ha⟩ := hc
    subst hr
    obtain ⟨a, b, c⟩ := FillCubes_second_call twoLinked s1 10 2 h
    obtain ⟨c1, c2, c3, c4⟩ := c (edgeCell 10 3 5 "a" 0) twoLinked_Inv.1 rfl rfl twoLinked_Inv.2
    exact ⟨s1, rfl, ha, a, b, c1, c2, c3, c4⟩

end PG2HDA
